import Mathlib

/-!
# fwanalyzer: capability codec, analyzer engine, FileTree and GlobalFileChecks plugins

A shallow embedding of the Go sources of `cruise-automation/fwanalyzer`
(`pkg/capability`, `pkg/fsparser`, `pkg/util`, `pkg/analyzer`, `pkg/analyzer/filetree`,
`pkg/analyzer/globalfilechecks`) together with theorems about them.

Conventions of the embedding

* `uint32` values are natural numbers, reduced modulo `2^32` where Go truncates.
* A Go call that can return an `error` or raise a run-time panic returns
  `Go α = Except GoErr α`.
* Go slices are lists; an index or slice expression that is out of range is a
  panic, as in Go. A byte slice keeps its backing array up to the capacity, because
  a slice expression is checked against the capacity.
* Go strings are Lean strings; where Go indexes bytes the UTF-8 encoding is used. A Go
  string that is not well-formed UTF-8 has no Lean string: where such strings matter
  (file names written to and read back from a JSON file) the bytes are modelled
  (`json.stringRoundTrip`).
* Go maps are association lists with pairwise distinct keys (`GoMap`); the
  iteration order of a Go map is unspecified, so a `range` loop over a map is a
  loop over the entries in the order in which the list holds them and theorems
  quantify over every such list.
* The recursion of the directory walk is bounded by a `fuel` argument; a walk that
  needs more nested levels ends with the status `fuelOut`.
* Plugin methods are total functions on the state `W` they can reach; the engine
  records the plugin calls it makes in the ghost field `calls`. `replay` applies the
  methods of the plugins in the order of a list of calls, so that a list of calls can
  be compared with what the plugins computed.
* Library functions (`path.Join`, `strings.Split`, `strconv.ParseUint`,
  `encoding/binary`, `encoding/hex`, `fmt.Sprintf`, `json.Marshal`) are modelled by
  the definitions named after them. The engine takes `json.Unmarshal` of a plugin
  report as a parameter; the namespace `json` holds the model it is instantiated with,
  a transcription of the scanner of `encoding/json`, with its limit of 10000 nested
  objects and arrays. `toml.Decode` and
  `doublestar.Match` are not modelled: decoded configurations and the matcher are
  inputs.
-/

namespace Fwanalyzer

/-! ## Go runtime outcomes -/

/-- The two ways a Go call can fail: it returns a non-nil `error`, or it panics. -/
inductive GoErr where
  | error (msg : String)
  | panic (msg : String)
deriving DecidableEq, Repr

/-- Result of a Go call that may fail. -/
abbrev Go (α : Type) := Except GoErr α

deriving instance DecidableEq for Except

/-- Truncation to `uint32`. -/
def u32 (n : Nat) : Nat := n % 2 ^ 32

/-- Go index expression `s[i]` on a slice: panics when `i` is out of range. -/
def goIndex {α : Type} (s : List α) (i : Nat) : Go α :=
  match s.get? i with
  | some a => .ok a
  | none => .error (.panic "index out of range")

/-- A byte. -/
abbrev Byte := Fin 256

/-- A Go byte slice: `arr` holds the backing array from the first element of the
slice up to its capacity, `len` is the length of the slice (`len ≤ arr.length`). -/
structure ByteSlice where
  arr : List Byte
  len : Nat
deriving DecidableEq, Repr

/-- The byte slice whose length and capacity are both the length of `bs`
(a slice literal, or `make([]byte, n)` after it was filled). -/
def ByteSlice.ofList (bs : List Byte) : ByteSlice := ⟨bs, bs.length⟩

/-- Go slice expression `s[lo:hi]`: panics unless `lo ≤ hi ≤ cap(s)`. -/
def ByteSlice.slice (s : ByteSlice) (lo hi : Nat) : Go ByteSlice :=
  if lo ≤ hi ∧ hi ≤ s.arr.length then .ok ⟨s.arr.drop lo, hi - lo⟩
  else .error (.panic "slice bounds out of range")

/-- The bytes visible through the slice (`s[0:len(s)]`). -/
def ByteSlice.bytes (s : ByteSlice) : List Byte := s.arr.take s.len

/-- Model of `binary.Read(buf, binary.LittleEndian, &num)` for a `uint32`: it needs
four bytes from the buffer and fails with an `error` otherwise. -/
def binaryReadU32LE (buf : List Byte) : Go Nat :=
  match buf with
  | b0 :: b1 :: b2 :: b3 :: _ => .ok (b0.val + b1.val * 2 ^ 8 + b2.val * 2 ^ 16 + b3.val * 2 ^ 24)
  | [] => .error (.error "EOF")
  | _ => .error (.error "unexpected EOF")

/-- Model of `binary.LittleEndian.PutUint32`: the four bytes of a `uint32`. -/
def putUint32LE (w : Nat) : List Byte :=
  [Fin.ofNat w, Fin.ofNat (w >>> 8), Fin.ofNat (w >>> 16), Fin.ofNat (w >>> 24)]

/-- Splits a string at every occurrence of the separator `sep`, as `strings.Split`
does for a one-character separator; the result is never empty. -/
def splitChar (sep : Char) : List Char → List (List Char)
  | [] => [[]]
  | c :: cs =>
    match splitChar sep cs with
    | [] => [[]]
    | item :: rest => if c = sep then [] :: item :: rest else (c :: item) :: rest

/-- One step of `path.Clean` on the stack of path elements kept so far (the last
kept element first): empty elements and `.` are dropped, `..` removes the element
before it, is dropped at the root of a rooted path and is kept otherwise. -/
def cleanStep (rooted : Bool) (stack : List (List Char)) (elem : List Char) :
    List (List Char) :=
  if elem = [] ∨ elem = ['.'] then stack
  else if elem = ['.', '.'] then
    match stack with
    | [] => if rooted then [] else [elem]
    | top :: below => if top = ['.', '.'] then elem :: top :: below else below
  else elem :: stack

/-- Model of Go's `path.Clean`. -/
def pathClean (p : String) : String :=
  if p.data = [] then "."
  else
    let rooted : Bool := p.data.head? = some '/'
    let elems := ((splitChar '/' p.data).foldl (cleanStep rooted) []).reverse
    let body := String.mk (List.intercalate ['/'] elems)
    if rooted then "/" ++ body else if elems = [] then "." else body

/-- Model of Go's `path.Join(a, b)`: the non-empty arguments joined with a slash,
then cleaned; the empty string when both are empty. -/
def pathJoin (a b : String) : String :=
  if a = "" then (if b = "" then "" else pathClean b)
  else pathClean (a ++ "/" ++ b)

/-- Embeds `util.CleanPathDir`: the cleaned path, with a slash added when it does not
end with one. `path.Clean` never returns the empty string, so the index expression
`cleaned[len(cleaned)-1]` is in range. -/
def CleanPathDir (pathName : String) : String :=
  let cleaned := pathClean pathName
  if cleaned.data.getLast? ≠ some '/' then cleaned ++ "/" else cleaned

/-- Model of `hex.EncodeToString`. -/
def hexEncodeToString (bs : List Byte) : String :=
  String.mk (bs.flatMap (fun b => [Nat.digitChar (b.val / 16), Nat.digitChar (b.val % 16)]))

/-- A Go map with string keys: an association list whose keys are pairwise
distinct. -/
abbrev GoMap (V : Type) := List (String × V)

/-- Map index expression `m[k]` in its two-result form. -/
def GoMap.get {V : Type} (m : GoMap V) (k : String) : Option V := List.lookup k m

/-- Map assignment `m[k] = v`: replaces the value of an existing key, adds the key
otherwise. -/
def GoMap.insert {V : Type} (m : GoMap V) (k : String) (v : V) : GoMap V :=
  if (m.get k).isSome then m.map (fun e => if e.1 = k then (k, v) else e) else m ++ [(k, v)]

/-- The keys of the map are pairwise distinct. -/
def GoMap.WF {V : Type} (m : GoMap V) : Prop := (m.map Prod.fst).Nodup

instance {V : Type} (m : GoMap V) : Decidable m.WF :=
  inferInstanceAs (Decidable (m.map Prod.fst).Nodup)

/-- ASCII model of `strings.ToLower` (the capability names are ASCII). -/
def stringsToLower (s : String) : String := String.mk (s.data.map Char.toLower)

/-! ## pkg/capability -/

namespace capability

def CAP_NET_ADMIN : Nat := 12
def CAP_LAST_CAP : Nat := 37

def CapabilityNames : List String := [
  "CAP_CHOWN",
  "CAP_DAC_OVERRIDE",
  "CAP_DAC_READ_SEARCH",
  "CAP_FOWNER",
  "CAP_FSETID",
  "CAP_KILL",
  "CAP_SETGID",
  "CAP_SETUID",
  "CAP_SETPCAP",
  "CAP_LINUX_IMMUTABLE",
  "CAP_NET_BIND_SERVICE",
  "CAP_NET_BROADCAST",
  "CAP_NET_ADMIN",
  "CAP_NET_RAW",
  "CAP_IPC_LOCK",
  "CAP_IPC_OWNER",
  "CAP_SYS_MODULE",
  "CAP_SYS_RAWIO",
  "CAP_SYS_CHROOT",
  "CAP_SYS_PTRACE",
  "CAP_SYS_PACCT",
  "CAP_SYS_ADMIN",
  "CAP_SYS_BOOT",
  "CAP_SYS_NICE",
  "CAP_SYS_RESOURCE",
  "CAP_SYS_TIME",
  "CAP_SYS_TTY_CONFIG",
  "CAP_MKNOD",
  "CAP_LEASE",
  "CAP_AUDIT_WRITE",
  "CAP_AUDIT_CONTROL",
  "CAP_SETFCAP",
  "CAP_MAC_OVERRIDE",
  "CAP_MAC_ADMIN",
  "CAP_SYSLOG",
  "CAP_WAKE_ALARM",
  "CAP_BLOCK_SUSPEND",
  "CAP_AUDIT_READ"]

def capOffset : Nat := 2
def CapByteSizeMax : Nat := 24

def CAP_PERMITTED : Nat := 0
def CAP_INHERITABLE : Nat := 1

/-- Embeds `capValid`: `cap <= CAP_LAST_CAP`. -/
def capValid (cap : Nat) : Bool := decide (cap ≤ CAP_LAST_CAP)

/-- Embeds `capIndex`: `int(cap>>5) * capOffset`. -/
def capIndex (cap : Nat) : Nat := (cap >>> 5) * capOffset

/-- Embeds `capMask`: `1 << (cap & 31)` in `uint32`. -/
def capMask (cap : Nat) : Nat := u32 (1 <<< (cap &&& 31))

/-- Embeds `capHasCap`: `caps[capIndex(cap)+capPerm]&capMask(cap) == capMask(cap)`. -/
def capHasCap (caps : List Nat) (cap : Nat) (capPerm : Nat) : Go Bool := do
  let w ← goIndex caps (capIndex cap + capPerm)
  pure (w &&& capMask cap == capMask cap)

/-- Embeds `capSet`: rejects an invalid capability, otherwise sets the bit in place
and returns the slice. -/
def capSet (caps : List Nat) (cap : Nat) (capPerm : Nat) : Go (List Nat) :=
  if !capValid cap then .error (.error "capability is invalid")
  else do
    let w ← goIndex caps (capIndex cap + capPerm)
    pure (caps.set (capIndex cap + capPerm) (w ||| capMask cap))

/-- One iteration of the loop of `capToText` for index `i` with name `name`. -/
def capToTextStep (cap : List Nat) (out : List String) (i : Nat) (name : String) :
    Go (List String) := do
  let capPermitted ← capHasCap cap (u32 i) CAP_PERMITTED
  let capInheritable ← capHasCap cap (u32 i) CAP_INHERITABLE
  if capPermitted || capInheritable then
    let capStr := stringsToLower name ++ "+"
    let capStr := if capPermitted then capStr ++ "p" else capStr
    let capStr := if capInheritable then capStr ++ "i" else capStr
    pure (out ++ [capStr])
  else
    pure out

/-- Embeds `capToText`: the loop `for i := range CapabilityNames`. -/
def capToText (cap : List Nat) : Go (List String) :=
  CapabilityNames.enum.foldlM (fun out p => capToTextStep cap out p.1 p.2) []

/-- Embeds `capsParse`: reads `capsLen/4` little-endian words from `caps` and strips
the first one (the magic). -/
def capsParse (caps : ByteSlice) (capsLen : Nat) : Go (List Nat) :=
  if capsLen % 4 ≠ 0 then .error (.error "capability length bad")
  else do
    let realCap ← (List.range (capsLen / 4)).foldlM
      (fun (realCap : List Nat) i => do
        let buf ← caps.slice (i * 4) ((i + 1) * 4)
        let num ← binaryReadU32LE buf.bytes
        pure (realCap.set i (u32 num)))
      (List.replicate (capsLen / 4) 0)
    if 1 ≤ realCap.length then pure (realCap.drop 1)
    else .error (.panic "slice bounds out of range")

/-- Value of one hexadecimal digit byte, as `strconv.ParseUint` reads it in base 16. -/
def hexDigit (b : Nat) : Option Nat :=
  if 48 ≤ b ∧ b ≤ 57 then some (b - 48)
  else if 97 ≤ b ∧ b ≤ 102 then some (b - 97 + 10)
  else if 65 ≤ b ∧ b ≤ 70 then some (b - 65 + 10)
  else none

/-- The step of `strconv.ParseUint` on one more digit byte. -/
def parseStep (acc : Nat) (b : Nat) : Option Nat := (hexDigit b).map (fun d => acc * 16 + d)

/-- Model of `strconv.ParseUint(s, 16, 32)` on the bytes of `s`: a syntax error on
the empty string or a non-hex byte, a range error when the value needs more than
32 bits. -/
def parseUint16_32 (s : List Nat) : Go Nat :=
  if s = [] then .error (.error "invalid syntax")
  else
    match s.foldlM (fun (acc : Nat) b => (hexDigit b).map (fun d => acc * 16 + d)) 0 with
    | none => .error (.error "invalid syntax")
    | some v => if v < 2 ^ 32 then .ok v else .error (.error "value out of range")

/-- Model of `strings.Split(s, ",")` on the characters of `s`. -/
def splitComma (s : List Char) : List (List Char) := splitChar ',' s

/-- The bytes of a Go string (its UTF-8 encoding). -/
def goBytes (s : List Char) : List Nat :=
  s.flatMap (fun c => (String.utf8EncodeChar c).map UInt8.toNat)

/-- The body of the loop `for i, val := range capsInts` of `capsParseFromText` for the
item `val` at position `i`: `val[2:]` panics on an item shorter than two bytes, a parse
error is returned, and the assignment to `capsParsedInts[i]` panics when `i` is out of
range. -/
def capsTextStep (capsParsedInts : List Nat) (i : Nat) (item : List Char) : Go (List Nat) :=
  let val := goBytes item
  if val.length < 2 then .error (.panic "slice bounds out of range")
  else
    match parseUint16_32 (val.drop 2) with
    | .error e => .error e
    | .ok intVal =>
      if i < capsParsedInts.length then .ok (capsParsedInts.set i (u32 intVal))
      else .error (.panic "index out of range")

/-- Embeds `capsParseFromText`: parses `0x2000001,0x1000,0x0,0x0,0x0`. -/
def capsParseFromText (capsText : String) : Go (List Nat) := do
  let capsInts := splitComma capsText.data
  let capsParsedInts ← capsInts.enum.foldlM
    (fun (capsParsedInts : List Nat) p => capsTextStep capsParsedInts p.1 p.2)
    (List.replicate 5 0)
  let capsBytes := capsParsedInts.flatMap putUint32LE
  capsParse (ByteSlice.ofList capsBytes) 20

/-- The dynamic type of the argument of `New` (`caps interface\x7b\x7d`). -/
inductive CapsArg where
  | bytes (b : ByteSlice)
  | text (s : String)
  | other
deriving DecidableEq, Repr

/-- Embeds `New`: the returned `error` is always `nil`, so the result is the token
list; a parse `error` degrades to the empty list, a panic propagates. -/
def New (caps : CapsArg) : Go (List String) :=
  let parsed : Option (Go (List Nat)) :=
    match caps with
    | .bytes capsVal => some (capsParse capsVal 20)
    | .text capsVal => some (capsParseFromText capsVal)
    | .other => none
  match parsed with
  | none => .ok []
  | some (.error (.error _)) => .ok []
  | some (.error (.panic msg)) => .error (.panic msg)
  | some (.ok capabilities) => capToText capabilities

/-- Embeds `CapsEqual`: the length test, the two maps `aM` and `bM`, and the loop over
the keys of `aM` that returns `false` at the first key missing from `bM`. -/
def CapsEqual (a b : List String) : Bool :=
  if a.length ≠ b.length then false
  else
    let aM := a.foldl (fun (m : GoMap Bool) cap => m.insert cap true) []
    let bM := b.foldl (fun (m : GoMap Bool) cap => m.insert cap true) []
    aM.all (fun e => (bM.get e.1).isSome)

/-! ### Reference description of the codec -/

/-- The number a sequence of hexadecimal digit bytes denotes. -/
def hexValue (r : List Nat) : Nat := r.foldl (fun acc b => acc * 16 + (hexDigit b).getD 0) 0

/-- The text of one word: `0x` followed by its hexadecimal digits. -/
def hexWord (w : Nat) : List Char := '0' :: 'x' :: Nat.toDigits 16 w

/-- The text `0x<hex w0>,0x<hex w1>,...` of a sequence of words. -/
def capsText (ws : List Nat) : String := String.mk (List.intercalate [','] (ws.map hexWord))

/-- Bit `cap & 31` of word `(cap >> 5) * 2 + plane` of the vector `v`
(plane 0 is permitted, plane 1 is inheritable); a missing word has no bit set. -/
def planeBit (v : List Nat) (cap : Nat) (plane : Nat) : Bool :=
  (v.getD ((cap >>> 5) * 2 + plane) 0).testBit (cap &&& 31)

/-- The token of capability `cap`: its lower-cased name, `+`, then `p` when the
permitted plane is chosen and `i` when the inheritable plane is chosen. -/
def capToken (cap : Nat) (p i : Bool) : String :=
  stringsToLower (CapabilityNames.getD cap "") ++ "+" ++ (if p then "p" else "")
    ++ (if i then "i" else "")

/-- The capability indices `0..37` that have a bit in `v`, in ascending order. -/
def presentCaps (v : List Nat) : List Nat :=
  (List.range 38).filter (fun i => planeBit v i 0 || planeBit v i 1)

/-- The token list the specification describes for the vector `v`. -/
def capToTextSpec (v : List Nat) : List String :=
  (presentCaps v).map (fun i => capToken i (planeBit v i 0) (planeBit v i 1))

/-- Applies `capSet` once for every pair (capability, plane) of `S`, starting from
the all-zero vector of four words. -/
def encodeCaps (S : List (Nat × Nat)) : Go (List Nat) :=
  S.foldlM (fun caps x => capSet caps x.1 x.2) [0, 0, 0, 0]

/-- The four words after the magic in which exactly one bit is set: bit `c & 31`
of word `(c >> 5) * 2 + pl`. -/
def oneBitWords (c pl : Nat) : List Nat :=
  (List.range 4).map (fun j => if j = (c >>> 5) * 2 + pl then 1 <<< (c &&& 31) else 0)

/-- The 20-byte blob made of the four magic bytes `m` followed by the little-endian
encoding of the four words `ws`. -/
def capBlob (m : List Byte) (ws : List Nat) : ByteSlice :=
  ByteSlice.ofList (m ++ ws.flatMap putUint32LE)

end capability

/-! ## pkg/fsparser -/

namespace fsparser

structure FileInfo where
  Size : Int
  Mode : Nat
  Uid : Int
  Gid : Int
  SELinuxLabel : String
  Capabilities : List String
  Name : String
  LinkTarget : String
deriving DecidableEq, Repr

def SELinuxNoLabel : String := "-"

def S_IFMT : Nat := 0o170000
def S_IFSOCK : Nat := 0o140000
def S_IFBLK : Nat := 0o060000
def S_IFCHR : Nat := 0o020000
def S_IFIFO : Nat := 0o010000
def S_IFLNK : Nat := 0o120000
def S_IFREG : Nat := 0o100000
def S_IFDIR : Nat := 0o040000
def S_ISUID : Nat := 0o004000
def S_ISGID : Nat := 0o002000
def S_IWOTH : Nat := 0o000002

def FileInfo.IsSUid (fi : FileInfo) : Bool := (fi.Mode &&& S_ISUID) != 0
def FileInfo.IsSGid (fi : FileInfo) : Bool := (fi.Mode &&& S_ISGID) != 0
def FileInfo.IsWorldWrite (fi : FileInfo) : Bool := (fi.Mode &&& S_IWOTH) != 0
def FileInfo.IsFile (fi : FileInfo) : Bool := (fi.Mode &&& S_IFMT) == S_IFREG
def FileInfo.IsDir (fi : FileInfo) : Bool := (fi.Mode &&& S_IFMT) == S_IFDIR
def FileInfo.IsLink (fi : FileInfo) : Bool := (fi.Mode &&& S_IFMT) == S_IFLNK

/-- The part of the `FsParser` interface the walk uses. A failing call returns the
message of its `error`. -/
structure FsParser where
  GetDirInfo : String → Except String (List FileInfo)
  GetFileInfo : String → Except String FileInfo
  ImageName : String

end fsparser

/-! ## encoding/json -/

namespace json

/-- The values the step functions of the scanner return. -/
inductive ScanCode where
  | scanContinue
  | scanBeginLiteral
  | scanBeginObject
  | scanObjectKey
  | scanObjectValue
  | scanEndObject
  | scanBeginArray
  | scanArrayValue
  | scanEndArray
  | scanSkipSpace
  | scanEnd
  | scanError
deriving DecidableEq, Repr

/-- The entries of the parse-state stack of the scanner. -/
inductive ParseState where
  | parseObjectKey
  | parseObjectValue
  | parseArrayValue
deriving DecidableEq, Repr

/-- The step functions of the scanner, by name. -/
inductive Step where
  | stateBeginValueOrEmpty
  | stateBeginValue
  | stateBeginStringOrEmpty
  | stateBeginString
  | stateEndValue
  | stateEndTop
  | stateInString
  | stateInStringEsc
  | stateInStringEscU
  | stateInStringEscU1
  | stateInStringEscU12
  | stateInStringEscU123
  | stateNeg
  | state1
  | state0
  | stateDot
  | stateDot0
  | stateE
  | stateESign
  | stateE0
  | stateT
  | stateTr
  | stateTru
  | stateF
  | stateFa
  | stateFal
  | stateFals
  | stateN
  | stateNu
  | stateNul
  | stateError
deriving DecidableEq, Repr

/-- The struct `scanner` of `encoding/json`: the current step function, whether the
top-level value has ended, the stack of what is being parsed (the head of the list is
the top of the stack) and whether an error was recorded. -/
structure Scanner where
  step : Step
  endTop : Bool
  parseState : List ParseState
  err : Bool
deriving DecidableEq, Repr

open ScanCode ParseState Step

/-- The scanner after `reset`. -/
def Scanner.reset : Scanner := ⟨stateBeginValue, false, [], false⟩

/-- The method `error` of the scanner: records the error and stops the machine. -/
def Scanner.error (s : Scanner) : Scanner × ScanCode :=
  ({ s with step := stateError, err := true }, scanError)

def isSpace (c : Char) : Bool := c = ' ' || c = '\t' || c = '\r' || c = '\n'

def isDigit (c : Char) : Bool := decide ('0' ≤ c) && decide (c ≤ '9')

def isDigit19 (c : Char) : Bool := decide ('1' ≤ c) && decide (c ≤ '9')

def isHex (c : Char) : Bool :=
  isDigit c || (decide ('a' ≤ c) && decide (c ≤ 'f')) || (decide ('A' ≤ c) && decide (c ≤ 'F'))

/-- The constant `maxNestingDepth`: the deepest nesting of objects and arrays the
scanner accepts. -/
def maxNestingDepth : Nat := 10000

/-- The method `pushParseState` of the scanner: pushes the new parse state and returns
`successState` while the stack holds at most `maxNestingDepth` entries; beyond that it
records the error `exceeded max depth`. -/
def Scanner.pushParseState (s : Scanner) (newParseState : ParseState) (successState : ScanCode) :
    Scanner × ScanCode :=
  let s1 : Scanner := { s with parseState := newParseState :: s.parseState }
  if s1.parseState.length ≤ maxNestingDepth then (s1, successState) else s1.error

/-- The method `popParseState` of the scanner. -/
def Scanner.popParseState (s : Scanner) : Scanner :=
  let rest := s.parseState.tail
  if rest.length = 0 then { s with parseState := rest, step := stateEndTop, endTop := true }
  else { s with parseState := rest, step := stateEndValue }

/-- The step function `stateEndTop`: a byte that is not white space after the
top-level value records an error, and the function still returns `scanEnd`. -/
def stateEndTopFn (s : Scanner) (c : Char) : Scanner × ScanCode :=
  if c ≠ ' ' ∧ c ≠ '\t' ∧ c ≠ '\r' ∧ c ≠ '\n' then ((s.error).1, scanEnd) else (s, scanEnd)

/-- The step function `stateEndValue`. -/
def stateEndValueFn (s : Scanner) (c : Char) : Scanner × ScanCode :=
  match s.parseState with
  | [] => stateEndTopFn { s with step := stateEndTop, endTop := true } c
  | ps :: rest =>
    if isSpace c then ({ s with step := stateEndValue }, scanSkipSpace)
    else
      match ps with
      | parseObjectKey =>
        if c = ':' then
          ({ s with parseState := parseObjectValue :: rest, step := stateBeginValue }, scanObjectKey)
        else s.error
      | parseObjectValue =>
        if c = ',' then
          ({ s with parseState := parseObjectKey :: rest, step := stateBeginString }, scanObjectValue)
        else if c = '}' then (s.popParseState, scanEndObject)
        else s.error
      | parseArrayValue =>
        if c = ',' then ({ s with step := stateBeginValue }, scanArrayValue)
        else if c = ']' then (s.popParseState, scanEndArray)
        else s.error

/-- The step function `stateBeginValue`. -/
def stateBeginValueFn (s : Scanner) (c : Char) : Scanner × ScanCode :=
  if isSpace c then (s, scanSkipSpace)
  else if c = '{' then
    Scanner.pushParseState { s with step := stateBeginStringOrEmpty } parseObjectKey scanBeginObject
  else if c = '[' then
    Scanner.pushParseState { s with step := stateBeginValueOrEmpty } parseArrayValue scanBeginArray
  else if c = '"' then ({ s with step := stateInString }, scanBeginLiteral)
  else if c = '-' then ({ s with step := stateNeg }, scanBeginLiteral)
  else if c = '0' then ({ s with step := state0 }, scanBeginLiteral)
  else if c = 't' then ({ s with step := stateT }, scanBeginLiteral)
  else if c = 'f' then ({ s with step := stateF }, scanBeginLiteral)
  else if c = 'n' then ({ s with step := stateN }, scanBeginLiteral)
  else if isDigit19 c then ({ s with step := state1 }, scanBeginLiteral)
  else s.error

/-- The step function `stateBeginValueOrEmpty`. -/
def stateBeginValueOrEmptyFn (s : Scanner) (c : Char) : Scanner × ScanCode :=
  if isSpace c then (s, scanSkipSpace)
  else if c = ']' then stateEndValueFn s c
  else stateBeginValueFn s c

/-- The step function `stateBeginString`. -/
def stateBeginStringFn (s : Scanner) (c : Char) : Scanner × ScanCode :=
  if isSpace c then (s, scanSkipSpace)
  else if c = '"' then ({ s with step := stateInString }, scanBeginLiteral)
  else s.error

/-- The step function `stateBeginStringOrEmpty`. -/
def stateBeginStringOrEmptyFn (s : Scanner) (c : Char) : Scanner × ScanCode :=
  if isSpace c then (s, scanSkipSpace)
  else if c = '}' then
    stateEndValueFn { s with parseState := parseObjectValue :: s.parseState.tail } c
  else stateBeginStringFn s c

/-- The step function `stateInString`. -/
def stateInStringFn (s : Scanner) (c : Char) : Scanner × ScanCode :=
  if c = '"' then ({ s with step := stateEndValue }, scanContinue)
  else if c = '\\' then ({ s with step := stateInStringEsc }, scanContinue)
  else if c.toNat < 0x20 then s.error
  else (s, scanContinue)

/-- The step function `stateInStringEsc`. -/
def stateInStringEscFn (s : Scanner) (c : Char) : Scanner × ScanCode :=
  if c = 'b' ∨ c = 'f' ∨ c = 'n' ∨ c = 'r' ∨ c = 't' ∨ c = '\\' ∨ c = '/' ∨ c = '"' then
    ({ s with step := stateInString }, scanContinue)
  else if c = 'u' then ({ s with step := stateInStringEscU }, scanContinue)
  else s.error

/-- The step functions `stateInStringEscU` to `stateInStringEscU123`: a hexadecimal
digit leads to `next`. -/
def stateHexFn (next : Step) (s : Scanner) (c : Char) : Scanner × ScanCode :=
  if isHex c then ({ s with step := next }, scanContinue) else s.error

/-- The step function `state0`. -/
def state0Fn (s : Scanner) (c : Char) : Scanner × ScanCode :=
  if c = '.' then ({ s with step := stateDot }, scanContinue)
  else if c = 'e' ∨ c = 'E' then ({ s with step := stateE }, scanContinue)
  else stateEndValueFn s c

/-- The step function `state1`. -/
def state1Fn (s : Scanner) (c : Char) : Scanner × ScanCode :=
  if isDigit c then ({ s with step := state1 }, scanContinue) else state0Fn s c

/-- The step function `stateNeg`. -/
def stateNegFn (s : Scanner) (c : Char) : Scanner × ScanCode :=
  if c = '0' then ({ s with step := state0 }, scanContinue)
  else if isDigit19 c then ({ s with step := state1 }, scanContinue)
  else s.error

/-- The step function `stateDot`. -/
def stateDotFn (s : Scanner) (c : Char) : Scanner × ScanCode :=
  if isDigit c then ({ s with step := stateDot0 }, scanContinue) else s.error

/-- The step function `stateDot0`. -/
def stateDot0Fn (s : Scanner) (c : Char) : Scanner × ScanCode :=
  if isDigit c then (s, scanContinue)
  else if c = 'e' ∨ c = 'E' then ({ s with step := stateE }, scanContinue)
  else stateEndValueFn s c

/-- The step function `stateESign`. -/
def stateESignFn (s : Scanner) (c : Char) : Scanner × ScanCode :=
  if isDigit c then ({ s with step := stateE0 }, scanContinue) else s.error

/-- The step function `stateE`. -/
def stateEFn (s : Scanner) (c : Char) : Scanner × ScanCode :=
  if c = '+' ∨ c = '-' then ({ s with step := stateESign }, scanContinue) else stateESignFn s c

/-- The step function `stateE0`. -/
def stateE0Fn (s : Scanner) (c : Char) : Scanner × ScanCode :=
  if isDigit c then (s, scanContinue) else stateEndValueFn s c

/-- The step functions inside `true`, `false` and `null`: the byte `want` leads to
`next`. -/
def stateWordFn (want : Char) (next : Step) (s : Scanner) (c : Char) : Scanner × ScanCode :=
  if c = want then ({ s with step := next }, scanContinue) else s.error

/-- The call `s.step(s, c)`. -/
def Scanner.run (s : Scanner) (c : Char) : Scanner × ScanCode :=
  match s.step with
  | stateBeginValueOrEmpty => stateBeginValueOrEmptyFn s c
  | stateBeginValue => stateBeginValueFn s c
  | stateBeginStringOrEmpty => stateBeginStringOrEmptyFn s c
  | stateBeginString => stateBeginStringFn s c
  | stateEndValue => stateEndValueFn s c
  | stateEndTop => stateEndTopFn s c
  | stateInString => stateInStringFn s c
  | stateInStringEsc => stateInStringEscFn s c
  | stateInStringEscU => stateHexFn stateInStringEscU1 s c
  | stateInStringEscU1 => stateHexFn stateInStringEscU12 s c
  | stateInStringEscU12 => stateHexFn stateInStringEscU123 s c
  | stateInStringEscU123 => stateHexFn stateInString s c
  | stateNeg => stateNegFn s c
  | state1 => state1Fn s c
  | state0 => state0Fn s c
  | stateDot => stateDotFn s c
  | stateDot0 => stateDot0Fn s c
  | stateE => stateEFn s c
  | stateESign => stateESignFn s c
  | stateE0 => stateE0Fn s c
  | stateT => stateWordFn 'r' stateTr s c
  | stateTr => stateWordFn 'u' stateTru s c
  | stateTru => stateWordFn 'e' stateEndValue s c
  | stateF => stateWordFn 'a' stateFa s c
  | stateFa => stateWordFn 'l' stateFal s c
  | stateFal => stateWordFn 's' stateFals s c
  | stateFals => stateWordFn 'e' stateEndValue s c
  | stateN => stateWordFn 'u' stateNu s c
  | stateNu => stateWordFn 'l' stateNul s c
  | stateNul => stateWordFn 'l' stateEndValue s c
  | stateError => (s, scanError)

/-- The method `eof` of the scanner: whether the input may end here. -/
def Scanner.eof (s : Scanner) : ScanCode :=
  if s.err then scanError
  else if s.endTop then scanEnd
  else if (s.run ' ').1.endTop then scanEnd
  else scanError

/-- The loop of `checkValid`: the scanner after the last byte, `none` when a step
returned `scanError`. -/
def checkValidLoop : List Char → Scanner → Option Scanner
  | [], s => some s
  | c :: cs, s =>
    let r := s.run c
    if r.2 = scanError then none else checkValidLoop cs r.1

/-- Model of `checkValid`: the text is one JSON value, possibly surrounded by white
space, in which objects and arrays nest at most `maxNestingDepth` deep. The text is
read character by character; a character outside ASCII is accepted where each of its
bytes is, that is inside a string literal only. -/
def checkValid (data : List Char) : Bool :=
  match checkValidLoop data Scanner.reset with
  | none => false
  | some s => s.eof != scanError

/-- The loop that follows the parse-state stack: the greatest length the stack has
had after a step. -/
def nestingLoop : List Char → Scanner → Nat → Nat
  | [], _, d => d
  | c :: cs, s, d =>
    let s2 := (s.run c).1
    nestingLoop cs s2 (max d s2.parseState.length)

/-- The nesting depth of a text: the greatest length the parse-state stack of the
scanner has while the text is read. -/
def nesting (data : List Char) : Nat := nestingLoop data Scanner.reset 0

/-- The step function is one that reads a numeric literal. -/
def Step.inNumber : Step → Bool
  | stateNeg | state1 | state0 | stateDot | stateDot0 | stateE | stateESign | stateE0 => true
  | _ => false

/-- The numeric literals of a text, in order: the maximal runs of characters the
scanner reads in the states of a numeric literal. -/
def numberLiteralsLoop :
    List Char → Scanner → List Char → List (List Char) → List (List Char)
  | [], _, lit, acc => if lit.isEmpty then acc else acc ++ [lit]
  | c :: cs, s, lit, acc =>
    let s2 := (s.run c).1
    if s2.step.inNumber then numberLiteralsLoop cs s2 (lit ++ [c]) acc
    else numberLiteralsLoop cs s2 [] (if lit.isEmpty then acc else acc ++ [lit])

def numberLiterals (data : List Char) : List (List Char) :=
  numberLiteralsLoop data Scanner.reset [] []

/-- The value of a run of decimal digits. -/
def digitsValue (ds : List Char) : Nat := ds.foldl (fun n c => n * 10 + (c.toNat - 48)) 0

/-- The value `strconv.ParseFloat` gives to the digits of an exponent: it stops
accumulating once the value has reached 10000. -/
def exponentValue (ds : List Char) : Nat :=
  ds.foldl (fun e c => if e < 10000 then e * 10 + (c.toNat - 48) else e) 0

/-- The least magnitude that `strconv.ParseFloat(s, 64)` rounds to infinity: half way
between the largest `float64` and `2^1024`, that is `2^1024 - 2^970`. -/
def float64Overflow : Nat := (2 ^ 54 - 1) * (2 ^ 194) ^ 5

/-- Model of `convertNumber`: `strconv.ParseFloat(s, 64)` returns no error on the
numeric literal, that is the magnitude it denotes is below `float64Overflow`. -/
def convertNumberOk (lit : List Char) : Bool :=
  let body := if lit.head? = some '-' then lit.drop 1 else lit
  let isExp := fun (c : Char) => c = 'e' || c = 'E'
  let mant := body.takeWhile (fun c => !isExp c)
  let expPart := (body.dropWhile (fun c => !isExp c)).drop 1
  let intDigits := mant.takeWhile (fun c => c != '.')
  let fracDigits := (mant.dropWhile (fun c => c != '.')).drop 1
  let m := digitsValue (intDigits ++ fracDigits)
  let expNeg := expPart.head? = some '-'
  let expDigits :=
    if expPart.head? = some '-' ∨ expPart.head? = some '+' then expPart.drop 1 else expPart
  let e := exponentValue expDigits
  if expNeg then decide (m < float64Overflow * 10 ^ (e + fracDigits.length))
  else if fracDigits.length ≤ e then decide (m * 10 ^ (e - fracDigits.length) < float64Overflow)
  else decide (m < float64Overflow * 10 ^ (fracDigits.length - e))

/-- The first byte of the text that is not white space. -/
def firstByte (data : List Char) : Option Char := (data.dropWhile isSpace).head?

/-- The text without the white space at its two ends. -/
def trimSpace (l : List Char) : List Char :=
  ((l.dropWhile isSpace).reverse.dropWhile isSpace).reverse

/-- State of the loop that cuts a JSON object into its members: the text of the key
or value being read, the key of the member being read, the members read so far. -/
structure MemberScan where
  cur : List Char
  key : List Char
  members : List (List Char × List Char)
deriving DecidableEq, Repr

/-- The way the decoder cuts a JSON object into members, following the codes the
scanner returns at nesting depth one: `scanObjectKey` ends a key, `scanObjectValue`
and `scanEndObject` end a value. -/
def membersLoop : List Char → Scanner → MemberScan → MemberScan
  | [], _, m => m
  | c :: cs, s, m =>
    let r := s.run c
    let m2 : MemberScan :=
      if s.parseState.length = 1 then
        match r.2 with
        | scanObjectKey => ⟨[], m.cur, m.members⟩
        | scanObjectValue => ⟨[], [], m.members ++ [(m.key, m.cur)]⟩
        | scanEndObject =>
          if s.parseState = [parseObjectValue] then ⟨[], [], m.members ++ [(m.key, m.cur)]⟩
          else m
        | _ => ⟨m.cur ++ [c], m.key, m.members⟩
      else if 1 < s.parseState.length then ⟨m.cur ++ [c], m.key, m.members⟩
      else m
    membersLoop cs r.1 m2

/-- The value of a hexadecimal digit. -/
def hexVal (c : Char) : Nat :=
  if isDigit c then c.toNat - 48
  else if decide ('a' ≤ c) && decide (c ≤ 'f') then c.toNat - 87
  else c.toNat - 55

/-- Model of `getu4` on the four digits after the characters of a Unicode escape. -/
def getu4 (a b c d : Char) : Nat := ((hexVal a * 16 + hexVal b) * 16 + hexVal c) * 16 + hexVal d

/-- The character a one-letter escape stands for. -/
def escapeChar (c : Char) : Char :=
  if c = 'b' then Char.ofNat 8
  else if c = 'f' then Char.ofNat 12
  else if c = 'n' then '\n'
  else if c = 'r' then '\r'
  else if c = 't' then '\t'
  else c

/-- State of the loop of `unquote`: the characters written so far, a surrogate read
from a Unicode escape that still waits for its partner, and the place inside an
escape (0 outside, 1 after the backslash, 2 to 5 before each of the four digits) with
the value of the digits read. -/
structure Unquote where
  out : List Char
  pending : Option Nat
  place : Nat
  acc : Nat
deriving DecidableEq, Repr

/-- The characters written so far, a waiting surrogate being written as U+FFFD. -/
def Unquote.flush (u : Unquote) : List Char :=
  match u.pending with
  | none => u.out
  | some _ => u.out ++ [Char.ofNat 0xFFFD]

/-- A Unicode escape with value `rr` has been read: a waiting high surrogate followed
by a low surrogate gives one character; otherwise a waiting surrogate is written as
U+FFFD, and `rr` waits for its partner when it is a surrogate and is written when it
is not. -/
def Unquote.escaped (u : Unquote) (rr : Nat) : Unquote :=
  match u.pending with
  | some hi =>
    if hi < 0xDC00 ∧ 0xDC00 ≤ rr ∧ rr < 0xE000 then
      ⟨u.out ++ [Char.ofNat ((hi - 0xD800) * 1024 + (rr - 0xDC00) + 0x10000)], none, 0, 0⟩
    else if 0xD800 ≤ rr ∧ rr < 0xE000 then ⟨u.out ++ [Char.ofNat 0xFFFD], some rr, 0, 0⟩
    else ⟨u.out ++ [Char.ofNat 0xFFFD, Char.ofNat rr], none, 0, 0⟩
  | none =>
    if 0xD800 ≤ rr ∧ rr < 0xE000 then ⟨u.out, some rr, 0, 0⟩
    else ⟨u.out ++ [Char.ofNat rr], none, 0, 0⟩

/-- One character of the loop of `unquote`. -/
def Unquote.next (u : Unquote) (c : Char) : Unquote :=
  if u.place = 0 then
    if c = '\\' then { u with place := 1 } else ⟨u.flush ++ [c], none, 0, 0⟩
  else if u.place = 1 then
    if c = 'u' then { u with place := 2, acc := 0 }
    else ⟨u.flush ++ [escapeChar c], none, 0, 0⟩
  else if u.place < 5 then { u with place := u.place + 1, acc := u.acc * 16 + hexVal c }
  else u.escaped (u.acc * 16 + hexVal c)

/-- Model of `unquote` on the text between the quotes of a valid string literal:
escapes are replaced by the characters they stand for, a surrogate pair by its
character and a lone surrogate by U+FFFD. -/
def unquote (s : List Char) : List Char := (s.foldl Unquote.next ⟨[], none, 0, 0⟩).flush

/-- The key a member of an object is stored under: the string literal of the key,
unquoted. -/
def memberKey (raw : List Char) : String :=
  String.mk (unquote ((trimSpace raw).drop 1).dropLast)

/-- The members of the top-level object of a valid JSON text: the key and the text of
the value of each, in the order of the text. -/
def members (data : List Char) : List (String × String) :=
  (membersLoop data Scanner.reset ⟨[], [], []⟩).members.map
    (fun kv => (memberKey kv.1, String.mk (trimSpace kv.2)))

/-- The text decodes into an `interface` value: it is valid JSON and each of its
numeric literals converts to `float64`. -/
def decodes (data : List Char) : Bool :=
  checkValid data && (numberLiterals data).all convertNumberOk

/-- Model of `json.Unmarshal` into a `map[string]interface`: `none` when it returns an
error. It returns no error on a JSON object whose numbers all convert to `float64`
(the result lists the members, a value standing for the text it was decoded from) and
on `null` (which leaves the map `nil`); it returns an error on text that is not valid
JSON or nests deeper than `maxNestingDepth`, and on an array, a string, a number and a
boolean. -/
def unmarshalMap (text : String) : Option (List (String × String)) :=
  if decodes text.data then
    if firstByte text.data = some '{' then some (members text.data)
    else if firstByte text.data = some 'n' then some []
    else none
  else none

/-- Model of `json.Unmarshal` into a `[]interface`: whether it returns no error, as
it does on a JSON array whose numbers all convert to `float64` and on `null`. -/
def unmarshalSlice (text : String) : Bool :=
  decodes text.data && (firstByte text.data = some '[' || firstByte text.data = some 'n')

/-- The text is a JSON object the scanner accepts: syntactically valid, with objects
and arrays nested at most `maxNestingDepth` deep. -/
def isObject (text : String) : Bool :=
  checkValid text.data && firstByte text.data = some '{'

/-- The text is a JSON array the scanner accepts: syntactically valid, with objects
and arrays nested at most `maxNestingDepth` deep. -/
def isArray (text : String) : Bool :=
  checkValid text.data && firstByte text.data = some '['

/-- The text is the JSON literal `null`, possibly surrounded by white space. -/
def isNull (text : String) : Bool :=
  checkValid text.data && firstByte text.data = some 'n'

/-- Every numeric literal of the text converts to `float64`. -/
def numbersConvert (text : String) : Bool :=
  (numberLiterals text.data).all convertNumberOk

/-- The value of the member `key` of a JSON object, as text. -/
def field (text : String) (key : String) : Option String :=
  (unmarshalMap text).bind (fun ms => List.lookup key ms.reverse)

/-- The text of `n` nested empty arrays: `n` opening brackets followed by `n` closing
brackets. -/
def deepArray (n : Nat) : List Char := List.replicate n '[' ++ List.replicate n ']'

/-- The scanner inside `k` open arrays, before the next value. -/
def inArrays (k : Nat) : Scanner :=
  ⟨stateBeginValueOrEmpty, false, List.replicate k parseArrayValue, false⟩

/-- The scanner after the value that leaves `k` arrays open has ended. -/
def afterArrays (k : Nat) : Scanner :=
  if k = 0 then ⟨stateEndTop, true, [], false⟩
  else ⟨stateEndValue, false, List.replicate k parseArrayValue, false⟩

/-- Model of `utf8.EncodeRune` on a Unicode scalar value: the bytes of its UTF-8
encoding. -/
def encodeRune (r : Nat) : List Nat :=
  if r < 0x80 then [r]
  else if r < 0x800 then [0xC0 + r / 64, 0x80 + r % 64]
  else if r < 0x10000 then [0xE0 + r / 4096, 0x80 + r / 64 % 64, 0x80 + r % 64]
  else [0xF0 + r / 262144, 0x80 + r / 4096 % 64, 0x80 + r / 64 % 64, 0x80 + r % 64]

/-- The bytes of the Go string that a string of the embedding stands for: the UTF-8
encoding of its characters. -/
def utf8Bytes (s : String) : List Nat := s.data.flatMap (fun c => encodeRune c.toNat)

/-- Model of `utf8.DecodeRune` as far as `encoding/json` uses it on a string: the
number of bytes of the well-formed UTF-8 sequence at the start of the bytes, `none`
where `DecodeRune` returns `RuneError` with the width 1. The first byte fixes the
length of the sequence and the range of the second byte (which excludes the encodings
that are too long, the surrogates and the values above U+10FFFF); the other bytes are
between 80 and BF. -/
def runeWidth : List Nat → Option Nat
  | [] => none
  | b0 :: rest =>
    if b0 < 0x80 then some 1
    else if b0 < 0xC2 then none
    else if b0 < 0xE0 then
      match rest with
      | b1 :: _ => if 0x80 ≤ b1 ∧ b1 ≤ 0xBF then some 2 else none
      | _ => none
    else if b0 < 0xF0 then
      match rest with
      | b1 :: b2 :: _ =>
        if (if b0 = 0xE0 then 0xA0 else 0x80) ≤ b1 ∧ b1 ≤ (if b0 = 0xED then 0x9F else 0xBF) ∧
            0x80 ≤ b2 ∧ b2 ≤ 0xBF then some 3
        else none
      | _ => none
    else if b0 < 0xF5 then
      match rest with
      | b1 :: b2 :: b3 :: _ =>
        if (if b0 = 0xF0 then 0x90 else 0x80) ≤ b1 ∧ b1 ≤ (if b0 = 0xF4 then 0x8F else 0xBF) ∧
            0x80 ≤ b2 ∧ b2 ≤ 0xBF ∧ 0x80 ≤ b3 ∧ b3 ≤ 0xBF then some 4
        else none
      | _ => none
    else none

/-- The loop over the bytes of a string that `json.Marshal` writes as a string literal
and `json.Unmarshal` reads back; `skip` counts the bytes still to copy of the
well-formed sequence being read. A well-formed sequence is copied (an escape that
`Marshal` writes for it is undone by `Unmarshal`); a byte that begins no well-formed
sequence is written as the escape of U+FFFD and read back as the three bytes EF BF BD
of that character. -/
def coerceLoop : List Nat → Nat → List Nat
  | [], _ => []
  | b :: rest, skip + 1 => b :: coerceLoop rest skip
  | b :: rest, 0 =>
    match runeWidth (b :: rest) with
    | some n => b :: coerceLoop rest (n - 1)
    | none => 0xEF :: 0xBF :: 0xBD :: coerceLoop rest 0

/-- The bytes of a Go string after `json.Marshal` followed by `json.Unmarshal`. -/
def stringRoundTrip (s : List Nat) : List Nat := coerceLoop s 0

/-- The number is a Unicode scalar value: a code point that is not a surrogate. -/
def isScalar (r : Nat) : Prop := r < 0xD800 ∨ (0xDFFF < r ∧ r < 0x110000)

end json

/-! ## pkg/analyzer -/

namespace analyzer

open fsparser

/-- The interface `AnalyzerPluginType`. `W` is the state plugin code can read and
write: the plugins' own fields and, through the `AnalyzerType` interface, the report
accumulators of the analyzer. `CheckFile` returns the message of its `error`, or
`none` for `nil`. -/
structure AnalyzerPluginType (W : Type) where
  Name : String
  Start : W → W
  Finalize : W → W × String
  CheckFile : FileInfo → String → W → W × Option String

/-- A call of a plugin method made by the engine; the plugin is named by its
position in the registry (0 is the plugin registered first). -/
inductive Call where
  | Start (plugin : Nat)
  | CheckFile (plugin : Nat) (fi : FileInfo) (path : String) (err : Option String)
  | Finalize (plugin : Nat)
deriving DecidableEq, Repr

/-- The struct `Analyzer`: the filesystem, the plugin registry and the merged plugin
reports, together with the state `world` the plugins act on and the list `calls` of
the plugin calls made so far, oldest first (a ghost field). -/
structure Analyzer (W : Type) where
  fsparser : FsParser
  analyzers : List (AnalyzerPluginType W)
  PluginReports : GoMap String
  world : W
  calls : List Call

/-- How a walk ended: normally, with an `error`, or not within the given number of
nested directory levels. -/
inductive WalkStatus where
  | ok
  | error (msg : String)
  | fuelOut
deriving DecidableEq, Repr

/-- How `RunPlugins` ended: it returned, it panicked, or the walk did not end within
the given number of nested directory levels. -/
inductive RunStatus where
  | returned
  | panicked (msg : String)
  | fuelOut
deriving DecidableEq, Repr

/-- The analyzer built by `New`, before any plugin is registered. -/
def New {W : Type} (fsp : FsParser) (w : W) : Analyzer W :=
  ⟨fsp, [], [], w, []⟩

/-- Embeds `AddAnalyzerPlugin`: `a.analyzers = append(a.analyzers, aplug)`. -/
def AddAnalyzerPlugin {W : Type} (a : Analyzer W) (aplug : AnalyzerPluginType W) : Analyzer W :=
  { a with analyzers := a.analyzers ++ [aplug] }

/-- The loop `for _, ap := range a.analyzers` of `iterateFiles` and `checkRoot` over
the plugins `aps` (each with its position): calls `CheckFile` and returns at the first
error. -/
def checkPlugins {W : Type} (fi : FileInfo) (cp : String) :
    List (Nat × AnalyzerPluginType W) → Analyzer W → Analyzer W × Option String
  | [], a => (a, none)
  | (i, ap) :: aps, a =>
    let r := ap.CheckFile fi cp a.world
    let a1 := { a with world := r.1, calls := a.calls ++ [Call.CheckFile i fi cp r.2] }
    match r.2 with
    | some e => (a1, some e)
    | none => checkPlugins fi cp aps a1

/-- The loop `for _, fi := range dir` of `iterateFiles`; `descend` is the recursive
call of `iterateFiles`. -/
def iterateDir {W : Type} (descend : Analyzer W → String → Analyzer W × WalkStatus)
    (curpath : String) : List FileInfo → Analyzer W → Analyzer W × WalkStatus
  | [], a => (a, .ok)
  | fi :: dir, a =>
    match checkPlugins fi curpath a.analyzers.enum a with
    | (a1, some e) => (a1, .error e)
    | (a1, none) =>
      if fi.IsDir then
        match descend a1 (pathJoin curpath fi.Name) with
        | (a2, .ok) => iterateDir descend curpath dir a2
        | (a2, st) => (a2, st)
      else iterateDir descend curpath dir a1

/-- Embeds `iterateFiles`; `fuel` bounds the depth of the recursion. -/
def iterateFiles {W : Type} : Nat → Analyzer W → String → Analyzer W × WalkStatus
  | 0, a, _ => (a, .fuelOut)
  | fuel + 1, a, curpath =>
    match a.fsparser.GetDirInfo curpath with
    | .error e => (a, .error e)
    | .ok dir => iterateDir (iterateFiles fuel) curpath dir a

/-- Embeds `checkRoot`. -/
def checkRoot {W : Type} (a : Analyzer W) : Analyzer W × Option String :=
  match a.fsparser.GetFileInfo "/" with
  | .error e => (a, some e)
  | .ok fi => checkPlugins fi "/" a.analyzers.enum a

/-- Embeds `addPluginReport`. `unmarshal` models `json.Unmarshal` into a
`map[string]interface`: the top-level members of the text when it is a JSON object,
`none` when it is not. -/
def addPluginReport {W : Type} (unmarshal : String → Option (List (String × String)))
    (a : Analyzer W) (report : String) : Analyzer W :=
  match unmarshal report with
  | none => a
  | some data =>
    { a with PluginReports := data.foldl (fun m kv => m.insert kv.1 kv.2) a.PluginReports }

/-- The first loop of `RunPlugins`: `ap.Start()` for every plugin. -/
def startPlugins {W : Type} : List (Nat × AnalyzerPluginType W) → Analyzer W → Analyzer W
  | [], a => a
  | (i, ap) :: aps, a =>
    startPlugins aps { a with world := ap.Start a.world, calls := a.calls ++ [Call.Start i] }

/-- The last loop of `RunPlugins`: `res := ap.Finalize(); a.addPluginReport(res)`. -/
def finalizePlugins {W : Type} (unmarshal : String → Option (List (String × String))) :
    List (Nat × AnalyzerPluginType W) → Analyzer W → Analyzer W
  | [], a => a
  | (i, ap) :: aps, a =>
    let r := ap.Finalize a.world
    let a1 := { a with world := r.1, calls := a.calls ++ [Call.Finalize i] }
    finalizePlugins unmarshal aps (addPluginReport unmarshal a1 r.2)

/-- Embeds `RunPlugins`. -/
def RunPlugins {W : Type} (unmarshal : String → Option (List (String × String)))
    (fuel : Nat) (a : Analyzer W) : Analyzer W × RunStatus :=
  let a1 := startPlugins a.analyzers.enum a
  match checkRoot a1 with
  | (a2, some e) => (a2, .panicked ("RunPlugins error: " ++ e))
  | (a2, none) =>
    match iterateFiles fuel a2 "/" with
    | (a3, .error e) => (a3, .panicked ("RunPlugins error: " ++ e))
    | (a3, .fuelOut) => (a3, .fuelOut)
    | (a3, .ok) => (finalizePlugins unmarshal a3.analyzers.enum a3, .returned)

/-- The analyzer built by `New` on which the plugins `ps` were registered, in that
order, with `AddAnalyzerPlugin`. -/
def registered {W : Type} (fsp : FsParser) (w : W) (ps : List (AnalyzerPluginType W)) :
    Analyzer W :=
  ps.foldl AddAnalyzerPlugin (New fsp w)

/-- The call is a `CheckFile` that returned `nil`. -/
def Call.isCleanCheck : Call → Bool
  | .CheckFile _ _ _ none => true
  | _ => false

/-- The call is a `CheckFile` that returned an error. -/
def Call.isFailedCheck : Call → Bool
  | .CheckFile _ _ _ (some _) => true
  | _ => false

/-- The call is a `Start`. -/
def Call.isStart : Call → Bool
  | .Start _ => true
  | _ => false

/-- The call is a `Finalize`. -/
def Call.isFinalize : Call → Bool
  | .Finalize _ => true
  | _ => false

/-! ### Reference description of the walk -/

/-- The entries of one directory listing visited in order, each followed by the
entries below it when it is a directory; `descend` lists the entries below a
directory path. -/
def walkDir (descend : String → Option (List (FileInfo × String))) (curpath : String) :
    List FileInfo → Option (List (FileInfo × String))
  | [] => some []
  | fi :: dir =>
    match (if fi.IsDir then descend (pathJoin curpath fi.Name) else some []) with
    | none => none
    | some below =>
      match walkDir descend curpath dir with
      | none => none
      | some more => some ((fi, curpath) :: below ++ more)

/-- The entries below the directory `curpath` in pre-order, depth first, each with
the path of the directory that lists it; `none` when a listing fails or the
directories nest deeper than `fuel`. -/
def walkEntries (fs : FsParser) : Nat → String → Option (List (FileInfo × String))
  | 0, _ => none
  | fuel + 1, curpath =>
    match fs.GetDirInfo curpath with
    | .error _ => none
    | .ok dir => walkDir (walkEntries fs fuel) curpath dir

/-- The calls `P1.CheckFile(E), ..., Pn.CheckFile(E)` for `n` plugins, none failing. -/
def checkCalls (n : Nat) (e : FileInfo × String) : List Call :=
  (List.range n).map (fun i => Call.CheckFile i e.1 e.2 none)

/-- The calls `P1.Start, ..., Pn.Start`. -/
def startCalls (n : Nat) : List Call := (List.range n).map Call.Start

/-- The calls `P1.Finalize, ..., Pn.Finalize`. -/
def finalizeCalls (n : Nat) : List Call := (List.range n).map Call.Finalize

/-- A finite directory structure: the entries of one listing, each with the listing
of the directory it names (ignored for an entry that is not a directory). -/
inductive Forest where
  | nil
  | cons (fi : FileInfo) (children : Forest) (rest : Forest)
deriving Repr

/-- The entries of the listing, in order. -/
def Forest.infos : Forest → List FileInfo
  | .nil => []
  | .cons fi _ rest => fi :: rest.infos

/-- Pre-order, depth-first enumeration of the forest listed by the directory
`parent`: every entry with the path of the directory that lists it; the subtree of a
directory comes right after the directory and before its next sibling. -/
def Forest.visits (parent : String) : Forest → List (FileInfo × String)
  | .nil => []
  | .cons fi children rest =>
    (fi, parent) ::
      ((if fi.IsDir then children.visits (pathJoin parent fi.Name) else []) ++ rest.visits parent)

/-- Every directory of the forest listed by `parent` is listed by `GetDirInfo` with
exactly the entries the forest gives it. -/
def Forest.dirsListed (fs : FsParser) (parent : String) : Forest → Bool
  | .nil => true
  | .cons fi children rest =>
    (if fi.IsDir then
      decide (fs.GetDirInfo (pathJoin parent fi.Name) = .ok children.infos)
        && children.dirsListed fs (pathJoin parent fi.Name)
     else true) && rest.dirsListed fs parent

/-- The directory structure of `fs` below `parent` is the finite forest `f`. -/
def Forest.presentedBy (f : Forest) (fs : FsParser) (parent : String) : Bool :=
  decide (fs.GetDirInfo parent = .ok f.infos) && f.dirsListed fs parent

/-- Number of nested directory levels of the forest. -/
def Forest.depth : Forest → Nat
  | .nil => 0
  | .cons _ children rest => max (children.depth + 1) rest.depth

/-- The entry and parent path of the call when it is a `CheckFile` call of the plugin
at position `i`. -/
def Call.checkOf (i : Nat) : Call → Option (FileInfo × String)
  | .CheckFile j fi p _ => if j = i then some (fi, p) else none
  | _ => none

/-! ### Predicates used to state the behaviour of the engine -/

/-- The second analyzer has the filesystem, registry and merged reports of the first. -/
def Frame {W : Type} (a b : Analyzer W) : Prop :=
  b.fsparser = a.fsparser ∧ b.analyzers = a.analyzers ∧ b.PluginReports = a.PluginReports

/-- Shape of the calls a walk adds: `CheckFile` calls that return `nil`, possibly
followed by one last `CheckFile` call that returns the error the walk ends with. -/
def WalkLog (cs : List Call) (st : WalkStatus) : Prop :=
  (∀ c ∈ cs, c.isCleanCheck = true) ∨
  ∃ pre i fi p e, cs = pre ++ [Call.CheckFile i fi p (some e)] ∧
    (∀ c ∈ pre, c.isCleanCheck = true) ∧ st = .error e

/-- The walk status that corresponds to the result of the plugin loop. -/
def statusOf : Option String → WalkStatus
  | none => .ok
  | some e => .error e

/-! ### Replay of the plugin calls -/

/-- The state of the plugins after the call `c` is made in the state `w`: the method
the call names, of the plugin at the position the call names, applied to `w`. -/
def Call.effect {W : Type} (ps : List (AnalyzerPluginType W)) (w : W) : Call → W
  | .Start i =>
    match ps[i]? with
    | some ap => ap.Start w
    | none => w
  | .CheckFile i fi p _ =>
    match ps[i]? with
    | some ap => (ap.CheckFile fi p w).1
    | none => w
  | .Finalize i =>
    match ps[i]? with
    | some ap => (ap.Finalize w).1
    | none => w

/-- The state of the plugins after the calls `cs` are made one after the other,
starting in the state `w`. -/
def replay {W : Type} (ps : List (AnalyzerPluginType W)) (w : W) (cs : List Call) : W :=
  cs.foldl (Call.effect ps) w

/-- The call, made in the state `w`, names a registered plugin and, when it is a
`CheckFile` call, records the error that `CheckFile` of this plugin returns in `w`. -/
def Call.faithful {W : Type} (ps : List (AnalyzerPluginType W)) (w : W) : Call → Prop
  | .Start i => i < ps.length
  | .CheckFile i fi p err => ∃ ap, ps[i]? = some ap ∧ (ap.CheckFile fi p w).2 = err
  | .Finalize i => i < ps.length

/-- The calls `cs`, made one after the other from the state `w`, are calls of
registered plugins, and every `CheckFile` call records the error the plugin returns in
the state the calls before it leave. -/
def Replays {W : Type} (ps : List (AnalyzerPluginType W)) : W → List Call → Prop
  | _, [] => True
  | w, c :: cs => c.faithful ps w ∧ Replays ps (c.effect ps w) cs

/-- The string the call returns when it is a `Finalize` call made in the state `w`. -/
def Call.returned {W : Type} (ps : List (AnalyzerPluginType W)) (w : W) : Call → List String
  | .Finalize i =>
    match ps[i]? with
    | some ap => [(ap.Finalize w).2]
    | none => []
  | _ => []

/-- The strings the `Finalize` calls among `cs` return, in call order, when the calls
are made one after the other from the state `w`. -/
def finalizeStrings {W : Type} (ps : List (AnalyzerPluginType W)) : W → List Call → List String
  | _, [] => []
  | w, c :: cs => c.returned ps w ++ finalizeStrings ps (c.effect ps w) cs

/-- The analyzer is in step with its list of calls: its state is the one the calls
leave, every call was made as the list records it, and the merged plugin reports are
those of the strings the `Finalize` calls returned. -/
def Logged {W : Type} (unmarshal : String → Option (List (String × String)))
    (ps : List (AnalyzerPluginType W)) (w : W) (a : Analyzer W) : Prop :=
  a.analyzers = ps ∧ a.world = replay ps w a.calls ∧ Replays ps w a.calls ∧
  a.PluginReports
    = ((finalizeStrings ps w a.calls).foldl (addPluginReport unmarshal)
        (New a.fsparser w)).PluginReports

/-! ### A small filesystem and two plugins, used to instantiate the theorems -/

/-- The root directory entry of `demoFs`. -/
def demoRoot : FileInfo := ⟨0, 0o040755, 0, 0, "-", [], "/", ""⟩

/-- The regular file `/a` (mode 0644) of `demoFs`. -/
def demoFile : FileInfo := ⟨3, 0o100644, 0, 0, "-", [], "a", ""⟩

/-- A filesystem whose root directory lists the single regular file `a`. -/
def demoFs : FsParser where
  GetDirInfo := fun p => if p = "/" then .ok [demoFile] else .error "no such directory"
  GetFileInfo := fun p => if p = "/" then .ok demoRoot else .error "no such file"
  ImageName := "demo.img"

/-- The directory structure of `demoFs` below the root. -/
def demoForest : Forest := .cons demoFile .nil .nil

/-- A plugin that counts its `CheckFile` calls and never fails. -/
def countingPlugin : AnalyzerPluginType Nat where
  Name := "counting"
  Start := fun w => w
  Finalize := fun w => (w, "")
  CheckFile := fun _ _ w => (w + 1, none)

/-- A plugin whose `CheckFile` fails on every regular file. -/
def failingPlugin : AnalyzerPluginType Nat where
  Name := "failing"
  Start := fun w => w
  Finalize := fun w => (w, "")
  CheckFile := fun fi _ w => (w, if fi.IsFile then some "cannot check" else none)

/-- A plugin that writes every call of its methods into the state, the list of what
the plugins did, oldest first, and whose `Finalize` returns the JSON object with the
name of the plugin as its only key and `value` as the value of the key. -/
def recordingPlugin (name value : String) : AnalyzerPluginType (List String) where
  Name := name
  Start := fun w => w ++ [name ++ ".Start"]
  Finalize := fun w =>
    (w ++ [name ++ ".Finalize"], "\x7b\"" ++ name ++ "\":" ++ value ++ "\x7d")
  CheckFile := fun fi _ w => (w ++ [name ++ ".CheckFile " ++ fi.Name], none)

/-! ### The report -/

/-- The struct `globalConfigType`. -/
structure globalConfigType where
  FSType : String
  FSTypeOptions : String
  DigestImage : Bool
deriving DecidableEq, Repr

/-- A value held by the maps of the report (an `interface` in the source): a
`json.RawMessage` or a string. -/
inductive ReportValue where
  | raw (text : String)
  | str (s : String)
deriving DecidableEq, Repr

/-- The struct `AnalyzerReport`, embedded in `Analyzer`. -/
structure AnalyzerReport where
  FSType : String
  ImageName : String
  ImageDigest : String
  Data : GoMap ReportValue
  Offenders : GoMap (List ReportValue)
  Informational : GoMap (List ReportValue)
deriving DecidableEq, Repr

/-- The embedded `AnalyzerReport` as `New` fills it in: the three maps are made
empty. `digest` stands for `hex.EncodeToString(util.DigestFileSha256(a.ImageName))`. -/
def newReport (fsp : FsParser) (cfg : globalConfigType) (digest : String) : AnalyzerReport :=
  ⟨cfg.FSType, fsp.ImageName, if cfg.DigestImage then digest else "", [], [], []⟩

/-- Embeds `AddOffender`; the method touches the embedded `AnalyzerReport` only, which
is the receiver here. A missing key reads as the `nil` slice. -/
def AddOffender (a : AnalyzerReport) (filepath reason : String) : AnalyzerReport :=
  if (json.unmarshalMap reason).isSome then
    let old := (a.Offenders.get filepath).getD []
    { a with Offenders := a.Offenders.insert filepath (old ++ [.raw reason]) }
  else
    let old := (a.Offenders.get filepath).getD []
    { a with Offenders := a.Offenders.insert filepath (old ++ [.str reason]) }

/-- Embeds `AddInformational`. -/
def AddInformational (a : AnalyzerReport) (filepath reason : String) : AnalyzerReport :=
  if (json.unmarshalMap reason).isSome then
    let old := (a.Informational.get filepath).getD []
    { a with Informational := a.Informational.insert filepath (old ++ [.raw reason]) }
  else
    let old := (a.Informational.get filepath).getD []
    { a with Informational := a.Informational.insert filepath (old ++ [.str reason]) }

/-- Embeds `HasOffenders`. -/
def HasOffenders (a : AnalyzerReport) : Bool := decide (0 < a.Offenders.length)

/-- Embeds `AddData`. -/
def AddData (a : AnalyzerReport) (key value : String) : AnalyzerReport :=
  if (json.unmarshalMap value).isSome then { a with Data := a.Data.insert key (.raw value) }
  else if json.unmarshalSlice value then { a with Data := a.Data.insert key (.raw value) }
  else { a with Data := a.Data.insert key (.str value) }

/-- A call of one of the three methods that add to the report. -/
inductive ReportCall where
  | AddOffender (filepath reason : String)
  | AddInformational (filepath reason : String)
  | AddData (key value : String)
deriving DecidableEq, Repr

/-- The report after one call. -/
def ReportCall.apply (a : AnalyzerReport) : ReportCall → AnalyzerReport
  | .AddOffender filepath reason => analyzer.AddOffender a filepath reason
  | .AddInformational filepath reason => analyzer.AddInformational a filepath reason
  | .AddData key value => analyzer.AddData a key value

/-- The report after a sequence of calls, oldest first. -/
def applyCalls (a : AnalyzerReport) (cs : List ReportCall) : AnalyzerReport :=
  cs.foldl ReportCall.apply a

/-- The value `AddOffender` and `AddInformational` are expected to store for a
reason, in terms of `json.Unmarshal` into a map. -/
def sniffed (reason : String) : ReportValue :=
  if (json.unmarshalMap reason).isSome then .raw reason else .str reason

/-- The values the calls `cs` added under `filepath` with `AddOffender`, in call
order. -/
def offendersAdded (cs : List ReportCall) (filepath : String) : List ReportValue :=
  cs.filterMap (fun c =>
    match c with
    | .AddOffender p reason => if p = filepath then some (sniffed reason) else none
    | _ => none)

/-- The values the calls `cs` added under `filepath` with `AddInformational`, in call
order. -/
def informationalAdded (cs : List ReportCall) (filepath : String) : List ReportValue :=
  cs.filterMap (fun c =>
    match c with
    | .AddInformational p reason => if p = filepath then some (sniffed reason) else none
    | _ => none)

/-- The call is an `AddOffender`. -/
def ReportCall.isOffender : ReportCall → Bool
  | .AddOffender _ _ => true
  | _ => false

/-- The call is an `AddInformational`. -/
def ReportCall.isInformational : ReportCall → Bool
  | .AddInformational _ _ => true
  | _ => false

/-- The call is an `AddData`. -/
def ReportCall.isData : ReportCall → Bool
  | .AddData _ _ => true
  | _ => false

/-- Whether `json.Marshal` can write the value: a `json.RawMessage` has to be valid
JSON. -/
def ReportValue.marshals : ReportValue → Bool
  | .raw text => json.checkValid text.data
  | .str _ => true

/-- Whether `json.Unmarshal` into an `interface` reads the written value back: the
numbers of a `json.RawMessage` have to convert to `float64`. -/
def ReportValue.reads : ReportValue → Bool
  | .raw text => json.numbersConvert text
  | .str _ => true

/-- Every value held by the report can be written by `json.Marshal` and read back by
`json.Unmarshal`. -/
def AnalyzerReport.Decodable (a : AnalyzerReport) : Prop :=
  (∀ e ∈ a.Data, e.2.marshals = true ∧ e.2.reads = true) ∧
  (∀ e ∈ a.Offenders, ∀ v ∈ e.2, v.marshals = true ∧ v.reads = true) ∧
  (∀ e ∈ a.Informational, ∀ v ∈ e.2, v.marshals = true ∧ v.reads = true)

/-- The value of a top-level member of the report object. -/
inductive Member where
  | str (s : String)
  | data (m : GoMap ReportValue)
  | findings (m : GoMap (List ReportValue))
  | plugin (v : String)
deriving DecidableEq, Repr

/-- The members `json.Marshal(ar)` writes, in the order of the fields of the struct.
The field `image_digest` and the three maps have the tag `omitempty`: an empty string
and a map without entries are left out. -/
def reportMembers (ar : AnalyzerReport) : GoMap Member :=
  [("fs_type", Member.str ar.FSType), ("image_name", Member.str ar.ImageName)] ++
    (if ar.ImageDigest = "" then [] else [("image_digest", Member.str ar.ImageDigest)]) ++
    (if ar.Data.length = 0 then [] else [("data", Member.data ar.Data)]) ++
    (if ar.Offenders.length = 0 then [] else [("offenders", Member.findings ar.Offenders)]) ++
    (if ar.Informational.length = 0 then []
      else [("informational", Member.findings ar.Informational)])

/-- Model of `json.Marshal(ar)`: the members of the object it writes, `none` when it
returns an error, as it does when a `json.RawMessage` held by a map is not valid
JSON. -/
def marshalReport (ar : AnalyzerReport) : Option (GoMap Member) :=
  if ar.Data.all (fun e => e.2.marshals) &&
      ar.Offenders.all (fun e => e.2.all ReportValue.marshals) &&
      ar.Informational.all (fun e => e.2.all ReportValue.marshals) then
    some (reportMembers ar)
  else none

/-- Whether `json.Unmarshal` converts the numbers of the member. -/
def Member.reads : Member → Bool
  | .str _ => true
  | .data m => m.all (fun e => e.2.reads)
  | .findings m => m.all (fun e => e.2.all ReportValue.reads)
  | .plugin _ => true

/-- The nesting depth of a value held by the report, as `json.Marshal` writes it: a
`json.RawMessage` is written as it is, a string as a string literal. -/
def ReportValue.nesting : ReportValue → Nat
  | .raw text => json.nesting text.data
  | .str _ => 0

/-- Whether the scanner, which reads the report document from its first byte, stays
within `maxNestingDepth` inside the member: a value of `data` is read with two entries
on the parse-state stack (the report object and the map), a finding with three (the
report object, the map and the list of its path). A value merged from a plugin report
was decoded from a member of a text that `json.Unmarshal` accepted: it nests less deep
than that text and is read with one entry on the stack. -/
def Member.fits : Member → Bool
  | .str _ => true
  | .data m => m.all (fun e => decide (2 + e.2.nesting ≤ json.maxNestingDepth))
  | .findings m =>
    m.all (fun e => e.2.all (fun v => decide (3 + v.nesting ≤ json.maxNestingDepth)))
  | .plugin _ => true

/-- Every value of the report is read within `maxNestingDepth` once it is part of the
report document. -/
def AnalyzerReport.fits (ar : AnalyzerReport) : Bool :=
  ar.Data.all (fun e => decide (2 + e.2.nesting ≤ json.maxNestingDepth)) &&
    ar.Offenders.all
      (fun e => e.2.all (fun v => decide (3 + v.nesting ≤ json.maxNestingDepth))) &&
    ar.Informational.all
      (fun e => e.2.all (fun v => decide (3 + v.nesting ≤ json.maxNestingDepth)))

/-- Embeds `addReportData` on the members of the report object: when `json.Unmarshal`
reads the report (it is nested within `maxNestingDepth` and its numbers convert), every
key of `PluginReports` is set in it; when it does not, the report is returned as it
is. -/
def addReportData (PluginReports : GoMap String) (report : GoMap Member) : GoMap Member :=
  if report.all (fun e => e.2.reads && e.2.fits) then
    PluginReports.foldl (fun data kv => data.insert kv.1 (Member.plugin kv.2)) report
  else report

/-- Model of `json.Indent` on the members of the document: whether it returns no
error, that is the scanner reads the document within `maxNestingDepth`. On an error
the buffer is left empty. -/
def indents (jdata : GoMap Member) : Bool := jdata.all (fun e => e.2.fits)

/-- Embeds `JsonReport`, up to the serialisation: the top-level members of the JSON
object it returns (the embedded report is the state `world` of the analyzer); `none`
stands for the empty string it returns when `json.Marshal` fails, or when a value of
the report nests so deep that `json.Unmarshal` in `addReportData` and `json.Indent`
both fail on the document. -/
def JsonReport (a : Analyzer AnalyzerReport) : Option (GoMap Member) :=
  match marshalReport a.world with
  | none => none
  | some report =>
    let jdata := addReportData a.PluginReports report
    if indents jdata then some jdata else none

/-- The nesting depth of the value given to a call. -/
def ReportCall.nesting : ReportCall → Nat
  | .AddOffender _ reason => json.nesting reason.data
  | .AddInformational _ reason => json.nesting reason.data
  | .AddData _ value => json.nesting value.data

/-- A plugin that adds nothing to the report and whose `Finalize` returns a JSON
object with the key `offenders`. -/
def offendersKeyPlugin : AnalyzerPluginType AnalyzerReport where
  Name := "offendersKey"
  Start := fun w => w
  Finalize := fun w => (w, "\x7b\"offenders\":\x7b\x7d\x7d")
  CheckFile := fun _ _ w => (w, none)

/-- The configuration of the demo analyzer. -/
def demoGlobalConfig : globalConfigType := ⟨"dirfs", "", false⟩

/-! ### Extraction of files into the scratch directory -/

/-- Embeds `FileGet` on the list `files` of the files in the scratch directory
`a.tmpdir`. `TempFile` stands for `ioutil.TempFile(a.tmpdir, "")`, which creates a file
and returns its name, and `CopyFile` for the method of the filesystem, which writes the
destination and reports success. The result is the list of files the call leaves and
the values it returns. -/
def FileGet (TempFile : List String → String) (CopyFile : String → String → Bool)
    (files : List String) (filepath : String) : List String × Except String String :=
  let tmpname := TempFile files
  let files1 := files ++ [tmpname]
  if CopyFile filepath tmpname then (files1, .ok tmpname)
  else (files1, .error "error copying file")

/-- Embeds `FileGetSha256`; `DigestFileSha256` stands for the function of `util`. The
deferred `os.Remove(tmpname)` runs when the function returns after the `defer`
statement was reached. -/
def FileGetSha256 (TempFile : List String → String) (CopyFile : String → String → Bool)
    (DigestFileSha256 : String → List Byte) (files : List String) (filepath : String) :
    List String × Except String (List Byte) :=
  match FileGet TempFile CopyFile files filepath with
  | (files1, .error err) => (files1, .error err)
  | (files1, .ok tmpname) =>
    let digest := DigestFileSha256 tmpname
    (files1.filter (fun f => f != tmpname), .ok digest)

/-- Embeds `RemoveFile`: `os.Remove(filepath)`. -/
def RemoveFile (files : List String) (filepath : String) : List String :=
  files.filter (fun f => f != filepath)

/-! ### The secondary walk -/

/-- The type `AllFilesCallback`: the callback acts on the state `W`; `D` is the type of
the value behind `AllFilesCallbackData`. -/
abbrev AllFilesCallback (W D : Type) := FileInfo → String → D → W → W

/-- State of a secondary walk: the state the callback acts on and, as ghost fields,
the callback calls and the `GetDirInfo` calls made so far, oldest first. -/
structure SubWalk (W D : Type) where
  world : W
  callbacks : List (FileInfo × String × D)
  listings : List String

/-- The loop `for _, fi := range dir` of `iterateAllDirs`; `descend` is the recursive
call. -/
def iterateAllDirsLoop {W D : Type}
    (descend : SubWalk W D → String → SubWalk W D × WalkStatus)
    (cb : AllFilesCallback W D) (cbdata : D) (curpath : String) :
    List FileInfo → SubWalk W D → SubWalk W D × WalkStatus
  | [], s => (s, .ok)
  | fi :: dir, s =>
    let s1 : SubWalk W D :=
      ⟨cb fi curpath cbdata s.world, s.callbacks ++ [(fi, curpath, cbdata)], s.listings⟩
    if fi.IsDir then
      match descend s1 (pathJoin curpath fi.Name) with
      | (s2, .ok) => iterateAllDirsLoop descend cb cbdata curpath dir s2
      | (s2, st) => (s2, st)
    else iterateAllDirsLoop descend cb cbdata curpath dir s1

/-- Embeds `iterateAllDirs`; `fuel` bounds the depth of the recursion. -/
def iterateAllDirs {W D : Type} (fsp : FsParser) (cb : AllFilesCallback W D) (cbdata : D) :
    Nat → SubWalk W D → String → SubWalk W D × WalkStatus
  | 0, s, _ => (s, .fuelOut)
  | fuel + 1, s, curpath =>
    let s0 : SubWalk W D := ⟨s.world, s.callbacks, s.listings ++ [curpath]⟩
    match fsp.GetDirInfo curpath with
    | .error e => (s0, .error e)
    | .ok dir => iterateAllDirsLoop (iterateAllDirs fsp cb cbdata fuel) cb cbdata curpath dir s0

/-- Embeds `CheckAllFilesWithPath`; `none` is the `nil` callback. -/
def CheckAllFilesWithPath {W D : Type} (fsp : FsParser) (cb : Option (AllFilesCallback W D))
    (cbdata : D) (fuel : Nat) (s : SubWalk W D) (filepath : String) :
    SubWalk W D × RunStatus :=
  match cb with
  | none => (s, .returned)
  | some cb =>
    match iterateAllDirs fsp cb cbdata fuel s filepath with
    | (s1, .ok) => (s1, .returned)
    | (s1, .error _) => (s1, .panicked "iterateAllDirs failed")
    | (s1, .fuelOut) => (s1, .fuelOut)

/-- The strings the `Finalize` calls of the plugins return, in registration order. -/
def finalizeResults {W : Type} : List (AnalyzerPluginType W) → W → List String
  | [], _ => []
  | ap :: aps, w => (ap.Finalize w).2 :: finalizeResults aps (ap.Finalize w).1

/-- The value the returned strings `rs` give to the key `k`: that of the last string
that is accepted by `json.Unmarshal` and has the key. -/
def lastReported (rs : List String) (k : String) : Option String :=
  rs.reverse.findSome? (fun r => json.field r k)

/-- A plugin that adds nothing to the report and whose `Finalize` returns a JSON
object with a number that does not convert to `float64`. -/
def overflowPlugin : AnalyzerPluginType AnalyzerReport where
  Name := "overflow"
  Start := fun w => w
  Finalize := fun w => (w, "\x7b\"a\":1e999\x7d")
  CheckFile := fun _ _ w => (w, none)

end analyzer

/-! ## pkg/analyzer/filetree -/

namespace filetree

open fsparser

def newFileTreeExt : String := ".new"

structure fileTreeConfig where
  OldTreeFilePath : String
  CheckPath : List String
  CheckPermsOwnerChange : Bool
  CheckFileSize : Bool
  CheckFileDigest : Bool
  SkipFileDigest : Bool
deriving DecidableEq, Repr

structure fileInfoSaveType extends FileInfo where
  Digest : String
deriving DecidableEq, Repr

structure imageInfoSaveType where
  ImageName : String
  ImageDigest : String
  Files : List fileInfoSaveType
deriving DecidableEq, Repr

/-- What the plugin reaches outside its own fields: the analyzer behind the
`AnalyzerType` interface (`ImageInfo`, `FileGetSha256`, `AddInformational`) and the
files of the host. `snapshots` maps the path of every file that can be read and
unmarshalled to the snapshot `json.Unmarshal` decodes from it; a snapshot written
with `json.Marshal` is decoded as it was written, its numbers being integers and its
strings, like all strings of the embedding, well-formed UTF-8 (on other names see
`reloadedKey`). `writable` tells whether `ioutil.WriteFile` to a
path succeeds; `writes` lists the `ioutil.WriteFile` calls and `informational` the
`AddInformational` calls and `offenders` the `AddOffender` calls made so far, oldest
first. -/
structure Host where
  ImageName : String
  ImageDigest : String
  FileGetSha256 : String → Except String (List Byte)
  snapshots : GoMap imageInfoSaveType
  writable : String → Bool
  writes : List (String × imageInfoSaveType)
  informational : List (String × String)
  offenders : List (String × String) := []

/-- The struct `fileTreeType`; `none` is the `nil` map. -/
structure fileTreeType where
  config : fileTreeConfig
  tree : Option (GoMap fileInfoSaveType)
  oldTree : Option (GoMap fileInfoSaveType)
deriving DecidableEq, Repr

/-- The entries of a map that may be `nil`: a `nil` map has none. -/
def entries {V : Type} (m : Option (GoMap V)) : GoMap V := m.getD []

/-- Model of `strings.HasPrefix`. -/
def stringsHasPrefix (s pre : String) : Bool := pre.data.isPrefixOf s.data

/-- Embeds `inPath`. -/
def inPath (checkPath : String) : List String → Bool
  | [] => false
  | p :: cfgPath => if stringsHasPrefix checkPath p then true else inPath checkPath cfgPath

/-- Embeds `Start`. -/
def Start (state : fileTreeType) : fileTreeType := { state with tree := some [] }

/-- Embeds `Name`. -/
def Name : String := "FileTreeChecks"

/-- Embeds `readOldTree`: fails when the file cannot be read or unmarshalled, and
otherwise replaces `oldTree` by the map of the stored entries keyed by name. -/
def readOldTree (tree : fileTreeType) (h : Host) : fileTreeType × Option String :=
  match h.snapshots.get tree.config.OldTreeFilePath with
  | none => (tree, some "cannot read the old tree")
  | some oldTree =>
    ({ tree with oldTree := some (oldTree.Files.foldl (fun m fi => m.insert fi.Name fi) []) },
      none)

/-- The value `saveTree` marshals: the image information and every entry of the
current tree. -/
def treeToSave (tree : fileTreeType) (h : Host) : imageInfoSaveType :=
  ⟨h.ImageName, h.ImageDigest, (entries tree.tree).map Prod.snd⟩

/-- Embeds `saveTree`: writes the current tree to `OldTreeFilePath + ".new"`. -/
def saveTree (tree : fileTreeType) (h : Host) : Host × Option String :=
  let name := tree.config.OldTreeFilePath ++ newFileTreeExt
  let h1 := { h with writes := h.writes ++ [(name, treeToSave tree h)] }
  if h.writable name then
    ({ h1 with snapshots := h1.snapshots.insert name (treeToSave tree h) }, none)
  else (h1, some "cannot write the new tree")

/-- Embeds `CheckFile`: the `error` of `FileGetSha256` is returned, an assignment to a
`nil` map panics. -/
def CheckFile (state : fileTreeType) (h : Host) (fi : FileInfo) (filepath : String) :
    Go fileTreeType :=
  if state.config.OldTreeFilePath = "" then .ok state
  else
    let fn := pathJoin filepath fi.Name
    let digest : Except String String :=
      if fi.IsFile && !state.config.SkipFileDigest then
        (h.FileGetSha256 fn).map hexEncodeToString
      else .ok "0"
    match digest with
    | .error e => .error (.error e)
    | .ok digest =>
      match state.tree with
      | none => .error (.panic "assignment to entry in nil map")
      | some tree =>
        .ok { state with tree := some (tree.insert fn
          ⟨⟨fi.Size, fi.Mode, fi.Uid, fi.Gid, fi.SELinuxLabel, [], fn, ""⟩, digest⟩) }

/-- The condition under which `Finalize` puts a path on the `changed` list. -/
def entryChanged (config : fileTreeConfig) (oFi cFi : fileInfoSaveType) : Bool :=
  oFi.Mode != cFi.Mode ||
  oFi.Uid != cFi.Uid ||
  oFi.Gid != cFi.Gid ||
  oFi.SELinuxLabel != cFi.SELinuxLabel ||
  ((oFi.Size != cFi.Size) && config.CheckFileSize) ||
  ((oFi.Digest != cFi.Digest) && config.CheckFileDigest)

/-- The loop "find modified files" of `Finalize` over the entries of `oldTree`:
the lists `removed` and `changed`. -/
def findModified (state : fileTreeType) :
    List (String × fileInfoSaveType) → List fileInfoSaveType × List String →
      List fileInfoSaveType × List String
  | [], acc => acc
  | (filepath, fi) :: rest, (removed, changed) =>
    if !inPath filepath state.config.CheckPath then findModified state rest (removed, changed)
    else
      match (entries state.tree).get filepath with
      | none => findModified state rest (removed ++ [fi], changed)
      | some cFi =>
        if entryChanged state.config fi cFi then
          findModified state rest (removed, changed ++ [filepath])
        else findModified state rest (removed, changed)

/-- The loop "find new files" of `Finalize` over the entries of `tree`: the list
`added`. -/
def findNew (state : fileTreeType) :
    List (String × fileInfoSaveType) → List fileInfoSaveType → List fileInfoSaveType
  | [], added => added
  | (filepath, fi) :: rest, added =>
    if !inPath filepath state.config.CheckPath then findNew state rest added
    else
      match (entries state.oldTree).get filepath with
      | none => findNew state rest (added ++ [fi])
      | some _ => findNew state rest added

/-- The lists `added`, `removed` and `changed` that `Finalize` computes. -/
structure treeDiff where
  added : List fileInfoSaveType
  removed : List fileInfoSaveType
  changed : List String
deriving DecidableEq, Repr

/-- The two loops of `Finalize`, run on the state left by `readOldTree`. -/
def computeDiff (state : fileTreeType) : treeDiff :=
  let rc := findModified state (entries state.oldTree) ([], [])
  ⟨findNew state (entries state.tree) [], rc.1, rc.2⟩

/-- The test `len(added) > 0 || len(removed) > 0 || (len(changed) > 0 &&
state.config.CheckPermsOwnerChange)` of `Finalize`. -/
def treeDiff.updates (d : treeDiff) (config : fileTreeConfig) : Bool :=
  decide (d.added.length > 0) || decide (d.removed.length > 0) ||
    (decide (d.changed.length > 0) && config.CheckPermsOwnerChange)

/-- Model of the verb `%o` of `fmt.Sprintf` for a `uint64`. -/
def fmtOctal (n : Nat) : String := String.mk (Nat.toDigits 8 n)

/-- Model of the verb `%d` of `fmt.Sprintf` for an integer. -/
def fmtInt (i : Int) : String :=
  match i with
  | .ofNat n => String.mk (Nat.toDigits 10 n)
  | .negSucc n => "-" ++ String.mk (Nat.toDigits 10 (n + 1))

/-- Embeds `fiToString`. -/
def fiToString (fi : fileInfoSaveType) (selinux : Bool) : String :=
  if selinux then
    fmtOctal fi.Mode ++ " " ++ fmtInt fi.Uid ++ ":" ++ fmtInt fi.Gid ++ " " ++ fmtInt fi.Size
      ++ " " ++ fi.Digest ++ " SELinux label: " ++ fi.SELinuxLabel
  else
    fmtOctal fi.Mode ++ " " ++ fmtInt fi.Uid ++ ":" ++ fmtInt fi.Gid ++ " " ++ fmtInt fi.Size
      ++ " " ++ fi.Digest

/-- The zero value of `fileInfoSaveType`, which a map yields for a missing key. -/
def zeroEntry : fileInfoSaveType := ⟨⟨0, 0, 0, 0, "", [], "", ""⟩, ""⟩

/-- The `AddInformational` calls of `Finalize`, in order: one per added file, one per
removed file and, when `CheckPermsOwnerChange` is set, one per changed path. -/
def findings (state : fileTreeType) (d : treeDiff) : List (String × String) :=
  d.added.map (fun fi => (fi.Name, "CheckFileTree: new file: " ++ fiToString fi true))
  ++ d.removed.map (fun fi => (fi.Name, "CheckFileTree: file removed: " ++ fiToString fi true))
  ++ (if state.config.CheckPermsOwnerChange then
        d.changed.map (fun filepath =>
          ((((entries state.tree).get filepath).getD zeroEntry).Name,
            "CheckFileTree: file perms/owner/size/digest changed from: "
              ++ fiToString (((entries state.oldTree).get filepath).getD zeroEntry) true
              ++ " to: "
              ++ fiToString (((entries state.tree).get filepath).getD zeroEntry) true))
      else [])

/-- Four hexadecimal digits of a code point, as in a JSON escape. -/
def hex4 (n : Nat) : List Char :=
  [Nat.digitChar (n / 4096 % 16), Nat.digitChar (n / 256 % 16), Nat.digitChar (n / 16 % 16),
    Nat.digitChar (n % 16)]

/-- Model of the way `json.Marshal` writes a string: quoted, with quotes, backslashes,
control characters, the HTML characters and the two Unicode line separators escaped;
backspace and form feed are written with their short escapes. -/
def jsonQuote (s : String) : String :=
  String.mk (['"'] ++ s.data.flatMap (fun c =>
    if c = '"' then ['\\', '"']
    else if c = '\\' then ['\\', '\\']
    else if c = '\n' then ['\\', 'n']
    else if c = '\r' then ['\\', 'r']
    else if c = '\t' then ['\\', 't']
    else if c.toNat = 8 then ['\\', 'b']
    else if c.toNat = 12 then ['\\', 'f']
    else if c.toNat < 32 ∨ c = '<' ∨ c = '>' ∨ c = '&' ∨ c.toNat = 8232 ∨ c.toNat = 8233 then
      ['\\', 'u'] ++ hex4 c.toNat
    else [c]) ++ ['"'])

/-- The members `json.Marshal` writes for the struct `reportData`: the second one has
the tag `omitempty`. -/
def reportFields (OldFileTreePath CurrentFileTreePath : String) : List (String × String) :=
  [("old_file_tree_path", OldFileTreePath)] ++
    (if CurrentFileTreePath = "" then [] else [("current_file_tree_path", CurrentFileTreePath)])

/-- A JSON object whose members are strings, as `json.Marshal` writes it. -/
def jsonObject (fields : List (String × String)) : String :=
  "\x7b" ++ String.intercalate "," (fields.map (fun kv => jsonQuote kv.1 ++ ":" ++ jsonQuote kv.2))
    ++ "\x7d"

/-- Embeds `Finalize`: the state and host it leaves, and the string it returns or the
panic it raises. -/
def Finalize (state : fileTreeType) (h : Host) : (fileTreeType × Host) × Go String :=
  if state.config.OldTreeFilePath = "" then ((state, h), .ok "")
  else
    let state := (readOldTree state h).1
    let d := computeDiff state
    let saved : Host × Option String × Bool :=
      if d.updates state.config then
        let r := saveTree state h
        (r.1, r.2, true)
      else (h, none, false)
    match saved with
    | (h1, some _, _) => ((state, h1), .error (.panic "saveTree failed"))
    | (h1, none, treeUpdated) =>
      let h2 := { h1 with informational := h1.informational ++ findings state d }
      let newPath := if treeUpdated then state.config.OldTreeFilePath ++ newFileTreeExt else ""
      ((state, h2), .ok (jsonObject (reportFields state.config.OldTreeFilePath newPath)))

/-- Every entry of the map is stored under its own name. -/
def KeyedByName (m : GoMap fileInfoSaveType) : Prop := ∀ e ∈ m, e.2.Name = e.1

instance (m : GoMap fileInfoSaveType) : Decidable (KeyedByName m) :=
  inferInstanceAs (Decidable (∀ e ∈ m, e.2.Name = e.1))

/-- The entries of the map whose path starts with one of the prefixes `cfgPath`. -/
def inScope (cfgPath : List String) (m : GoMap fileInfoSaveType) : GoMap fileInfoSaveType :=
  m.filter (fun e => inPath e.1 cfgPath)

/-- Embeds `New`. The configuration decoded by `toml.Decode` and the answer of
`md.IsDefined("FileTreeCheck", "CheckPath")` are inputs. -/
def New (conf : fileTreeConfig) (checkPathDefined : Bool) (outputDirectory : String) :
    fileTreeType :=
  let checkPath := if !checkPathDefined then ["/"] else conf.CheckPath
  let cleaned := checkPath.map CleanPathDir
  let oldTreeFilePath :=
    if outputDirectory ≠ "" ∧ conf.OldTreeFilePath ≠ "" then
      pathJoin outputDirectory conf.OldTreeFilePath
    else conf.OldTreeFilePath
  ⟨⟨oldTreeFilePath, cleaned, conf.CheckPermsOwnerChange, conf.CheckFileSize,
    conf.CheckFileDigest, conf.SkipFileDigest⟩, none, none⟩

/-- The `CheckFile` calls of a walk, in order, on the entries `visits` (each with the
path of the directory that lists it): the walk ends at the first call that fails. -/
def checkFiles (h : Host) : List (FileInfo × String) → fileTreeType → Go fileTreeType
  | [], state => .ok state
  | (fi, filepath) :: rest, state =>
    match CheckFile state h fi filepath with
    | .error e => .error e
    | .ok st => checkFiles h rest st

/-- The two entries have the same name, size, mode, owner, group and SELinux label;
their capabilities and link targets may differ. -/
def sameButCapsAndLink (e1 e2 : FileInfo × String) : Prop :=
  e1.2 = e2.2 ∧ e1.1.Name = e2.1.Name ∧ e1.1.Size = e2.1.Size ∧ e1.1.Mode = e2.1.Mode ∧
    e1.1.Uid = e2.1.Uid ∧ e1.1.Gid = e2.1.Gid ∧ e1.1.SELinuxLabel = e2.1.SELinuxLabel

instance (e1 e2 : FileInfo × String) : Decidable (sameButCapsAndLink e1 e2) :=
  inferInstanceAs (Decidable (_ ∧ _))

/-- The key under which `readOldTree` stores an entry that `saveTree` wrote, the name
being given by its bytes: `saveTree` writes the name with `json.Marshal`, and
`readOldTree` stores the entry under the name that `json.Unmarshal` reads back. -/
def reloadedKey (name : List Nat) : List Nat := json.stringRoundTrip name

/-! ### A configuration and a host, used to instantiate the theorems -/

/-- The configuration of `TestGlobal`. -/
def demoConfig : fileTreeConfig := ⟨"/tmp/blatreetest1337.json", ["/"], true, true, false, false⟩

/-- A host without any snapshot file, on which every write succeeds. -/
def demoHost : Host where
  ImageName := "demo.img"
  ImageDigest := ""
  FileGetSha256 := fun _ => .ok [0xab, 0xcd]
  snapshots := []
  writable := fun _ => true
  writes := []
  informational := []

/-- The plugin state built by `New`. -/
def demoState : fileTreeType := ⟨demoConfig, none, none⟩

/-- The regular file `/a` with mode 0644, as the filesystem reports it. -/
def demoA : FileInfo := ⟨3, 0o100644, 0, 0, "-", [], "a", ""⟩

/-- The entry recorded for `/a` with mode 0644. -/
def entryA644 : fileInfoSaveType := ⟨⟨3, 0o100644, 0, 0, "-", [], "/a", ""⟩, "abcd"⟩

/-- The entry recorded for `/a` with mode 0600. -/
def entryA600 : fileInfoSaveType := ⟨⟨3, 0o100600, 0, 0, "-", [], "/a", ""⟩, "abcd"⟩

/-- The plugin state after a walk that recorded `/a` with mode 0600. -/
def demoStateA600 : fileTreeType := ⟨demoConfig, some [("/a", entryA600)], none⟩

/-- The plugin state after a walk that recorded `/a` with mode 0644. -/
def demoStateA644 : fileTreeType := ⟨demoConfig, some [("/a", entryA644)], none⟩

/-- A host whose baseline file holds the single entry `/a` with mode 0644. -/
def demoHostWithBaseline : Host :=
  { demoHost with snapshots := [("/tmp/blatreetest1337.json", ⟨"demo.img", "", [entryA644]⟩)] }

/-- The configuration of `TestGlobal` with the scope narrowed to `/etc/`. -/
def demoScopedConfig : fileTreeConfig :=
  ⟨"/tmp/blatreetest1337.json", ["/etc/"], true, true, false, false⟩

/-- The plugin state after a walk with scope `/etc/` that recorded `/a` with mode 0600. -/
def demoScopedState : fileTreeType := ⟨demoScopedConfig, some [("/a", entryA600)], none⟩

end filetree

/-! ## pkg/analyzer/globalfilechecks -/

namespace globalfilechecks

open fsparser analyzer

/-- The struct `filePermsConfig` local to `New`: the section `GlobalFileChecks` as
`toml.Decode` fills it in. -/
structure filePermsConfig where
  Suid : Bool
  SuidWhiteList : List String
  SuidAllowedList : List String
  WorldWrite : Bool
  SELinuxLabel : Bool
  Uids : List Int
  Gids : List Int
  BadFiles : List String
  BadFilesInformationalOnly : Bool
  FlagCapabilityInformationalOnly : Bool
deriving DecidableEq, Repr

/-- The struct `filePermsConfigType`. A `map[int]bool` whose values are all `true` is
the list of its keys, without repetition. -/
structure filePermsConfigType where
  Suid : Bool
  SuidAllowedList : GoMap Bool
  WorldWrite : Bool
  SELinuxLabel : Bool
  Uids : List Int
  Gids : List Int
  BadFiles : GoMap Bool
  BadFilesInformationalOnly : Bool
  FlagCapabilityInformationalOnly : Bool
deriving DecidableEq, Repr

/-- Map assignment `m[k] = true` on a `map[int]bool`. -/
def intSetInsert (m : List Int) (k : Int) : List Int := if k ∈ m then m else m ++ [k]

/-- Embeds `New` on the decoded configuration. -/
def New (conf : filePermsConfig) : filePermsConfigType :=
  let allowed := conf.SuidAllowedList.foldl
    (fun (m : GoMap Bool) alfn => m.insert (pathClean alfn) true) []
  let allowed := conf.SuidWhiteList.foldl
    (fun (m : GoMap Bool) wlfn => m.insert (pathClean wlfn) true) allowed
  ⟨conf.Suid, allowed, conf.WorldWrite, conf.SELinuxLabel,
    conf.Uids.foldl intSetInsert [], conf.Gids.foldl intSetInsert [],
    conf.BadFiles.foldl (fun (m : GoMap Bool) bf => m.insert (pathClean bf) true) [],
    conf.BadFilesInformationalOnly, conf.FlagCapabilityInformationalOnly⟩

/-- Model of the verb `%s` of `fmt.Sprintf` for a `[]string`. -/
def fmtStrings (l : List String) : String := "[" ++ String.intercalate " " l ++ "]"

/-- The loop `for item := range state.config.BadFiles` of `CheckFile` over the keys
`items`. `doublestarMatch` stands for `doublestar.Match`; the index expression
`item[0]` panics on an empty key. -/
def checkBadFiles (config : filePermsConfigType)
    (doublestarMatch : String → String → Except String Bool) (fi : FileInfo) (fpath : String) :
    List String → List ReportCall → List ReportCall × Go Unit
  | [], calls => (calls, .ok ())
  | item :: items, calls =>
    match item.data.head? with
    | none => (calls, .error (.panic "index out of range"))
    | some c =>
      let fullpath := if c = '/' then pathJoin fpath fi.Name else fi.Name
      match doublestarMatch item fullpath with
      | .error err => (calls, .error (.error err))
      | .ok m =>
        if m then
          let msg :=
            if item ≠ fullpath then "File not allowed for pattern: " ++ item
            else "File not allowed"
          if config.BadFilesInformationalOnly then
            checkBadFiles config doublestarMatch fi fpath items
              (calls ++ [.AddInformational (pathJoin fpath fi.Name) msg])
          else
            checkBadFiles config doublestarMatch fi fpath items
              (calls ++ [.AddOffender (pathJoin fpath fi.Name) msg])
        else checkBadFiles config doublestarMatch fi fpath items calls

/-- Embeds `CheckFile`: the `AddOffender` and `AddInformational` calls it makes, in
order, and what it returns. -/
def CheckFile (config : filePermsConfigType)
    (doublestarMatch : String → String → Except String Bool) (fi : FileInfo) (fpath : String) :
    List ReportCall × Go Unit :=
  let fn := pathJoin fpath fi.Name
  let c1 : List ReportCall :=
    if config.Suid && (fi.IsSUid || fi.IsSGid) && (config.SuidAllowedList.get fn).isNone then
      [.AddOffender fn "File is SUID, not allowed"]
    else []
  let c2 : List ReportCall :=
    if config.WorldWrite && fi.IsWorldWrite && !fi.IsLink && !fi.IsDir then
      [.AddOffender fn "File is WorldWriteable, not allowed"]
    else []
  let c3 : List ReportCall :=
    if config.SELinuxLabel && fi.SELinuxLabel == SELinuxNoLabel then
      [.AddOffender fn "File does not have SELinux label"]
    else []
  let c4 : List ReportCall :=
    if decide (config.Uids.length > 0) && !decide (fi.Uid ∈ config.Uids) then
      [.AddOffender fn ("File Uid not allowed, Uid = " ++ filetree.fmtInt fi.Uid)]
    else []
  let c5 : List ReportCall :=
    if decide (config.Gids.length > 0) && !decide (fi.Gid ∈ config.Gids) then
      [.AddOffender fn ("File Gid not allowed, Gid = " ++ filetree.fmtInt fi.Gid)]
    else []
  let c6 : List ReportCall :=
    if config.FlagCapabilityInformationalOnly && decide (fi.Capabilities.length > 0) then
      [.AddInformational fn ("Capabilities found: " ++ fmtStrings fi.Capabilities)]
    else []
  checkBadFiles config doublestarMatch fi fpath (config.BadFiles.map Prod.fst)
    (c1 ++ c2 ++ c3 ++ c4 ++ c5 ++ c6)

/-- The decoded configuration of `TestGlobal`, reduced to the SUID check. -/
def demoPermsConfig : filePermsConfig :=
  ⟨true, ["/shouldbesuid"], [], false, false, [], [], [], false, false⟩

/-- The set-user-ID entry `suid` of `TestGlobal`. -/
def demoSuid : FileInfo := ⟨0, 0o4000, 0, 0, "", [], "suid", ""⟩

/-- The allowed set-user-ID entry `shouldbesuid` of `TestGlobal`. -/
def demoAllowedSuid : FileInfo := ⟨0, 0o4000, 0, 0, "", [], "shouldbesuid", ""⟩

end globalfilechecks

end Fwanalyzer

namespace Fwanalyzer

/-! ## Auxiliary facts -/

theorem and_two_pow_beq (w k : Nat) : (w &&& 2 ^ k == 2 ^ k) = w.testBit k := by
  cases h : w.testBit k
  · rw [beq_eq_false_iff_ne]
    intro heq
    have h1 : (w &&& 2 ^ k).testBit k = true := by rw [heq]; exact Nat.testBit_two_pow_self
    rw [Nat.testBit_and, h] at h1
    simp at h1
  · rw [beq_iff_eq]
    apply Nat.eq_of_testBit_eq
    intro j
    rw [Nat.testBit_and, Nat.testBit_two_pow]
    by_cases hj : k = j
    · subst hj; simp [h]
    · simp [hj]

namespace capability

theorem capMask_eq (cap : Nat) : capMask cap = 2 ^ (cap &&& 31) := by
  unfold capMask u32
  rw [Nat.one_shiftLeft]
  apply Nat.mod_eq_of_lt
  have h : cap &&& 31 ≤ 31 := Nat.and_le_right
  exact Nat.pow_lt_pow_right (by decide) (by omega)

theorem capIndex_eq (cap : Nat) : capIndex cap = cap / 32 * 2 := by
  unfold capIndex capOffset
  rw [Nat.shiftRight_eq_div_pow]

theorem and_31_eq (cap : Nat) : cap &&& 31 = cap % 32 :=
  Nat.and_pow_two_sub_one_eq_mod cap 5

theorem capHasCap_eq (v : List Nat) (hv : v.length = 4) (i pl : Nat) (hi : i ≤ 37)
    (hpl : pl ≤ 1) : capHasCap v (u32 i) pl = .ok (planeBit v i pl) := by
  have hu : u32 i = i := Nat.mod_eq_of_lt (by omega)
  have hidx : (i >>> 5) * 2 + pl < v.length := by
    rw [Nat.shiftRight_eq_div_pow]; omega
  unfold capHasCap planeBit
  rw [hu, capMask_eq, capIndex, capOffset, goIndex, List.get?_eq_getElem?,
    List.getElem?_eq_getElem hidx]
  simp only [bind, Except.bind, pure, Except.pure]
  rw [and_two_pow_beq, List.getD_eq_getElem?_getD, List.getElem?_eq_getElem hidx]
  rfl

theorem capToTextStep_eq (v : List Nat) (hv : v.length = 4) (out : List String) (i : Nat)
    (name : String) (hi : i ≤ 37) :
    capToTextStep v out i name = .ok (out ++
      if planeBit v i 0 || planeBit v i 1 then
        [stringsToLower name ++ "+" ++ (if planeBit v i 0 then "p" else "")
          ++ (if planeBit v i 1 then "i" else "")]
      else []) := by
  unfold capToTextStep
  rw [CAP_PERMITTED, CAP_INHERITABLE, capHasCap_eq v hv i 0 hi (by omega),
    capHasCap_eq v hv i 1 hi (by omega)]
  simp only [bind, Except.bind, pure, Except.pure]
  cases planeBit v i 0 <;> cases planeBit v i 1 <;> simp

theorem capToText_loop (v : List Nat) (hv : v.length = 4) :
    ∀ (names : List String) (start : Nat) (out : List String), start + names.length ≤ 38 →
      (names.enumFrom start).foldlM (fun out p => capToTextStep v out p.1 p.2) out
        = .ok (out ++ ((names.enumFrom start).filter
            (fun p => planeBit v p.1 0 || planeBit v p.1 1)).map
            (fun p => stringsToLower p.2 ++ "+" ++ (if planeBit v p.1 0 then "p" else "")
              ++ (if planeBit v p.1 1 then "i" else ""))) := by
  intro names
  induction names with
  | nil => intro start out _; simp [pure, Except.pure]
  | cons n ns ih =>
    intro start out h
    simp only [List.length_cons] at h
    rw [List.enumFrom_cons, List.foldlM_cons, capToTextStep_eq v hv out start n (by omega)]
    simp only [bind, Except.bind]
    rw [ih (start + 1) _ (by omega)]
    cases h0 : planeBit v start 0 <;> cases h1 : planeBit v start 1 <;>
      simp [List.filter_cons, h0, h1]

theorem enum_CapabilityNames :
    CapabilityNames.enum = (List.range 38).map (fun i => (i, CapabilityNames.getD i "")) := by
  decide

theorem capToText_eq_spec (v : List Nat) (hv : v.length = 4) :
    capToText v = .ok (capToTextSpec v) := by
  unfold capToText
  rw [List.enum, capToText_loop v hv CapabilityNames 0 [] (by decide), ← List.enum,
    enum_CapabilityNames]
  simp only [List.nil_append, capToTextSpec, presentCaps, capToken, List.filter_map,
    List.map_map]
  rfl

theorem takeWhile_append_plus (l r : List Char) (h : '+' ∉ l) :
    (l ++ '+' :: r).takeWhile (fun c => c != '+') = l := by
  induction l with
  | nil => simp [List.takeWhile]
  | cons a l ih =>
    simp only [List.mem_cons, not_or] at h
    have ha : (a != '+') = true := by
      rw [bne_iff_ne]; exact fun e => h.1 e.symm
    simp [List.takeWhile, ha, ih h.2]

theorem lowerName_no_plus :
    ∀ c, c < 38 → '+' ∉ (stringsToLower (CapabilityNames.getD c "")).data := by
  decide

theorem lowerName_inj : ∀ c, c < 38 → ∀ d, d < 38 →
    stringsToLower (CapabilityNames.getD c "") = stringsToLower (CapabilityNames.getD d "") →
    c = d := by
  decide

theorem capToken_data (c : Nat) (p i : Bool) :
    (capToken c p i).data = (stringsToLower (CapabilityNames.getD c "")).data ++
      '+' :: ((if p then ['p'] else []) ++ (if i then ['i'] else [])) := by
  cases p <;> cases i <;> simp [capToken]

theorem capToken_inj (c d : Nat) (hc : c ≤ 37) (hd : d ≤ 37) (p i q j : Bool)
    (h : capToken c p i = capToken d q j) : c = d ∧ p = q ∧ i = j := by
  have hdata := congrArg String.data h
  rw [capToken_data, capToken_data] at hdata
  have hname := congrArg (List.takeWhile (fun c => c != '+')) hdata
  rw [takeWhile_append_plus _ _ (lowerName_no_plus c (by omega)),
    takeWhile_append_plus _ _ (lowerName_no_plus d (by omega))] at hname
  have hcd : c = d := lowerName_inj c (by omega) d (by omega) (String.ext hname)
  subst hcd
  have hs := List.append_cancel_left hdata
  refine ⟨rfl, ?_⟩
  cases p <;> cases i <;> cases q <;> cases j <;> simp at hs <;> simp

theorem mem_presentCaps (v : List Nat) (i : Nat) :
    i ∈ presentCaps v ↔ i ≤ 37 ∧ (planeBit v i 0 = true ∨ planeBit v i 1 = true) := by
  simp only [presentCaps, List.mem_filter, List.mem_range, Bool.or_eq_true]
  constructor
  · rintro ⟨h1, h2⟩; exact ⟨by omega, h2⟩
  · rintro ⟨h1, h2⟩; exact ⟨by omega, h2⟩

theorem presentCaps_sorted (v : List Nat) : (presentCaps v).Sorted (· < ·) :=
  List.Pairwise.filter _ (List.sorted_lt_range 38)

theorem capToTextSpec_nodup (v : List Nat) : (capToTextSpec v).Nodup := by
  unfold capToTextSpec
  apply List.Nodup.map_on
  · intro x hx y hy hxy
    rw [mem_presentCaps] at hx hy
    exact (capToken_inj x y hx.1 hy.1 _ _ _ _ hxy).1
  · exact (presentCaps_sorted v).nodup

theorem capSet_ok (v : List Nat) (hv : v.length = 4) (c pl : Nat) (hc : c ≤ 37) (hpl : pl ≤ 1) :
    ∃ w, capSet v c pl = .ok w ∧ w.length = 4 ∧
      ∀ i, i ≤ 37 → ∀ q, q ≤ 1 →
        planeBit w i q = (planeBit v i q || decide (i = c ∧ q = pl)) := by
  have hidx : (c >>> 5) * 2 + pl < v.length := by
    rw [Nat.shiftRight_eq_div_pow]; omega
  refine ⟨v.set ((c >>> 5) * 2 + pl) (v[(c >>> 5) * 2 + pl] ||| 2 ^ (c &&& 31)), ?_, ?_, ?_⟩
  · unfold capSet
    have hval : capValid c = true := by simp [capValid, CAP_LAST_CAP, hc]
    rw [hval, capMask_eq, capIndex, capOffset, goIndex, List.get?_eq_getElem?,
      List.getElem?_eq_getElem hidx]
    rfl
  · simpa using hv
  · intro i hi q hq
    unfold planeBit
    rw [List.getD_eq_getElem?_getD, List.getD_eq_getElem?_getD, List.getElem?_set]
    by_cases hw : (c >>> 5) * 2 + pl = (i >>> 5) * 2 + q
    · rw [if_pos hw, if_pos hidx, ← hw, List.getElem?_eq_getElem hidx]
      simp only [Option.getD_some, Nat.testBit_or, Nat.testBit_two_pow]
      congr 1
      rw [Nat.shiftRight_eq_div_pow, Nat.shiftRight_eq_div_pow] at hw
      rw [and_31_eq, and_31_eq]
      apply decide_eq_decide.mpr
      constructor
      · intro h; constructor <;> omega
      · rintro ⟨h1, h2⟩; subst h1; rfl
    · rw [if_neg hw]
      have hne : ¬ (i = c ∧ q = pl) := by
        rintro ⟨h1, h2⟩; subst h1; subst h2; exact hw rfl
      simp [hne]

theorem encode_loop : ∀ (S : List (Nat × Nat)) (v : List Nat), v.length = 4 →
    (∀ x ∈ S, x.1 ≤ 37 ∧ x.2 ≤ 1) →
    ∃ w, S.foldlM (fun caps x => capSet caps x.1 x.2) v = .ok w ∧ w.length = 4 ∧
      ∀ i, i ≤ 37 → ∀ q, q ≤ 1 → planeBit w i q = (planeBit v i q || decide ((i, q) ∈ S)) := by
  intro S
  induction S with
  | nil => intro v hv _; exact ⟨v, rfl, hv, by simp⟩
  | cons x S ih =>
    intro v hv hS
    have hx := hS x (List.mem_cons_self _ _)
    obtain ⟨w1, hw1, hl1, hb1⟩ := capSet_ok v hv x.1 x.2 hx.1 hx.2
    obtain ⟨w, hw, hl, hb⟩ := ih w1 hl1 (fun y hy => hS y (List.mem_cons_of_mem _ hy))
    refine ⟨w, ?_, hl, ?_⟩
    · rw [List.foldlM_cons, hw1]; exact hw
    · intro i hi q hq
      rw [hb i hi q hq, hb1 i hi q hq, Bool.or_assoc]
      congr 1
      rw [← Bool.decide_or]
      apply decide_eq_decide.mpr
      rw [List.mem_cons]
      constructor
      · rintro (⟨h1, h2⟩ | h)
        · left; exact Prod.ext h1 h2
        · right; exact h
      · rintro (h | h)
        · left; rw [← h]; exact ⟨rfl, rfl⟩
        · right; exact h

theorem encodeCaps_ok (S : List (Nat × Nat)) (hS : ∀ x ∈ S, x.1 ≤ 37 ∧ x.2 ≤ 1) :
    ∃ w, encodeCaps S = .ok w ∧ w.length = 4 ∧
      ∀ i, i ≤ 37 → ∀ q, q ≤ 1 → planeBit w i q = decide ((i, q) ∈ S) := by
  obtain ⟨w, hw, hl, hb⟩ := encode_loop S [0, 0, 0, 0] rfl hS
  refine ⟨w, hw, hl, ?_⟩
  intro i hi q hq
  rw [hb i hi q hq]
  have hz : planeBit [0, 0, 0, 0] i q = false := by
    unfold planeBit
    have h0 : List.getD [0, 0, 0, 0] ((i >>> 5) * 2 + q) 0 = 0 := by
      rw [Nat.shiftRight_eq_div_pow]
      have : i / 2 ^ 5 * 2 + q = 0 ∨ i / 2 ^ 5 * 2 + q = 1 ∨ i / 2 ^ 5 * 2 + q = 2 ∨
          i / 2 ^ 5 * 2 + q = 3 := by omega
      rcases this with h | h | h | h <;> rw [h] <;> rfl
    rw [h0, Nat.zero_testBit]
  rw [hz, Bool.false_or]

theorem capToken_forms (c : Nat) :
    capToken c true false = stringsToLower (CapabilityNames.getD c "") ++ "+p" ∧
    capToken c false true = stringsToLower (CapabilityNames.getD c "") ++ "+i" ∧
    capToken c true true = stringsToLower (CapabilityNames.getD c "") ++ "+pi" := by
  refine ⟨?_, ?_, ?_⟩ <;> apply String.ext <;> simp [capToken]

theorem capsParse_20 (b0 b1 b2 b3 b4 b5 b6 b7 b8 b9 b10 b11 b12 b13 b14 b15 b16 b17 b18 b19 : Byte) :
    capsParse (ByteSlice.ofList
      [b0, b1, b2, b3, b4, b5, b6, b7, b8, b9, b10, b11, b12, b13, b14, b15, b16, b17, b18, b19]) 20
    = .ok [u32 (b4.val + b5.val * 2 ^ 8 + b6.val * 2 ^ 16 + b7.val * 2 ^ 24),
           u32 (b8.val + b9.val * 2 ^ 8 + b10.val * 2 ^ 16 + b11.val * 2 ^ 24),
           u32 (b12.val + b13.val * 2 ^ 8 + b14.val * 2 ^ 16 + b15.val * 2 ^ 24),
           u32 (b16.val + b17.val * 2 ^ 8 + b18.val * 2 ^ 16 + b19.val * 2 ^ 24)] := by
  rfl

theorem le_putUint32 (w : Nat) :
    u32 ((Fin.ofNat w : Byte).val + (Fin.ofNat (w >>> 8) : Byte).val * 2 ^ 8
      + (Fin.ofNat (w >>> 16) : Byte).val * 2 ^ 16 + (Fin.ofNat (w >>> 24) : Byte).val * 2 ^ 24)
    = w % 2 ^ 32 := by
  unfold u32
  simp only [Fin.ofNat, Nat.shiftRight_eq_div_pow]
  omega

theorem capsParse_capBlob (m : List Byte) (hm : m.length = 4) (w1 w2 w3 w4 : Nat) :
    capsParse (capBlob m [w1, w2, w3, w4]) 20
      = .ok [w1 % 2 ^ 32, w2 % 2 ^ 32, w3 % 2 ^ 32, w4 % 2 ^ 32] := by
  match m, hm with
  | [m0, m1, m2, m3], _ =>
    have h : capBlob [m0, m1, m2, m3] [w1, w2, w3, w4] = ByteSlice.ofList
        [m0, m1, m2, m3, Fin.ofNat w1, Fin.ofNat (w1 >>> 8), Fin.ofNat (w1 >>> 16),
          Fin.ofNat (w1 >>> 24), Fin.ofNat w2, Fin.ofNat (w2 >>> 8), Fin.ofNat (w2 >>> 16),
          Fin.ofNat (w2 >>> 24), Fin.ofNat w3, Fin.ofNat (w3 >>> 8), Fin.ofNat (w3 >>> 16),
          Fin.ofNat (w3 >>> 24), Fin.ofNat w4, Fin.ofNat (w4 >>> 8), Fin.ofNat (w4 >>> 16),
          Fin.ofNat (w4 >>> 24)] := rfl
    rw [h, capsParse_20, le_putUint32, le_putUint32, le_putUint32, le_putUint32]

theorem oneBitWords_lt (c pl : Nat) :
    oneBitWords c pl = (oneBitWords c pl).map (fun w => w % 2 ^ 32) := by
  have hk : (1 : Nat) <<< (c &&& 31) < 2 ^ 32 := by
    rw [Nat.one_shiftLeft]
    have h : c &&& 31 ≤ 31 := Nat.and_le_right
    exact Nat.pow_lt_pow_right (by decide) (by omega)
  unfold oneBitWords
  rw [List.map_map]
  apply List.map_congr_left
  intro j _
  simp only [Function.comp]
  split
  · exact (Nat.mod_eq_of_lt hk).symm
  · rfl

theorem capToTextSpec_oneBit : ∀ c, c < 38 → ∀ pl, pl < 2 →
    capToTextSpec (oneBitWords c pl) = [capToken c (decide (pl = 0)) (decide (pl = 1))] := by
  decide

theorem New_bytes_oneBit (m : List Byte) (hm : m.length = 4) (c pl : Nat) (hc : c ≤ 37)
    (hpl : pl ≤ 1) :
    New (.bytes (capBlob m (oneBitWords c pl)))
      = .ok [capToken c (decide (pl = 0)) (decide (pl = 1))] := by
  have hw : oneBitWords c pl = [(oneBitWords c pl).getD 0 0, (oneBitWords c pl).getD 1 0,
      (oneBitWords c pl).getD 2 0, (oneBitWords c pl).getD 3 0] := rfl
  have hp : capsParse (capBlob m (oneBitWords c pl)) 20 = .ok (oneBitWords c pl) := by
    conv_lhs => rw [hw]
    rw [capsParse_capBlob m hm]
    conv_rhs => rw [oneBitWords_lt, hw]
    rfl
  have hlen : (oneBitWords c pl).length = 4 := rfl
  unfold New
  simp only [hp]
  rw [capToText_eq_spec _ hlen, capToTextSpec_oneBit c (by omega) pl (by omega)]

theorem New_bytes_magic (m n : List Byte) (hm : m.length = 4) (hn : n.length = 4)
    (body : List Byte) (hb : body.length = 16) :
    New (.bytes (ByteSlice.ofList (m ++ body))) = New (.bytes (ByteSlice.ofList (n ++ body))) := by
  match m, hm, n, hn, body, hb with
  | [m0, m1, m2, m3], _, [n0, n1, n2, n3], _,
    [b4, b5, b6, b7, b8, b9, b10, b11, b12, b13, b14, b15, b16, b17, b18, b19], _ =>
    unfold New
    simp only [List.cons_append, List.nil_append, capsParse_20]

end capability

end Fwanalyzer

/-! ## Auxiliary facts: analyzer engine -/

namespace Fwanalyzer

namespace analyzer

open fsparser

theorem Frame.refl {W : Type} (a : Analyzer W) : Frame a a := ⟨rfl, rfl, rfl⟩

theorem Frame.trans {W : Type} {a b c : Analyzer W} (h1 : Frame a b) (h2 : Frame b c) :
    Frame a c :=
  ⟨h2.1.trans h1.1, h2.2.1.trans h1.2.1, h2.2.2.trans h1.2.2⟩

theorem enum_map_fst {α : Type} (l : List α) : l.enum.map Prod.fst = List.range l.length := by
  rw [List.enum_eq_zip_range]
  exact List.map_fst_zip _ _ (by simp)

theorem enum_snd_mem {α : Type} (l : List α) (x : Nat × α) (h : x ∈ l.enum) : x.2 ∈ l := by
  have : x.2 ∈ l.enum.map Prod.snd := List.mem_map_of_mem _ h
  rwa [List.enum_map_snd] at this

theorem checkPlugins_run {W : Type} (fi : FileInfo) (cp : String) :
    ∀ (aps : List (Nat × AnalyzerPluginType W)) (a : Analyzer W),
      Frame a (checkPlugins fi cp aps a).1 ∧
      ∃ cs, (checkPlugins fi cp aps a).1.calls = a.calls ++ cs ∧
        (((checkPlugins fi cp aps a).2 = none ∧
            cs = (aps.map Prod.fst).map (fun i => Call.CheckFile i fi cp none)) ∨
         (∃ e, (checkPlugins fi cp aps a).2 = some e ∧ ∃ c ∈ cs, c.isFailedCheck = true)) := by
  intro aps
  induction aps with
  | nil => intro a; exact ⟨Frame.refl a, [], by simp [checkPlugins], Or.inl ⟨rfl, rfl⟩⟩
  | cons x aps ih =>
    intro a
    obtain ⟨i, ap⟩ := x
    simp only [checkPlugins]
    cases hr : (ap.CheckFile fi cp a.world).2 with
    | some e =>
      exact ⟨⟨rfl, rfl, rfl⟩, [Call.CheckFile i fi cp (some e)], rfl,
        Or.inr ⟨e, rfl, _, List.mem_singleton.mpr rfl, rfl⟩⟩
    | none =>
      obtain ⟨hf, cs, hcs, hcase⟩ := ih ⟨a.fsparser, a.analyzers, a.PluginReports,
        (ap.CheckFile fi cp a.world).1, a.calls ++ [Call.CheckFile i fi cp none]⟩
      refine ⟨⟨hf.1, hf.2.1, hf.2.2⟩, Call.CheckFile i fi cp none :: cs, ?_, ?_⟩
      · rw [hcs]; simp
      · rcases hcase with ⟨h1, h2⟩ | ⟨e, h1, c, hc, hfail⟩
        · exact Or.inl ⟨h1, by rw [h2]; rfl⟩
        · exact Or.inr ⟨e, h1, c, List.mem_cons_of_mem _ hc, hfail⟩

theorem checkPlugins_enum_run {W : Type} (fi : FileInfo) (cp : String) (a : Analyzer W) :
    Frame a (checkPlugins fi cp a.analyzers.enum a).1 ∧
    ∃ cs, (checkPlugins fi cp a.analyzers.enum a).1.calls = a.calls ++ cs ∧
      (((checkPlugins fi cp a.analyzers.enum a).2 = none ∧
          cs = checkCalls a.analyzers.length (fi, cp)) ∨
       (∃ e, (checkPlugins fi cp a.analyzers.enum a).2 = some e ∧
          ∃ c ∈ cs, c.isFailedCheck = true)) := by
  have := checkPlugins_run fi cp a.analyzers.enum a
  rw [enum_map_fst] at this
  exact this

theorem iterateDir_run {W : Type} (fs : FsParser) (n : Nat)
    (descend : Analyzer W → String → Analyzer W × WalkStatus)
    (spec : String → Option (List (FileInfo × String)))
    (hrec : ∀ (a : Analyzer W) (p : String) (es : List (FileInfo × String)),
      a.fsparser = fs → a.analyzers.length = n → spec p = some es →
      Frame a (descend a p).1 ∧
      ∃ cs, (descend a p).1.calls = a.calls ++ cs ∧
        (((descend a p).2 = .ok ∧ cs = es.flatMap (checkCalls n)) ∨
         (∃ e, (descend a p).2 = .error e ∧ ∃ c ∈ cs, c.isFailedCheck = true)))
    (curpath : String) :
    ∀ (dir : List FileInfo) (a : Analyzer W) (es : List (FileInfo × String)),
      a.fsparser = fs → a.analyzers.length = n → walkDir spec curpath dir = some es →
      Frame a (iterateDir descend curpath dir a).1 ∧
      ∃ cs, (iterateDir descend curpath dir a).1.calls = a.calls ++ cs ∧
        (((iterateDir descend curpath dir a).2 = .ok ∧ cs = es.flatMap (checkCalls n)) ∨
         (∃ e, (iterateDir descend curpath dir a).2 = .error e ∧
            ∃ c ∈ cs, c.isFailedCheck = true)) := by
  intro dir
  induction dir with
  | nil =>
    intro a es _ _ hw
    simp only [walkDir, Option.some.injEq] at hw
    subst hw
    exact ⟨Frame.refl a, [], by simp [iterateDir], Or.inl ⟨rfl, rfl⟩⟩
  | cons fi dir ih =>
    intro a es hfs hn hw
    obtain ⟨hf1, cs1, hcs1, hcase1⟩ := checkPlugins_enum_run fi curpath a
    rw [hn] at hcase1
    rcases hres : checkPlugins fi curpath a.analyzers.enum a with ⟨a1, r1⟩
    rw [hres] at hf1 hcs1 hcase1
    simp only at hf1 hcs1 hcase1
    simp only [iterateDir, hres]
    rcases hcase1 with ⟨hr1, hcs1eq⟩ | ⟨e, hr1, c, hc, hfail⟩
    · subst hr1
      have hfs1 : a1.fsparser = fs := hf1.1.trans hfs
      have hn1 : a1.analyzers.length = n := by rw [hf1.2.1]; exact hn
      simp only [walkDir] at hw
      simp only
      by_cases hd : fi.IsDir = true
      · simp only [hd, if_true] at hw ⊢
        cases hb : spec (pathJoin curpath fi.Name) with
        | none => simp [hb] at hw
        | some below =>
          simp only [hb] at hw
          cases hm : walkDir spec curpath dir with
          | none => simp [hm] at hw
          | some more =>
            simp only [hm, Option.some.injEq] at hw
            subst hw
            obtain ⟨hf2, cs2, hcs2, hcase2⟩ := hrec a1 (pathJoin curpath fi.Name) below hfs1 hn1 hb
            rcases hdes : descend a1 (pathJoin curpath fi.Name) with ⟨a2, st⟩
            rw [hdes] at hf2 hcs2 hcase2
            simp only at hf2 hcs2 hcase2
            have hcs12 : a2.calls = a.calls ++ (cs1 ++ cs2) := by
              rw [hcs2, hcs1, List.append_assoc]
            rcases hcase2 with ⟨hst, hcs2eq⟩ | ⟨e, hst, c, hc, hfail⟩
            · subst hst
              have hfs2 : a2.fsparser = fs := hf2.1.trans hfs1
              have hn2 : a2.analyzers.length = n := by rw [hf2.2.1]; exact hn1
              obtain ⟨hf3, cs3, hcs3, hcase3⟩ := ih a2 more hfs2 hn2 hm
              simp only
              refine ⟨(hf1.trans hf2).trans hf3, cs1 ++ cs2 ++ cs3, ?_, ?_⟩
              · rw [hcs3, hcs12]; simp
              · rcases hcase3 with ⟨h1, h2⟩ | ⟨e, h1, c, hc, hfail⟩
                · refine Or.inl ⟨h1, ?_⟩
                  rw [hcs1eq, hcs2eq, h2]
                  simp [List.flatMap_cons, List.flatMap_append, List.append_assoc]
                · exact Or.inr ⟨e, h1, c, List.mem_append_right _ hc, hfail⟩
            · subst hst
              exact ⟨hf1.trans hf2, cs1 ++ cs2, hcs12,
                Or.inr ⟨e, rfl, c, List.mem_append_right _ hc, hfail⟩⟩
      · simp only [hd, Bool.false_eq_true, if_false] at hw ⊢
        cases hm : walkDir spec curpath dir with
        | none => simp [hm] at hw
        | some more =>
          simp only [hm, Option.some.injEq] at hw
          subst hw
          obtain ⟨hf3, cs3, hcs3, hcase3⟩ := ih a1 more hfs1 hn1 hm
          refine ⟨hf1.trans hf3, cs1 ++ cs3, ?_, ?_⟩
          · rw [hcs3, hcs1, List.append_assoc]
          · rcases hcase3 with ⟨h1, h2⟩ | ⟨e, h1, c, hc, hfail⟩
            · refine Or.inl ⟨h1, ?_⟩
              rw [hcs1eq, h2]
              simp [List.flatMap_cons, List.append_assoc]
            · exact Or.inr ⟨e, h1, c, List.mem_append_right _ hc, hfail⟩
    · subst hr1
      exact ⟨hf1, cs1, hcs1, Or.inr ⟨e, rfl, c, hc, hfail⟩⟩

theorem iterateFiles_run {W : Type} (fs : FsParser) (n : Nat) :
    ∀ (fuel : Nat) (a : Analyzer W) (p : String) (es : List (FileInfo × String)),
      a.fsparser = fs → a.analyzers.length = n → walkEntries fs fuel p = some es →
      Frame a (iterateFiles fuel a p).1 ∧
      ∃ cs, (iterateFiles fuel a p).1.calls = a.calls ++ cs ∧
        (((iterateFiles fuel a p).2 = .ok ∧ cs = es.flatMap (checkCalls n)) ∨
         (∃ e, (iterateFiles fuel a p).2 = .error e ∧ ∃ c ∈ cs, c.isFailedCheck = true)) := by
  intro fuel
  induction fuel with
  | zero => intro a p es _ _ hw; simp [walkEntries] at hw
  | succ fuel ih =>
    intro a p es hfs hn hw
    simp only [walkEntries] at hw
    simp only [iterateFiles, hfs]
    cases hg : fs.GetDirInfo p with
    | error e => simp [hg] at hw
    | ok dir =>
      simp only [hg] at hw ⊢
      exact iterateDir_run fs n (iterateFiles fuel) (walkEntries fs fuel) ih p dir a es hfs hn hw

theorem startPlugins_log {W : Type} :
    ∀ (aps : List (Nat × AnalyzerPluginType W)) (a : Analyzer W),
      Frame a (startPlugins aps a) ∧
      (startPlugins aps a).calls = a.calls ++ (aps.map Prod.fst).map Call.Start := by
  intro aps
  induction aps with
  | nil => intro a; exact ⟨Frame.refl a, by simp [startPlugins]⟩
  | cons x aps ih =>
    intro a
    obtain ⟨i, ap⟩ := x
    have ih1 := ih ⟨a.fsparser, a.analyzers, a.PluginReports, ap.Start a.world,
      a.calls ++ [Call.Start i]⟩
    simp only [startPlugins]
    refine ⟨⟨ih1.1.1, ih1.1.2.1, ih1.1.2.2⟩, ?_⟩
    rw [ih1.2]
    simp

theorem addPluginReport_frame {W : Type} (unmarshal : String → Option (List (String × String)))
    (a : Analyzer W) (report : String) :
    (addPluginReport unmarshal a report).fsparser = a.fsparser ∧
    (addPluginReport unmarshal a report).analyzers = a.analyzers ∧
    (addPluginReport unmarshal a report).calls = a.calls := by
  unfold addPluginReport
  cases unmarshal report <;> exact ⟨rfl, rfl, rfl⟩

theorem finalizePlugins_log {W : Type} (unmarshal : String → Option (List (String × String))) :
    ∀ (aps : List (Nat × AnalyzerPluginType W)) (a : Analyzer W),
      (finalizePlugins unmarshal aps a).calls
        = a.calls ++ (aps.map Prod.fst).map Call.Finalize := by
  intro aps
  induction aps with
  | nil => intro a; simp [finalizePlugins]
  | cons x aps ih =>
    intro a
    obtain ⟨i, ap⟩ := x
    simp only [finalizePlugins]
    rw [ih, (addPluginReport_frame unmarshal _ _).2.2]
    simp

theorem walkDir_forest (fs : FsParser) (fuel : Nat) (p : String)
    (hrec : ∀ (q : String) (g : Forest), fs.GetDirInfo q = .ok g.infos →
      g.dirsListed fs q = true → g.depth < fuel → walkEntries fs fuel q = some (g.visits q)) :
    ∀ f : Forest, f.dirsListed fs p = true → f.depth ≤ fuel →
      walkDir (walkEntries fs fuel) p f.infos = some (f.visits p) := by
  intro f
  induction f with
  | nil => intro _ _; rfl
  | cons fi children rest _ ihr =>
    intro hl hd
    simp only [Forest.depth] at hd
    simp only [Forest.dirsListed, Bool.and_eq_true] at hl
    have hrest := ihr hl.2 (by omega)
    simp only [Forest.infos, walkDir, Forest.visits, hrest]
    by_cases hdir : fi.IsDir = true
    · simp only [hdir, if_true, Bool.and_eq_true, decide_eq_true_eq] at hl ⊢
      rw [hrec _ children hl.1.1 hl.1.2 (by omega)]
      simp
    · simp only [hdir, Bool.false_eq_true, if_false]
      simp

theorem walkEntries_forest (fs : FsParser) :
    ∀ (fuel : Nat) (p : String) (f : Forest), fs.GetDirInfo p = .ok f.infos →
      f.dirsListed fs p = true → f.depth < fuel → walkEntries fs fuel p = some (f.visits p) := by
  intro fuel
  induction fuel with
  | zero => intro p f _ _ hd; omega
  | succ fuel ih =>
    intro p f hg hl hd
    simp only [walkEntries, hg]
    exact walkDir_forest fs fuel p ih f hl (by omega)

theorem WalkLog.append {cs1 cs2 : List Call} {st : WalkStatus}
    (h1 : ∀ c ∈ cs1, c.isCleanCheck = true) (h2 : WalkLog cs2 st) : WalkLog (cs1 ++ cs2) st := by
  rcases h2 with h2 | ⟨pre, i, fi, p, e, hcs, hpre, hst⟩
  · left
    intro c hc
    rcases List.mem_append.mp hc with h | h
    · exact h1 c h
    · exact h2 c h
  · right
    refine ⟨cs1 ++ pre, i, fi, p, e, by rw [hcs, List.append_assoc], ?_, hst⟩
    intro c hc
    rcases List.mem_append.mp hc with h | h
    · exact h1 c h
    · exact hpre c h

theorem WalkLog.clean_of_ok {cs : List Call} (h : WalkLog cs .ok) :
    ∀ c ∈ cs, c.isCleanCheck = true := by
  rcases h with h | ⟨_, _, _, _, _, _, _, hst⟩
  · exact h
  · cases hst

theorem checkPlugins_log {W : Type} (fi : FileInfo) (cp : String) :
    ∀ (aps : List (Nat × AnalyzerPluginType W)) (a : Analyzer W),
      Frame a (checkPlugins fi cp aps a).1 ∧
      ∃ cs, (checkPlugins fi cp aps a).1.calls = a.calls ++ cs ∧
        WalkLog cs (statusOf (checkPlugins fi cp aps a).2) := by
  intro aps
  induction aps with
  | nil =>
    intro a
    exact ⟨Frame.refl a, [], by simp [checkPlugins], Or.inl (by simp)⟩
  | cons x aps ih =>
    intro a
    obtain ⟨i, ap⟩ := x
    simp only [checkPlugins]
    cases hr : (ap.CheckFile fi cp a.world).2 with
    | some e =>
      refine ⟨⟨rfl, rfl, rfl⟩, [Call.CheckFile i fi cp (some e)], rfl, Or.inr ?_⟩
      exact ⟨[], i, fi, cp, e, rfl, by simp, rfl⟩
    | none =>
      obtain ⟨hf, cs, hcs, hlog⟩ := ih ⟨a.fsparser, a.analyzers, a.PluginReports,
        (ap.CheckFile fi cp a.world).1, a.calls ++ [Call.CheckFile i fi cp none]⟩
      refine ⟨⟨hf.1, hf.2.1, hf.2.2⟩, Call.CheckFile i fi cp none :: cs, ?_, ?_⟩
      · rw [hcs]; simp
      · have hone : ∀ c ∈ [Call.CheckFile i fi cp none], c.isCleanCheck = true := by
          simp [Call.isCleanCheck]
        have := WalkLog.append hone hlog
        simpa using this

theorem iterateDir_log {W : Type} (descend : Analyzer W → String → Analyzer W × WalkStatus)
    (hrec : ∀ (a : Analyzer W) (p : String), Frame a (descend a p).1 ∧
      ∃ cs, (descend a p).1.calls = a.calls ++ cs ∧ WalkLog cs (descend a p).2)
    (curpath : String) :
    ∀ (dir : List FileInfo) (a : Analyzer W), Frame a (iterateDir descend curpath dir a).1 ∧
      ∃ cs, (iterateDir descend curpath dir a).1.calls = a.calls ++ cs ∧
        WalkLog cs (iterateDir descend curpath dir a).2 := by
  intro dir
  induction dir with
  | nil => intro a; exact ⟨Frame.refl a, [], by simp [iterateDir], Or.inl (by simp)⟩
  | cons fi dir ih =>
    intro a
    obtain ⟨hf1, cs1, hcs1, hlog1⟩ := checkPlugins_log fi curpath a.analyzers.enum a
    rcases hres : checkPlugins fi curpath a.analyzers.enum a with ⟨a1, r1⟩
    rw [hres] at hf1 hcs1 hlog1
    simp only at hf1 hcs1 hlog1
    simp only [iterateDir, hres]
    cases r1 with
    | some e => exact ⟨hf1, cs1, hcs1, hlog1⟩
    | none =>
      have hclean1 := WalkLog.clean_of_ok hlog1
      simp only
      by_cases hd : fi.IsDir = true
      · simp only [hd, if_true]
        obtain ⟨hf2, cs2, hcs2, hlog2⟩ := hrec a1 (pathJoin curpath fi.Name)
        rcases hdes : descend a1 (pathJoin curpath fi.Name) with ⟨a2, st⟩
        rw [hdes] at hf2 hcs2 hlog2
        simp only at hf2 hcs2 hlog2
        have hcs12 : a2.calls = a.calls ++ (cs1 ++ cs2) := by
          rw [hcs2, hcs1, List.append_assoc]
        cases st with
        | ok =>
          simp only
          obtain ⟨hf3, cs3, hcs3, hlog3⟩ := ih a2
          refine ⟨(hf1.trans hf2).trans hf3, cs1 ++ cs2 ++ cs3, ?_, ?_⟩
          · rw [hcs3, hcs12]; simp
          · apply WalkLog.append _ hlog3
            intro c hc
            rcases List.mem_append.mp hc with h | h
            · exact hclean1 c h
            · exact WalkLog.clean_of_ok hlog2 c h
        | error e =>
          exact ⟨hf1.trans hf2, cs1 ++ cs2, hcs12, WalkLog.append hclean1 hlog2⟩
        | fuelOut =>
          exact ⟨hf1.trans hf2, cs1 ++ cs2, hcs12, WalkLog.append hclean1 hlog2⟩
      · simp only [hd, Bool.false_eq_true, if_false]
        obtain ⟨hf3, cs3, hcs3, hlog3⟩ := ih a1
        refine ⟨hf1.trans hf3, cs1 ++ cs3, ?_, WalkLog.append hclean1 hlog3⟩
        rw [hcs3, hcs1, List.append_assoc]

theorem iterateFiles_log {W : Type} :
    ∀ (fuel : Nat) (a : Analyzer W) (p : String), Frame a (iterateFiles fuel a p).1 ∧
      ∃ cs, (iterateFiles fuel a p).1.calls = a.calls ++ cs ∧
        WalkLog cs (iterateFiles fuel a p).2 := by
  intro fuel
  induction fuel with
  | zero => intro a p; exact ⟨Frame.refl a, [], by simp [iterateFiles], Or.inl (by simp)⟩
  | succ fuel ih =>
    intro a p
    simp only [iterateFiles]
    cases a.fsparser.GetDirInfo p with
    | error e => exact ⟨Frame.refl a, [], by simp, Or.inl (by simp)⟩
    | ok dir => exact iterateDir_log (iterateFiles fuel) ih p dir a

theorem foldl_AddAnalyzerPlugin {W : Type} :
    ∀ (ps : List (AnalyzerPluginType W)) (a : Analyzer W),
      (ps.foldl AddAnalyzerPlugin a).analyzers = a.analyzers ++ ps ∧
      (ps.foldl AddAnalyzerPlugin a).fsparser = a.fsparser ∧
      (ps.foldl AddAnalyzerPlugin a).PluginReports = a.PluginReports ∧
      (ps.foldl AddAnalyzerPlugin a).calls = a.calls := by
  intro ps
  induction ps with
  | nil => intro a; simp
  | cons q ps ih =>
    intro a
    obtain ⟨h1, h2, h3, h4⟩ := ih (AddAnalyzerPlugin a q)
    simp only [List.foldl_cons]
    exact ⟨by rw [h1]; simp [AddAnalyzerPlugin], h2, h3, h4⟩

theorem registered_fields {W : Type} (fsp : FsParser) (w : W) (ps : List (AnalyzerPluginType W)) :
    (registered fsp w ps).analyzers = ps ∧ (registered fsp w ps).fsparser = fsp ∧
    (registered fsp w ps).PluginReports = [] ∧ (registered fsp w ps).calls = [] := by
  obtain ⟨h1, h2, h3, h4⟩ := foldl_AddAnalyzerPlugin ps (New fsp w)
  exact ⟨by rw [registered, h1]; simp [New], h2, h3, h4⟩

theorem RunPlugins_run {W : Type} (unmarshal : String → Option (List (String × String)))
    (fuel : Nat) (a : Analyzer W) (root : FileInfo) (es : List (FileInfo × String))
    (hroot : a.fsparser.GetFileInfo "/" = .ok root)
    (hwalk : walkEntries a.fsparser fuel "/" = some es) :
    ∃ cs, (RunPlugins unmarshal fuel a).1.calls
        = a.calls ++ startCalls a.analyzers.length ++ cs ∧
      (((RunPlugins unmarshal fuel a).2 = .returned ∧
          cs = ((root, "/") :: es).flatMap (checkCalls a.analyzers.length)
            ++ finalizeCalls a.analyzers.length) ∨
       (∃ e, (RunPlugins unmarshal fuel a).2 = .panicked ("RunPlugins error: " ++ e) ∧
          ∃ c ∈ cs, c.isFailedCheck = true)) := by
  obtain ⟨hs1, hs2⟩ := startPlugins_log a.analyzers.enum a
  rw [enum_map_fst] at hs2
  generalize hA1 : startPlugins a.analyzers.enum a = a1 at hs1 hs2
  obtain ⟨hf2, cs2, hcs2, hcase2⟩ := checkPlugins_enum_run root "/" a1
  have hroot1 : a1.fsparser.GetFileInfo "/" = .ok root := by rw [hs1.1]; exact hroot
  have hcr : checkRoot a1 = checkPlugins root "/" a1.analyzers.enum a1 := by
    simp only [checkRoot, hroot1]
  rcases hres : checkPlugins root "/" a1.analyzers.enum a1 with ⟨a2, r2⟩
  rw [hres] at hf2 hcs2 hcase2
  simp only at hf2 hcs2 hcase2
  have hn1 : a1.analyzers.length = a.analyzers.length := by rw [hs1.2.1]
  rw [hn1] at hcase2
  rcases hcase2 with ⟨hr2, hcs2eq⟩ | ⟨e, hr2, c, hc, hfail⟩
  · subst hr2
    have hn2 : a2.analyzers.length = a.analyzers.length := by rw [hf2.2.1]; exact hn1
    have hfs2 : a2.fsparser = a.fsparser := hf2.1.trans hs1.1
    obtain ⟨hf3, cs3, hcs3, hcase3⟩ := iterateFiles_run a.fsparser a.analyzers.length fuel a2 "/"
      es hfs2 hn2 hwalk
    rcases hit : iterateFiles fuel a2 "/" with ⟨a3, st⟩
    rw [hit] at hf3 hcs3 hcase3
    simp only at hf3 hcs3 hcase3
    have hcalls : a3.calls = a.calls ++ startCalls a.analyzers.length ++ (cs2 ++ cs3) := by
      rw [hcs3, hcs2, hs2, startCalls]; simp
    rcases hcase3 with ⟨hst, hcs3eq⟩ | ⟨e, hst, c, hc, hfail⟩
    · subst hst
      have hfin := finalizePlugins_log unmarshal a3.analyzers.enum a3
      rw [enum_map_fst] at hfin
      have hn3 : a3.analyzers.length = a.analyzers.length := by rw [hf3.2.1]; exact hn2
      have hrun : RunPlugins unmarshal fuel a
          = (finalizePlugins unmarshal a3.analyzers.enum a3, .returned) := by
        simp only [RunPlugins, hA1, hcr, hres, hit]
      rw [hrun]
      refine ⟨cs2 ++ cs3 ++ finalizeCalls a.analyzers.length, ?_, Or.inl ⟨rfl, ?_⟩⟩
      · simp only
        rw [hfin, hcalls, hn3, finalizeCalls]; simp
      · rw [hcs2eq, hcs3eq]
        simp [List.flatMap_cons, List.append_assoc]
    · subst hst
      have hrun : RunPlugins unmarshal fuel a = (a3, .panicked ("RunPlugins error: " ++ e)) := by
        simp only [RunPlugins, hA1, hcr, hres, hit]
      rw [hrun]
      exact ⟨cs2 ++ cs3, hcalls, Or.inr ⟨e, rfl, c, List.mem_append_right _ hc, hfail⟩⟩
  · subst hr2
    have hrun : RunPlugins unmarshal fuel a = (a2, .panicked ("RunPlugins error: " ++ e)) := by
      simp only [RunPlugins, hA1, hcr, hres]
    rw [hrun]
    refine ⟨cs2, ?_, Or.inr ⟨e, rfl, c, hc, hfail⟩⟩
    simp only
    rw [hcs2, hs2, startCalls]

theorem RunPlugins_log {W : Type} (unmarshal : String → Option (List (String × String)))
    (fuel : Nat) (a : Analyzer W) :
    ∃ cs, (RunPlugins unmarshal fuel a).1.calls = a.calls ++ startCalls a.analyzers.length ++ cs ∧
      (((RunPlugins unmarshal fuel a).2 = .returned ∧
          ∃ cs1, cs = cs1 ++ finalizeCalls a.analyzers.length ∧
            ∀ c ∈ cs1, c.isCleanCheck = true) ∨
       ((RunPlugins unmarshal fuel a).2 = .fuelOut ∧
          (RunPlugins unmarshal fuel a).1.PluginReports = a.PluginReports ∧
          ∀ c ∈ cs, c.isCleanCheck = true) ∨
       (∃ e, (RunPlugins unmarshal fuel a).2 = .panicked ("RunPlugins error: " ++ e) ∧
          (RunPlugins unmarshal fuel a).1.PluginReports = a.PluginReports ∧
          WalkLog cs (.error e))) := by
  obtain ⟨hs1, hs2⟩ := startPlugins_log a.analyzers.enum a
  rw [enum_map_fst] at hs2
  generalize hA1 : startPlugins a.analyzers.enum a = a1 at hs1 hs2
  have hroot : Frame a1 (checkRoot a1).1 ∧ ∃ cs, (checkRoot a1).1.calls = a1.calls ++ cs ∧
      WalkLog cs (statusOf (checkRoot a1).2) := by
    unfold checkRoot
    cases a1.fsparser.GetFileInfo "/" with
    | error e => exact ⟨Frame.refl a1, [], by simp, Or.inl (by simp)⟩
    | ok fi => exact checkPlugins_log fi "/" a1.analyzers.enum a1
  obtain ⟨hf2, cs2, hcs2, hlog2⟩ := hroot
  rcases hres : checkRoot a1 with ⟨a2, r2⟩
  rw [hres] at hf2 hcs2 hlog2
  simp only at hf2 hcs2 hlog2
  cases r2 with
  | some e =>
    have hrun : RunPlugins unmarshal fuel a = (a2, .panicked ("RunPlugins error: " ++ e)) := by
      simp only [RunPlugins, hA1, hres]
    rw [hrun]
    refine ⟨cs2, ?_, Or.inr (Or.inr ⟨e, rfl, ?_, hlog2⟩)⟩
    · rw [hcs2, hs2, startCalls]
    · exact hf2.2.2.trans hs1.2.2
  | none =>
    have hclean2 := WalkLog.clean_of_ok hlog2
    obtain ⟨hf3, cs3, hcs3, hlog3⟩ := iterateFiles_log fuel a2 "/"
    rcases hit : iterateFiles fuel a2 "/" with ⟨a3, st⟩
    rw [hit] at hf3 hcs3 hlog3
    simp only at hf3 hcs3 hlog3
    have hcalls : a3.calls = a.calls ++ startCalls a.analyzers.length ++ (cs2 ++ cs3) := by
      rw [hcs3, hcs2, hs2, startCalls]; simp
    have hpr : a3.PluginReports = a.PluginReports := (hf3.2.2.trans hf2.2.2).trans hs1.2.2
    cases st with
    | error e =>
      have hrun : RunPlugins unmarshal fuel a = (a3, .panicked ("RunPlugins error: " ++ e)) := by
        simp only [RunPlugins, hA1, hres, hit]
      rw [hrun]
      exact ⟨cs2 ++ cs3, hcalls, Or.inr (Or.inr ⟨e, rfl, hpr, WalkLog.append hclean2 hlog3⟩)⟩
    | fuelOut =>
      have hrun : RunPlugins unmarshal fuel a = (a3, .fuelOut) := by
        simp only [RunPlugins, hA1, hres, hit]
      rw [hrun]
      refine ⟨cs2 ++ cs3, hcalls, Or.inr (Or.inl ⟨rfl, hpr, ?_⟩)⟩
      rcases WalkLog.append hclean2 hlog3 with h | ⟨_, _, _, _, _, _, _, hst⟩
      · exact h
      · cases hst
    | ok =>
      have hfin := finalizePlugins_log unmarshal a3.analyzers.enum a3
      rw [enum_map_fst] at hfin
      have hn3 : a3.analyzers.length = a.analyzers.length := by
        rw [hf3.2.1, hf2.2.1, hs1.2.1]
      have hrun : RunPlugins unmarshal fuel a
          = (finalizePlugins unmarshal a3.analyzers.enum a3, .returned) := by
        simp only [RunPlugins, hA1, hres, hit]
      rw [hrun]
      refine ⟨cs2 ++ cs3 ++ finalizeCalls a.analyzers.length, ?_, Or.inl ⟨rfl, cs2 ++ cs3, rfl, ?_⟩⟩
      · simp only
        rw [hfin, hcalls, hn3, finalizeCalls]; simp
      · intro c hc
        rcases List.mem_append.mp hc with h | h
        · exact hclean2 c h
        · exact WalkLog.clean_of_ok hlog3 c h

theorem failed_check_last {A pre post : List Call} {x y : Call}
    (hA : ∀ c ∈ A, c.isFailedCheck = false) (hy : y.isFailedCheck = true)
    (h : pre ++ y :: post = A ++ [x]) : post = [] ∧ y = x ∧ pre = A := by
  induction pre generalizing A with
  | nil =>
    cases A with
    | nil =>
      simp only [List.nil_append, List.cons.injEq] at h
      exact ⟨h.2, h.1, rfl⟩
    | cons b A =>
      simp only [List.nil_append, List.cons_append, List.cons.injEq] at h
      have := hA b (List.mem_cons_self _ _)
      rw [← h.1, hy] at this
      cases this
  | cons b pre ih =>
    cases A with
    | nil =>
      simp only [List.cons_append, List.nil_append, List.cons.injEq] at h
      have := h.2
      simp at this
    | cons d A =>
      simp only [List.cons_append, List.cons.injEq] at h
      obtain ⟨h1, h2, h3⟩ := ih (fun c hc => hA c (List.mem_cons_of_mem _ hc)) h.2
      exact ⟨h1, h2, by rw [h.1, h3]⟩

theorem clean_not_failed {c : Call} (h : c.isCleanCheck = true) : c.isFailedCheck = false := by
  cases c with
  | CheckFile i fi p err => cases err <;> simp_all [Call.isCleanCheck, Call.isFailedCheck]
  | Start i => rfl
  | Finalize i => rfl

theorem clean_not_finalize {c : Call} (h : c.isCleanCheck = true) : c.isFinalize = false := by
  cases c <;> simp_all [Call.isCleanCheck, Call.isFinalize]

theorem mem_startCalls {n : Nat} {c : Call} (h : c ∈ startCalls n) : c.isStart = true := by
  simp only [startCalls, List.mem_map] at h
  obtain ⟨i, _, rfl⟩ := h
  rfl

theorem mem_finalizeCalls {n : Nat} {c : Call} (h : c ∈ finalizeCalls n) :
    c.isFinalize = true := by
  simp only [finalizeCalls, List.mem_map] at h
  obtain ⟨i, _, rfl⟩ := h
  rfl

theorem start_not_failed {c : Call} (h : c.isStart = true) : c.isFailedCheck = false := by
  cases c <;> simp_all [Call.isStart, Call.isFailedCheck]

theorem start_not_finalize {c : Call} (h : c.isStart = true) : c.isFinalize = false := by
  cases c <;> simp_all [Call.isStart, Call.isFinalize]

theorem finalize_not_failed {c : Call} (h : c.isFinalize = true) : c.isFailedCheck = false := by
  cases c <;> simp_all [Call.isFinalize, Call.isFailedCheck]

theorem checkCalls_checkOf (i : Nat) (e : FileInfo × String) :
    ∀ n, (checkCalls n e).filterMap (Call.checkOf i) = if i < n then [e] else [] := by
  intro n
  induction n with
  | zero => simp [checkCalls]
  | succ n ih =>
    simp only [checkCalls] at ih
    simp only [checkCalls, List.range_succ, List.map_append, List.filterMap_append, ih]
    by_cases h1 : i < n
    · have h2 : n ≠ i := by omega
      have h3 : i < n + 1 := by omega
      simp [Call.checkOf, h1, h2, h3]
    · by_cases h2 : n = i
      · subst h2; simp [Call.checkOf]
      · have h3 : ¬ i < n + 1 := by omega
        simp [Call.checkOf, h1, h2, h3]

theorem flatMap_checkCalls_checkOf (i n : Nat) (hi : i < n) :
    ∀ es : List (FileInfo × String),
      (es.flatMap (checkCalls n)).filterMap (Call.checkOf i) = es := by
  intro es
  induction es with
  | nil => rfl
  | cons e es ih =>
    rw [List.flatMap_cons, List.filterMap_append, ih, checkCalls_checkOf, if_pos hi]
    rfl

theorem startCalls_checkOf (i n : Nat) : (startCalls n).filterMap (Call.checkOf i) = [] := by
  rw [List.filterMap_eq_nil_iff]
  intro c hc
  simp only [startCalls, List.mem_map] at hc
  obtain ⟨j, _, rfl⟩ := hc
  rfl

theorem finalizeCalls_checkOf (i n : Nat) :
    (finalizeCalls n).filterMap (Call.checkOf i) = [] := by
  rw [List.filterMap_eq_nil_iff]
  intro c hc
  simp only [finalizeCalls, List.mem_map] at hc
  obtain ⟨j, _, rfl⟩ := hc
  rfl

end analyzer

end Fwanalyzer

/-! ## Auxiliary facts: Go maps and the FileTree plugin -/

namespace Fwanalyzer

theorem GoMap.get_cons {V : Type} (k k1 : String) (v1 : V) (m : GoMap V) :
    GoMap.get ((k1, v1) :: m) k = if k = k1 then some v1 else GoMap.get m k := by
  unfold GoMap.get
  rw [List.lookup_cons]
  by_cases h : k = k1
  · subst h; simp
  · have : (k == k1) = false := by simpa using h
    simp [this, h]

theorem GoMap.get_eq_none_iff {V : Type} (m : GoMap V) (k : String) :
    m.get k = none ↔ ∀ v, (k, v) ∉ m := by
  induction m with
  | nil => simp [GoMap.get]
  | cons e m ih =>
    obtain ⟨k1, v1⟩ := e
    rw [GoMap.get_cons]
    by_cases h : k = k1
    · subst h
      simp only [if_true]
      constructor
      · intro hc; cases hc
      · intro hc; exact absurd (List.mem_cons_self _ _) (hc v1)
    · simp only [h, if_false, ih, List.mem_cons, Prod.mk.injEq, false_and, false_or]

theorem GoMap.get_eq_some_iff {V : Type} (m : GoMap V) (hwf : m.WF) (k : String) (v : V) :
    m.get k = some v ↔ (k, v) ∈ m := by
  induction m with
  | nil => simp [GoMap.get]
  | cons e m ih =>
    obtain ⟨k1, v1⟩ := e
    simp only [GoMap.WF, List.map_cons, List.nodup_cons, List.mem_map, not_exists, not_and] at hwf
    rw [GoMap.get_cons]
    by_cases h : k = k1
    · subst h
      simp only [if_true, Option.some.injEq, List.mem_cons, Prod.mk.injEq, true_and]
      constructor
      · intro hv; exact Or.inl hv.symm
      · rintro (hv | hv)
        · exact hv.symm
        · exact absurd rfl (hwf.1 (k, v) hv)
    · simp only [h, if_false, List.mem_cons, Prod.mk.injEq, false_and, false_or]
      exact ih hwf.2

theorem GoMap.get_map_replace {V : Type} (m : GoMap V) (k j : String) (v : V) :
    GoMap.get (m.map (fun e => if e.1 = k then (k, v) else e)) j
      = if j = k then (m.get k).map (fun _ => v) else m.get j := by
  induction m with
  | nil => simp [GoMap.get]
  | cons e m ih =>
    obtain ⟨k1, v1⟩ := e
    simp only [List.map_cons]
    by_cases h1 : k1 = k
    · subst h1
      simp only [if_true]
      rw [GoMap.get_cons, GoMap.get_cons]
      by_cases h2 : j = k1
      · subst h2; simp [GoMap.get_cons]
      · simp only [h2, if_false]
        rw [ih]; simp [h2, GoMap.get_cons]
    · simp only [h1, if_false]
      rw [GoMap.get_cons, ih]
      by_cases h2 : j = k
      · subst h2
        have h3 : ¬ j = k1 := fun h => h1 h.symm
        simp [h3, GoMap.get_cons]
      · simp only [h2, if_false]
        rw [GoMap.get_cons]

theorem GoMap.get_append_single {V : Type} (m : GoMap V) (k j : String) (v : V) :
    GoMap.get (m ++ [(k, v)]) j = match m.get j with
      | some w => some w
      | none => if j = k then some v else none := by
  induction m with
  | nil => rw [List.nil_append, GoMap.get_cons]; simp [GoMap.get]
  | cons e m ih =>
    obtain ⟨k1, v1⟩ := e
    simp only [List.cons_append]
    rw [GoMap.get_cons, GoMap.get_cons]
    by_cases h : j = k1
    · simp [h]
    · simp only [h, if_false]; exact ih

theorem GoMap.get_insert {V : Type} (m : GoMap V) (k j : String) (v : V) :
    (m.insert k v).get j = if j = k then some v else m.get j := by
  unfold GoMap.insert
  cases hk : m.get k with
  | none =>
    simp only [Option.isSome_none, Bool.false_eq_true, if_false]
    rw [GoMap.get_append_single]
    by_cases h : j = k
    · subst h; simp [hk]
    · simp only [h, if_false]
      cases m.get j <;> rfl
  | some w =>
    simp only [Option.isSome_some, if_true]
    rw [GoMap.get_map_replace, hk]
    rfl

theorem GoMap.insert_keys {V : Type} (m : GoMap V) (k : String) (v : V) :
    (m.insert k v).map Prod.fst
      = if (m.get k).isSome then m.map Prod.fst else m.map Prod.fst ++ [k] := by
  unfold GoMap.insert
  split
  · rw [List.map_map]
    apply List.map_congr_left
    intro e _
    simp only [Function.comp]
    split
    · next h => exact h.symm
    · rfl
  · simp

theorem GoMap.WF_insert {V : Type} (m : GoMap V) (hwf : m.WF) (k : String) (v : V) :
    (m.insert k v).WF := by
  unfold GoMap.WF at hwf ⊢
  rw [GoMap.insert_keys]
  split
  · exact hwf
  · next h =>
    have hn : m.get k = none := by
      cases hg : m.get k with
      | none => rfl
      | some w => rw [hg] at h; simp at h
    rw [GoMap.get_eq_none_iff] at hn
    rw [List.nodup_append]
    refine ⟨hwf, List.nodup_singleton k, ?_⟩
    intro a ha hb
    simp only [List.mem_singleton] at hb
    subst hb
    simp only [List.mem_map] at ha
    obtain ⟨e, he, rfl⟩ := ha
    exact hn e.2 he

theorem GoMap.WF_foldl_insert {V : Type} (key : V → String) :
    ∀ (l : List V) (m : GoMap V), m.WF → (l.foldl (fun m x => m.insert (key x) x) m).WF := by
  intro l
  induction l with
  | nil => intro m h; exact h
  | cons x l ih => intro m h; exact ih _ (GoMap.WF_insert m h _ _)

namespace filetree

open fsparser

theorem findNew_mem (state : fileTreeType) (fi : fileInfoSaveType) :
    ∀ (l : List (String × fileInfoSaveType)) (acc : List fileInfoSaveType),
      fi ∈ findNew state l acc ↔ fi ∈ acc ∨ ∃ k, (k, fi) ∈ l ∧
        inPath k state.config.CheckPath = true ∧ (entries state.oldTree).get k = none := by
  intro l
  induction l with
  | nil => intro acc; simp [findNew]
  | cons e l ih =>
    intro acc
    obtain ⟨k1, v1⟩ := e
    simp only [findNew]
    by_cases hp : inPath k1 state.config.CheckPath = true
    · simp only [hp, Bool.not_true, Bool.false_eq_true, if_false]
      cases hg : (entries state.oldTree).get k1 with
      | none =>
        simp only [ih, List.mem_append, List.mem_cons, List.not_mem_nil, or_false, Prod.mk.injEq]
        constructor
        · rintro ((h | h) | ⟨k, hk, h1, h2⟩)
          · exact Or.inl h
          · exact Or.inr ⟨k1, Or.inl ⟨rfl, h⟩, hp, hg⟩
          · exact Or.inr ⟨k, Or.inr hk, h1, h2⟩
        · rintro (h | ⟨k, (⟨rfl, rfl⟩ | hk), h1, h2⟩)
          · exact Or.inl (Or.inl h)
          · exact Or.inl (Or.inr rfl)
          · exact Or.inr ⟨k, hk, h1, h2⟩
      | some w =>
        simp only [ih, List.mem_cons, Prod.mk.injEq]
        constructor
        · rintro (h | ⟨k, hk, h1, h2⟩)
          · exact Or.inl h
          · exact Or.inr ⟨k, Or.inr hk, h1, h2⟩
        · rintro (h | ⟨k, (⟨rfl, rfl⟩ | hk), h1, h2⟩)
          · exact Or.inl h
          · rw [hg] at h2; cases h2
          · exact Or.inr ⟨k, hk, h1, h2⟩
    · simp only [Bool.not_eq_true] at hp
      simp only [hp, Bool.not_false, if_true, ih, List.mem_cons, Prod.mk.injEq]
      constructor
      · rintro (h | ⟨k, hk, h1, h2⟩)
        · exact Or.inl h
        · exact Or.inr ⟨k, Or.inr hk, h1, h2⟩
      · rintro (h | ⟨k, (⟨rfl, rfl⟩ | hk), h1, h2⟩)
        · exact Or.inl h
        · rw [hp] at h1; cases h1
        · exact Or.inr ⟨k, hk, h1, h2⟩

theorem findModified_mem (state : fileTreeType) (fi : fileInfoSaveType) (path : String) :
    ∀ (l : List (String × fileInfoSaveType)) (removed : List fileInfoSaveType)
      (changed : List String),
      (fi ∈ (findModified state l (removed, changed)).1 ↔ fi ∈ removed ∨ ∃ k, (k, fi) ∈ l ∧
        inPath k state.config.CheckPath = true ∧ (entries state.tree).get k = none) ∧
      (path ∈ (findModified state l (removed, changed)).2 ↔ path ∈ changed ∨
        ∃ oFi cFi, (path, oFi) ∈ l ∧ inPath path state.config.CheckPath = true ∧
          (entries state.tree).get path = some cFi ∧
          entryChanged state.config oFi cFi = true) := by
  intro l
  induction l with
  | nil => intro removed changed; simp [findModified]
  | cons e l ih =>
    intro removed changed
    obtain ⟨k1, v1⟩ := e
    simp only [findModified]
    by_cases hp : inPath k1 state.config.CheckPath = true
    · simp only [hp, Bool.not_true, Bool.false_eq_true, if_false]
      cases hg : (entries state.tree).get k1 with
      | none =>
        simp only [ih, List.mem_append, List.mem_cons, List.not_mem_nil, or_false, Prod.mk.injEq]
        constructor
        · constructor
          · rintro ((h | h) | ⟨k, hk, h1, h2⟩)
            · exact Or.inl h
            · exact Or.inr ⟨k1, Or.inl ⟨rfl, h⟩, hp, hg⟩
            · exact Or.inr ⟨k, Or.inr hk, h1, h2⟩
          · rintro (h | ⟨k, (⟨rfl, rfl⟩ | hk), h1, h2⟩)
            · exact Or.inl (Or.inl h)
            · exact Or.inl (Or.inr rfl)
            · exact Or.inr ⟨k, hk, h1, h2⟩
        · constructor
          · rintro (h | ⟨o, c, hk, h1, h2, h3⟩)
            · exact Or.inl h
            · exact Or.inr ⟨o, c, Or.inr hk, h1, h2, h3⟩
          · rintro (h | ⟨o, c, (⟨rfl, rfl⟩ | hk), h1, h2, h3⟩)
            · exact Or.inl h
            · rw [hg] at h2; cases h2
            · exact Or.inr ⟨o, c, hk, h1, h2, h3⟩
      | some cFi =>
        simp only
        by_cases hc : entryChanged state.config v1 cFi = true
        · simp only [hc, if_true, ih, List.mem_append, List.mem_cons, List.not_mem_nil, or_false,
            Prod.mk.injEq]
          constructor
          · constructor
            · rintro (h | ⟨k, hk, h1, h2⟩)
              · exact Or.inl h
              · exact Or.inr ⟨k, Or.inr hk, h1, h2⟩
            · rintro (h | ⟨k, (⟨rfl, rfl⟩ | hk), h1, h2⟩)
              · exact Or.inl h
              · rw [hg] at h2; cases h2
              · exact Or.inr ⟨k, hk, h1, h2⟩
          · constructor
            · rintro ((h | h) | ⟨o, c, hk, h1, h2, h3⟩)
              · exact Or.inl h
              · subst h; exact Or.inr ⟨v1, cFi, Or.inl ⟨rfl, rfl⟩, hp, hg, hc⟩
              · exact Or.inr ⟨o, c, Or.inr hk, h1, h2, h3⟩
            · rintro (h | ⟨o, c, (⟨rfl, rfl⟩ | hk), h1, h2, h3⟩)
              · exact Or.inl (Or.inl h)
              · exact Or.inl (Or.inr rfl)
              · exact Or.inr ⟨o, c, hk, h1, h2, h3⟩
        · simp only [hc, Bool.false_eq_true, if_false, ih, List.mem_cons, Prod.mk.injEq]
          constructor
          · constructor
            · rintro (h | ⟨k, hk, h1, h2⟩)
              · exact Or.inl h
              · exact Or.inr ⟨k, Or.inr hk, h1, h2⟩
            · rintro (h | ⟨k, (⟨rfl, rfl⟩ | hk), h1, h2⟩)
              · exact Or.inl h
              · rw [hg] at h2; cases h2
              · exact Or.inr ⟨k, hk, h1, h2⟩
          · constructor
            · rintro (h | ⟨o, c, hk, h1, h2, h3⟩)
              · exact Or.inl h
              · exact Or.inr ⟨o, c, Or.inr hk, h1, h2, h3⟩
            · rintro (h | ⟨o, c, (⟨rfl, rfl⟩ | hk), h1, h2, h3⟩)
              · exact Or.inl h
              · rw [hg] at h2
                simp only [Option.some.injEq] at h2
                subst h2
                exact absurd h3 hc
              · exact Or.inr ⟨o, c, hk, h1, h2, h3⟩
    · simp only [Bool.not_eq_true] at hp
      simp only [hp, Bool.not_false, if_true, ih, List.mem_cons, Prod.mk.injEq]
      constructor
      · constructor
        · rintro (h | ⟨k, hk, h1, h2⟩)
          · exact Or.inl h
          · exact Or.inr ⟨k, Or.inr hk, h1, h2⟩
        · rintro (h | ⟨k, (⟨rfl, rfl⟩ | hk), h1, h2⟩)
          · exact Or.inl h
          · rw [hp] at h1; cases h1
          · exact Or.inr ⟨k, hk, h1, h2⟩
      · constructor
        · rintro (h | ⟨o, c, hk, h1, h2, h3⟩)
          · exact Or.inl h
          · exact Or.inr ⟨o, c, Or.inr hk, h1, h2, h3⟩
        · rintro (h | ⟨o, c, (⟨rfl, rfl⟩ | hk), h1, h2, h3⟩)
          · exact Or.inl h
          · rw [hp] at h1; cases h1
          · exact Or.inr ⟨o, c, hk, h1, h2, h3⟩

theorem inPath_iff (k : String) (ps : List String) :
    inPath k ps = true ↔ ∃ p ∈ ps, stringsHasPrefix k p = true := by
  induction ps with
  | nil => simp [inPath]
  | cons p ps ih =>
    simp only [inPath, List.mem_cons, exists_eq_or_imp]
    by_cases h : stringsHasPrefix k p = true
    · simp [h]
    · simp [h, ih]

theorem entryChanged_iff (config : fileTreeConfig) (oFi cFi : fileInfoSaveType) :
    entryChanged config oFi cFi = true ↔
      (oFi.Mode ≠ cFi.Mode ∨ oFi.Uid ≠ cFi.Uid ∨ oFi.Gid ≠ cFi.Gid ∨
        oFi.SELinuxLabel ≠ cFi.SELinuxLabel ∨
        (oFi.Size ≠ cFi.Size ∧ config.CheckFileSize = true) ∨
        (oFi.Digest ≠ cFi.Digest ∧ config.CheckFileDigest = true)) := by
  simp only [entryChanged, Bool.or_eq_true, Bool.and_eq_true, bne_iff_ne, ne_eq, or_assoc]

theorem readOldTree_fields (state : fileTreeType) (h : Host) :
    (readOldTree state h).1.config = state.config ∧ (readOldTree state h).1.tree = state.tree := by
  unfold readOldTree
  cases h.snapshots.get state.config.OldTreeFilePath <;> exact ⟨rfl, rfl⟩

theorem readOldTree_absent (state : fileTreeType) (h : Host)
    (hno : h.snapshots.get state.config.OldTreeFilePath = none) :
    (readOldTree state h).1 = state := by
  unfold readOldTree
  rw [hno]

theorem readOldTree_WF (state : fileTreeType) (h : Host) (hold : (entries state.oldTree).WF) :
    (entries (readOldTree state h).1.oldTree).WF := by
  unfold readOldTree
  cases h.snapshots.get state.config.OldTreeFilePath with
  | none => exact hold
  | some snap =>
    exact GoMap.WF_foldl_insert (fun fi : fileInfoSaveType => fi.Name) snap.Files []
      List.nodup_nil

theorem updates_iff (d : treeDiff) (config : fileTreeConfig) :
    d.updates config = true ↔
      (d.added ≠ [] ∨ d.removed ≠ [] ∨ (d.changed ≠ [] ∧ config.CheckPermsOwnerChange = true)) := by
  simp only [treeDiff.updates, Bool.or_eq_true, Bool.and_eq_true, decide_eq_true_eq,
    List.length_pos, or_assoc]

theorem newName_ne (path : String) : path ++ newFileTreeExt ≠ path := by
  intro h
  have := congrArg String.length h
  rw [String.length_append] at this
  have h4 : newFileTreeExt.length = 4 := by decide
  omega

theorem newName_ne_empty (path : String) : path ++ newFileTreeExt ≠ "" := by
  intro h
  have := congrArg String.length h
  rw [String.length_append] at this
  have h4 : newFileTreeExt.length = 4 := by decide
  have h0 : "".length = 0 := by decide
  omega

theorem Finalize_no_update (state : fileTreeType) (h : Host)
    (hpath : state.config.OldTreeFilePath ≠ "")
    (hu : (computeDiff (readOldTree state h).1).updates state.config = false) :
    Finalize state h =
      (((readOldTree state h).1,
        { h with informational := h.informational ++
            findings (readOldTree state h).1 (computeDiff (readOldTree state h).1) }),
       .ok (jsonObject [("old_file_tree_path", state.config.OldTreeFilePath)])) := by
  unfold Finalize
  simp only [hpath, if_false, (readOldTree_fields state h).1, hu, Bool.false_eq_true, reportFields,
    if_true, List.append_nil]

theorem Finalize_update_ok (state : fileTreeType) (h : Host)
    (hpath : state.config.OldTreeFilePath ≠ "")
    (hu : (computeDiff (readOldTree state h).1).updates state.config = true)
    (hw : h.writable (state.config.OldTreeFilePath ++ newFileTreeExt) = true) :
    Finalize state h =
      (((readOldTree state h).1,
        { h with
          writes := h.writes ++ [(state.config.OldTreeFilePath ++ newFileTreeExt,
            treeToSave (readOldTree state h).1 h)],
          snapshots := h.snapshots.insert (state.config.OldTreeFilePath ++ newFileTreeExt)
            (treeToSave (readOldTree state h).1 h),
          informational := h.informational ++
            findings (readOldTree state h).1 (computeDiff (readOldTree state h).1) }),
       .ok (jsonObject [("old_file_tree_path", state.config.OldTreeFilePath),
          ("current_file_tree_path", state.config.OldTreeFilePath ++ newFileTreeExt)])) := by
  unfold Finalize
  simp only [hpath, if_false, (readOldTree_fields state h).1, hu, if_true, saveTree, hw,
    reportFields, newName_ne_empty, List.singleton_append]

theorem Finalize_update_fail (state : fileTreeType) (h : Host)
    (hpath : state.config.OldTreeFilePath ≠ "")
    (hu : (computeDiff (readOldTree state h).1).updates state.config = true)
    (hw : h.writable (state.config.OldTreeFilePath ++ newFileTreeExt) = false) :
    Finalize state h =
      (((readOldTree state h).1,
        { h with
          writes := h.writes ++ [(state.config.OldTreeFilePath ++ newFileTreeExt,
            treeToSave (readOldTree state h).1 h)] }),
       .error (.panic "saveTree failed")) := by
  unfold Finalize
  simp only [hpath, if_false, (readOldTree_fields state h).1, hu, if_true, saveTree, hw,
    Bool.false_eq_true]

end filetree

end Fwanalyzer

/-! ## Theorems: capability codec -/

namespace Fwanalyzer

namespace capability

/-- C1: capability round trip. For every choice `S` of (capability, plane) pairs with
capability index in `0..37` and plane 0 (permitted) or 1 (inheritable), applying
`capSet` once per pair to the all-zero four-word vector succeeds, `capToText` decodes
the resulting vector, and the decoded token list is set-equal to `S`: every element
is the token of a chosen capability with exactly its chosen planes, the token of a
capability `c` with planes `p`, `i` occurs exactly when `c` is chosen and `p`, `i`
are its chosen planes, and no token occurs twice. -/
theorem capSet_capToText_round_trip (S : List (Nat × Nat))
    (hS : ∀ x ∈ S, x.1 ≤ CAP_LAST_CAP ∧ x.2 ≤ 1) :
    ∃ v out, encodeCaps S = .ok v ∧ capToText v = .ok out ∧
      (∀ tok ∈ out, ∃ c, c ≤ 37 ∧ ((c, 0) ∈ S ∨ (c, 1) ∈ S) ∧
        tok = capToken c (decide ((c, 0) ∈ S)) (decide ((c, 1) ∈ S))) ∧
      (∀ c, c ≤ 37 → ∀ p i : Bool, capToken c p i ∈ out ↔
        (((c, 0) ∈ S ∨ (c, 1) ∈ S) ∧ p = decide ((c, 0) ∈ S) ∧ i = decide ((c, 1) ∈ S))) ∧
      out.Nodup := by
  obtain ⟨v, hv, hl, hb⟩ := encodeCaps_ok S hS
  have hmem : ∀ tok, tok ∈ capToTextSpec v ↔ ∃ c, c ≤ 37 ∧ ((c, 0) ∈ S ∨ (c, 1) ∈ S) ∧
      tok = capToken c (decide ((c, 0) ∈ S)) (decide ((c, 1) ∈ S)) := by
    intro tok
    simp only [capToTextSpec, List.mem_map, mem_presentCaps]
    constructor
    · rintro ⟨c, ⟨hc, hp⟩, rfl⟩
      rw [hb c hc 0 (by omega), hb c hc 1 (by omega)] at hp ⊢
      simp only [decide_eq_true_eq] at hp
      exact ⟨c, hc, hp, rfl⟩
    · rintro ⟨c, hc, hp, rfl⟩
      refine ⟨c, ⟨hc, ?_⟩, ?_⟩
      · rw [hb c hc 0 (by omega), hb c hc 1 (by omega)]
        simpa only [decide_eq_true_eq] using hp
      · rw [hb c hc 0 (by omega), hb c hc 1 (by omega)]
  refine ⟨v, capToTextSpec v, hv, capToText_eq_spec v hl, ?_, ?_, capToTextSpec_nodup v⟩
  · intro tok htok
    exact (hmem tok).mp htok
  · intro c hc p i
    rw [hmem]
    constructor
    · rintro ⟨d, hd, hch, heq⟩
      obtain ⟨h1, h2, h3⟩ := capToken_inj c d hc hd _ _ _ _ heq
      subst h1
      exact ⟨hch, h2, h3⟩
    · rintro ⟨hch, h2, h3⟩
      exact ⟨c, hc, hch, by rw [h2, h3]⟩

/-- Witness of C1: the pairs set in `TestCap` (CAP_DAC_OVERRIDE permitted,
CAP_AUDIT_READ inheritable). -/
theorem capSet_capToText_round_trip_witness :
    (∀ x ∈ [(1, 0), (37, 1)], x.1 ≤ CAP_LAST_CAP ∧ x.2 ≤ 1) ∧
    ∃ v out, encodeCaps [(1, 0), (37, 1)] = .ok v ∧ capToText v = .ok out ∧
      (∀ tok ∈ out, ∃ c, c ≤ 37 ∧ ((c, 0) ∈ [(1, 0), (37, 1)] ∨ (c, 1) ∈ [(1, 0), (37, 1)]) ∧
        tok = capToken c (decide ((c, 0) ∈ [(1, 0), (37, 1)]))
          (decide ((c, 1) ∈ [(1, 0), (37, 1)]))) ∧
      (∀ c, c ≤ 37 → ∀ p i : Bool, capToken c p i ∈ out ↔
        (((c, 0) ∈ [(1, 0), (37, 1)] ∨ (c, 1) ∈ [(1, 0), (37, 1)]) ∧
          p = decide ((c, 0) ∈ [(1, 0), (37, 1)]) ∧ i = decide ((c, 1) ∈ [(1, 0), (37, 1)]))) ∧
      out.Nodup :=
  ⟨by decide, capSet_capToText_round_trip [(1, 0), (37, 1)] (by decide)⟩

/-- C2: for every four-word vector `v`, `capToText v` returns the tokens of the
capability indices `0..37` that have their permitted bit (word `(i>>5)*2`, bit
`i&31`) or inheritable bit (word `(i>>5)*2+1`, bit `i&31`) set, one token per such
index, in ascending index order; the token is the lower-cased name followed by `+p`,
`+i` or `+pi` according to the planes set. The index list is strictly ascending and
the token list has no duplicates. -/
theorem capToText_tokens_in_index_order (v : List Nat) (hv : v.length = 4) :
    capToText v = .ok ((presentCaps v).map
      (fun i => capToken i (planeBit v i 0) (planeBit v i 1))) ∧
    (∀ i, i ∈ presentCaps v ↔ i ≤ 37 ∧ (planeBit v i 0 = true ∨ planeBit v i 1 = true)) ∧
    (presentCaps v).Sorted (fun a b => a < b) ∧
    (∀ c, capToken c true false = stringsToLower (CapabilityNames.getD c "") ++ "+p" ∧
      capToken c false true = stringsToLower (CapabilityNames.getD c "") ++ "+i" ∧
      capToken c true true = stringsToLower (CapabilityNames.getD c "") ++ "+pi") ∧
    ((presentCaps v).map (fun i => capToken i (planeBit v i 0) (planeBit v i 1))).Nodup :=
  ⟨capToText_eq_spec v hv, mem_presentCaps v, presentCaps_sorted v, capToken_forms,
    capToTextSpec_nodup v⟩

/-- Witness of C2: the vector of `TestCap`, in which only bit 12 of the first
permitted word is set. -/
theorem capToText_tokens_in_index_order_witness :
    [0x1000, 0, 0, 0].length = 4 ∧ capToText [0x1000, 0, 0, 0] = .ok ["cap_net_admin+p"] :=
  ⟨by decide, (capToText_tokens_in_index_order [0x1000, 0, 0, 0] (by decide)).1.trans
    (by decide)⟩

/-- C3: bit addressing of the binary decode. For every capability index `c` in
`0..37`, every plane `pl` (0 permitted, 1 inheritable) and every four magic bytes
`m`, `New` decodes the 20-byte blob whose words after the magic have only bit `c&31`
of word `(c>>5)*2+pl` set to the one-element list holding the lower-cased name of
`c` followed by `+p` (plane 0) or `+i` (plane 1); the blob with only the permitted
bit of index 12 decodes to `cap_net_admin+p`; and for every 16-byte body the result
is the same for any two magic words. -/
theorem New_decodes_single_bit (m : List Byte) (hm : m.length = 4) (c pl : Nat)
    (hc : c ≤ 37) (hpl : pl ≤ 1) :
    New (.bytes (capBlob m (oneBitWords c pl)))
      = .ok [stringsToLower (CapabilityNames.getD c "") ++ (if pl = 0 then "+p" else "+i")] ∧
    New (.bytes (ByteSlice.ofList
      (m ++ [0, 0x10, 0, 0, 0, 0, 0, 0, 0, 0, 0, 0, 0, 0, 0, 0]))) = .ok ["cap_net_admin+p"] ∧
    (∀ n : List Byte, n.length = 4 → ∀ body : List Byte, body.length = 16 →
      New (.bytes (ByteSlice.ofList (n ++ body))) = New (.bytes (ByteSlice.ofList (m ++ body)))) := by
  refine ⟨?_, ?_, ?_⟩
  · rw [New_bytes_oneBit m hm c pl hc hpl]
    have hcases : pl = 0 ∨ pl = 1 := by omega
    rcases hcases with h | h <;> subst h
    · simp [(capToken_forms c).1]
    · simp [(capToken_forms c).2.1]
  · have h := New_bytes_oneBit m hm 12 0 (by decide) (by decide)
    have hb : capBlob m (oneBitWords 12 0)
        = ByteSlice.ofList (m ++ [0, 0x10, 0, 0, 0, 0, 0, 0, 0, 0, 0, 0, 0, 0, 0, 0]) := by
      unfold capBlob
      congr 2
    rw [← hb, h]
    decide
  · intro n hn body hb
    exact New_bytes_magic n m hn hm body hb

/-- Witness of C3: the blob of `TestCapMain` (zero magic, permitted bit 12). -/
theorem New_decodes_single_bit_witness :
    ([0, 0, 0, 0] : List Byte).length = 4 ∧ 12 ≤ 37 ∧ 0 ≤ 1 ∧
    New (.bytes (ByteSlice.ofList
      ([0, 0, 0, 0] ++ [0, 0x10, 0, 0, 0, 0, 0, 0, 0, 0, 0, 0, 0, 0, 0, 0])))
      = .ok ["cap_net_admin+p"] :=
  ⟨by decide, by decide, by decide,
    (New_decodes_single_bit [0, 0, 0, 0] (by decide) 12 0 (by decide) (by decide)).2.1⟩

end capability

end Fwanalyzer

/-! ## Theorems: analyzer engine -/

namespace Fwanalyzer

namespace analyzer

open fsparser

/-- C5: fail-fast. In every run of `RunPlugins`, for every plugin list, filesystem
and bound on the walk: if some call `Pk.CheckFile(E)` returns an error `e`, then that
call is the last plugin call of the run (no `CheckFile` of any plugin follows), every
earlier call is a `Start` or a `CheckFile` that returned `nil`, no `Finalize` is called
at all, the merged plugin reports are still empty, and `RunPlugins` ends with the panic
`RunPlugins error: e`. -/
theorem RunPlugins_fail_fast {W : Type}
    (unmarshal : String → Option (List (String × String))) (fs : FsParser) (w : W)
    (ps : List (AnalyzerPluginType W)) (fuel : Nat) (pre post : List Call) (k : Nat)
    (fi : FileInfo) (p e : String)
    (h : (RunPlugins unmarshal fuel (registered fs w ps)).1.calls
      = pre ++ Call.CheckFile k fi p (some e) :: post) :
    post = [] ∧
    (∀ c ∈ pre, c.isStart = true ∨ c.isCleanCheck = true) ∧
    (∀ c ∈ (RunPlugins unmarshal fuel (registered fs w ps)).1.calls, c.isFinalize = false) ∧
    (RunPlugins unmarshal fuel (registered fs w ps)).1.PluginReports = [] ∧
    (RunPlugins unmarshal fuel (registered fs w ps)).2
      = .panicked ("RunPlugins error: " ++ e) := by
  obtain ⟨h1, _, h3, h4⟩ := registered_fields fs w ps
  obtain ⟨cs, hcalls, hcase⟩ := RunPlugins_log unmarshal fuel (registered fs w ps)
  rw [h4, h1, List.nil_append] at hcalls
  rw [h1] at hcase
  rw [h3] at hcase
  have hy : (Call.CheckFile k fi p (some e)).isFailedCheck = true := rfl
  have hmem : Call.CheckFile k fi p (some e) ∈
      (RunPlugins unmarshal fuel (registered fs w ps)).1.calls := by
    rw [h]; simp
  have hnostart : ∀ c ∈ startCalls ps.length, c.isFailedCheck = false :=
    fun c hc => start_not_failed (mem_startCalls hc)
  rcases hcase with ⟨_, cs1, hcs, hclean⟩ | ⟨_, _, hclean⟩ | ⟨e1, hst, hpr, hlog⟩
  · exfalso
    rw [hcalls, hcs] at hmem
    rcases List.mem_append.mp hmem with hm | hm
    · have := hnostart _ hm
      rw [hy] at this; cases this
    · rcases List.mem_append.mp hm with hm | hm
      · have := clean_not_failed (hclean _ hm)
        rw [hy] at this; cases this
      · have := finalize_not_failed (mem_finalizeCalls hm)
        rw [hy] at this; cases this
  · exfalso
    rw [hcalls] at hmem
    rcases List.mem_append.mp hmem with hm | hm
    · have := hnostart _ hm
      rw [hy] at this; cases this
    · have := clean_not_failed (hclean _ hm)
      rw [hy] at this; cases this
  · rcases hlog with hclean | ⟨pre1, i1, fi1, p1, e2, hcs, hpre1, hst2⟩
    · exfalso
      rw [hcalls] at hmem
      rcases List.mem_append.mp hmem with hm | hm
      · have := hnostart _ hm
        rw [hy] at this; cases this
      · have := clean_not_failed (hclean _ hm)
        rw [hy] at this; cases this
    · cases hst2
      have hA : ∀ c ∈ startCalls ps.length ++ pre1, c.isFailedCheck = false := by
        intro c hc
        rcases List.mem_append.mp hc with hm | hm
        · exact hnostart c hm
        · exact clean_not_failed (hpre1 c hm)
      have heq : pre ++ Call.CheckFile k fi p (some e) :: post
          = (startCalls ps.length ++ pre1) ++ [Call.CheckFile i1 fi1 p1 (some e1)] := by
        rw [← h, hcalls, hcs, List.append_assoc]
      obtain ⟨hpost, hyx, hpre⟩ := failed_check_last hA hy heq
      have he : e = e1 := by
        simp only [Call.CheckFile.injEq, Option.some.injEq] at hyx
        exact hyx.2.2.2
      subst he
      refine ⟨hpost, ?_, ?_, hpr, hst⟩
      · intro c hc
        rw [hpre] at hc
        rcases List.mem_append.mp hc with hm | hm
        · exact Or.inl (mem_startCalls hm)
        · exact Or.inr (hpre1 c hm)
      · intro c hc
        rw [h, hpost, hpre] at hc
        rcases List.mem_append.mp hc with hm | hm
        · rcases List.mem_append.mp hm with hm | hm
          · exact start_not_finalize (mem_startCalls hm)
          · exact clean_not_finalize (hpre1 c hm)
        · simp only [List.mem_singleton] at hm
          subst hm
          rfl

/-- Witness of C5: the second plugin fails on the regular file `/a`. -/
theorem RunPlugins_fail_fast_witness :
    (RunPlugins (fun _ => none) 1 (registered demoFs 0 [countingPlugin, failingPlugin])).1.calls
      = [Call.Start 0, Call.Start 1,
         Call.CheckFile 0 demoRoot "/" none, Call.CheckFile 1 demoRoot "/" none,
         Call.CheckFile 0 demoFile "/" none]
        ++ Call.CheckFile 1 demoFile "/" (some "cannot check") :: [] ∧
    (RunPlugins (fun _ => none) 1 (registered demoFs 0 [countingPlugin, failingPlugin])).1.PluginReports
      = [] ∧
    (RunPlugins (fun _ => none) 1 (registered demoFs 0 [countingPlugin, failingPlugin])).2
      = .panicked ("RunPlugins error: " ++ "cannot check") :=
  have h := RunPlugins_fail_fast (fun _ => none) demoFs 0 [countingPlugin, failingPlugin] 1
    [Call.Start 0, Call.Start 1,
     Call.CheckFile 0 demoRoot "/" none, Call.CheckFile 1 demoRoot "/" none,
     Call.CheckFile 0 demoFile "/" none] [] 1 demoFile "/" "cannot check" (by decide)
  ⟨by decide, h.2.2.2.1, h.2.2.2.2⟩

end analyzer

end Fwanalyzer

/-! ## Theorems: FileTree plugin -/

namespace Fwanalyzer

namespace filetree

open fsparser

/-- C7: added and removed sets of the FileTree plugin. For every plugin state and host,
with the baseline being the map left by `readOldTree` (the old one when no baseline
could be loaded) and every list of `CheckPath` prefixes: the entries `Finalize` puts on
`added` are exactly the entries of the current walk whose path is absent from the
baseline and starts with one of the prefixes, and the entries it puts on `removed` are
exactly the baseline entries whose path is absent from the current walk and starts with
one of the prefixes. -/
theorem Finalize_added_removed (state : fileTreeType) (h : Host)
    (hcur : (entries state.tree).WF) (hold : (entries state.oldTree).WF) :
    (∀ fi, fi ∈ (computeDiff (readOldTree state h).1).added ↔
      ∃ k, (entries state.tree).get k = some fi ∧
        (entries (readOldTree state h).1.oldTree).get k = none ∧
        ∃ p ∈ state.config.CheckPath, stringsHasPrefix k p = true) ∧
    (∀ fi, fi ∈ (computeDiff (readOldTree state h).1).removed ↔
      ∃ k, (entries (readOldTree state h).1.oldTree).get k = some fi ∧
        (entries state.tree).get k = none ∧
        ∃ p ∈ state.config.CheckPath, stringsHasPrefix k p = true) ∧
    (h.snapshots.get state.config.OldTreeFilePath = none →
      (readOldTree state h).1.oldTree = state.oldTree) := by
  obtain ⟨hc, ht⟩ := readOldTree_fields state h
  have hold1 := readOldTree_WF state h hold
  refine ⟨?_, ?_, ?_⟩
  · intro fi
    simp only [computeDiff]
    rw [findNew_mem, ht, hc]
    simp only [List.not_mem_nil, false_or, inPath_iff]
    constructor
    · rintro ⟨k, hk, hp, ho⟩
      exact ⟨k, (GoMap.get_eq_some_iff _ hcur k fi).mpr hk, ho, hp⟩
    · rintro ⟨k, hk, ho, hp⟩
      exact ⟨k, (GoMap.get_eq_some_iff _ hcur k fi).mp hk, hp, ho⟩
  · intro fi
    simp only [computeDiff]
    rw [(findModified_mem _ fi "" _ [] []).1, ht, hc]
    simp only [List.not_mem_nil, false_or, inPath_iff]
    constructor
    · rintro ⟨k, hk, hp, ho⟩
      exact ⟨k, (GoMap.get_eq_some_iff _ hold1 k fi).mpr hk, ho, hp⟩
    · rintro ⟨k, hk, ho, hp⟩
      exact ⟨k, (GoMap.get_eq_some_iff _ hold1 k fi).mp hk, hp, ho⟩
  · intro hno
    rw [readOldTree_absent state h hno]

/-- Witness of C7: the first run of `TestGlobal` (no baseline, one recorded entry). -/
theorem Finalize_added_removed_witness :
    (entries demoStateA644.tree).WF ∧ (entries demoStateA644.oldTree).WF ∧
    (computeDiff (readOldTree demoStateA644 demoHost).1).added = [entryA644] ∧
    (∀ fi, fi ∈ (computeDiff (readOldTree demoStateA644 demoHost).1).added ↔
      ∃ k, (entries demoStateA644.tree).get k = some fi ∧
        (entries (readOldTree demoStateA644 demoHost).1.oldTree).get k = none ∧
        ∃ p ∈ demoStateA644.config.CheckPath, stringsHasPrefix k p = true) :=
  ⟨by decide, by decide, by decide,
    (Finalize_added_removed demoStateA644 demoHost (by decide) (by decide)).1⟩

/-- C8: changed set of the FileTree plugin. For every plugin state, host, prefix list
and configuration, `Finalize` puts a path on `changed` if and only if the path is
present in the baseline and in the current walk, starts with one of the `CheckPath`
prefixes, and the two entries differ in mode, uid, gid or SELinux label, or in size
with `CheckFileSize` set, or in digest with `CheckFileDigest` set. For the baseline
holding `/a` with mode 0644 and a walk that recorded `/a` with mode 0600 the changed
list is exactly `/a`. -/
theorem Finalize_changed (state : fileTreeType) (h : Host)
    (hold : (entries state.oldTree).WF) :
    (∀ path, path ∈ (computeDiff (readOldTree state h).1).changed ↔
      ∃ oFi cFi, (entries (readOldTree state h).1.oldTree).get path = some oFi ∧
        (entries state.tree).get path = some cFi ∧
        (∃ p ∈ state.config.CheckPath, stringsHasPrefix path p = true) ∧
        (oFi.Mode ≠ cFi.Mode ∨ oFi.Uid ≠ cFi.Uid ∨ oFi.Gid ≠ cFi.Gid ∨
          oFi.SELinuxLabel ≠ cFi.SELinuxLabel ∨
          (oFi.Size ≠ cFi.Size ∧ state.config.CheckFileSize = true) ∨
          (oFi.Digest ≠ cFi.Digest ∧ state.config.CheckFileDigest = true))) ∧
    (computeDiff (readOldTree demoStateA600 demoHostWithBaseline).1).changed = ["/a"] := by
  obtain ⟨hc, ht⟩ := readOldTree_fields state h
  have hold1 := readOldTree_WF state h hold
  refine ⟨?_, by decide⟩
  intro path
  simp only [computeDiff]
  rw [(findModified_mem _ zeroEntry path _ [] []).2, ht, hc]
  simp only [List.not_mem_nil, false_or, inPath_iff, entryChanged_iff]
  constructor
  · rintro ⟨o, c, hk, hp, hg, hd⟩
    exact ⟨o, c, (GoMap.get_eq_some_iff _ hold1 path o).mpr hk, hg, hp, hd⟩
  · rintro ⟨o, c, hk, hg, hp, hd⟩
    exact ⟨o, c, (GoMap.get_eq_some_iff _ hold1 path o).mp hk, hp, hg, hd⟩

/-- Witness of C8: the drift run of the specification. -/
theorem Finalize_changed_witness :
    (entries demoStateA600.oldTree).WF ∧
    ("/a" ∈ (computeDiff (readOldTree demoStateA600 demoHostWithBaseline).1).changed ↔
      ∃ oFi cFi, (entries (readOldTree demoStateA600 demoHostWithBaseline).1.oldTree).get "/a"
          = some oFi ∧
        (entries demoStateA600.tree).get "/a" = some cFi ∧
        (∃ p ∈ demoStateA600.config.CheckPath, stringsHasPrefix "/a" p = true) ∧
        (oFi.Mode ≠ cFi.Mode ∨ oFi.Uid ≠ cFi.Uid ∨ oFi.Gid ≠ cFi.Gid ∨
          oFi.SELinuxLabel ≠ cFi.SELinuxLabel ∨
          (oFi.Size ≠ cFi.Size ∧ demoStateA600.config.CheckFileSize = true) ∨
          (oFi.Digest ≠ cFi.Digest ∧ demoStateA600.config.CheckFileDigest = true))) :=
  ⟨by decide, (Finalize_changed demoStateA600 demoHostWithBaseline (by decide)).1 "/a"⟩

/-- C9, as the specification states it, fails: after a walk that recorded the regular
file `/a` with mode 0644, with scope `/` and no baseline file, `Finalize` puts `/a` on
`added` and makes one `AddInformational` call. -/
theorem bootstrap_run_reports_added :
    CheckFile (Start demoState) demoHost demoA "/" = .ok demoStateA644 ∧
    demoHost.snapshots.get demoStateA644.config.OldTreeFilePath = none ∧
    (computeDiff (readOldTree demoStateA644 demoHost).1).added = [entryA644] ∧
    (Finalize demoStateA644 demoHost).1.2.informational
      = [("/a", "CheckFileTree: new file: 100644 0:0 3 abcd SELinux label: -")] ∧
    (Finalize demoStateA644 demoHost).1.2.informational ≠ demoHost.informational := by
  decide

/-- C9, amended: when the baseline file is absent or unreadable and the old tree is
still `nil`, `Finalize` puts nothing on `removed` and `changed`, puts on `added` exactly
the recorded entries whose path starts with one of the `CheckPath` prefixes and, unless
the write fails, makes one `AddInformational` call `CheckFileTree: new file: ...` for
each of them and no other call. When no recorded entry is in scope it writes nothing;
otherwise it writes to `OldTreeFilePath + ".new"` a snapshot that holds every entry
recorded during the walk. For the walk that recorded `/a` with mode 0644 and scope `/`
it writes a snapshot containing `/a`. -/
theorem Finalize_bootstrap (state : fileTreeType) (h : Host)
    (hpath : state.config.OldTreeFilePath ≠ "") (hnil : state.oldTree = none)
    (hno : h.snapshots.get state.config.OldTreeFilePath = none) :
    (computeDiff (readOldTree state h).1).removed = [] ∧
    (computeDiff (readOldTree state h).1).changed = [] ∧
    (∀ fi, fi ∈ (computeDiff (readOldTree state h).1).added ↔
      ∃ k, (k, fi) ∈ entries state.tree ∧
        ∃ p ∈ state.config.CheckPath, stringsHasPrefix k p = true) ∧
    ((computeDiff (readOldTree state h).1).added = [] →
      (Finalize state h).1.2.informational = h.informational ∧
      (Finalize state h).1.2.writes = h.writes ∧
      (Finalize state h).1.2.snapshots = h.snapshots ∧
      (Finalize state h).2
        = .ok (jsonObject [("old_file_tree_path", state.config.OldTreeFilePath)])) ∧
    ((computeDiff (readOldTree state h).1).added ≠ [] →
      (Finalize state h).1.2.writes = h.writes ++
        [(state.config.OldTreeFilePath ++ ".new",
          ⟨h.ImageName, h.ImageDigest, (entries state.tree).map Prod.snd⟩)] ∧
      (h.writable (state.config.OldTreeFilePath ++ ".new") = true →
        (Finalize state h).1.2.informational = h.informational ++
          (computeDiff (readOldTree state h).1).added.map
            (fun fi => (fi.Name, "CheckFileTree: new file: " ++ fiToString fi true)) ∧
        (Finalize state h).1.2.snapshots.get (state.config.OldTreeFilePath ++ ".new")
          = some ⟨h.ImageName, h.ImageDigest, (entries state.tree).map Prod.snd⟩ ∧
        (Finalize state h).2
          = .ok (jsonObject [("old_file_tree_path", state.config.OldTreeFilePath),
              ("current_file_tree_path", state.config.OldTreeFilePath ++ ".new")]))) ∧
    (Finalize demoStateA644 demoHost).1.2.snapshots.get "/tmp/blatreetest1337.json.new"
      = some ⟨"demo.img", "", [entryA644]⟩ := by
  have hst : (readOldTree state h).1 = state := readOldTree_absent state h hno
  have hrem : (computeDiff state).removed = [] := by
    simp [computeDiff, hnil, entries, findModified]
  have hchg : (computeDiff state).changed = [] := by
    simp [computeDiff, hnil, entries, findModified]
  have hfind : findings state (computeDiff state)
      = (computeDiff state).added.map
          (fun fi => (fi.Name, "CheckFileTree: new file: " ++ fiToString fi true)) := by
    unfold findings
    rw [hrem, hchg]
    simp
  have hext : state.config.OldTreeFilePath ++ ".new"
      = state.config.OldTreeFilePath ++ newFileTreeExt := rfl
  rw [hst, hext]
  refine ⟨hrem, hchg, ?_, ?_, ?_, by decide⟩
  · intro fi
    simp only [computeDiff]
    rw [findNew_mem]
    simp only [List.not_mem_nil, false_or, inPath_iff, hnil, entries, Option.getD_none,
      GoMap.get, List.lookup_nil, and_true]
  · intro hadd
    have hu : (computeDiff (readOldTree state h).1).updates state.config = false := by
      rw [hst, ← Bool.not_eq_true, updates_iff, hrem, hchg, hadd]
      simp
    rw [Finalize_no_update state h hpath hu, hst, hfind, hadd]
    simp
  · intro hadd
    have hu : (computeDiff (readOldTree state h).1).updates state.config = true := by
      rw [hst, updates_iff]
      exact Or.inl hadd
    constructor
    · cases hw : h.writable (state.config.OldTreeFilePath ++ newFileTreeExt) with
      | true => rw [Finalize_update_ok state h hpath hu hw, hst]; rfl
      | false => rw [Finalize_update_fail state h hpath hu hw, hst]; rfl
    · intro hw
      rw [Finalize_update_ok state h hpath hu hw, hst, hfind]
      refine ⟨rfl, ?_, rfl⟩
      simp only [GoMap.get_insert, if_true]
      rfl

/-- Witness of the amended C9: the first run of `TestGlobal`. -/
theorem Finalize_bootstrap_witness :
    demoStateA644.config.OldTreeFilePath ≠ "" ∧ demoStateA644.oldTree = none ∧
    demoHost.snapshots.get demoStateA644.config.OldTreeFilePath = none ∧
    (computeDiff (readOldTree demoStateA644 demoHost).1).removed = [] ∧
    (computeDiff (readOldTree demoStateA644 demoHost).1).changed = [] :=
  have h := Finalize_bootstrap demoStateA644 demoHost (by decide) (by decide) (by decide)
  ⟨by decide, by decide, by decide, h.1, h.2.1⟩

/-- C10: persistence trigger of the FileTree plugin. For every configuration with a
non-empty `OldTreeFilePath` and every baseline and current snapshot, `Finalize` calls
`ioutil.WriteFile` if and only if `added` is non-empty, or `removed` is non-empty, or
`changed` is non-empty and `CheckPermsOwnerChange` is set; it then makes one call, on
`OldTreeFilePath + ".new"`, a name different from the baseline path, with the current
tree; no other file changes and the baseline file is never written. When the write
succeeds, or no write is due, `Finalize` returns the JSON object with
`old_file_tree_path` set to `OldTreeFilePath` and with `current_file_tree_path` set to
`OldTreeFilePath + ".new"` exactly when a snapshot was written; when the write fails it
panics. -/
theorem Finalize_persistence (state : fileTreeType) (h : Host)
    (hpath : state.config.OldTreeFilePath ≠ "") :
    state.config.OldTreeFilePath ++ ".new" ≠ state.config.OldTreeFilePath ∧
    ((Finalize state h).1.2.writes ≠ h.writes ↔
      ((computeDiff (readOldTree state h).1).added ≠ [] ∨
       (computeDiff (readOldTree state h).1).removed ≠ [] ∨
       ((computeDiff (readOldTree state h).1).changed ≠ [] ∧
          state.config.CheckPermsOwnerChange = true))) ∧
    ((Finalize state h).1.2.writes = h.writes ∨
      (Finalize state h).1.2.writes = h.writes ++
        [(state.config.OldTreeFilePath ++ ".new", treeToSave (readOldTree state h).1 h)]) ∧
    (∀ q, q ≠ state.config.OldTreeFilePath ++ ".new" →
      (Finalize state h).1.2.snapshots.get q = h.snapshots.get q) ∧
    (Finalize state h).1.2.snapshots.get state.config.OldTreeFilePath
      = h.snapshots.get state.config.OldTreeFilePath ∧
    ((Finalize state h).1.2.writes = h.writes →
      (Finalize state h).1.2.snapshots = h.snapshots ∧
      (Finalize state h).2
        = .ok (jsonObject [("old_file_tree_path", state.config.OldTreeFilePath)])) ∧
    ((Finalize state h).1.2.writes ≠ h.writes →
      h.writable (state.config.OldTreeFilePath ++ ".new") = true →
      (Finalize state h).1.2.snapshots.get (state.config.OldTreeFilePath ++ ".new")
        = some (treeToSave (readOldTree state h).1 h) ∧
      (Finalize state h).2
        = .ok (jsonObject [("old_file_tree_path", state.config.OldTreeFilePath),
            ("current_file_tree_path", state.config.OldTreeFilePath ++ ".new")])) ∧
    ((Finalize state h).1.2.writes ≠ h.writes →
      h.writable (state.config.OldTreeFilePath ++ ".new") = false →
      (Finalize state h).2 = .error (.panic "saveTree failed")) := by
  have hne := newName_ne state.config.OldTreeFilePath
  have hext : state.config.OldTreeFilePath ++ ".new"
      = state.config.OldTreeFilePath ++ newFileTreeExt := rfl
  rw [hext]
  have happ : ∀ (l : List (String × imageInfoSaveType)) (x : String × imageInfoSaveType),
      l ++ [x] ≠ l := by
    intro l x hx
    have := congrArg List.length hx
    simp at this
  cases hu : (computeDiff (readOldTree state h).1).updates state.config with
  | false =>
    have hnu : ¬ ((computeDiff (readOldTree state h).1).added ≠ [] ∨
        (computeDiff (readOldTree state h).1).removed ≠ [] ∨
        ((computeDiff (readOldTree state h).1).changed ≠ [] ∧
          state.config.CheckPermsOwnerChange = true)) := by
      rw [← updates_iff, hu]; simp
    rw [Finalize_no_update state h hpath hu]
    refine ⟨hne, ?_, Or.inl rfl, fun _ _ => rfl, rfl, fun _ => ⟨rfl, rfl⟩, ?_, ?_⟩
    · constructor
      · intro hc; exact absurd rfl hc
      · intro hc; exact absurd hc hnu
    · intro hc; exact absurd rfl hc
    · intro hc; exact absurd rfl hc
  | true =>
    have hyes := (updates_iff _ _).mp hu
    cases hw : h.writable (state.config.OldTreeFilePath ++ newFileTreeExt) with
    | true =>
      rw [Finalize_update_ok state h hpath hu hw]
      refine ⟨hne, ?_, Or.inr rfl, ?_, ?_, ?_, ?_, ?_⟩
      · exact ⟨fun _ => hyes, fun _ => happ _ _⟩
      · intro q hq
        simp only [GoMap.get_insert, hq, if_false]
      · simp only [GoMap.get_insert, hne.symm, if_false]
      · intro hc; exact absurd hc (happ _ _)
      · intro _ _
        refine ⟨?_, rfl⟩
        simp only [GoMap.get_insert, if_true]
      · intro _ hc; cases hc
    | false =>
      rw [Finalize_update_fail state h hpath hu hw]
      refine ⟨hne, ?_, Or.inr rfl, fun _ _ => rfl, rfl, ?_, ?_, ?_⟩
      · exact ⟨fun _ => hyes, fun _ => happ _ _⟩
      · intro hc; exact absurd hc (happ _ _)
      · intro _ hc; cases hc
      · intro _ _; rfl

/-- Witness of C10: the drift run, in which the changed entry triggers the write. -/
theorem Finalize_persistence_witness :
    demoStateA600.config.OldTreeFilePath ≠ "" ∧
    (Finalize demoStateA600 demoHostWithBaseline).1.2.writes
      = [("/tmp/blatreetest1337.json.new", ⟨"demo.img", "", [entryA600]⟩)] ∧
    (Finalize demoStateA600 demoHostWithBaseline).1.2.snapshots.get
        demoStateA600.config.OldTreeFilePath
      = demoHostWithBaseline.snapshots.get demoStateA600.config.OldTreeFilePath :=
  ⟨by decide, by decide, (Finalize_persistence demoStateA600 demoHostWithBaseline (by decide)).2.2.2.2.1⟩

end filetree

end Fwanalyzer

/-! ## Auxiliary facts: text decoding and `CapsEqual` -/

namespace Fwanalyzer

theorem splitChar_append_sep (sep : Char) (r : List Char) :
    ∀ l : List Char, sep ∉ l → splitChar sep (l ++ sep :: r) = l :: splitChar sep r := by
  intro l
  induction l with
  | nil =>
    intro _
    simp only [List.nil_append, splitChar]
    cases splitChar sep r <;> simp
  | cons c l ih =>
    intro h
    simp only [List.mem_cons, not_or] at h
    have hc : ¬ c = sep := fun e => h.1 e.symm
    simp only [List.cons_append, splitChar, List.append_eq, ih h.2, hc, if_false]

theorem splitChar_no_sep (sep : Char) :
    ∀ l : List Char, sep ∉ l → splitChar sep l = [l] := by
  intro l
  induction l with
  | nil => intro _; rfl
  | cons c l ih =>
    intro h
    simp only [List.mem_cons, not_or] at h
    have hc : ¬ c = sep := fun e => h.1 e.symm
    simp only [splitChar, ih h.2, hc, if_false]

namespace capability

theorem digitChar_facts : ∀ d, d < 16 →
    (String.utf8EncodeChar (Nat.digitChar d)).map UInt8.toNat = [(Nat.digitChar d).toNat] ∧
    hexDigit (Nat.digitChar d).toNat = some d ∧ Nat.digitChar d ≠ ',' := by
  decide

theorem goBytes_digitChar (d : Nat) (hd : d < 16) (cs : List Char) :
    goBytes (Nat.digitChar d :: cs) = (Nat.digitChar d).toNat :: goBytes cs := by
  simp only [goBytes, List.flatMap_cons, (digitChar_facts d hd).1, List.singleton_append]

theorem toDigitsCore_shape : ∀ (fuel n : Nat) (ds : List Char),
    ∃ pre, Nat.toDigitsCore 16 (fuel + 1) n ds = pre ++ ds ∧ pre ≠ [] ∧
      (∀ c ∈ pre, ∃ d, d < 16 ∧ c = Nat.digitChar d) := by
  intro fuel
  induction fuel with
  | zero =>
    intro n ds
    refine ⟨[Nat.digitChar (n % 16)], ?_, by simp, ?_⟩
    · simp only [Nat.toDigitsCore]
      split <;> rfl
    · intro c hc
      simp only [List.mem_singleton] at hc
      exact ⟨n % 16, Nat.mod_lt _ (by decide), hc⟩
  | succ fuel ih =>
    intro n ds
    by_cases h0 : n / 16 = 0
    · refine ⟨[Nat.digitChar (n % 16)], ?_, by simp, ?_⟩
      · rw [Nat.toDigitsCore]
        simp only [h0, if_true]
        rfl
      · intro c hc
        simp only [List.mem_singleton] at hc
        exact ⟨n % 16, Nat.mod_lt _ (by decide), hc⟩
    · obtain ⟨pre, hpre, hne, hall⟩ := ih (n / 16) (Nat.digitChar (n % 16) :: ds)
      refine ⟨pre ++ [Nat.digitChar (n % 16)], ?_, by simp, ?_⟩
      · rw [Nat.toDigitsCore]
        simp only [h0, if_false]
        rw [hpre]
        simp
      · intro c hc
        rcases List.mem_append.mp hc with h | h
        · exact hall c h
        · simp only [List.mem_singleton] at h
          exact ⟨n % 16, Nat.mod_lt _ (by decide), h⟩

theorem goBytes_digits (pre : List Char) (hall : ∀ c ∈ pre, ∃ d, d < 16 ∧ c = Nat.digitChar d)
    (ds : List Char) : goBytes (pre ++ ds) = pre.map Char.toNat ++ goBytes ds := by
  induction pre with
  | nil => rfl
  | cons c pre ih =>
    obtain ⟨d, hd, rfl⟩ := hall _ (List.mem_cons_self _ _)
    rw [List.cons_append, goBytes_digitChar d hd,
      ih (fun c hc => hall c (List.mem_cons_of_mem _ hc))]
    rfl

theorem toDigitsCore_parse : ∀ (fuel n : Nat) (ds : List Char), n < fuel →
    (goBytes (Nat.toDigitsCore 16 fuel n ds)).foldlM parseStep 0
      = (goBytes ds).foldlM parseStep n := by
  intro fuel
  induction fuel with
  | zero => intro n ds h; omega
  | succ fuel ih =>
    intro n ds h
    have hd : n % 16 < 16 := Nat.mod_lt _ (by decide)
    rw [Nat.toDigitsCore]
    by_cases h0 : n / 16 = 0
    · simp only [h0, if_true]
      rw [goBytes_digitChar _ hd, List.foldlM_cons]
      simp only [parseStep, (digitChar_facts _ hd).2.1, Option.map_some', Option.bind_eq_bind,
        Option.some_bind]
      have : 0 * 16 + n % 16 = n := by omega
      rw [this]
    · simp only [h0, if_false]
      rw [ih (n / 16) _ (by omega), goBytes_digitChar _ hd, List.foldlM_cons]
      simp only [parseStep, (digitChar_facts _ hd).2.1, Option.map_some', Option.bind_eq_bind,
        Option.some_bind]
      have : n / 16 * 16 + n % 16 = n := by omega
      rw [this]

theorem hexWord_no_comma (w : Nat) : ',' ∉ hexWord w := by
  obtain ⟨pre, hpre, _, hall⟩ := toDigitsCore_shape w w []
  unfold hexWord Nat.toDigits
  rw [hpre]
  simp only [List.append_nil, List.mem_cons, not_or]
  refine ⟨by decide, by decide, ?_⟩
  intro hc
  obtain ⟨d, hd, he⟩ := hall _ hc
  exact (digitChar_facts d hd).2.2 he.symm

theorem goBytes_hexWord (w : Nat) :
    ∃ r, goBytes (hexWord w) = 48 :: 120 :: r ∧ r ≠ [] ∧ r.foldlM parseStep 0 = some w := by
  obtain ⟨pre, hpre, hne, hall⟩ := toDigitsCore_shape w w []
  have hparse := toDigitsCore_parse (w + 1) w [] (by omega)
  refine ⟨goBytes (Nat.toDigits 16 w), ?_, ?_, ?_⟩
  · rfl
  · unfold Nat.toDigits
    rw [hpre, goBytes_digits pre hall]
    cases pre with
    | nil => exact absurd rfl hne
    | cons c pre => simp
  · unfold Nat.toDigits
    rw [hparse]
    rfl

theorem parseUint_hexWord (w : Nat) (hw : w < 2 ^ 32) :
    ¬ (goBytes (hexWord w)).length < 2 ∧
    parseUint16_32 ((goBytes (hexWord w)).drop 2) = .ok w := by
  obtain ⟨r, hr, hne, hparse⟩ := goBytes_hexWord w
  rw [hr]
  refine ⟨by simp, ?_⟩
  simp only [List.drop_succ_cons, List.drop_zero, parseUint16_32, hne, if_false]
  have : r.foldlM (fun (acc : Nat) b => (hexDigit b).map (fun d => acc * 16 + d)) 0 = some w :=
    hparse
  rw [this]
  simp only [hw, if_true]

theorem textStep_hexWord (acc : List Nat) (i w : Nat) (hi : i < acc.length) (hw : w < 2 ^ 32) :
    capsTextStep acc i (hexWord w) = .ok (acc.set i w) := by
  obtain ⟨h1, h2⟩ := parseUint_hexWord w hw
  have hu : u32 w = w := Nat.mod_eq_of_lt hw
  simp only [capsTextStep, h1, h2, hi, if_true, if_false, hu]

theorem splitComma_capsText (w0 w1 w2 w3 w4 : Nat) :
    splitComma (capsText [w0, w1, w2, w3, w4]).data
      = [hexWord w0, hexWord w1, hexWord w2, hexWord w3, hexWord w4] := by
  have hdata : (capsText [w0, w1, w2, w3, w4]).data
      = hexWord w0 ++ ',' :: (hexWord w1 ++ ',' :: (hexWord w2 ++ ',' :: (hexWord w3 ++ ',' ::
          hexWord w4))) := by
    simp [capsText, List.intercalate, List.intersperse]
  rw [hdata, splitComma, splitChar_append_sep _ _ _ (hexWord_no_comma w0),
    splitChar_append_sep _ _ _ (hexWord_no_comma w1),
    splitChar_append_sep _ _ _ (hexWord_no_comma w2),
    splitChar_append_sep _ _ _ (hexWord_no_comma w3),
    splitChar_no_sep _ _ (hexWord_no_comma w4)]

theorem capsParseFromText_capsText (w0 w1 w2 w3 w4 : Nat) (h0 : w0 < 2 ^ 32) (h1 : w1 < 2 ^ 32)
    (h2 : w2 < 2 ^ 32) (h3 : w3 < 2 ^ 32) (h4 : w4 < 2 ^ 32) :
    capsParseFromText (capsText [w0, w1, w2, w3, w4])
      = capsParse (ByteSlice.ofList ([w0, w1, w2, w3, w4].flatMap putUint32LE)) 20 := by
  unfold capsParseFromText
  simp only [splitComma_capsText, List.enum, List.enumFrom_cons, List.enumFrom_nil,
    List.foldlM_cons, List.foldlM_nil]
  rw [textStep_hexWord _ _ w0 (by simp) h0]
  simp only [bind, Except.bind]
  rw [textStep_hexWord _ _ w1 (by simp) h1]
  simp only [bind, Except.bind]
  rw [textStep_hexWord _ _ w2 (by simp) h2]
  simp only [bind, Except.bind]
  rw [textStep_hexWord _ _ w3 (by simp) h3]
  simp only [bind, Except.bind]
  rw [textStep_hexWord _ _ w4 (by simp) h4]
  rfl

theorem parse_fold_none : ∀ (r : List Nat) (acc : Nat), (∃ b ∈ r, hexDigit b = none) →
    r.foldlM parseStep acc = none := by
  intro r
  induction r with
  | nil => intro acc h; simp at h
  | cons b r ih =>
    intro acc h
    rw [List.foldlM_cons]
    cases hb : hexDigit b with
    | none => simp [parseStep, hb]
    | some d =>
      simp only [parseStep, hb, Option.map_some', Option.bind_eq_bind, Option.some_bind]
      apply ih
      obtain ⟨c, hc, hcn⟩ := h
      rcases List.mem_cons.mp hc with h1 | h1
      · subst h1; rw [hb] at hcn; cases hcn
      · exact ⟨c, h1, hcn⟩

theorem parse_fold_some : ∀ (r : List Nat) (acc : Nat), (∀ b ∈ r, hexDigit b ≠ none) →
    r.foldlM parseStep acc
      = some (r.foldl (fun acc b => acc * 16 + (hexDigit b).getD 0) acc) := by
  intro r
  induction r with
  | nil => intro acc _; rfl
  | cons b r ih =>
    intro acc h
    rw [List.foldlM_cons, List.foldl_cons]
    cases hb : hexDigit b with
    | none => exact absurd hb (h b (List.mem_cons_self _ _))
    | some d =>
      simp only [parseStep, hb, Option.map_some', Option.bind_eq_bind, Option.some_bind,
        Option.getD_some]
      exact ih _ (fun c hc => h c (List.mem_cons_of_mem _ hc))

theorem parseUint_error (r : List Nat)
    (h : r = [] ∨ (∃ b ∈ r, hexDigit b = none) ∨ 2 ^ 32 ≤ hexValue r) :
    ∃ msg, parseUint16_32 r = .error (.error msg) := by
  unfold parseUint16_32
  by_cases hr : r = []
  · exact ⟨_, by rw [if_pos hr]⟩
  · rw [if_neg hr]
    by_cases hex : ∃ b ∈ r, hexDigit b = none
    · have : r.foldlM (fun (acc : Nat) b => (hexDigit b).map (fun d => acc * 16 + d)) 0 = none :=
        parse_fold_none r 0 hex
      rw [this]
      exact ⟨_, rfl⟩
    · have hall : ∀ b ∈ r, hexDigit b ≠ none := fun b hb hn => hex ⟨b, hb, hn⟩
      have : r.foldlM (fun (acc : Nat) b => (hexDigit b).map (fun d => acc * 16 + d)) 0
          = some (hexValue r) := parse_fold_some r 0 hall
      rw [this]
      rcases h with h | h | h
      · exact absurd h hr
      · exact absurd h hex
      · have hnot : ¬ hexValue r < 2 ^ 32 := by omega
        simp only [hnot, if_false]
        exact ⟨_, rfl⟩

theorem parseUint_no_panic (r : List Nat) (msg : String) :
    parseUint16_32 r ≠ .error (.panic msg) := by
  unfold parseUint16_32
  split
  · intro h; cases h
  · split
    · intro h; cases h
    · split <;> intro h <;> cases h

theorem textLoop_error : ∀ (items : List (List Char)) (start : Nat) (acc : List Nat),
    start + items.length ≤ acc.length →
    (∀ item ∈ items, 2 ≤ (goBytes item).length) →
    (∃ item ∈ items, ∃ msg, parseUint16_32 ((goBytes item).drop 2) = .error (.error msg)) →
    ∃ msg, (items.enumFrom start).foldlM (fun acc p => capsTextStep acc p.1 p.2) acc
      = .error (.error msg) := by
  intro items
  induction items with
  | nil => intro start acc _ _ h; simp at h
  | cons item items ih =>
    intro start acc hlen h2 hbad
    simp only [List.length_cons] at hlen
    have hitem : ¬ (goBytes item).length < 2 := by
      have := h2 item (List.mem_cons_self _ _)
      omega
    rw [List.enumFrom_cons, List.foldlM_cons]
    cases hp : parseUint16_32 ((goBytes item).drop 2) with
    | error e =>
      cases e with
      | error msg =>
        refine ⟨msg, ?_⟩
        simp only [capsTextStep, hitem, if_false, hp]
        rfl
      | panic msg => exact absurd hp (parseUint_no_panic _ msg)
    | ok v =>
      have hstart : start < acc.length := by omega
      have hstep : capsTextStep acc start item = .ok (acc.set start (u32 v)) := by
        simp only [capsTextStep, hitem, if_false, hp, hstart, if_true]
      simp only [hstep, bind, Except.bind]
      apply ih (start + 1) _ (by simp only [List.length_set]; omega)
        (fun x hx => h2 x (List.mem_cons_of_mem _ hx))
      obtain ⟨x, hx, msg, hmsg⟩ := hbad
      rcases List.mem_cons.mp hx with h1 | h1
      · subst h1; rw [hp] at hmsg; cases hmsg
      · exact ⟨x, h1, msg, hmsg⟩

theorem foldl_insert_get : ∀ (l : List String) (m : GoMap Bool) (k : String),
    (l.foldl (fun (m : GoMap Bool) cap => m.insert cap true) m).get k
      = if k ∈ l then some true else m.get k := by
  intro l
  induction l with
  | nil => intro m k; simp
  | cons c l ih =>
    intro m k
    rw [List.foldl_cons, ih, GoMap.get_insert]
    by_cases h1 : k ∈ l
    · simp [h1]
    · by_cases h2 : k = c
      · simp [h2]
      · simp [h1, h2]

theorem CapsEqual_iff (a b : List String) :
    CapsEqual a b = true ↔ a.length = b.length ∧ ∀ t ∈ a, t ∈ b := by
  unfold CapsEqual
  by_cases hl : a.length = b.length
  · simp only [hl, ne_eq, not_true_eq_false, if_false, true_and, List.all_eq_true]
    constructor
    · intro h t ht
      have hget : (a.foldl (fun (m : GoMap Bool) cap => m.insert cap true) []).get t
          = some true := by
        rw [foldl_insert_get]; simp [ht]
      have hex : ∃ v, (t, v) ∈ a.foldl (fun (m : GoMap Bool) cap => m.insert cap true) [] := by
        by_contra hne
        have hnone := (GoMap.get_eq_none_iff _ t).mpr (fun v hv => hne ⟨v, hv⟩)
        rw [hnone] at hget
        cases hget
      obtain ⟨v, hv⟩ := hex
      have := h (t, v) hv
      rw [foldl_insert_get] at this
      by_contra hnb
      simp [hnb, GoMap.get] at this
    · intro h e he
      have hk : e.1 ∈ a := by
        by_contra hna
        have hnone : (a.foldl (fun (m : GoMap Bool) cap => m.insert cap true) []).get e.1
            = none := by
          rw [foldl_insert_get]; simp [hna, GoMap.get]
        exact (GoMap.get_eq_none_iff _ e.1).mp hnone e.2 he
      rw [foldl_insert_get]
      simp [h e.1 hk]
  · simp [hl]

end capability

end Fwanalyzer

/-! ## Theorems: capability codec, malformed input, text decoding and `CapsEqual` -/

namespace Fwanalyzer

namespace capability

/-- C12: evaluation of `New` on byte blobs whose length is not a multiple of 4. On the
empty blob `New` panics with a slice expression out of range instead of returning the
empty list, and on a 21-byte blob it decodes the first 20 bytes and returns a token:
`capsParse` tests the constant 20 it is called with, never the length of the blob. -/
theorem New_malformed_blob :
    New (.bytes (ByteSlice.ofList [])) = .error (.panic "slice bounds out of range") ∧
    New (.bytes (ByteSlice.ofList [0, 0, 0])) = .error (.panic "slice bounds out of range") ∧
    ([0, 0, 0, 0, 0, 0x10, 0, 0, 0, 0, 0, 0, 0, 0, 0, 0, 0, 0, 0, 0, 0] : List Byte).length = 21 ∧
    New (.bytes (ByteSlice.ofList
      [0, 0, 0, 0, 0, 0x10, 0, 0, 0, 0, 0, 0, 0, 0, 0, 0, 0, 0, 0, 0, 0]))
      = .ok ["cap_net_admin+p"] := by
  decide

/-- C13, as the specification states it, fails: an item without the `0x` prefix is
parsed like one with it, so a text of such items decodes to a token; and on the empty
string, on a one-character item and on a sixth item `New` panics. -/
theorem New_text_not_degrading :
    New (.text "zz0,zz1000,zz0,zz0,zz0") = .ok ["cap_net_admin+p"] ∧
    New (.text "") = .error (.panic "slice bounds out of range") ∧
    New (.text "0x0,0") = .error (.panic "slice bounds out of range") ∧
    New (.text "0x0,0x0,0x0,0x0,0x0,0x0") = .error (.panic "index out of range") := by
  decide

/-- C13, amended: for every string with at most five comma-separated items, each at
least two bytes long, in which some item, once its first two bytes are dropped, is
empty, has a byte that is not a hexadecimal digit, or denotes a value of `2^32` or
more, `New` returns the empty token list (with a `nil` error) and does not panic. -/
theorem New_text_parse_failure (s : String)
    (hcount : (splitComma s.data).length ≤ 5)
    (hlen : ∀ item ∈ splitComma s.data, 2 ≤ (goBytes item).length)
    (hbad : ∃ item ∈ splitComma s.data,
      (goBytes item).drop 2 = [] ∨ (∃ b ∈ (goBytes item).drop 2, hexDigit b = none) ∨
        2 ^ 32 ≤ hexValue ((goBytes item).drop 2)) :
    New (.text s) = .ok [] := by
  obtain ⟨item, hitem, hb⟩ := hbad
  obtain ⟨msg, hmsg⟩ := textLoop_error (splitComma s.data) 0 (List.replicate 5 0)
    (by simpa using hcount) hlen ⟨item, hitem, parseUint_error _ hb⟩
  have hparse : capsParseFromText s = .error (.error msg) := by
    unfold capsParseFromText
    simp only [List.enum, hmsg]
    rfl
  unfold New
  simp only [hparse]

/-- Witness of the amended C13: an item with a digit that is not hexadecimal. -/
theorem New_text_parse_failure_witness :
    (splitComma "0x0,0xg".data).length ≤ 5 ∧
    (∀ item ∈ splitComma "0x0,0xg".data, 2 ≤ (goBytes item).length) ∧
    (∃ item ∈ splitComma "0x0,0xg".data,
      (goBytes item).drop 2 = [] ∨ (∃ b ∈ (goBytes item).drop 2, hexDigit b = none) ∨
        2 ^ 32 ≤ hexValue ((goBytes item).drop 2)) ∧
    New (.text "0x0,0xg") = .ok [] :=
  ⟨by decide, by decide, by decide,
    New_text_parse_failure "0x0,0xg" (by decide) (by decide) (by decide)⟩

/-- C14: text decode agrees with binary decode. For every five 32-bit words, `New` on
the text `0x<hex w0>,0x<hex w1>,0x<hex w2>,0x<hex w3>,0x<hex w4>` returns what `New`
returns on the 20-byte blob that is the little-endian encoding of the five words; the
text `0x2000001,0x1000,0x0,0x0,0x0` and the bytes `00 00 00 00 00 10 00 ...` both
decode to `cap_net_admin+p`. -/
theorem New_text_agrees_with_bytes (w0 w1 w2 w3 w4 : Nat) (h0 : w0 < 2 ^ 32)
    (h1 : w1 < 2 ^ 32) (h2 : w2 < 2 ^ 32) (h3 : w3 < 2 ^ 32) (h4 : w4 < 2 ^ 32) :
    New (.text (capsText [w0, w1, w2, w3, w4]))
      = New (.bytes (ByteSlice.ofList ([w0, w1, w2, w3, w4].flatMap putUint32LE))) ∧
    capsText [0x2000001, 0x1000, 0, 0, 0] = "0x2000001,0x1000,0x0,0x0,0x0" ∧
    New (.text "0x2000001,0x1000,0x0,0x0,0x0") = .ok ["cap_net_admin+p"] ∧
    New (.bytes (ByteSlice.ofList
      [0, 0, 0, 0, 0, 0x10, 0, 0, 0, 0, 0, 0, 0, 0, 0, 0, 0, 0, 0, 0]))
      = .ok ["cap_net_admin+p"] := by
  refine ⟨?_, by decide, by decide, by decide⟩
  unfold New
  simp only [capsParseFromText_capsText w0 w1 w2 w3 w4 h0 h1 h2 h3 h4]

/-- Witness of C14: the words of `TestCapsStringParse`. -/
theorem New_text_agrees_with_bytes_witness :
    0x2000001 < 2 ^ 32 ∧ 0x1000 < 2 ^ 32 ∧ 0 < 2 ^ 32 ∧
    New (.text (capsText [0x2000001, 0x1000, 0, 0, 0]))
      = New (.bytes (ByteSlice.ofList ([0x2000001, 0x1000, 0, 0, 0].flatMap putUint32LE))) :=
  ⟨by decide, by decide, by decide,
    (New_text_agrees_with_bytes 0x2000001 0x1000 0 0 0 (by decide) (by decide) (by decide)
      (by decide) (by decide)).1⟩

/-- C15, as the specification states it, fails in both directions: `CapsEqual` accepts
two lists of equal length that are not equal as sets, and rejects two lists that are
equal as sets but differ in length. -/
theorem CapsEqual_not_set_equality :
    CapsEqual ["cap_chown+p", "cap_chown+p"] ["cap_chown+p", "cap_kill+p"] = true ∧
    ¬ (∀ t, t ∈ ["cap_chown+p", "cap_chown+p"] ↔ t ∈ ["cap_chown+p", "cap_kill+p"]) ∧
    CapsEqual ["cap_chown+p"] ["cap_chown+p", "cap_chown+p"] = false ∧
    (∀ t, t ∈ ["cap_chown+p"] ↔ t ∈ ["cap_chown+p", "cap_chown+p"]) := by
  refine ⟨by decide, ?_, by decide, ?_⟩
  · intro h
    have := (h "cap_kill+p").mpr (by simp)
    simp at this
  · intro t
    simp

/-- C15, amended: `CapsEqual(a, b)` returns true if and only if `a` and `b` have the
same length and every token of `a` occurs in `b`; for token lists without repeated
tokens this is the case if and only if `a` and `b` are equal as sets, whatever the
order of the tokens. -/
theorem CapsEqual_spec (a b : List String) :
    (CapsEqual a b = true ↔ a.length = b.length ∧ ∀ t ∈ a, t ∈ b) ∧
    (a.Nodup → b.Nodup → (CapsEqual a b = true ↔ ∀ t, t ∈ a ↔ t ∈ b)) := by
  refine ⟨CapsEqual_iff a b, ?_⟩
  intro ha hb
  rw [CapsEqual_iff]
  constructor
  · rintro ⟨hl, hsub⟩ t
    have hperm : a.Perm b :=
      (List.subperm_of_subset ha hsub).perm_of_length_le (by omega)
    exact hperm.mem_iff
  · intro h
    have hperm : a.Perm b := (List.perm_ext_iff_of_nodup ha hb).mpr h
    exact ⟨hperm.length_eq, fun t ht => (h t).mp ht⟩

/-- Witness of the amended C15: two duplicate-free lists in different order. -/
theorem CapsEqual_spec_witness :
    ["cap_chown+p", "cap_kill+i"].Nodup ∧ ["cap_kill+i", "cap_chown+p"].Nodup ∧
    (CapsEqual ["cap_chown+p", "cap_kill+i"] ["cap_kill+i", "cap_chown+p"] = true ↔
      ∀ t, t ∈ ["cap_chown+p", "cap_kill+i"] ↔ t ∈ ["cap_kill+i", "cap_chown+p"]) :=
  ⟨by decide, by decide,
    (CapsEqual_spec ["cap_chown+p", "cap_kill+i"] ["cap_kill+i", "cap_chown+p"]).2
      (by decide) (by decide)⟩

end capability

end Fwanalyzer

/-! ## Auxiliary facts: scope filter of the FileTree plugin -/

namespace Fwanalyzer

theorem GoMap.mem_insert {V : Type} (m : GoMap V) (k : String) (v : V) (e : String × V)
    (he : e ∈ m.insert k v) : e = (k, v) ∨ e ∈ m := by
  unfold GoMap.insert at he
  split at he
  · simp only [List.mem_map] at he
    obtain ⟨x, hx, hxe⟩ := he
    split at hxe
    · exact Or.inl hxe.symm
    · exact Or.inr (hxe ▸ hx)
  · rcases List.mem_append.mp he with h | h
    · exact Or.inr h
    · exact Or.inl (List.mem_singleton.mp h)

theorem GoMap.mem_of_get {V : Type} (m : GoMap V) (k : String) (v : V)
    (h : m.get k = some v) : (k, v) ∈ m := by
  induction m with
  | nil => simp [GoMap.get] at h
  | cons e m ih =>
    obtain ⟨k1, v1⟩ := e
    rw [GoMap.get_cons] at h
    by_cases hk : k = k1
    · subst hk
      simp only [if_true, Option.some.injEq] at h
      subst h
      exact List.mem_cons_self _ _
    · simp only [hk, if_false] at h
      exact List.mem_cons_of_mem _ (ih h)

namespace filetree

open fsparser

theorem KeyedByName_foldl_insert :
    ∀ (l : List fileInfoSaveType) (m : GoMap fileInfoSaveType), KeyedByName m →
      KeyedByName (l.foldl (fun m fi => m.insert fi.Name fi) m) := by
  intro l
  induction l with
  | nil => intro m h; exact h
  | cons fi l ih =>
    intro m h
    apply ih
    intro e he
    rcases GoMap.mem_insert m fi.Name fi e he with h1 | h1
    · rw [h1]
    · exact h e h1

theorem readOldTree_keyed (state : fileTreeType) (h : Host)
    (hk : KeyedByName (entries state.oldTree)) :
    KeyedByName (entries (readOldTree state h).1.oldTree) := by
  unfold readOldTree
  cases h.snapshots.get state.config.OldTreeFilePath with
  | none => exact hk
  | some snap =>
    exact KeyedByName_foldl_insert snap.Files [] (fun e he => by simp at he)

theorem readOldTree_congr (s1 s2 : fileTreeType) (h : Host) (hc : s1.config = s2.config)
    (ho : s1.oldTree = s2.oldTree) :
    (readOldTree s1 h).1.oldTree = (readOldTree s2 h).1.oldTree := by
  unfold readOldTree
  rw [hc]
  cases h.snapshots.get s2.config.OldTreeFilePath with
  | none => exact ho
  | some snap => rfl

theorem get_inScope (cfgPath : List String) (k : String) (hk : inPath k cfgPath = true) :
    ∀ m : GoMap fileInfoSaveType, (inScope cfgPath m).get k = m.get k := by
  intro m
  induction m with
  | nil => rfl
  | cons e m ih =>
    obtain ⟨k1, v1⟩ := e
    unfold inScope at ih ⊢
    rw [List.filter_cons]
    by_cases h1 : inPath k1 cfgPath = true
    · simp only [h1, if_true]
      rw [GoMap.get_cons, GoMap.get_cons, ih]
    · simp only [h1, Bool.false_eq_true, if_false]
      rw [GoMap.get_cons, ih]
      have : ¬ k = k1 := fun e => h1 (e ▸ hk)
      simp [this]

theorem findNew_inScope (state : fileTreeType) :
    ∀ (l : List (String × fileInfoSaveType)) (acc : List fileInfoSaveType),
      findNew state (inScope state.config.CheckPath l) acc = findNew state l acc := by
  intro l
  induction l with
  | nil => intro acc; rfl
  | cons e l ih =>
    intro acc
    obtain ⟨k1, v1⟩ := e
    unfold inScope at ih ⊢
    rw [List.filter_cons]
    by_cases h1 : inPath k1 state.config.CheckPath = true
    · simp only [h1, if_true, findNew, Bool.not_true, Bool.false_eq_true, if_false]
      cases (entries state.oldTree).get k1 <;> simp only [ih]
    · simp only [Bool.not_eq_true] at h1
      simp only [h1, Bool.false_eq_true, if_false, findNew, Bool.not_false, if_true, ih]

theorem findNew_congr (s1 s2 : fileTreeType) (hc : s1.config = s2.config)
    (ho : s1.oldTree = s2.oldTree) :
    ∀ (l : List (String × fileInfoSaveType)) (acc : List fileInfoSaveType),
      findNew s1 l acc = findNew s2 l acc := by
  intro l
  induction l with
  | nil => intro acc; rfl
  | cons e l ih =>
    intro acc
    obtain ⟨k1, v1⟩ := e
    simp only [findNew, hc, ho, ih]

theorem findModified_congr (s1 s2 : fileTreeType) (hc : s1.config = s2.config)
    (hg : ∀ k, inPath k s2.config.CheckPath = true →
      (entries s1.tree).get k = (entries s2.tree).get k) :
    ∀ (l : List (String × fileInfoSaveType)) (acc : List fileInfoSaveType × List String),
      findModified s1 l acc = findModified s2 l acc := by
  intro l
  induction l with
  | nil => intro acc; rfl
  | cons e l ih =>
    intro acc
    obtain ⟨k1, v1⟩ := e
    obtain ⟨removed, changed⟩ := acc
    simp only [findModified, hc]
    by_cases h1 : inPath k1 s2.config.CheckPath = true
    · simp only [h1, Bool.not_true, Bool.false_eq_true, if_false, hg k1 h1, ih]
    · simp only [Bool.not_eq_true] at h1
      simp only [h1, Bool.not_false, if_true, ih]

theorem computeDiff_congr (s1 s2 : fileTreeType) (hc : s1.config = s2.config)
    (ho : s1.oldTree = s2.oldTree)
    (ht : inScope s2.config.CheckPath (entries s1.tree)
      = inScope s2.config.CheckPath (entries s2.tree)) :
    computeDiff s1 = computeDiff s2 := by
  have hg : ∀ k, inPath k s2.config.CheckPath = true →
      (entries s1.tree).get k = (entries s2.tree).get k := by
    intro k hk
    rw [← get_inScope _ k hk (entries s1.tree), ← get_inScope _ k hk (entries s2.tree), ht]
  unfold computeDiff
  rw [findModified_congr s1 s2 hc hg, ho]
  rw [← findNew_inScope s1, hc, ht, findNew_congr s1 s2 hc ho, findNew_inScope s2]

theorem changed_in_scope (state : fileTreeType) (k : String)
    (hk : k ∈ (computeDiff state).changed) :
    inPath k state.config.CheckPath = true ∧
    ∃ oFi cFi, (k, oFi) ∈ entries state.oldTree ∧ (entries state.tree).get k = some cFi := by
  simp only [computeDiff] at hk
  rw [(findModified_mem state zeroEntry k _ [] []).2] at hk
  simp only [List.not_mem_nil, false_or] at hk
  obtain ⟨o, c, h1, h2, h3, _⟩ := hk
  exact ⟨h2, o, c, h1, h3⟩

theorem findings_congr (s1 s2 : fileTreeType) (hc : s1.config = s2.config)
    (ho : s1.oldTree = s2.oldTree)
    (hg : ∀ k, inPath k s2.config.CheckPath = true →
      (entries s1.tree).get k = (entries s2.tree).get k) :
    findings s1 (computeDiff s2) = findings s2 (computeDiff s2) := by
  unfold findings
  rw [hc, ho]
  congr 1
  split
  · apply List.map_congr_left
    intro k hk
    rw [hg k (changed_in_scope s2 k hk).1]
  · rfl

theorem Finalize_effects (state : fileTreeType) (h : Host)
    (hpath : state.config.OldTreeFilePath ≠ "") :
    (Finalize state h).1.2.writes
      = (if (computeDiff (readOldTree state h).1).updates state.config then
          h.writes ++ [(state.config.OldTreeFilePath ++ newFileTreeExt,
            treeToSave (readOldTree state h).1 h)]
         else h.writes) ∧
    (Finalize state h).1.2.informational
      = (if (computeDiff (readOldTree state h).1).updates state.config &&
            !h.writable (state.config.OldTreeFilePath ++ newFileTreeExt) then h.informational
         else h.informational ++
           findings (readOldTree state h).1 (computeDiff (readOldTree state h).1)) ∧
    (Finalize state h).2
      = (if (computeDiff (readOldTree state h).1).updates state.config then
          (if h.writable (state.config.OldTreeFilePath ++ newFileTreeExt) then
            .ok (jsonObject [("old_file_tree_path", state.config.OldTreeFilePath),
              ("current_file_tree_path", state.config.OldTreeFilePath ++ newFileTreeExt)])
           else .error (.panic "saveTree failed"))
         else .ok (jsonObject [("old_file_tree_path", state.config.OldTreeFilePath)])) := by
  cases hu : (computeDiff (readOldTree state h).1).updates state.config with
  | false =>
    rw [Finalize_no_update state h hpath hu]
    simp
  | true =>
    cases hw : h.writable (state.config.OldTreeFilePath ++ newFileTreeExt) with
    | true =>
      rw [Finalize_update_ok state h hpath hu hw]
      simp
    | false =>
      rw [Finalize_update_fail state h hpath hu hw]
      simp

theorem findings_paths (state : fileTreeType) (p : String)
    (hkeyT : KeyedByName (entries state.tree)) (hkeyO : KeyedByName (entries state.oldTree))
    (hp : inPath p state.config.CheckPath = false) :
    (∀ e ∈ (computeDiff state).added, e.Name ≠ p) ∧
    (∀ e ∈ (computeDiff state).removed, e.Name ≠ p) ∧
    p ∉ (computeDiff state).changed ∧
    (∀ x ∈ findings state (computeDiff state), x.1 ≠ p) := by
  have hne : ∀ k, inPath k state.config.CheckPath = true → k ≠ p := by
    intro k hk e
    rw [e, hp] at hk
    cases hk
  have hadd : ∀ e ∈ (computeDiff state).added, e.Name ≠ p := by
    intro e he
    simp only [computeDiff] at he
    rw [findNew_mem] at he
    simp only [List.not_mem_nil, false_or] at he
    obtain ⟨k, hk, hin, _⟩ := he
    have := hkeyT (k, e) hk
    simp only at this
    rw [this]
    exact hne k hin
  have hrem : ∀ e ∈ (computeDiff state).removed, e.Name ≠ p := by
    intro e he
    simp only [computeDiff] at he
    rw [(findModified_mem state e "" _ [] []).1] at he
    simp only [List.not_mem_nil, false_or] at he
    obtain ⟨k, hk, hin, _⟩ := he
    have := hkeyO (k, e) hk
    simp only at this
    rw [this]
    exact hne k hin
  have hchg : p ∉ (computeDiff state).changed := by
    intro hc
    have := (changed_in_scope state p hc).1
    rw [hp] at this
    cases this
  refine ⟨hadd, hrem, hchg, ?_⟩
  intro x hx
  unfold findings at hx
  rcases List.mem_append.mp hx with hx | hx
  · rcases List.mem_append.mp hx with hx | hx
    · obtain ⟨e, he, rfl⟩ := List.mem_map.mp hx
      exact hadd e he
    · obtain ⟨e, he, rfl⟩ := List.mem_map.mp hx
      exact hrem e he
  · split at hx
    · obtain ⟨k, hk, rfl⟩ := List.mem_map.mp hx
      obtain ⟨hin, o, c, _, hc⟩ := changed_in_scope state k hk
      simp only [hc, Option.getD_some]
      have hmem : (k, c) ∈ entries state.tree := GoMap.mem_of_get _ k c hc
      have := hkeyT (k, c) hmem
      simp only at this
      rw [this]
      exact hne k hin
    · simp at hx

theorem CheckFile_records (state : fileTreeType) (h : Host) (fi : FileInfo) (parent : String)
    (t : GoMap fileInfoSaveType) (raw : List Byte)
    (hpath : state.config.OldTreeFilePath ≠ "") (ht : state.tree = some t)
    (hd : h.FileGetSha256 (pathJoin parent fi.Name) = .ok raw) :
    ∃ st e, CheckFile state h fi parent = .ok st ∧
      (entries st.tree).get (pathJoin parent fi.Name) = some e ∧
      e.Name = pathJoin parent fi.Name ∧ e.Size = fi.Size ∧ e.Mode = fi.Mode ∧
      e.Uid = fi.Uid ∧ e.Gid = fi.Gid ∧ e.SELinuxLabel = fi.SELinuxLabel := by
  unfold CheckFile
  simp only [hpath, if_false, hd, ht]
  by_cases hf : (fi.IsFile && !state.config.SkipFileDigest) = true
  · simp only [hf, if_true, Except.map]
    refine ⟨_, ⟨⟨fi.Size, fi.Mode, fi.Uid, fi.Gid, fi.SELinuxLabel, [],
      pathJoin parent fi.Name, ""⟩, hexEncodeToString raw⟩, rfl, ?_, rfl, rfl, rfl, rfl, rfl, rfl⟩
    simp [entries, GoMap.get_insert]
  · simp only [hf, Bool.false_eq_true, if_false]
    refine ⟨_, ⟨⟨fi.Size, fi.Mode, fi.Uid, fi.Gid, fi.SELinuxLabel, [],
      pathJoin parent fi.Name, ""⟩, "0"⟩, rfl, ?_, rfl, rfl, rfl, rfl, rfl, rfl⟩
    simp [entries, GoMap.get_insert]

end filetree

end Fwanalyzer

/-! ## Theorems: FileTree plugin, scope filter -/

namespace Fwanalyzer

namespace filetree

open fsparser

/-- C11: scope filter of the FileTree plugin. For every list of `CheckPath` prefixes and
every path `p` that starts with none of them: `CheckFile` records an entry visited at
`p` like any other, and every snapshot `Finalize` writes holds every recorded entry;
but no entry named `p` is put on `added` or `removed`, `p` is not put on `changed`, and
no `AddInformational` call of `Finalize` is made for `p`, whatever the baseline holds.
Two runs with the same configuration and baseline whose recorded entries agree on the
paths in scope compute the same `added`, `removed` and `changed`, make the same
`AddInformational` calls, return the same result and agree on whether a snapshot is
written. -/
theorem Finalize_scope_filter (state : fileTreeType) (h : Host) (p : String)
    (hpath : state.config.OldTreeFilePath ≠ "")
    (hkeyT : KeyedByName (entries state.tree)) (hkeyO : KeyedByName (entries state.oldTree))
    (hp : ∀ q ∈ state.config.CheckPath, stringsHasPrefix p q = false) :
    (∀ (fi : FileInfo) (parent : String) (t : GoMap fileInfoSaveType) (raw : List Byte),
      pathJoin parent fi.Name = p → state.tree = some t → h.FileGetSha256 p = .ok raw →
      ∃ st e, CheckFile state h fi parent = .ok st ∧ (entries st.tree).get p = some e ∧
        e.Name = p ∧ e.Mode = fi.Mode) ∧
    (∀ ws, (Finalize state h).1.2.writes = h.writes ++ ws →
      ∀ w ∈ ws, ∀ e ∈ entries state.tree, e.2 ∈ w.2.Files) ∧
    (∀ e ∈ (computeDiff (readOldTree state h).1).added, e.Name ≠ p) ∧
    (∀ e ∈ (computeDiff (readOldTree state h).1).removed, e.Name ≠ p) ∧
    p ∉ (computeDiff (readOldTree state h).1).changed ∧
    (∀ xs, (Finalize state h).1.2.informational = h.informational ++ xs →
      ∀ x ∈ xs, x.1 ≠ p) ∧
    (∀ other : fileTreeType, other.config = state.config → other.oldTree = state.oldTree →
      inScope state.config.CheckPath (entries other.tree)
        = inScope state.config.CheckPath (entries state.tree) →
      computeDiff (readOldTree other h).1 = computeDiff (readOldTree state h).1 ∧
      (Finalize other h).1.2.informational = (Finalize state h).1.2.informational ∧
      (Finalize other h).2 = (Finalize state h).2 ∧
      ((Finalize other h).1.2.writes = h.writes ↔ (Finalize state h).1.2.writes = h.writes)) := by
  have hin : inPath p state.config.CheckPath = false := by
    rw [← Bool.not_eq_true, inPath_iff]
    rintro ⟨q, hq, hpre⟩
    rw [hp q hq] at hpre
    cases hpre
  obtain ⟨hc, ht⟩ := readOldTree_fields state h
  obtain ⟨hw, hi, hr⟩ := Finalize_effects state h hpath
  have hkeyT1 : KeyedByName (entries (readOldTree state h).1.tree) := by rw [ht]; exact hkeyT
  have hkeyO1 := readOldTree_keyed state h hkeyO
  have hin1 : inPath p (readOldTree state h).1.config.CheckPath = false := by rw [hc]; exact hin
  obtain ⟨hadd, hrem, hchg, hfind⟩ := findings_paths (readOldTree state h).1 p hkeyT1 hkeyO1 hin1
  refine ⟨?_, ?_, hadd, hrem, hchg, ?_, ?_⟩
  · intro fi parent t raw hjoin htree hd
    rw [← hjoin] at hd
    obtain ⟨st, e, h1, h2, h3, _, h5, _⟩ := CheckFile_records state h fi parent t raw hpath htree hd
    rw [hjoin] at h2 h3
    exact ⟨st, e, h1, h2, h3, h5⟩
  · intro ws hws w hwmem e he
    rw [hw] at hws
    split at hws
    · have := List.append_cancel_left hws
      rw [← this] at hwmem
      simp only [List.mem_singleton] at hwmem
      rw [hwmem]
      simp only [treeToSave, ht]
      exact List.mem_map_of_mem _ he
    · have : ws = [] := by
        have := congrArg List.length hws
        simp only [List.length_append] at this
        exact List.length_eq_zero.mp (by omega)
      rw [this] at hwmem
      simp at hwmem
  · intro xs hxs x hx
    rw [hi] at hxs
    split at hxs
    · have : xs = [] := by
        have := congrArg List.length hxs
        simp only [List.length_append] at this
        exact List.length_eq_zero.mp (by omega)
      rw [this] at hx
      simp at hx
    · have := List.append_cancel_left hxs
      rw [← this] at hx
      exact hfind x hx
  · intro other hoc hoo hsc
    obtain ⟨hc2, ht2⟩ := readOldTree_fields other h
    obtain ⟨hw2, hi2, hr2⟩ := Finalize_effects other h (by rw [hoc]; exact hpath)
    have hcfg : (readOldTree other h).1.config = (readOldTree state h).1.config := by
      rw [hc2, hc, hoc]
    have hold : (readOldTree other h).1.oldTree = (readOldTree state h).1.oldTree :=
      readOldTree_congr other state h hoc hoo
    have hscope : inScope (readOldTree state h).1.config.CheckPath
          (entries (readOldTree other h).1.tree)
        = inScope (readOldTree state h).1.config.CheckPath
          (entries (readOldTree state h).1.tree) := by
      rw [hc, ht, ht2]; exact hsc
    have hdiff := computeDiff_congr _ _ hcfg hold hscope
    have hg : ∀ k, inPath k (readOldTree state h).1.config.CheckPath = true →
        (entries (readOldTree other h).1.tree).get k
          = (entries (readOldTree state h).1.tree).get k := by
      intro k hk
      rw [← get_inScope _ k hk (entries (readOldTree other h).1.tree),
        ← get_inScope _ k hk (entries (readOldTree state h).1.tree), hscope]
    have hfs : findings (readOldTree other h).1 (computeDiff (readOldTree other h).1)
        = findings (readOldTree state h).1 (computeDiff (readOldTree state h).1) := by
      rw [hdiff]
      exact findings_congr _ _ hcfg hold hg
    refine ⟨hdiff, ?_, ?_, ?_⟩
    · rw [hi2, hi, hfs, hdiff, hoc]
    · rw [hr2, hr, hdiff, hoc]
    · rw [hw2, hw, hdiff, hoc]
      have happ : ∀ (l : List (String × imageInfoSaveType)) (x : String × imageInfoSaveType),
          l ++ [x] ≠ l := by
        intro l x hx
        have := congrArg List.length hx
        simp at this
      split
      · exact ⟨fun hx => absurd hx (happ _ _), fun hx => absurd hx (happ _ _)⟩
      · exact ⟨fun _ => rfl, fun _ => rfl⟩

/-- Witness of C11: with scope `/etc/`, the entry `/a` differs from the baseline and
nothing is reported or written. -/
theorem Finalize_scope_filter_witness :
    demoScopedState.config.OldTreeFilePath ≠ "" ∧
    KeyedByName (entries demoScopedState.tree) ∧
    KeyedByName (entries demoScopedState.oldTree) ∧
    (∀ q ∈ demoScopedState.config.CheckPath, stringsHasPrefix "/a" q = false) ∧
    (Finalize demoScopedState demoHostWithBaseline).1.2.informational = [] ∧
    (Finalize demoScopedState demoHostWithBaseline).1.2.writes = [] ∧
    "/a" ∉ (computeDiff (readOldTree demoScopedState demoHostWithBaseline).1).changed :=
  ⟨by decide, by decide, by decide, by decide, by decide, by decide,
    (Finalize_scope_filter demoScopedState demoHostWithBaseline "/a" (by decide) (by decide)
      (by decide) (by decide)).2.2.2.2.1⟩

end filetree

end Fwanalyzer

/-! ## Auxiliary facts: JSON sniffing and the report -/

namespace Fwanalyzer

theorem GoMap.all_insert {V : Type} (m : GoMap V) (k : String) (v : V)
    (f : String × V → Bool) (hm : m.all f = true) (hv : f (k, v) = true) :
    (m.insert k v).all f = true := by
  rw [List.all_eq_true] at hm ⊢
  intro e he
  rcases GoMap.mem_insert m k v e he with h | h
  · rw [h]; exact hv
  · exact hm e h

theorem GoMap.insert_ne_nil {V : Type} (m : GoMap V) (k : String) (v : V) :
    m.insert k v ≠ [] := by
  intro h
  have := GoMap.get_insert m k k v
  rw [h] at this
  simp [GoMap.get] at this

theorem GoMap.mem_insert_key {V : Type} (m : GoMap V) (k : String) (v w : V)
    (he : (k, w) ∈ m.insert k v) : w = v := by
  unfold GoMap.insert at he
  split at he
  · simp only [List.mem_map] at he
    obtain ⟨x, _, hxe⟩ := he
    split at hxe
    · exact (Prod.mk.inj hxe).2.symm
    · rename_i hne
      rw [hxe] at hne
      exact absurd rfl hne
  · rename_i hnone
    rcases List.mem_append.mp he with h | h
    · have hn : m.get k = none := by
        cases hg : m.get k with
        | none => rfl
        | some x => rw [hg] at hnone; simp at hnone
      exact absurd h ((GoMap.get_eq_none_iff m k).mp hn w)
    · simp only [List.mem_singleton] at h
      exact (Prod.mk.inj h).2

theorem GoMap.foldl_insert_get_map {V W : Type} (g : V → W) :
    ∀ (l : GoMap V) (m : GoMap W) (k : String),
      ((l.foldl (fun (data : GoMap W) kv => data.insert kv.1 (g kv.2)) m).get k).isSome
        = ((l.get k).isSome || (m.get k).isSome) := by
  intro l
  induction l using List.reverseRecOn with
  | nil => intro m k; simp [GoMap.get]
  | append_singleton l x ih =>
    intro m k
    obtain ⟨k1, v1⟩ := x
    rw [List.foldl_append, List.foldl_cons, List.foldl_nil, GoMap.get_insert,
      GoMap.get_append_single]
    have ihk := ih m k
    by_cases h : k = k1
    · subst h
      cases hl : GoMap.get l k <;> simp
    · simp only [h, if_false]
      rw [ihk]
      cases hl : GoMap.get l k <;> simp

namespace json

theorem float64Overflow_eq : float64Overflow = 2 ^ 1024 - 2 ^ 970 := by
  unfold float64Overflow
  norm_num

theorem unmarshalMap_isSome (text : String) :
    (unmarshalMap text).isSome
      = ((isObject text || isNull text) && numbersConvert text) := by
  unfold unmarshalMap isObject isNull numbersConvert decodes
  cases hv : checkValid text.data <;> cases hn : (numberLiterals text.data).all convertNumberOk <;>
    by_cases h1 : firstByte text.data = some '{' <;>
    by_cases h2 : firstByte text.data = some 'n' <;> simp [h1, h2]

theorem unmarshalSlice_eq (text : String) :
    unmarshalSlice text = ((isArray text || isNull text) && numbersConvert text) := by
  unfold unmarshalSlice isArray isNull numbersConvert decodes
  cases hv : checkValid text.data <;> cases hn : (numberLiterals text.data).all convertNumberOk <;>
    by_cases h1 : firstByte text.data = some '[' <;>
    by_cases h2 : firstByte text.data = some 'n' <;> simp [h1, h2]


open ScanCode ParseState Step

theorem run_open_value (ps : List ParseState) (h : ps.length + 1 ≤ maxNestingDepth) :
    Scanner.run ⟨stateBeginValue, false, ps, false⟩ '['
      = (⟨stateBeginValueOrEmpty, false, parseArrayValue :: ps, false⟩, scanBeginArray) := by
  simp [Scanner.run, stateBeginValueFn, isSpace, Scanner.pushParseState, h]

theorem run_open (ps : List ParseState) (h : ps.length + 1 ≤ maxNestingDepth) :
    Scanner.run ⟨stateBeginValueOrEmpty, false, ps, false⟩ '['
      = (⟨stateBeginValueOrEmpty, false, parseArrayValue :: ps, false⟩, scanBeginArray) := by
  simp [Scanner.run, stateBeginValueOrEmptyFn, stateBeginValueFn, isSpace,
    Scanner.pushParseState, h]

theorem run_open_over (ps : List ParseState) (h : maxNestingDepth < ps.length + 1) :
    (Scanner.run ⟨stateBeginValueOrEmpty, false, ps, false⟩ '[').2 = scanError := by
  have h2 : ¬ ps.length + 1 ≤ maxNestingDepth := by omega
  simp [Scanner.run, stateBeginValueOrEmptyFn, stateBeginValueFn, isSpace,
    Scanner.pushParseState, h2, Scanner.error]

theorem run_close (ps : List ParseState) :
    Scanner.run ⟨stateBeginValueOrEmpty, false, parseArrayValue :: ps, false⟩ ']'
      = (if ps.length = 0 then ⟨stateEndTop, true, ps, false⟩
         else ⟨stateEndValue, false, ps, false⟩, scanEndArray) := by
  by_cases h : ps.length = 0 <;>
    simp [Scanner.run, stateBeginValueOrEmptyFn, stateEndValueFn, isSpace,
      Scanner.popParseState, h]

theorem run_close_end (ps : List ParseState) :
    Scanner.run ⟨stateEndValue, false, parseArrayValue :: ps, false⟩ ']'
      = (if ps.length = 0 then ⟨stateEndTop, true, ps, false⟩
         else ⟨stateEndValue, false, ps, false⟩, scanEndArray) := by
  by_cases h : ps.length = 0 <;>
    simp [Scanner.run, stateEndValueFn, isSpace, Scanner.popParseState, h]


theorem run_inArrays_open (k : Nat) (h : k + 1 ≤ maxNestingDepth) :
    (inArrays k).run '[' = (inArrays (k + 1), scanBeginArray) := by
  unfold inArrays
  rw [run_open _ (by simpa using h)]
  rfl

theorem run_reset_open : Scanner.reset.run '[' = (inArrays 1, scanBeginArray) := by
  unfold inArrays Scanner.reset
  rw [run_open_value _ (by decide)]
  rfl

theorem run_inArrays_close (k : Nat) :
    (inArrays (k + 1)).run ']' = (afterArrays k, scanEndArray) := by
  unfold inArrays afterArrays
  rw [List.replicate_succ, run_close]
  cases k <;> simp

theorem run_afterArrays_close (k : Nat) :
    (afterArrays (k + 1)).run ']' = (afterArrays k, scanEndArray) := by
  unfold afterArrays
  rw [if_neg (by omega), List.replicate_succ, run_close_end]
  cases k <;> simp

theorem checkValidLoop_opens (rest : List Char) :
    ∀ (n k : Nat), k + n ≤ maxNestingDepth →
      checkValidLoop (List.replicate n '[' ++ rest) (inArrays k)
        = checkValidLoop rest (inArrays (k + n)) := by
  intro n
  induction n with
  | zero => intro k _; rfl
  | succ n ih =>
    intro k h
    rw [List.replicate_succ, List.cons_append, checkValidLoop]
    simp only [run_inArrays_open k (by omega)]
    rw [if_neg (by decide), ih (k + 1) (by omega)]
    congr 2
    omega

theorem checkValidLoop_closes :
    ∀ (n k : Nat),
      checkValidLoop (List.replicate n ']') (afterArrays (k + n)) = some (afterArrays k) := by
  intro n
  induction n with
  | zero => intro k; rfl
  | succ n ih =>
    intro k
    rw [List.replicate_succ, checkValidLoop]
    have : k + (n + 1) = (k + n) + 1 := by omega
    rw [this]
    simp only [run_afterArrays_close]
    rw [if_neg (by decide), ih]

theorem checkValid_deepArray (n : Nat) (h1 : 1 ≤ n) (h2 : n ≤ maxNestingDepth) :
    checkValid (deepArray n) = true := by
  obtain ⟨m, rfl⟩ : ∃ m, n = m + 1 := ⟨n - 1, by omega⟩
  unfold checkValid deepArray
  have hopen : checkValidLoop (List.replicate (m + 1) '[' ++ List.replicate (m + 1) ']')
      Scanner.reset = some (afterArrays 0) := by
    rw [List.replicate_succ, List.cons_append, checkValidLoop]
    simp only [run_reset_open]
    rw [if_neg (by decide), checkValidLoop_opens _ m 1 (by omega)]
    rw [List.replicate_succ, checkValidLoop]
    have : 1 + m = m + 1 := by omega
    rw [this]
    simp only [run_inArrays_close]
    rw [if_neg (by decide)]
    have := checkValidLoop_closes m 0
    simpa using this
  rw [hopen]
  decide

theorem checkValid_deepArray_over (n : Nat) (h : maxNestingDepth < n) :
    checkValid (deepArray n) = false := by
  have hm : maxNestingDepth = 10000 := rfl
  obtain ⟨m, rfl⟩ : ∃ m, n = 1 + ((maxNestingDepth - 1) + (1 + m)) :=
    ⟨n - (maxNestingDepth + 1), by omega⟩
  unfold checkValid deepArray
  have hopen : ∀ rest, checkValidLoop
      (List.replicate (1 + ((maxNestingDepth - 1) + (1 + m))) '[' ++ rest) Scanner.reset
        = none := by
    intro rest
    rw [List.replicate_add, List.replicate_add, List.replicate_add, List.replicate_one,
      List.singleton_append, List.cons_append, checkValidLoop]
    simp only [run_reset_open]
    rw [if_neg (by decide), List.append_assoc,
      checkValidLoop_opens _ (maxNestingDepth - 1) 1 (by omega)]
    rw [List.singleton_append, List.cons_append, checkValidLoop]
    have hov := run_open_over (List.replicate (1 + (maxNestingDepth - 1)) parseArrayValue)
      (by rw [List.length_replicate]; omega)
    unfold inArrays
    simp only [hov, if_true]
  rw [hopen]

theorem inArrays_length (k : Nat) : (inArrays k).parseState.length = k := by
  simp [inArrays]

theorem afterArrays_length (k : Nat) : (afterArrays k).parseState.length = k := by
  cases k <;> simp [afterArrays]

theorem afterArrays_inNumber (k : Nat) : (afterArrays k).step.inNumber = false := by
  cases k <;> simp [afterArrays, Step.inNumber]

theorem nestingLoop_opens (rest : List Char) :
    ∀ (n k d : Nat), k + n ≤ maxNestingDepth → k ≤ d →
      nestingLoop (List.replicate n '[' ++ rest) (inArrays k) d
        = nestingLoop rest (inArrays (k + n)) (max d (k + n)) := by
  intro n
  induction n with
  | zero => intro k d _ hd; simp [Nat.max_eq_left hd]
  | succ n ih =>
    intro k d h hd
    rw [List.replicate_succ, List.cons_append, nestingLoop]
    simp only [run_inArrays_open k (by omega), inArrays_length]
    rw [ih (k + 1) _ (by omega) (by omega)]
    have e1 : k + 1 + n = k + (n + 1) := by omega
    have e2 : max (max d (k + 1)) (k + 1 + n) = max d (k + (n + 1)) := by omega
    rw [e1] at e2 ⊢
    rw [e2]

theorem nestingLoop_closes :
    ∀ (n k d : Nat), k + n ≤ d →
      nestingLoop (List.replicate n ']') (afterArrays (k + n)) d = d := by
  intro n
  induction n with
  | zero => intro k d _; rfl
  | succ n ih =>
    intro k d h
    rw [List.replicate_succ, nestingLoop]
    have e : k + (n + 1) = (k + n) + 1 := by omega
    rw [e]
    simp only [run_afterArrays_close, afterArrays_length]
    rw [Nat.max_eq_left (by omega)]
    exact ih k d (by omega)

theorem nesting_deepArray (n : Nat) (h1 : 1 ≤ n) (h2 : n ≤ maxNestingDepth) :
    nesting (deepArray n) = n := by
  obtain ⟨m, rfl⟩ : ∃ m, n = m + 1 := ⟨n - 1, by omega⟩
  unfold nesting deepArray
  rw [List.replicate_succ, List.cons_append, nestingLoop]
  simp only [run_reset_open, inArrays_length]
  rw [nestingLoop_opens _ m 1 _ (by omega) (by omega)]
  rw [List.replicate_succ, nestingLoop]
  have e : 1 + m = m + 1 := by omega
  rw [e]
  simp only [run_inArrays_close, afterArrays_length]
  have hmax : max (max (max 0 1) (m + 1)) m = m + 1 := by omega
  rw [hmax]
  have := nestingLoop_closes m 0 (m + 1) (by omega)
  simpa using this

theorem numberLiteralsLoop_opens (rest : List Char) (acc : List (List Char)) :
    ∀ (n k : Nat), k + n ≤ maxNestingDepth →
      numberLiteralsLoop (List.replicate n '[' ++ rest) (inArrays k) [] acc
        = numberLiteralsLoop rest (inArrays (k + n)) [] acc := by
  intro n
  induction n with
  | zero => intro k _; rfl
  | succ n ih =>
    intro k h
    rw [List.replicate_succ, List.cons_append, numberLiteralsLoop]
    simp only [run_inArrays_open k (by omega)]
    have hin : (inArrays (k + 1)).step.inNumber = false := by simp [inArrays, Step.inNumber]
    simp only [hin, Bool.false_eq_true, if_false, List.isEmpty_nil, if_true]
    rw [ih (k + 1) (by omega)]
    congr 2
    omega

theorem numberLiteralsLoop_closes (acc : List (List Char)) :
    ∀ (n k : Nat),
      numberLiteralsLoop (List.replicate n ']') (afterArrays (k + n)) [] acc = acc := by
  intro n
  induction n with
  | zero => intro k; simp [numberLiteralsLoop]
  | succ n ih =>
    intro k
    rw [List.replicate_succ, numberLiteralsLoop]
    have e : k + (n + 1) = (k + n) + 1 := by omega
    rw [e]
    simp only [run_afterArrays_close, afterArrays_inNumber, Bool.false_eq_true, if_false,
      List.isEmpty_nil, if_true]
    exact ih k

theorem numberLiterals_deepArray (n : Nat) (h1 : 1 ≤ n) (h2 : n ≤ maxNestingDepth) :
    numberLiterals (deepArray n) = [] := by
  obtain ⟨m, rfl⟩ : ∃ m, n = m + 1 := ⟨n - 1, by omega⟩
  unfold numberLiterals deepArray
  rw [List.replicate_succ, List.cons_append, numberLiteralsLoop]
  simp only [run_reset_open]
  have hin : (inArrays 1).step.inNumber = false := by simp [inArrays, Step.inNumber]
  simp only [hin, Bool.false_eq_true, if_false, List.isEmpty_nil, if_true]
  rw [numberLiteralsLoop_opens _ _ m 1 (by omega)]
  rw [List.replicate_succ, numberLiteralsLoop]
  have e : 1 + m = m + 1 := by omega
  rw [e]
  simp only [run_inArrays_close, afterArrays_inNumber, Bool.false_eq_true, if_false,
    List.isEmpty_nil, if_true]
  have := numberLiteralsLoop_closes [] m 0
  simpa using this

theorem firstByte_deepArray (n : Nat) (h1 : 1 ≤ n) : firstByte (deepArray n) = some '[' := by
  obtain ⟨m, rfl⟩ : ∃ m, n = m + 1 := ⟨n - 1, by omega⟩
  simp [firstByte, deepArray, List.replicate_succ, isSpace]

/-- What the two calls of `json.Unmarshal` in the analyzer return on nested empty arrays:
into a map an error at every depth, into a slice no error up to `maxNestingDepth` and
an error beyond it. -/
theorem unmarshal_deepArray (n : Nat) (h1 : 1 ≤ n) :
    unmarshalMap (String.mk (deepArray n)) = none ∧
    unmarshalSlice (String.mk (deepArray n)) = decide (n ≤ maxNestingDepth) := by
  have hf := firstByte_deepArray n h1
  by_cases h2 : n ≤ maxNestingDepth
  · have hv := checkValid_deepArray n h1 h2
    have hn := numberLiterals_deepArray n h1 h2
    simp [unmarshalMap, unmarshalSlice, decodes, hv, hn, hf, h2]
  · have hv := checkValid_deepArray_over n (by omega)
    simp [unmarshalMap, unmarshalSlice, decodes, hv, h2]


theorem stateEndTopFn_stack (s : Scanner) (c : Char) :
    (stateEndTopFn s c).1.parseState = s.parseState := by
  unfold stateEndTopFn
  split <;> rfl

theorem stateEndValueFn_length (s : Scanner) (c : Char) :
    (stateEndValueFn s c).1.parseState.length ≤ s.parseState.length := by
  obtain ⟨st, et, ps, er⟩ := s
  cases ps with
  | nil => simp [stateEndValueFn, stateEndTopFn_stack]
  | cons p rest =>
    cases p <;> simp only [stateEndValueFn, Scanner.popParseState, Scanner.error, List.tail_cons] <;>
      split_ifs <;> simp

theorem pushParseState_length (s : Scanner) (p : ParseState) (code : ScanCode)
    (h : (s.pushParseState p code).2 ≠ scanError) :
    (s.pushParseState p code).1.parseState.length ≤ maxNestingDepth := by
  by_cases hle : (p :: s.parseState).length ≤ maxNestingDepth
  · have e : s.pushParseState p code
        = (⟨s.step, s.endTop, p :: s.parseState, s.err⟩, code) := if_pos hle
    rw [e]
    exact hle
  · have e : s.pushParseState p code
        = (⟨s.step, s.endTop, p :: s.parseState, s.err⟩ : Scanner).error := if_neg hle
    rw [e] at h
    exact absurd rfl h

theorem stateBeginValueFn_length (s : Scanner) (c : Char)
    (hs : s.parseState.length ≤ maxNestingDepth)
    (h : (stateBeginValueFn s c).2 ≠ scanError) :
    (stateBeginValueFn s c).1.parseState.length ≤ maxNestingDepth := by
  unfold stateBeginValueFn at h ⊢
  by_cases h1 : isSpace c = true
  · rw [if_pos h1]; exact hs
  · rw [if_neg h1] at h ⊢
    by_cases h2 : c = '{'
    · rw [if_pos h2] at h ⊢
      exact pushParseState_length _ _ _ h
    · rw [if_neg h2] at h ⊢
      by_cases h3 : c = '['
      · rw [if_pos h3] at h ⊢
        exact pushParseState_length _ _ _ h
      · rw [if_neg h3] at h ⊢
        split_ifs at h ⊢ <;> exact hs

theorem run_length (s : Scanner) (c : Char) (hs : s.parseState.length ≤ maxNestingDepth)
    (h : (s.run c).2 ≠ scanError) :
    (s.run c).1.parseState.length ≤ maxNestingDepth := by
  have hend : ∀ s2 : Scanner, s2.parseState.length ≤ maxNestingDepth →
      (stateEndValueFn s2 c).1.parseState.length ≤ maxNestingDepth :=
    fun s2 h2 => Nat.le_trans (stateEndValueFn_length s2 c) h2
  have htail : (parseObjectValue :: s.parseState.tail).length ≤ maxNestingDepth := by
    cases hps : s.parseState with
    | nil => decide
    | cons p rest => rw [hps] at hs; exact hs
  unfold Scanner.run at h ⊢
  split at h <;>
    (try simp only [stateBeginValueOrEmptyFn, stateBeginStringOrEmptyFn,
      stateBeginStringFn, stateInStringFn, stateInStringEscFn, stateHexFn, state0Fn, state1Fn,
      stateNegFn, stateDotFn, stateDot0Fn, stateESignFn, stateEFn, stateE0Fn, stateWordFn]
      at h ⊢) <;>
    (try split_ifs at h ⊢) <;>
    first
      | exact hs
      | exact hend _ hs
      | exact hend _ htail
      | exact stateBeginValueFn_length _ _ hs h
      | exact absurd rfl h
      | (rw [stateEndTopFn_stack]; exact hs)

/-- A text that `checkValid` accepts nests at most `maxNestingDepth` deep. -/
theorem nestingLoop_le : ∀ (data : List Char) (s : Scanner) (d : Nat),
    s.parseState.length ≤ maxNestingDepth → d ≤ maxNestingDepth →
    (checkValidLoop data s).isSome = true → nestingLoop data s d ≤ maxNestingDepth := by
  intro data
  induction data with
  | nil => intro s d _ hd _; exact hd
  | cons c cs ih =>
    intro s d hs hd hv
    simp only [checkValidLoop] at hv
    simp only [nestingLoop]
    by_cases herr : (s.run c).2 = scanError
    · rw [if_pos herr] at hv
      cases hv
    · rw [if_neg herr] at hv
      have hl := run_length s c hs herr
      exact ih _ _ hl (Nat.max_le.mpr ⟨hd, hl⟩) hv

theorem nesting_le (data : List Char) (h : checkValid data = true) :
    nesting data ≤ maxNestingDepth := by
  unfold checkValid at h
  apply nestingLoop_le data Scanner.reset 0 (by decide) (by decide)
  cases hc : checkValidLoop data Scanner.reset with
  | none => rw [hc] at h; cases h
  | some s => rfl

end json

namespace analyzer

open fsparser

theorem isObject_nesting (text : String)
    (h : json.isObject text = true ∨ json.isArray text = true ∨ json.isNull text = true) :
    json.nesting text.data ≤ json.maxNestingDepth := by
  apply json.nesting_le
  rcases h with h | h | h
  · simp only [json.isObject, Bool.and_eq_true] at h; exact h.1
  · simp only [json.isArray, Bool.and_eq_true] at h; exact h.1
  · simp only [json.isNull, Bool.and_eq_true] at h; exact h.1

theorem AddOffender_eq (a : AnalyzerReport) (filepath reason : String) :
    AddOffender a filepath reason
      = ⟨a.FSType, a.ImageName, a.ImageDigest, a.Data,
          a.Offenders.insert filepath ((a.Offenders.get filepath).getD [] ++ [sniffed reason]),
          a.Informational⟩ := by
  unfold AddOffender sniffed
  split <;> rfl

theorem AddInformational_eq (a : AnalyzerReport) (filepath reason : String) :
    AddInformational a filepath reason
      = ⟨a.FSType, a.ImageName, a.ImageDigest, a.Data, a.Offenders,
          a.Informational.insert filepath
            ((a.Informational.get filepath).getD [] ++ [sniffed reason])⟩ := by
  unfold AddInformational sniffed
  split <;> rfl

/-- The value `AddData` stores, in terms of the two calls of `json.Unmarshal`. -/
theorem AddData_eq (a : AnalyzerReport) (key value : String) :
    AddData a key value
      = ⟨a.FSType, a.ImageName, a.ImageDigest,
          a.Data.insert key
            (if (json.unmarshalMap value).isSome || json.unmarshalSlice value then .raw value
             else .str value),
          a.Offenders, a.Informational⟩ := by
  unfold AddData
  cases h1 : (json.unmarshalMap value).isSome <;> cases h2 : json.unmarshalSlice value <;> simp

theorem sniffed_raw (reason : String)
    (h : ((json.isObject reason || json.isNull reason) && json.numbersConvert reason) = true) :
    sniffed reason = .raw reason := by
  unfold sniffed
  rw [json.unmarshalMap_isSome, h]
  rfl

theorem sniffed_str (reason : String)
    (h : ((json.isObject reason || json.isNull reason) && json.numbersConvert reason) = false) :
    sniffed reason = .str reason := by
  unfold sniffed
  rw [json.unmarshalMap_isSome, h]
  rfl

theorem sniffed_sound (reason : String) :
    (sniffed reason).marshals = true ∧ (sniffed reason).reads = true := by
  cases h : ((json.isObject reason || json.isNull reason) && json.numbersConvert reason) with
  | false => rw [sniffed_str reason h]; exact ⟨rfl, rfl⟩
  | true =>
    rw [sniffed_raw reason h]
    simp only [Bool.and_eq_true, Bool.or_eq_true] at h
    refine ⟨?_, h.2⟩
    rcases h.1 with h1 | h1
    · simp only [json.isObject, Bool.and_eq_true] at h1; exact h1.1
    · simp only [json.isNull, Bool.and_eq_true] at h1; exact h1.1

theorem offenders_get_step (a : AnalyzerReport) (p reason q : String) :
    (AddOffender a p reason).Offenders.get q
      = if q = p then some ((a.Offenders.get p).getD [] ++ [sniffed reason])
        else a.Offenders.get q := by
  rw [AddOffender_eq]
  exact GoMap.get_insert _ _ _ _

theorem informational_get_step (a : AnalyzerReport) (p reason q : String) :
    (AddInformational a p reason).Informational.get q
      = if q = p then some ((a.Informational.get p).getD [] ++ [sniffed reason])
        else a.Informational.get q := by
  rw [AddInformational_eq]
  exact GoMap.get_insert _ _ _ _

/-- What a call leaves unchanged. -/
theorem ReportCall.apply_frame (a : AnalyzerReport) (c : ReportCall) :
    (c.apply a).FSType = a.FSType ∧ (c.apply a).ImageName = a.ImageName ∧
    (c.apply a).ImageDigest = a.ImageDigest ∧
    (c.isOffender = false → (c.apply a).Offenders = a.Offenders) ∧
    (c.isInformational = false → (c.apply a).Informational = a.Informational) ∧
    (c.isData = false → (c.apply a).Data = a.Data) := by
  cases c with
  | AddOffender p r =>
    simp only [ReportCall.apply, AddOffender_eq, ReportCall.isOffender,
      ReportCall.isInformational, ReportCall.isData]
    simp
  | AddInformational p r =>
    simp only [ReportCall.apply, AddInformational_eq, ReportCall.isOffender,
      ReportCall.isInformational, ReportCall.isData]
    simp
  | AddData k v =>
    simp only [ReportCall.apply, AddData_eq, ReportCall.isOffender,
      ReportCall.isInformational, ReportCall.isData]
    simp

theorem applyCalls_offenders : ∀ (cs : List ReportCall) (a : AnalyzerReport) (p : String),
    (applyCalls a cs).Offenders.get p
      = if offendersAdded cs p = [] then a.Offenders.get p
        else some ((a.Offenders.get p).getD [] ++ offendersAdded cs p) := by
  intro cs
  induction cs with
  | nil => intro a p; simp [applyCalls, offendersAdded]
  | cons c cs ih =>
    intro a p
    have hstep : applyCalls a (c :: cs) = applyCalls (c.apply a) cs := rfl
    rw [hstep, ih]
    cases c with
    | AddOffender q r =>
      by_cases hq : q = p
      · subst hq
        have hadd : offendersAdded (ReportCall.AddOffender q r :: cs) q
            = sniffed r :: offendersAdded cs q := by
          simp [offendersAdded, List.filterMap_cons]
        rw [hadd]
        simp only [ReportCall.apply, offenders_get_step, if_true]
        by_cases hr : offendersAdded cs q = []
        · simp [hr]
        · simp [hr]
      · have hadd : offendersAdded (ReportCall.AddOffender q r :: cs) p
            = offendersAdded cs p := by
          simp [offendersAdded, List.filterMap_cons, hq]
        rw [hadd]
        have hpq : ¬ p = q := fun h => hq h.symm
        simp only [ReportCall.apply, offenders_get_step, hpq, if_false]
    | AddInformational q r =>
      have hadd : offendersAdded (ReportCall.AddInformational q r :: cs) p
          = offendersAdded cs p := by
        simp [offendersAdded, List.filterMap_cons]
      rw [hadd, ((ReportCall.AddInformational q r).apply_frame a).2.2.2.1 rfl]
    | AddData k v =>
      have hadd : offendersAdded (ReportCall.AddData k v :: cs) p = offendersAdded cs p := by
        simp [offendersAdded, List.filterMap_cons]
      rw [hadd, ((ReportCall.AddData k v).apply_frame a).2.2.2.1 rfl]

theorem applyCalls_informational : ∀ (cs : List ReportCall) (a : AnalyzerReport) (p : String),
    (applyCalls a cs).Informational.get p
      = if informationalAdded cs p = [] then a.Informational.get p
        else some ((a.Informational.get p).getD [] ++ informationalAdded cs p) := by
  intro cs
  induction cs with
  | nil => intro a p; simp [applyCalls, informationalAdded]
  | cons c cs ih =>
    intro a p
    have hstep : applyCalls a (c :: cs) = applyCalls (c.apply a) cs := rfl
    rw [hstep, ih]
    cases c with
    | AddInformational q r =>
      by_cases hq : q = p
      · subst hq
        have hadd : informationalAdded (ReportCall.AddInformational q r :: cs) q
            = sniffed r :: informationalAdded cs q := by
          simp [informationalAdded, List.filterMap_cons]
        rw [hadd]
        simp only [ReportCall.apply, informational_get_step, if_true]
        by_cases hr : informationalAdded cs q = []
        · simp [hr]
        · simp [hr]
      · have hadd : informationalAdded (ReportCall.AddInformational q r :: cs) p
            = informationalAdded cs p := by
          simp [informationalAdded, List.filterMap_cons, hq]
        rw [hadd]
        have hpq : ¬ p = q := fun h => hq h.symm
        simp only [ReportCall.apply, informational_get_step, hpq, if_false]
    | AddOffender q r =>
      have hadd : informationalAdded (ReportCall.AddOffender q r :: cs) p
          = informationalAdded cs p := by
        simp [informationalAdded, List.filterMap_cons]
      rw [hadd, ((ReportCall.AddOffender q r).apply_frame a).2.2.2.2.1 rfl]
    | AddData k v =>
      have hadd : informationalAdded (ReportCall.AddData k v :: cs) p
          = informationalAdded cs p := by
        simp [informationalAdded, List.filterMap_cons]
      rw [hadd, ((ReportCall.AddData k v).apply_frame a).2.2.2.2.1 rfl]

theorem applyCalls_snoc (a : AnalyzerReport) (cs : List ReportCall) (c : ReportCall) :
    applyCalls a (cs ++ [c]) = c.apply (applyCalls a cs) := by
  simp [applyCalls, List.foldl_append]

theorem applyCalls_offenders_nil (a : AnalyzerReport) (cs : List ReportCall) :
    (applyCalls a cs).Offenders = [] ↔ a.Offenders = [] ∧ cs.any ReportCall.isOffender = false := by
  induction cs using List.reverseRecOn with
  | nil => simp [applyCalls]
  | append_singleton cs c ih =>
    rw [applyCalls_snoc, List.any_append]
    cases hc : c.isOffender with
    | false =>
      rw [(c.apply_frame (applyCalls a cs)).2.2.2.1 hc, ih]
      simp [hc]
    | true =>
      cases c with
      | AddOffender p r =>
        simp only [ReportCall.apply, AddOffender_eq]
        simp [GoMap.insert_ne_nil, ReportCall.isOffender]
      | AddInformational p r => simp [ReportCall.isOffender] at hc
      | AddData k v => simp [ReportCall.isOffender] at hc

theorem applyCalls_informational_nil (a : AnalyzerReport) (cs : List ReportCall) :
    (applyCalls a cs).Informational = []
      ↔ a.Informational = [] ∧ cs.any ReportCall.isInformational = false := by
  induction cs using List.reverseRecOn with
  | nil => simp [applyCalls]
  | append_singleton cs c ih =>
    rw [applyCalls_snoc, List.any_append]
    cases hc : c.isInformational with
    | false =>
      rw [(c.apply_frame (applyCalls a cs)).2.2.2.2.1 hc, ih]
      simp [hc]
    | true =>
      cases c with
      | AddInformational p r =>
        simp only [ReportCall.apply, AddInformational_eq]
        simp [GoMap.insert_ne_nil, ReportCall.isInformational]
      | AddOffender p r => simp [ReportCall.isInformational] at hc
      | AddData k v => simp [ReportCall.isInformational] at hc

theorem applyCalls_data_nil (a : AnalyzerReport) (cs : List ReportCall) :
    (applyCalls a cs).Data = [] ↔ a.Data = [] ∧ cs.any ReportCall.isData = false := by
  induction cs using List.reverseRecOn with
  | nil => simp [applyCalls]
  | append_singleton cs c ih =>
    rw [applyCalls_snoc, List.any_append]
    cases hc : c.isData with
    | false =>
      rw [(c.apply_frame (applyCalls a cs)).2.2.2.2.2 hc, ih]
      simp [hc]
    | true =>
      cases c with
      | AddData k v =>
        simp only [ReportCall.apply, AddData_eq]
        simp [GoMap.insert_ne_nil, ReportCall.isData]
      | AddOffender p r => simp [ReportCall.isData] at hc
      | AddInformational p r => simp [ReportCall.isData] at hc

theorem findings_insert_sound (m : GoMap (List ReportValue)) (p reason : String)
    (hm : ∀ e ∈ m, ∀ v ∈ e.2, v.marshals = true ∧ v.reads = true) :
    ∀ e ∈ m.insert p ((m.get p).getD [] ++ [sniffed reason]),
      ∀ v ∈ e.2, v.marshals = true ∧ v.reads = true := by
  intro e he v hv
  rcases GoMap.mem_insert m p _ e he with h | h
  · rw [h] at hv
    rcases List.mem_append.mp hv with h1 | h1
    · cases hg : m.get p with
      | none => rw [hg] at h1; simp at h1
      | some l =>
        rw [hg] at h1
        exact hm (p, l) (GoMap.mem_of_get m p l hg) v h1
    · simp only [List.mem_singleton] at h1
      rw [h1]
      exact sniffed_sound reason
  · exact hm e h v hv

theorem ReportCall.apply_decodable (a : AnalyzerReport) (c : ReportCall) (ha : a.Decodable) :
    (c.apply a).Decodable := by
  obtain ⟨hd, ho, hi⟩ := ha
  cases c with
  | AddOffender p r =>
    simp only [ReportCall.apply, AddOffender_eq]
    exact ⟨hd, findings_insert_sound a.Offenders p r ho, hi⟩
  | AddInformational p r =>
    simp only [ReportCall.apply, AddInformational_eq]
    exact ⟨hd, ho, findings_insert_sound a.Informational p r hi⟩
  | AddData k v =>
    simp only [ReportCall.apply, AddData_eq]
    refine ⟨?_, ho, hi⟩
    intro e he
    rcases GoMap.mem_insert a.Data k _ e he with h | h
    · rw [h]
      cases hs : ((json.unmarshalMap v).isSome || json.unmarshalSlice v) with
      | false => exact ⟨rfl, rfl⟩
      | true =>
        rw [json.unmarshalMap_isSome, json.unmarshalSlice_eq] at hs
        simp only [if_true, ReportValue.marshals, ReportValue.reads]
        simp only [Bool.or_eq_true, Bool.and_eq_true, json.isObject, json.isArray,
          json.isNull] at hs
        rcases hs with ⟨h1, h2⟩ | ⟨h1, h2⟩
        · rcases h1 with h1 | h1 <;> exact ⟨h1.1, h2⟩
        · rcases h1 with h1 | h1 <;> exact ⟨h1.1, h2⟩
    · exact hd e h

theorem applyCalls_decodable (fsp : FsParser) (cfg : globalConfigType) (digest : String)
    (cs : List ReportCall) : (applyCalls (newReport fsp cfg digest) cs).Decodable := by
  induction cs using List.reverseRecOn with
  | nil => simp [applyCalls, newReport, AnalyzerReport.Decodable]
  | append_singleton cs c ih =>
    rw [applyCalls_snoc]
    exact ReportCall.apply_decodable _ c ih

/-- The members `json.Marshal` writes for a report that can be written. -/
theorem marshalReport_decodable (ar : AnalyzerReport) (h : ar.Decodable) :
    ∃ obj, marshalReport ar = some obj ∧ obj.all (fun e => e.2.reads) = true ∧
      (obj.get "offenders").isSome = !decide (ar.Offenders = []) ∧
      (obj.get "informational").isSome = !decide (ar.Informational = []) ∧
      (obj.get "data").isSome = !decide (ar.Data = []) := by
  obtain ⟨hd, ho, hi⟩ := h
  have h1 : ar.Data.all (fun e => e.2.marshals) = true :=
    List.all_eq_true.mpr (fun e he => (hd e he).1)
  have h2 : ar.Offenders.all (fun e => e.2.all ReportValue.marshals) = true :=
    List.all_eq_true.mpr (fun e he => List.all_eq_true.mpr (fun v hv => (ho e he v hv).1))
  have h3 : ar.Informational.all (fun e => e.2.all ReportValue.marshals) = true :=
    List.all_eq_true.mpr (fun e he => List.all_eq_true.mpr (fun v hv => (hi e he v hv).1))
  have r1 : ar.Data.all (fun e => e.2.reads) = true :=
    List.all_eq_true.mpr (fun e he => (hd e he).2)
  have r2 : ar.Offenders.all (fun e => e.2.all ReportValue.reads) = true :=
    List.all_eq_true.mpr (fun e he => List.all_eq_true.mpr (fun v hv => (ho e he v hv).2))
  have r3 : ar.Informational.all (fun e => e.2.all ReportValue.reads) = true :=
    List.all_eq_true.mpr (fun e he => List.all_eq_true.mpr (fun v hv => (hi e he v hv).2))
  refine ⟨reportMembers ar, by simp only [marshalReport, h1, h2, h3, Bool.and_self, if_true],
    ?_, ?_, ?_, ?_⟩
  · simp only [reportMembers, List.all_append, Bool.and_eq_true]
    refine ⟨⟨⟨⟨by simp [Member.reads], ?_⟩, ?_⟩, ?_⟩, ?_⟩
    · split <;> simp [Member.reads]
    · split <;> simp [Member.reads, r1]
    · split <;> simp [Member.reads, r2]
    · split <;> simp [Member.reads, r3]
  · by_cases e1 : ar.ImageDigest = "" <;> by_cases e2 : ar.Data.length = 0 <;>
      by_cases e3 : ar.Offenders = [] <;> by_cases e4 : ar.Informational.length = 0 <;>
      simp [reportMembers, e1, e2, e3, e4, GoMap.get, List.lookup]
  · by_cases e1 : ar.ImageDigest = "" <;> by_cases e2 : ar.Data.length = 0 <;>
      by_cases e3 : ar.Offenders.length = 0 <;> by_cases e4 : ar.Informational = [] <;>
      simp [reportMembers, e1, e2, e3, e4, GoMap.get, List.lookup]
  · by_cases e1 : ar.ImageDigest = "" <;> by_cases e2 : ar.Data = [] <;>
      by_cases e3 : ar.Offenders.length = 0 <;> by_cases e4 : ar.Informational.length = 0 <;>
      simp [reportMembers, e1, e2, e3, e4, GoMap.get, List.lookup]

/-- A JSON array is stored as raw JSON by `AddData` and as a string by `AddOffender`
and `AddInformational`, which try the map only. -/
theorem array_stored_as_string :
    json.isArray "[1,2]" = true ∧
    (AddOffender (newReport demoFs demoGlobalConfig "") "/x" "[1,2]").Offenders.get "/x"
      = some [ReportValue.str "[1,2]"] ∧
    (AddInformational (newReport demoFs demoGlobalConfig "") "/x" "[1,2]").Informational.get "/x"
      = some [ReportValue.str "[1,2]"] ∧
    (AddData (newReport demoFs demoGlobalConfig "") "k" "[1,2]").Data.get "k"
      = some (ReportValue.raw "[1,2]") := by
  decide

set_option exponentiation.threshold 4096 in
/-- A valid JSON object with a number that does not convert to `float64` is stored as
a string. -/
theorem overflow_stored_as_string :
    json.isObject "\x7b\"a\":1e999\x7d" = true ∧
    json.numbersConvert "\x7b\"a\":1e999\x7d" = false ∧
    (AddOffender (newReport demoFs demoGlobalConfig "") "/x" "\x7b\"a\":1e999\x7d").Offenders.get
      "/x" = some [ReportValue.str "\x7b\"a\":1e999\x7d"] ∧
    (AddData (newReport demoFs demoGlobalConfig "") "k" "\x7b\"a\":1e999\x7d").Data.get "k"
      = some (ReportValue.str "\x7b\"a\":1e999\x7d") := by
  decide


theorem marshalReport_eq (ar : AnalyzerReport) (h : ar.Decodable) :
    marshalReport ar = some (reportMembers ar) ∧
    (reportMembers ar).all (fun e => e.2.reads) = true := by
  obtain ⟨obj, hobj, hreads, _⟩ := marshalReport_decodable ar h
  have hobj2 := hobj
  unfold marshalReport at hobj2
  split at hobj2
  · simp only [Option.some.injEq] at hobj2
    subst hobj2
    exact ⟨hobj, hreads⟩
  · cases hobj2

theorem reportMembers_fits (ar : AnalyzerReport) :
    (reportMembers ar).all (fun e => e.2.fits) = ar.fits := by
  unfold reportMembers AnalyzerReport.fits
  by_cases e1 : ar.ImageDigest = "" <;> by_cases e2 : ar.Data.length = 0 <;>
    by_cases e3 : ar.Offenders.length = 0 <;> by_cases e4 : ar.Informational.length = 0 <;>
    simp [e1, e2, e3, e4, Member.fits, List.length_eq_zero.mp] <;>
    simp_all [List.length_eq_zero, Bool.and_assoc]

theorem overlay_fits (pr : GoMap String) :
    ∀ (obj : GoMap Member), obj.all (fun e => e.2.fits) = true →
      (pr.foldl (fun (data : GoMap Member) kv => data.insert kv.1 (Member.plugin kv.2)) obj).all
        (fun e => e.2.fits) = true := by
  induction pr with
  | nil => intro obj h; exact h
  | cons x pr ih =>
    intro obj h
    rw [List.foldl_cons]
    exact ih _ (GoMap.all_insert obj x.1 _ _ h rfl)

/-- The report of an analyzer whose values can be written and read back: the members
of the report with the merged plugin reports set in it when every value is read within
the nesting limit, and the empty output otherwise. -/
theorem JsonReport_eq (a : Analyzer AnalyzerReport) (hd : a.world.Decodable) :
    JsonReport a
      = if a.world.fits = true then
          some (a.PluginReports.foldl
            (fun (data : GoMap Member) kv => data.insert kv.1 (Member.plugin kv.2))
            (reportMembers a.world))
        else none := by
  obtain ⟨hm, hreads⟩ := marshalReport_eq a.world hd
  have hfits := reportMembers_fits a.world
  have hall : (reportMembers a.world).all (fun e => e.2.reads && e.2.fits) = a.world.fits := by
    rw [← hfits]
    rw [List.all_eq_true] at hreads
    generalize reportMembers a.world = l at hreads
    induction l with
    | nil => rfl
    | cons x l ih =>
      simp only [List.all_cons]
      rw [hreads x (List.mem_cons_self _ _), Bool.true_and,
        ih (fun e he => hreads e (List.mem_cons_of_mem _ he))]
  unfold JsonReport
  rw [hm]
  simp only [addReportData, hall]
  by_cases hf : a.world.fits = true
  · rw [if_pos hf, if_pos hf]
    have := overlay_fits a.PluginReports (reportMembers a.world) (by rw [hfits]; exact hf)
    simp only [indents, this, if_true]
  · rw [if_neg hf, if_neg hf]
    simp only [indents, hfits]
    rw [if_neg hf]

theorem sniffed_nesting (reason : String) :
    (sniffed reason).nesting ≤ json.nesting reason.data := by
  unfold sniffed
  split
  · exact Nat.le_refl _
  · exact Nat.zero_le _

theorem findings_insert_fits (m : GoMap (List ReportValue)) (p reason : String)
    (hm : m.all (fun e => e.2.all
      (fun v => decide (3 + v.nesting ≤ json.maxNestingDepth))) = true)
    (hr : json.nesting reason.data + 3 ≤ json.maxNestingDepth) :
    (m.insert p ((m.get p).getD [] ++ [sniffed reason])).all (fun e => e.2.all
      (fun v => decide (3 + v.nesting ≤ json.maxNestingDepth))) = true := by
  apply GoMap.all_insert m p _ _ hm
  simp only [List.all_append, Bool.and_eq_true, List.all_cons, List.all_nil, Bool.and_true,
    decide_eq_true_eq]
  constructor
  · cases hg : m.get p with
    | none => simp
    | some l =>
      have hmem := GoMap.mem_of_get m p l hg
      rw [List.all_eq_true] at hm
      exact hm (p, l) hmem
  · have := sniffed_nesting reason
    omega

theorem ReportCall.apply_fits (a : AnalyzerReport) (c : ReportCall) (ha : a.fits = true)
    (hc : c.nesting + 3 ≤ json.maxNestingDepth) : (c.apply a).fits = true := by
  simp only [AnalyzerReport.fits, Bool.and_eq_true] at ha ⊢
  obtain ⟨⟨hd, ho⟩, hi⟩ := ha
  cases c with
  | AddOffender p r =>
    simp only [ReportCall.apply, AddOffender_eq]
    exact ⟨⟨hd, findings_insert_fits a.Offenders p r ho hc⟩, hi⟩
  | AddInformational p r =>
    simp only [ReportCall.apply, AddInformational_eq]
    exact ⟨⟨hd, ho⟩, findings_insert_fits a.Informational p r hi hc⟩
  | AddData k v =>
    simp only [ReportCall.apply, AddData_eq]
    refine ⟨⟨?_, ho⟩, hi⟩
    apply GoMap.all_insert a.Data k _ _ hd
    simp only [ReportCall.nesting] at hc
    split
    · simp only [ReportValue.nesting, decide_eq_true_eq]; omega
    · simp only [ReportValue.nesting, decide_eq_true_eq]; omega

theorem applyCalls_fits (fsp : FsParser) (cfg : globalConfigType) (digest : String)
    (cs : List ReportCall) (hcs : ∀ c ∈ cs, c.nesting + 3 ≤ json.maxNestingDepth) :
    (applyCalls (newReport fsp cfg digest) cs).fits = true := by
  induction cs using List.reverseRecOn with
  | nil => simp [applyCalls, newReport, AnalyzerReport.fits]
  | append_singleton cs c ih =>
    rw [applyCalls_snoc]
    exact ReportCall.apply_fits _ c (ih (fun x hx => hcs x (List.mem_append_left _ hx)))
      (hcs c (by simp))

/-- Nested empty arrays around the nesting limit: `AddData` stores `n` nested arrays as
raw JSON up to `maxNestingDepth` and as a string beyond it, `AddOffender` stores them as
a string, and `JsonReport` returns the empty output exactly when the stored raw value,
read two levels deep in the report, exceeds the limit. -/
theorem deep_array_report (n : Nat) (h1 : 1 ≤ n) :
    (AddData (newReport demoFs demoGlobalConfig "") "k" (String.mk (json.deepArray n))).Data
      = [("k", if n ≤ json.maxNestingDepth then ReportValue.raw (String.mk (json.deepArray n))
               else ReportValue.str (String.mk (json.deepArray n)))] ∧
    (AddOffender (newReport demoFs demoGlobalConfig "") "/x"
        (String.mk (json.deepArray n))).Offenders
      = [("/x", [ReportValue.str (String.mk (json.deepArray n))])] ∧
    (JsonReport (New demoFs
        (AddData (newReport demoFs demoGlobalConfig "") "k" (String.mk (json.deepArray n))))
        = none
      ↔ json.maxNestingDepth < n + 2 ∧ n ≤ json.maxNestingDepth) := by
  obtain ⟨hmap, hslice⟩ := json.unmarshal_deepArray n h1
  have hdata : (AddData (newReport demoFs demoGlobalConfig "") "k"
      (String.mk (json.deepArray n))).Data
      = [("k", if n ≤ json.maxNestingDepth then ReportValue.raw (String.mk (json.deepArray n))
               else ReportValue.str (String.mk (json.deepArray n)))] := by
    rw [AddData_eq, hmap, hslice]
    by_cases h2 : n ≤ json.maxNestingDepth <;>
      simp [h2, newReport, GoMap.insert, GoMap.get]
  refine ⟨hdata, ?_, ?_⟩
  · rw [AddOffender_eq]
    simp [sniffed, hmap, newReport, GoMap.insert, GoMap.get]
  · have hd : (New demoFs (AddData (newReport demoFs demoGlobalConfig "") "k"
        (String.mk (json.deepArray n)))).world.Decodable :=
      applyCalls_decodable demoFs demoGlobalConfig "" [.AddData "k" (String.mk (json.deepArray n))]
    rw [JsonReport_eq _ hd]
    have hw : (New demoFs (AddData (newReport demoFs demoGlobalConfig "") "k"
        (String.mk (json.deepArray n)))).world
        = AddData (newReport demoFs demoGlobalConfig "") "k" (String.mk (json.deepArray n)) := rfl
    have hfits : (AddData (newReport demoFs demoGlobalConfig "") "k"
        (String.mk (json.deepArray n))).fits
        = decide (¬ (json.maxNestingDepth < n + 2 ∧ n ≤ json.maxNestingDepth)) := by
      have ho : (AddData (newReport demoFs demoGlobalConfig "") "k"
          (String.mk (json.deepArray n))).Offenders = [] := by rw [AddData_eq]; rfl
      have hi : (AddData (newReport demoFs demoGlobalConfig "") "k"
          (String.mk (json.deepArray n))).Informational = [] := by rw [AddData_eq]; rfl
      unfold AnalyzerReport.fits
      rw [hdata, ho, hi]
      by_cases h2 : n ≤ json.maxNestingDepth
      · simp only [h2, if_true, List.all_cons, List.all_nil, Bool.and_true, ReportValue.nesting,
          json.nesting_deepArray n h1 h2]
        apply decide_eq_decide.mpr
        simp only [and_true, not_lt]
        omega
      · simp only [h2, if_false, List.all_cons, List.all_nil, Bool.and_true, ReportValue.nesting]
        have hm : json.maxNestingDepth = 10000 := rfl
        apply decide_eq_decide.mpr
        simp only [and_false, not_false_eq_true, iff_true]
        omega
    rw [hw, hfits]
    by_cases hc : json.maxNestingDepth < n + 2 ∧ n ≤ json.maxNestingDepth
    · simp [hc]
    · simp [hc]

end analyzer

end Fwanalyzer

/-! ## Theorems: findings, data and the report -/

namespace Fwanalyzer

namespace analyzer

open fsparser

/-- C16, as the specification states it, fails: the value `null` is neither a JSON
object nor a JSON array and `AddOffender` and `AddInformational` store it as raw JSON,
not as the literal string. -/
theorem AddOffender_null_stored_raw :
    json.isObject "null" = false ∧ json.isArray "null" = false ∧
    (AddOffender (newReport demoFs demoGlobalConfig "") "/x" "null").Offenders.get "/x"
      = some [ReportValue.raw "null"] ∧
    (AddInformational (newReport demoFs demoGlobalConfig "") "/x" "null").Informational.get "/x"
      = some [ReportValue.raw "null"] := by
  decide

/-- C16, amended: for every path and every value string, `AddOffender(path, value)`
appends to the offender list of that path the value as raw JSON if `json.Unmarshal`
into a map accepts it, that is if the value is a JSON object or the JSON literal `null`
that the scanner accepts (syntactically valid and nested at most `maxNestingDepth`
deep) and each of its numbers converts to `float64`; it appends the literal string if
the value is neither of these nor a JSON array that the scanner accepts;
`AddInformational` does the same on the informational map. `AddOffender` of the object
with the single member `a` equal to 1 stores raw JSON whose member `a` reads back as
`1`, and `AddOffender` of the text `not json` stores that literal string. -/
theorem AddOffender_sniffs (a : AnalyzerReport) (path value : String) :
    (((json.isObject value || json.isNull value) && json.numbersConvert value) = true →
      (AddOffender a path value).Offenders.get path
        = some ((a.Offenders.get path).getD [] ++ [ReportValue.raw value]) ∧
      (AddInformational a path value).Informational.get path
        = some ((a.Informational.get path).getD [] ++ [ReportValue.raw value])) ∧
    (((json.isObject value || json.isNull value) && json.numbersConvert value) = false →
      json.isArray value = false →
      (AddOffender a path value).Offenders.get path
        = some ((a.Offenders.get path).getD [] ++ [ReportValue.str value]) ∧
      (AddInformational a path value).Informational.get path
        = some ((a.Informational.get path).getD [] ++ [ReportValue.str value])) ∧
    (AddOffender a "/x" "\x7b\"a\":1\x7d").Offenders.get "/x"
      = some ((a.Offenders.get "/x").getD [] ++ [ReportValue.raw "\x7b\"a\":1\x7d"]) ∧
    json.field "\x7b\"a\":1\x7d" "a" = some "1" ∧
    (AddOffender a "/y" "not json").Offenders.get "/y"
      = some ((a.Offenders.get "/y").getD [] ++ [ReportValue.str "not json"]) ∧
    ((json.isObject value || json.isNull value) = true →
      json.nesting value.data ≤ json.maxNestingDepth) := by
  refine ⟨?_, ?_, ?_, by decide, ?_, ?_⟩
  · intro h
    rw [offenders_get_step, informational_get_step, sniffed_raw value h]
    simp
  · intro h _
    rw [offenders_get_step, informational_get_step, sniffed_str value h]
    simp
  · rw [offenders_get_step, sniffed_raw _ (by decide)]
    simp
  · rw [offenders_get_step, sniffed_str _ (by decide)]
    simp
  · intro h
    simp only [Bool.or_eq_true] at h
    exact isObject_nesting value (h.elim Or.inl (fun h => Or.inr (Or.inr h)))

/-- Witness of the amended C16: a JSON object and a string that is not JSON. -/
theorem AddOffender_sniffs_witness :
    ((json.isObject "\x7b\"a\":1\x7d" || json.isNull "\x7b\"a\":1\x7d") &&
      json.numbersConvert "\x7b\"a\":1\x7d") = true ∧
    ((json.isObject "not json" || json.isNull "not json") && json.numbersConvert "not json")
      = false ∧
    json.isArray "not json" = false ∧
    (AddOffender (newReport demoFs demoGlobalConfig "") "/x" "\x7b\"a\":1\x7d").Offenders.get "/x"
      = some ([] ++ [ReportValue.raw "\x7b\"a\":1\x7d"]) ∧
    (AddOffender (newReport demoFs demoGlobalConfig "") "/y" "not json").Offenders.get "/y"
      = some ([] ++ [ReportValue.str "not json"]) :=
  ⟨by decide, by decide, by decide,
    ((AddOffender_sniffs (newReport demoFs demoGlobalConfig "") "/x" "\x7b\"a\":1\x7d").1
      (by decide)).1,
    ((AddOffender_sniffs (newReport demoFs demoGlobalConfig "") "/y" "not json").2.1
      (by decide) (by decide)).1⟩

/-- The value `null`, which is neither a JSON object nor a JSON array, is stored by
`AddData` as raw JSON: both calls of `json.Unmarshal` return no error on it. -/
theorem AddData_null_stored_raw :
    json.isObject "null" = false ∧ json.isArray "null" = false ∧
    (AddData (newReport demoFs demoGlobalConfig "") "k" "null").Data.get "k"
      = some (ReportValue.raw "null") := by
  decide

/-- C17, as the specification states it, fails: the text of the object whose member
`a` is the number `1e999` is a syntactically valid JSON object, and `AddData` stores it
as the literal string, not as raw JSON, because the number does not convert to
`float64`. -/
theorem AddData_overflow_stored_string :
    json.isObject "\x7b\"a\":1e999\x7d" = true ∧
    (AddData (newReport demoFs demoGlobalConfig "") "k" "\x7b\"a\":1e999\x7d").Data.get "k"
      = some (ReportValue.str "\x7b\"a\":1e999\x7d") :=
  ⟨overflow_stored_as_string.1, overflow_stored_as_string.2.2.2⟩

/-- C17, amended: for every key `k` and value string `v`, after `AddData(k, v)` the
data map holds under `k` the raw JSON `v` if `v` is a JSON object or a JSON array that
the scanner accepts (syntactically valid and nested at most `maxNestingDepth` deep)
and each of its numbers converts to `float64`; it holds the literal string `v` if `v`
is not such an object or array and is not the JSON literal `null`. Whatever was stored
under `k` before is replaced: after `AddData(k, v1)` and `AddData(k, v)` the only entry
with the key `k` is the one a single `AddData(k, v)` stores. The entries of the other
keys, the offenders and the informational findings are unchanged. -/
theorem AddData_stores (a : AnalyzerReport) (k v : String) :
    (((json.isObject v || json.isArray v) && json.numbersConvert v) = true →
      (AddData a k v).Data.get k = some (ReportValue.raw v)) ∧
    (((json.isObject v || json.isArray v) && json.numbersConvert v) = false →
      json.isNull v = false →
      (AddData a k v).Data.get k = some (ReportValue.str v)) ∧
    (∀ v1 : String, ∀ e ∈ (AddData (AddData a k v1) k v).Data, e.1 = k →
      some e.2 = (AddData a k v).Data.get k) ∧
    (∀ v1 : String, (AddData (AddData a k v1) k v).Data.get k = (AddData a k v).Data.get k) ∧
    (∀ j : String, j ≠ k → (AddData a k v).Data.get j = a.Data.get j) ∧
    (AddData a k v).Offenders = a.Offenders ∧
    (AddData a k v).Informational = a.Informational ∧
    (AddData a k v).FSType = a.FSType ∧ (AddData a k v).ImageName = a.ImageName ∧
    (AddData a k v).ImageDigest = a.ImageDigest ∧
    ((json.isObject v || json.isArray v) = true →
      json.nesting v.data ≤ json.maxNestingDepth) := by
  have hcond : ((json.unmarshalMap v).isSome || json.unmarshalSlice v)
      = ((json.isObject v || json.isArray v || json.isNull v) && json.numbersConvert v) := by
    rw [json.unmarshalMap_isSome, json.unmarshalSlice_eq]
    cases json.isObject v <;> cases json.isArray v <;> cases json.isNull v <;>
      cases json.numbersConvert v <;> rfl
  have hget : ∀ b : AnalyzerReport, (AddData b k v).Data.get k
      = some (if ((json.isObject v || json.isArray v || json.isNull v) &&
            json.numbersConvert v) = true then ReportValue.raw v else ReportValue.str v) := by
    intro b
    rw [AddData_eq, hcond]
    simp [GoMap.get_insert]
  refine ⟨?_, ?_, ?_, ?_, ?_, ?_, ?_, ?_, ?_, ?_, ?_⟩
  · intro h
    rw [hget]
    simp only [Bool.and_eq_true, Bool.or_eq_true] at h
    have : ((json.isObject v || json.isArray v || json.isNull v) &&
        json.numbersConvert v) = true := by
      simp only [Bool.and_eq_true, Bool.or_eq_true]
      exact ⟨Or.inl h.1, h.2⟩
    rw [if_pos this]
  · intro h hnull
    rw [hget]
    have : ¬ ((json.isObject v || json.isArray v || json.isNull v) &&
        json.numbersConvert v) = true := by
      intro hc
      simp only [Bool.and_eq_true, Bool.or_eq_true] at hc
      rcases hc.1 with h1 | h1
      · have : ((json.isObject v || json.isArray v) && json.numbersConvert v) = true := by
          simp only [Bool.and_eq_true, Bool.or_eq_true]
          exact ⟨h1, hc.2⟩
        rw [h] at this
        cases this
      · rw [hnull] at h1
        cases h1
    rw [if_neg this]
  · intro v1 e he hk
    rw [hget]
    rw [AddData_eq, hcond] at he
    obtain ⟨e1, e2⟩ := e
    simp only at hk
    subst hk
    exact congrArg some (GoMap.mem_insert_key _ _ _ _ he)
  · intro v1
    rw [hget, hget]
  · intro j hj
    rw [AddData_eq]
    simp [GoMap.get_insert, hj]
  · rw [AddData_eq]
  · rw [AddData_eq]
  · rw [AddData_eq]
  · rw [AddData_eq]
  · rw [AddData_eq]
  · intro h
    simp only [Bool.or_eq_true] at h
    exact isObject_nesting v (h.elim Or.inl (fun h => Or.inr (Or.inl h)))

/-- Witness of the amended C17: an array is stored as raw JSON, and a second call with
the same key replaces the value of the first. -/
theorem AddData_stores_witness :
    ((json.isObject "[1,2]" || json.isArray "[1,2]") && json.numbersConvert "[1,2]") = true ∧
    (AddData (AddData (newReport demoFs demoGlobalConfig "") "k" "[1,2]") "k" "text").Data
      = [("k", ReportValue.str "text")] ∧
    (AddData (newReport demoFs demoGlobalConfig "") "k" "[1,2]").Data.get "k"
      = some (ReportValue.raw "[1,2]") :=
  ⟨by decide, by decide,
    (AddData_stores (newReport demoFs demoGlobalConfig "") "k" "[1,2]").1 (by decide)⟩

/-- C19: accumulator invariant. In every state reached from `New` by a sequence of
`AddOffender`, `AddInformational` and `AddData` calls, a path is a key of the
offenders map (of the informational map) exactly when `AddOffender`
(`AddInformational`) was called with it, and it then maps to the non-empty list of the
values added under it, in call order. Each `AddOffender(p, v)` appends one element to
the list of `p` and leaves the lists of the other paths, the informational map and the
data map unchanged, and symmetrically for `AddInformational`. -/
theorem accumulator_invariant (fsp : FsParser) (cfg : globalConfigType) (digest : String)
    (cs : List ReportCall) :
    (∀ p : String, (applyCalls (newReport fsp cfg digest) cs).Offenders.get p
      = if offendersAdded cs p = [] then none else some (offendersAdded cs p)) ∧
    (∀ p : String, (applyCalls (newReport fsp cfg digest) cs).Informational.get p
      = if informationalAdded cs p = [] then none else some (informationalAdded cs p)) ∧
    (∀ (p : String) (l : List ReportValue),
      (applyCalls (newReport fsp cfg digest) cs).Offenders.get p = some l → l ≠ []) ∧
    (∀ (p : String) (l : List ReportValue),
      (applyCalls (newReport fsp cfg digest) cs).Informational.get p = some l → l ≠ []) ∧
    (∀ (a : AnalyzerReport) (p v : String),
      (∃ x, (AddOffender a p v).Offenders.get p = some ((a.Offenders.get p).getD [] ++ [x])) ∧
      (∀ q : String, q ≠ p → (AddOffender a p v).Offenders.get q = a.Offenders.get q) ∧
      (AddOffender a p v).Informational = a.Informational ∧
      (AddOffender a p v).Data = a.Data) ∧
    (∀ (a : AnalyzerReport) (p v : String),
      (∃ x, (AddInformational a p v).Informational.get p
        = some ((a.Informational.get p).getD [] ++ [x])) ∧
      (∀ q : String, q ≠ p →
        (AddInformational a p v).Informational.get q = a.Informational.get q) ∧
      (AddInformational a p v).Offenders = a.Offenders ∧
      (AddInformational a p v).Data = a.Data) := by
  have ho : ∀ p : String, (applyCalls (newReport fsp cfg digest) cs).Offenders.get p
      = if offendersAdded cs p = [] then none else some (offendersAdded cs p) := by
    intro p
    rw [applyCalls_offenders]
    simp [newReport, GoMap.get]
  have hi : ∀ p : String, (applyCalls (newReport fsp cfg digest) cs).Informational.get p
      = if informationalAdded cs p = [] then none else some (informationalAdded cs p) := by
    intro p
    rw [applyCalls_informational]
    simp [newReport, GoMap.get]
  refine ⟨ho, hi, ?_, ?_, ?_, ?_⟩
  · intro p l hl
    rw [ho] at hl
    split at hl
    · cases hl
    · rename_i hne
      simp only [Option.some.injEq] at hl
      rw [← hl]; exact hne
  · intro p l hl
    rw [hi] at hl
    split at hl
    · cases hl
    · rename_i hne
      simp only [Option.some.injEq] at hl
      rw [← hl]; exact hne
  · intro a p v
    refine ⟨⟨sniffed v, by rw [offenders_get_step]; simp⟩, ?_, ?_, ?_⟩
    · intro q hq
      rw [offenders_get_step]; simp [hq]
    · rw [AddOffender_eq]
    · rw [AddOffender_eq]
  · intro a p v
    refine ⟨⟨sniffed v, by rw [informational_get_step]; simp⟩, ?_, ?_, ?_⟩
    · intro q hq
      rw [informational_get_step]; simp [hq]
    · rw [AddInformational_eq]
    · rw [AddInformational_eq]

/-- Witness of C19: three calls, two of them for the same path. -/
theorem accumulator_invariant_witness :
    (applyCalls (newReport demoFs demoGlobalConfig "")
      [.AddOffender "/x" "one", .AddInformational "/x" "note", .AddOffender "/x" "two"]).Offenders
      = [("/x", [ReportValue.str "one", ReportValue.str "two"])] ∧
    (∀ (p : String) (l : List ReportValue),
      (applyCalls (newReport demoFs demoGlobalConfig "")
        [.AddOffender "/x" "one", .AddInformational "/x" "note",
          .AddOffender "/x" "two"]).Offenders.get p = some l → l ≠ []) :=
  ⟨by decide, (accumulator_invariant demoFs demoGlobalConfig ""
    [.AddOffender "/x" "one", .AddInformational "/x" "note", .AddOffender "/x" "two"]).2.2.1⟩

/-- C18, as the specification states it, fails: a run of `RunPlugins` in which no
plugin calls `AddOffender` and one plugin returns from `Finalize` a JSON object with
the key `offenders` gives a report with the top-level key `offenders`. -/
theorem JsonReport_offenders_key_from_plugin :
    (RunPlugins json.unmarshalMap 1
      (registered demoFs (newReport demoFs demoGlobalConfig "") [offendersKeyPlugin])).2
      = RunStatus.returned ∧
    (RunPlugins json.unmarshalMap 1
      (registered demoFs (newReport demoFs demoGlobalConfig "") [offendersKeyPlugin])).1.world
      = applyCalls (newReport demoFs demoGlobalConfig "") [] ∧
    (JsonReport (RunPlugins json.unmarshalMap 1
      (registered demoFs (newReport demoFs demoGlobalConfig "") [offendersKeyPlugin])).1)
      = some [("fs_type", Member.str "dirfs"), ("image_name", Member.str "demo.img"),
          ("offenders", Member.plugin "\x7b\x7d")] := by
  decide

/-- C18, amended: for every analyzer whose report was reached from `New` by a sequence
of `AddOffender`, `AddInformational` and `AddData` calls, whatever plugin reports were
merged, `JsonReport` returns the empty output exactly when a stored raw value nests so
deep that the report document exceeds `maxNestingDepth` (which cannot happen when the
values given to the calls nest at most `maxNestingDepth - 3` deep), and otherwise a JSON
object; this object has the top-level key `offenders` exactly when `AddOffender` was
called or the merged plugin reports hold the key `offenders`; likewise for
`informational` with `AddInformational` and for `data` with `AddData`. -/
theorem JsonReport_keys (fsp : FsParser) (cfg : globalConfigType) (digest : String)
    (cs : List ReportCall) (a : Analyzer AnalyzerReport)
    (hw : a.world = applyCalls (newReport fsp cfg digest) cs) :
    (JsonReport a = none ↔ a.world.fits = false) ∧
    ((∀ c ∈ cs, c.nesting + 3 ≤ json.maxNestingDepth) → ∃ obj, JsonReport a = some obj) ∧
    (∀ obj, JsonReport a = some obj →
      (obj.get "offenders").isSome
        = (cs.any ReportCall.isOffender || (a.PluginReports.get "offenders").isSome) ∧
      (obj.get "informational").isSome
        = (cs.any ReportCall.isInformational ||
            (a.PluginReports.get "informational").isSome) ∧
      (obj.get "data").isSome
        = (cs.any ReportCall.isData || (a.PluginReports.get "data").isSome)) := by
  have hd : a.world.Decodable := by rw [hw]; exact applyCalls_decodable fsp cfg digest cs
  obtain ⟨obj0, hobj0, _, h1, h2, h3⟩ := marshalReport_decodable a.world hd
  rw [(marshalReport_eq a.world hd).1, Option.some.injEq] at hobj0
  subst hobj0
  have e1 : decide ((applyCalls (newReport fsp cfg digest) cs).Offenders = [])
      = !cs.any ReportCall.isOffender := by
    have hiff := applyCalls_offenders_nil (newReport fsp cfg digest) cs
    cases hany : cs.any ReportCall.isOffender with
    | false =>
      simp only [Bool.not_false, decide_eq_true_eq]
      exact hiff.mpr ⟨rfl, hany⟩
    | true =>
      simp only [Bool.not_true, decide_eq_false_iff_not]
      intro h
      have h2 := (hiff.mp h).2
      rw [hany] at h2
      cases h2
  have e2 : decide ((applyCalls (newReport fsp cfg digest) cs).Informational = [])
      = !cs.any ReportCall.isInformational := by
    have hiff := applyCalls_informational_nil (newReport fsp cfg digest) cs
    cases hany : cs.any ReportCall.isInformational with
    | false =>
      simp only [Bool.not_false, decide_eq_true_eq]
      exact hiff.mpr ⟨rfl, hany⟩
    | true =>
      simp only [Bool.not_true, decide_eq_false_iff_not]
      intro h
      have h2 := (hiff.mp h).2
      rw [hany] at h2
      cases h2
  have e3 : decide ((applyCalls (newReport fsp cfg digest) cs).Data = [])
      = !cs.any ReportCall.isData := by
    have hiff := applyCalls_data_nil (newReport fsp cfg digest) cs
    cases hany : cs.any ReportCall.isData with
    | false =>
      simp only [Bool.not_false, decide_eq_true_eq]
      exact hiff.mpr ⟨rfl, hany⟩
    | true =>
      simp only [Bool.not_true, decide_eq_false_iff_not]
      intro h
      have h2 := (hiff.mp h).2
      rw [hany] at h2
      cases h2
  rw [hw] at h1 h2 h3
  rw [e1] at h1
  rw [e2] at h2
  rw [e3] at h3
  have hjson := JsonReport_eq a hd
  refine ⟨?_, ?_, ?_⟩
  · rw [hjson]
    cases hf : a.world.fits <;> simp
  · intro hcs
    have hf : a.world.fits = true := by rw [hw]; exact applyCalls_fits fsp cfg digest cs hcs
    rw [hjson, if_pos hf]
    exact ⟨_, rfl⟩
  · intro obj hobj
    rw [hjson] at hobj
    split at hobj
    · simp only [Option.some.injEq] at hobj
      subst hobj
      rw [hw]
      refine ⟨?_, ?_, ?_⟩
      · rw [GoMap.foldl_insert_get_map Member.plugin, h1, Bool.not_not, Bool.or_comm]
      · rw [GoMap.foldl_insert_get_map Member.plugin, h2, Bool.not_not, Bool.or_comm]
      · rw [GoMap.foldl_insert_get_map Member.plugin, h3, Bool.not_not, Bool.or_comm]
    · cases hobj

/-- Witness of the amended C18: a report with informational findings only and no
plugin reports has neither the key `offenders` nor the key `data`. -/
theorem JsonReport_keys_witness :
    (New demoFs (applyCalls (newReport demoFs demoGlobalConfig "")
      [.AddInformational "/x" "note"])).world
      = applyCalls (newReport demoFs demoGlobalConfig "") [.AddInformational "/x" "note"] ∧
    JsonReport (New demoFs (applyCalls (newReport demoFs demoGlobalConfig "")
        [.AddInformational "/x" "note"]))
      = some [("fs_type", Member.str "dirfs"), ("image_name", Member.str "demo.img"),
          ("informational", Member.findings [("/x", [ReportValue.str "note"])])] ∧
    (GoMap.get [("fs_type", Member.str "dirfs"), ("image_name", Member.str "demo.img"),
        ("informational", Member.findings [("/x", [ReportValue.str "note"])])]
        "offenders").isSome = false ∧
    (GoMap.get [("fs_type", Member.str "dirfs"), ("image_name", Member.str "demo.img"),
        ("informational", Member.findings [("/x", [ReportValue.str "note"])])]
        "informational").isSome = true ∧
    (GoMap.get [("fs_type", Member.str "dirfs"), ("image_name", Member.str "demo.img"),
        ("informational", Member.findings [("/x", [ReportValue.str "note"])])]
        "data").isSome = false :=
  ⟨rfl, by decide,
    (JsonReport_keys demoFs demoGlobalConfig "" [.AddInformational "/x" "note"]
      (New demoFs (applyCalls (newReport demoFs demoGlobalConfig "")
        [.AddInformational "/x" "note"])) rfl).2.2 _ (by decide)⟩

/-- C20: evaluation of `FileGetSha256` on the scratch directory. When `CopyFile`
reports success the call returns the digest and, the name chosen by `TempFile` being
new, leaves the files it found; when `CopyFile` reports failure the call returns the
error and leaves one file more, the temporary file `FileGet` created: `FileGet` does
not remove it and `FileGetSha256` returns before its `defer os.Remove`. -/
theorem FileGetSha256_scratch (TempFile : List String → String)
    (CopyFile : String → String → Bool) (DigestFileSha256 : String → List Byte)
    (files : List String) (filepath : String) (hnew : TempFile files ∉ files) :
    (CopyFile filepath (TempFile files) = true →
      FileGetSha256 TempFile CopyFile DigestFileSha256 files filepath
        = (files, .ok (DigestFileSha256 (TempFile files)))) ∧
    (CopyFile filepath (TempFile files) = false →
      FileGetSha256 TempFile CopyFile DigestFileSha256 files filepath
        = (files ++ [TempFile files], .error "error copying file") ∧
      ¬ (∀ f, f ∈ (FileGetSha256 TempFile CopyFile DigestFileSha256 files filepath).1
          ↔ f ∈ files)) := by
  constructor
  · intro hc
    simp only [FileGetSha256, FileGet, hc, if_true]
    have hf : (files ++ [TempFile files]).filter (fun f => f != TempFile files) = files := by
      rw [List.filter_append]
      have h1 : files.filter (fun f => f != TempFile files) = files := by
        rw [List.filter_eq_self]
        intro f hf
        have : f ≠ TempFile files := fun h => hnew (h ▸ hf)
        simpa using this
      rw [h1]
      simp
    rw [hf]
  · intro hc
    have hrun : FileGetSha256 TempFile CopyFile DigestFileSha256 files filepath
        = (files ++ [TempFile files], .error "error copying file") := by
      simp only [FileGetSha256, FileGet, hc, Bool.false_eq_true, if_false]
    refine ⟨hrun, ?_⟩
    rw [hrun]
    intro h
    exact hnew ((h (TempFile files)).mp (by simp))

/-- Witness of C20: a filesystem whose `CopyFile` fails leaves the temporary file in
the scratch directory, which was empty before the call. -/
theorem FileGetSha256_scratch_witness :
    "tmp0" ∉ ([] : List String) ∧
    FileGetSha256 (fun _ => "tmp0") (fun _ _ => false) (fun _ => []) [] "/etc/passwd"
      = (["tmp0"], .error "error copying file") :=
  ⟨by decide,
    ((FileGetSha256_scratch (fun _ => "tmp0") (fun _ _ => false) (fun _ => []) []
      "/etc/passwd" (by decide)).2 rfl).1⟩

end analyzer

end Fwanalyzer

/-! ## Theorems: file types and symmetry of `CapsEqual` -/

namespace Fwanalyzer

namespace fsparser

/-- C23, as the specification states it, fails: for a character device, and for the
mode 0, none of `IsFile`, `IsDir` and `IsLink` is true. -/
theorem file_type_none_of_three :
    (FileInfo.mk 0 0o020644 0 0 "-" [] "tty" "").IsFile = false ∧
    (FileInfo.mk 0 0o020644 0 0 "-" [] "tty" "").IsDir = false ∧
    (FileInfo.mk 0 0o020644 0 0 "-" [] "tty" "").IsLink = false ∧
    (FileInfo.mk 0 0 0 0 "" [] "" "").IsFile = false ∧
    (FileInfo.mk 0 0 0 0 "" [] "" "").IsDir = false ∧
    (FileInfo.mk 0 0 0 0 "" [] "" "").IsLink = false := by
  decide

/-- C23, amended: for every `FileInfo`, whatever its mode, at most one of `IsFile`,
`IsDir` and `IsLink` is true, and one of them is true exactly when the file type bits
`Mode & S_IFMT` are those of a regular file, a directory or a symbolic link. -/
theorem file_type_at_most_one (fi : FileInfo) :
    [fi.IsFile, fi.IsDir, fi.IsLink].count true
      = (if fi.Mode &&& S_IFMT = S_IFREG ∨ fi.Mode &&& S_IFMT = S_IFDIR ∨
            fi.Mode &&& S_IFMT = S_IFLNK then 1 else 0) ∧
    (fi.IsFile = true ↔ fi.Mode &&& S_IFMT = S_IFREG) ∧
    (fi.IsDir = true ↔ fi.Mode &&& S_IFMT = S_IFDIR) ∧
    (fi.IsLink = true ↔ fi.Mode &&& S_IFMT = S_IFLNK) := by
  have hrd : S_IFREG ≠ S_IFDIR := by decide
  have hrl : S_IFREG ≠ S_IFLNK := by decide
  have hdl : S_IFDIR ≠ S_IFLNK := by decide
  refine ⟨?_, by simp [FileInfo.IsFile], by simp [FileInfo.IsDir], by simp [FileInfo.IsLink]⟩
  simp only [FileInfo.IsFile, FileInfo.IsDir, FileInfo.IsLink]
  by_cases h1 : fi.Mode &&& S_IFMT = S_IFREG
  · simp [h1, hrd, hrl]
  · by_cases h2 : fi.Mode &&& S_IFMT = S_IFDIR
    · simp [h2, hrd.symm, hdl]
    · by_cases h3 : fi.Mode &&& S_IFMT = S_IFLNK
      · simp [h3, hrl.symm, hdl.symm]
      · simp [h1, h2, h3]

end fsparser

namespace capability

/-- C28, as the specification states it, fails: with a repeated token `CapsEqual`
accepts two lists in one order of the arguments and rejects them in the other. -/
theorem CapsEqual_not_symmetric :
    CapsEqual ["cap_kill+p", "cap_kill+p"] ["cap_kill+p", "cap_setuid+p"] = true ∧
    CapsEqual ["cap_kill+p", "cap_setuid+p"] ["cap_kill+p", "cap_kill+p"] = false := by
  decide

/-- C28, amended: for all token lists `a` and `b` in which no token is repeated,
`CapsEqual(a, b) = CapsEqual(b, a)`. -/
theorem CapsEqual_symm (a b : List String) (ha : a.Nodup) (hb : b.Nodup) :
    CapsEqual a b = CapsEqual b a := by
  have key : ∀ x y : List String, x.Nodup → CapsEqual x y = true → CapsEqual y x = true := by
    intro x y hx h
    rw [CapsEqual_iff] at h ⊢
    obtain ⟨hl, hsub⟩ := h
    have hperm : x.Perm y := (List.subperm_of_subset hx hsub).perm_of_length_le (by omega)
    exact ⟨hl.symm, fun t ht => hperm.mem_iff.mpr ht⟩
  cases h1 : CapsEqual a b with
  | true => exact (key a b ha h1).symm
  | false =>
    cases h2 : CapsEqual b a with
    | false => rfl
    | true => rw [key b a hb h2] at h1; cases h1

/-- Witness of the amended C28: two duplicate-free lists in different order. -/
theorem CapsEqual_symm_witness :
    ["cap_kill+p", "cap_setuid+p"].Nodup ∧ ["cap_setuid+p", "cap_kill+p"].Nodup ∧
    CapsEqual ["cap_kill+p", "cap_setuid+p"] ["cap_setuid+p", "cap_kill+p"]
      = CapsEqual ["cap_setuid+p", "cap_kill+p"] ["cap_kill+p", "cap_setuid+p"] :=
  ⟨by decide, by decide,
    CapsEqual_symm ["cap_kill+p", "cap_setuid+p"] ["cap_setuid+p", "cap_kill+p"]
      (by decide) (by decide)⟩

end capability

end Fwanalyzer

/-! ## Auxiliary facts: recording and round trip of the FileTree plugin -/

namespace Fwanalyzer

namespace json

theorem coerceLoop_encodeRune (r : Nat) (hr : isScalar r) (rest : List Nat) :
    coerceLoop (encodeRune r ++ rest) 0 = encodeRune r ++ coerceLoop rest 0 := by
  unfold isScalar at hr
  unfold encodeRune
  by_cases h1 : r < 0x80
  · simp only [h1, if_true, List.singleton_append, coerceLoop, runeWidth]
  · by_cases h2 : r < 0x800
    · simp only [h1, h2, if_true, if_false, List.cons_append, List.nil_append, coerceLoop,
        runeWidth]
      have a1 : ¬ (0xC0 + r / 64 < 0x80) := by omega
      have a2 : ¬ (0xC0 + r / 64 < 0xC2) := by omega
      have a3 : 0xC0 + r / 64 < 0xE0 := by omega
      have a4 : 0x80 ≤ 0x80 + r % 64 ∧ 0x80 + r % 64 ≤ 0xBF := by omega
      simp only [a1, a2, a3, a4, if_true, if_false, and_self]
      rfl
    · by_cases h3 : r < 0x10000
      · simp only [h1, h2, h3, if_true, if_false, List.cons_append, List.nil_append, coerceLoop,
          runeWidth]
        have a1 : ¬ (0xE0 + r / 4096 < 0x80) := by omega
        have a2 : ¬ (0xE0 + r / 4096 < 0xC2) := by omega
        have a3 : ¬ (0xE0 + r / 4096 < 0xE0) := by omega
        have a4 : 0xE0 + r / 4096 < 0xF0 := by omega
        have a5 : (if 0xE0 + r / 4096 = 0xE0 then 0xA0 else 0x80) ≤ 0x80 + r / 64 % 64 ∧
            0x80 + r / 64 % 64 ≤ (if 0xE0 + r / 4096 = 0xED then 0x9F else 0xBF) ∧
            0x80 ≤ 0x80 + r % 64 ∧ 0x80 + r % 64 ≤ 0xBF := by
          refine ⟨?_, ?_, by omega, by omega⟩
          · split <;> omega
          · split <;> omega
        simp only [a1, a2, a3, a4, a5, if_true, if_false, and_self]
        rfl
      · simp only [h1, h2, h3, if_false, List.cons_append, List.nil_append, coerceLoop,
          runeWidth]
        have a1 : ¬ (0xF0 + r / 262144 < 0x80) := by omega
        have a2 : ¬ (0xF0 + r / 262144 < 0xC2) := by omega
        have a3 : ¬ (0xF0 + r / 262144 < 0xE0) := by omega
        have a4 : ¬ (0xF0 + r / 262144 < 0xF0) := by omega
        have a5 : 0xF0 + r / 262144 < 0xF5 := by omega
        have a6 : (if 0xF0 + r / 262144 = 0xF0 then 0x90 else 0x80) ≤ 0x80 + r / 4096 % 64 ∧
            0x80 + r / 4096 % 64 ≤ (if 0xF0 + r / 262144 = 0xF4 then 0x8F else 0xBF) ∧
            0x80 ≤ 0x80 + r / 64 % 64 ∧ 0x80 + r / 64 % 64 ≤ 0xBF ∧
            0x80 ≤ 0x80 + r % 64 ∧ 0x80 + r % 64 ≤ 0xBF := by
          refine ⟨?_, ?_, by omega, by omega, by omega, by omega⟩
          · split <;> omega
          · split <;> omega
        simp only [a1, a2, a3, a4, a5, a6, if_true, if_false, and_self]
        rfl

theorem Char.toNat_isScalar (c : Char) : isScalar c.toNat := by
  have h := c.valid
  unfold isScalar
  simp only [UInt32.isValidChar, Nat.isValidChar] at h
  exact h

/-- Well-formed UTF-8 survives `json.Marshal` and `json.Unmarshal`: the bytes of every
string of the embedding are read back as they were written. -/
theorem stringRoundTrip_utf8 (s : String) : stringRoundTrip (utf8Bytes s) = utf8Bytes s := by
  unfold stringRoundTrip utf8Bytes
  induction s.data with
  | nil => rfl
  | cons c cs ih =>
    rw [List.flatMap_cons, coerceLoop_encodeRune _ (Char.toNat_isScalar c), ih]

end json

namespace filetree

open fsparser

/-- The entry `CheckFile` stores for `fi` under the key `fn` with the digest `digest`. -/
theorem CheckFile_eq (state : fileTreeType) (h : Host) (fi : FileInfo) (filepath : String)
    (t : GoMap fileInfoSaveType) (hpath : state.config.OldTreeFilePath ≠ "")
    (ht : state.tree = some t) :
    CheckFile state h fi filepath
      = (if (fi.IsFile && !state.config.SkipFileDigest) = true then
          match h.FileGetSha256 (pathJoin filepath fi.Name) with
          | .error e => .error (.error e)
          | .ok raw => .ok ⟨state.config, some (t.insert (pathJoin filepath fi.Name)
              ⟨⟨fi.Size, fi.Mode, fi.Uid, fi.Gid, fi.SELinuxLabel, [],
                pathJoin filepath fi.Name, ""⟩, hexEncodeToString raw⟩), state.oldTree⟩
         else .ok ⟨state.config, some (t.insert (pathJoin filepath fi.Name)
              ⟨⟨fi.Size, fi.Mode, fi.Uid, fi.Gid, fi.SELinuxLabel, [],
                pathJoin filepath fi.Name, ""⟩, "0"⟩), state.oldTree⟩) := by
  unfold CheckFile
  simp only [hpath, if_false, ht]
  by_cases hf : (fi.IsFile && !state.config.SkipFileDigest) = true
  · simp only [hf, if_true]
    cases h.FileGetSha256 (pathJoin filepath fi.Name) <;> rfl
  · simp only [hf, Bool.false_eq_true, if_false]

/-- What a successful `CheckFile` leaves: the configuration and the old tree are kept,
and the tree is the former one with one entry stored under its own name, without
capabilities and link target. -/
theorem CheckFile_ok (state st : fileTreeType) (h : Host) (fi : FileInfo) (filepath : String)
    (hpath : state.config.OldTreeFilePath ≠ "")
    (hok : CheckFile state h fi filepath = .ok st) :
    st.config = state.config ∧ st.oldTree = state.oldTree ∧
    ∃ t digest, state.tree = some t ∧
      st.tree = some (t.insert (pathJoin filepath fi.Name)
        ⟨⟨fi.Size, fi.Mode, fi.Uid, fi.Gid, fi.SELinuxLabel, [],
          pathJoin filepath fi.Name, ""⟩, digest⟩) := by
  cases ht : state.tree with
  | none =>
    unfold CheckFile at hok
    simp only [hpath, if_false, ht] at hok
    split at hok <;> cases hok
  | some t =>
    rw [CheckFile_eq state h fi filepath t hpath ht] at hok
    split at hok
    · split at hok
      · cases hok
      · simp only [Except.ok.injEq] at hok
        subst hok
        exact ⟨rfl, rfl, t, _, rfl, rfl⟩
    · simp only [Except.ok.injEq] at hok
      subst hok
      exact ⟨rfl, rfl, t, _, rfl, rfl⟩

theorem CheckFile_disabled (state : fileTreeType) (h : Host) (fi : FileInfo) (filepath : String)
    (hpath : state.config.OldTreeFilePath = "") : CheckFile state h fi filepath = .ok state := by
  unfold CheckFile
  simp only [hpath, if_true]

theorem CheckFile_blind (state : fileTreeType) (h : Host) (e1 e2 : FileInfo × String)
    (hs : sameButCapsAndLink e1 e2) :
    CheckFile state h e1.1 e1.2 = CheckFile state h e2.1 e2.2 := by
  obtain ⟨h0, h1, h2, h3, h4, h5, h6⟩ := hs
  unfold CheckFile FileInfo.IsFile
  rw [h0, h1, h2, h3, h4, h5, h6]

theorem checkFiles_blind (h : Host) :
    ∀ (v1 v2 : List (FileInfo × String)) (state : fileTreeType),
      List.Forall₂ sameButCapsAndLink v1 v2 → checkFiles h v1 state = checkFiles h v2 state := by
  intro v1 v2 state hs
  induction hs generalizing state with
  | nil => rfl
  | @cons a b l1 l2 hab _ ih =>
    obtain ⟨f1, p1⟩ := a
    obtain ⟨f2, p2⟩ := b
    simp only [checkFiles]
    rw [CheckFile_blind state h (f1, p1) (f2, p2) hab]
    cases CheckFile state h f2 p2 with
    | error e => rfl
    | ok st => exact ih st

/-- The properties of the tree that every `CheckFile` call keeps: the keys are pairwise
distinct, every entry is stored under its name and carries no capabilities and no link
target. -/
theorem checkFiles_tree (h : Host) :
    ∀ (visits : List (FileInfo × String)) (state st : fileTreeType),
      checkFiles h visits state = .ok st →
      (entries state.tree).WF → KeyedByName (entries state.tree) →
      (∀ e ∈ entries state.tree, e.2.Capabilities = [] ∧ e.2.LinkTarget = "") →
      st.config = state.config ∧ st.oldTree = state.oldTree ∧
      (entries st.tree).WF ∧ KeyedByName (entries st.tree) ∧
      (∀ e ∈ entries st.tree, e.2.Capabilities = [] ∧ e.2.LinkTarget = "") := by
  intro visits
  induction visits with
  | nil =>
    intro state st hok hwf hk hc
    simp only [checkFiles, Except.ok.injEq] at hok
    subst hok
    exact ⟨rfl, rfl, hwf, hk, hc⟩
  | cons v visits ih =>
    intro state st hok hwf hk hc
    obtain ⟨fi, p⟩ := v
    simp only [checkFiles] at hok
    cases hcf : CheckFile state h fi p with
    | error e => rw [hcf] at hok; cases hok
    | ok s1 =>
      rw [hcf] at hok
      by_cases hpath : state.config.OldTreeFilePath = ""
      · rw [CheckFile_disabled state h fi p hpath] at hcf
        simp only [Except.ok.injEq] at hcf
        subst hcf
        exact ih state st hok hwf hk hc
      · obtain ⟨h1, h2, t, digest, ht, hst⟩ := CheckFile_ok state s1 h fi p hpath hcf
        have hent : entries state.tree = t := by rw [ht]; rfl
        rw [hent] at hwf hk hc
        obtain ⟨i1, i2, i3, i4, i5⟩ := ih s1 st hok
          (by rw [hst]; exact GoMap.WF_insert t hwf _ _)
          (by
            rw [hst]
            intro e he
            rcases GoMap.mem_insert t _ _ e he with h3 | h3
            · rw [h3]
            · exact hk e h3)
          (by
            rw [hst]
            intro e he
            rcases GoMap.mem_insert t _ _ e he with h3 | h3
            · rw [h3]; exact ⟨rfl, rfl⟩
            · exact hc e h3)
        exact ⟨i1.trans h1, i2.trans h2, i3, i4, i5⟩

/-- Loading the saved entries of a tree whose entries are stored under their names
gives the tree back. -/
theorem foldl_insert_round_trip :
    ∀ (t m : GoMap fileInfoSaveType), (m ++ t).WF → KeyedByName t →
      (t.map Prod.snd).foldl (fun m fi => m.insert fi.Name fi) m = m ++ t := by
  intro t
  induction t with
  | nil => intro m _ _; simp
  | cons e t ih =>
    intro m hwf hk
    obtain ⟨k, fi⟩ := e
    have hname : fi.Name = k := hk (k, fi) (List.mem_cons_self _ _)
    have hnone : m.get k = none := by
      rw [GoMap.get_eq_none_iff]
      intro v hv
      unfold GoMap.WF at hwf
      rw [List.map_append, List.map_cons, List.nodup_append] at hwf
      exact hwf.2.2 (List.mem_map_of_mem Prod.fst hv) (List.mem_cons_self _ _)
    have hins : m.insert fi.Name fi = m ++ [(k, fi)] := by
      unfold GoMap.insert
      rw [hname, hnone]
      rfl
    simp only [List.map_cons, List.foldl_cons]
    rw [hins, ih (m ++ [(k, fi)]) (by simpa using hwf)
      (fun e he => hk e (List.mem_cons_of_mem _ he))]
    simp

/-- A tree compared with a baseline that holds the same entries under the same keys
gives three empty lists. -/
theorem computeDiff_self (state : fileTreeType)
    (hold : (entries state.oldTree).WF)
    (hsame : ∀ k, (entries state.tree).get k = (entries state.oldTree).get k) :
    computeDiff state = ⟨[], [], []⟩ := by
  have hadd : findNew state (entries state.tree) [] = [] := by
    rw [List.eq_nil_iff_forall_not_mem]
    intro fi hfi
    rw [findNew_mem] at hfi
    rcases hfi with hfi | ⟨k, hk, _, hno⟩
    · simp at hfi
    · rw [← hsame k, GoMap.get_eq_none_iff] at hno
      exact hno fi hk
  have hrem : (findModified state (entries state.oldTree) ([], [])).1 = [] := by
    rw [List.eq_nil_iff_forall_not_mem]
    intro fi hfi
    rw [(findModified_mem state fi "" _ [] []).1] at hfi
    rcases hfi with hfi | ⟨k, hk, _, hno⟩
    · simp at hfi
    · rw [hsame k, GoMap.get_eq_none_iff] at hno
      exact hno fi hk
  have hchg : (findModified state (entries state.oldTree) ([], [])).2 = [] := by
    rw [List.eq_nil_iff_forall_not_mem]
    intro p hp
    rw [(findModified_mem state zeroEntry p _ [] []).2] at hp
    rcases hp with hp | ⟨oFi, cFi, hk, _, hget, hch⟩
    · simp at hp
    · rw [hsame p, (GoMap.get_eq_some_iff _ hold p oFi).mpr hk] at hget
      simp only [Option.some.injEq] at hget
      subst hget
      simp [entryChanged] at hch
  simp only [computeDiff, hadd, hrem, hchg]

theorem findNew_eq (state : fileTreeType) :
    ∀ (l : List (String × fileInfoSaveType)) (acc : List fileInfoSaveType),
      findNew state l acc = acc ++ (l.filter (fun e =>
        inPath e.1 state.config.CheckPath && ((entries state.oldTree).get e.1).isNone)).map
          Prod.snd := by
  intro l
  induction l with
  | nil => intro acc; simp [findNew]
  | cons e l ih =>
    intro acc
    obtain ⟨k, fi⟩ := e
    simp only [findNew, List.filter_cons]
    by_cases hp : inPath k state.config.CheckPath = true
    · simp only [hp, Bool.not_true, Bool.false_eq_true, if_false, Bool.true_and]
      cases hg : (entries state.oldTree).get k with
      | none => simp [ih]
      | some v => simp [ih]
    · simp only [hp, Bool.not_false, if_true, Bool.false_and, Bool.false_eq_true, if_false]
      simp at hp
      simp [hp, ih]

theorem findModified_eq (state : fileTreeType) :
    ∀ (l : List (String × fileInfoSaveType)) (removed : List fileInfoSaveType)
      (changed : List String),
      findModified state l (removed, changed)
        = (removed ++ (l.filter (fun e => inPath e.1 state.config.CheckPath &&
              ((entries state.tree).get e.1).isNone)).map Prod.snd,
           changed ++ (l.filter (fun e => inPath e.1 state.config.CheckPath &&
              (match (entries state.tree).get e.1 with
               | none => false
               | some cFi => entryChanged state.config e.2 cFi))).map Prod.fst) := by
  intro l
  induction l with
  | nil => intro removed changed; simp [findModified]
  | cons e l ih =>
    intro removed changed
    obtain ⟨k, fi⟩ := e
    simp only [findModified, List.filter_cons]
    by_cases hp : inPath k state.config.CheckPath = true
    · simp only [hp, Bool.not_true, Bool.false_eq_true, if_false, Bool.true_and]
      cases hg : (entries state.tree).get k with
      | none => simp [ih]
      | some v =>
        by_cases hc : entryChanged state.config fi v = true
        · simp [ih, hc]
        · simp at hc
          simp [ih, hc]
    · simp at hp
      simp [hp, ih]

theorem nodup_filter_keys {V : Type} (m : GoMap V) (hwf : m.WF) (f : String × V → Bool) :
    ((m.filter f).map Prod.fst).Nodup :=
  List.Nodup.sublist (List.Sublist.map Prod.fst (List.filter_sublist m)) hwf

theorem names_eq_keys (m : GoMap fileInfoSaveType) (hk : KeyedByName m) :
    (m.map Prod.snd).map (fun fi => fi.Name) = m.map Prod.fst := by
  rw [List.map_map]
  apply List.map_congr_left
  intro e he
  exact hk e he

theorem KeyedByName_filter (m : GoMap fileInfoSaveType) (hk : KeyedByName m)
    (f : String × fileInfoSaveType → Bool) : KeyedByName (m.filter f) :=
  fun e he => hk e (List.mem_of_mem_filter he)

/-- The lists of `Finalize` hold every file once. -/
theorem computeDiff_nodup (state : fileTreeType)
    (hwfT : (entries state.tree).WF) (hkeyT : KeyedByName (entries state.tree))
    (hwfO : (entries state.oldTree).WF) (hkeyO : KeyedByName (entries state.oldTree)) :
    ((computeDiff state).added.map (fun fi => fi.Name)).Nodup ∧
    ((computeDiff state).removed.map (fun fi => fi.Name)).Nodup ∧
    (computeDiff state).changed.Nodup := by
  simp only [computeDiff, findNew_eq, findModified_eq, List.nil_append]
  refine ⟨?_, ?_, ?_⟩
  · rw [names_eq_keys _ (KeyedByName_filter _ hkeyT _)]
    exact nodup_filter_keys _ hwfT _
  · rw [names_eq_keys _ (KeyedByName_filter _ hkeyO _)]
    exact nodup_filter_keys _ hwfO _
  · exact nodup_filter_keys _ hwfO _

/-- Every changed path has an entry in both trees, stored under the path. -/
theorem changed_entries (state : fileTreeType) (hkeyT : KeyedByName (entries state.tree))
    (p : String) (hp : p ∈ (computeDiff state).changed) :
    ∃ oFi cFi, (p, oFi) ∈ entries state.oldTree ∧ (entries state.tree).get p = some cFi ∧
      cFi.Name = p ∧ entryChanged state.config oFi cFi = true := by
  simp only [computeDiff] at hp
  rw [(findModified_mem state zeroEntry p _ [] []).2] at hp
  rcases hp with hp | ⟨oFi, cFi, hk, _, hget, hch⟩
  · simp at hp
  · exact ⟨oFi, cFi, hk, hget, hkeyT (p, cFi) (GoMap.mem_of_get _ p cFi hget), hch⟩

/-- The calls `Finalize` makes when it does not panic, and the `offenders` it leaves. -/
theorem Finalize_calls (state : fileTreeType) (h : Host)
    (hpath : state.config.OldTreeFilePath ≠ "")
    (hok : (Finalize state h).2 ≠ .error (.panic "saveTree failed")) :
    (Finalize state h).1.2.informational = h.informational ++
      findings (readOldTree state h).1 (computeDiff (readOldTree state h).1) ∧
    (Finalize state h).1.2.offenders = h.offenders := by
  cases hu : (computeDiff (readOldTree state h).1).updates state.config with
  | false =>
    rw [Finalize_no_update state h hpath hu]
    exact ⟨rfl, rfl⟩
  | true =>
    cases hw : h.writable (state.config.OldTreeFilePath ++ newFileTreeExt) with
    | true =>
      rw [Finalize_update_ok state h hpath hu hw]
      exact ⟨rfl, rfl⟩
    | false =>
      rw [Finalize_update_fail state h hpath hu hw] at hok
      exact absurd rfl hok

end filetree

end Fwanalyzer

/-! ## Theorems: FileTree plugin, recording, findings and round trip -/

namespace Fwanalyzer

namespace filetree

open fsparser

/-- C21: findings emitted by the FileTree plugin. For every baseline, current snapshot
and configuration with a non-empty `OldTreeFilePath`, when `Finalize` does not panic on
a failed snapshot write, the `AddInformational` calls it makes are, in this order: one
for each added file, under the name of the file, with the reason
`CheckFileTree: new file: ` and the summary of the file; one for each removed file with
the reason `CheckFileTree: file removed: ` and its summary; and, if and only if
`CheckPermsOwnerChange` is set, one for each changed path with the reason
`CheckFileTree: file perms/owner/size/digest changed from: `, the summary of the old
entry, ` to: ` and the summary of the new one. No file occurs twice on a list, no other
`AddInformational` call and no `AddOffender` call is made. -/
theorem Finalize_findings (state : fileTreeType) (h : Host)
    (hpath : state.config.OldTreeFilePath ≠ "")
    (hwfT : (entries state.tree).WF) (hkeyT : KeyedByName (entries state.tree))
    (hwfO : (entries state.oldTree).WF) (hkeyO : KeyedByName (entries state.oldTree))
    (hok : (Finalize state h).2 ≠ .error (.panic "saveTree failed")) :
    (Finalize state h).1.2.informational = h.informational
      ++ (computeDiff (readOldTree state h).1).added.map
          (fun fi => (fi.Name, "CheckFileTree: new file: " ++ fiToString fi true))
      ++ (computeDiff (readOldTree state h).1).removed.map
          (fun fi => (fi.Name, "CheckFileTree: file removed: " ++ fiToString fi true))
      ++ (if state.config.CheckPermsOwnerChange = true then
            (computeDiff (readOldTree state h).1).changed.map
              (fun p => (p, "CheckFileTree: file perms/owner/size/digest changed from: "
                ++ fiToString (((entries (readOldTree state h).1.oldTree).get p).getD zeroEntry)
                    true
                ++ " to: "
                ++ fiToString (((entries state.tree).get p).getD zeroEntry) true))
          else []) ∧
    (∀ p ∈ (computeDiff (readOldTree state h).1).changed,
      ∃ oFi cFi, (entries (readOldTree state h).1.oldTree).get p = some oFi ∧
        (entries state.tree).get p = some cFi) ∧
    ((computeDiff (readOldTree state h).1).added.map (fun fi => fi.Name)).Nodup ∧
    ((computeDiff (readOldTree state h).1).removed.map (fun fi => fi.Name)).Nodup ∧
    (computeDiff (readOldTree state h).1).changed.Nodup ∧
    (Finalize state h).1.2.offenders = h.offenders := by
  obtain ⟨hc, ht⟩ := readOldTree_fields state h
  have hwfT1 : (entries (readOldTree state h).1.tree).WF := by rw [ht]; exact hwfT
  have hkeyT1 : KeyedByName (entries (readOldTree state h).1.tree) := by rw [ht]; exact hkeyT
  have hwfO1 := readOldTree_WF state h hwfO
  have hkeyO1 := readOldTree_keyed state h hkeyO
  obtain ⟨hinf, hoff⟩ := Finalize_calls state h hpath hok
  obtain ⟨n1, n2, n3⟩ := computeDiff_nodup (readOldTree state h).1 hwfT1 hkeyT1 hwfO1 hkeyO1
  refine ⟨?_, ?_, n1, n2, n3, hoff⟩
  · rw [hinf]
    simp only [findings, hc, ht, List.append_assoc]
    congr 3
    split
    · apply List.map_congr_left
      intro p hp
      obtain ⟨oFi, cFi, _, hget, hname, _⟩ := changed_entries (readOldTree state h).1 hkeyT1 p hp
      rw [ht] at hget
      rw [hget]
      simp only [Option.getD_some, hname]
    · rfl
  · intro p hp
    obtain ⟨oFi, cFi, hmem, hget, _, _⟩ := changed_entries (readOldTree state h).1 hkeyT1 p hp
    rw [ht] at hget
    exact ⟨oFi, cFi, (GoMap.get_eq_some_iff _ hwfO1 p oFi).mpr hmem, hget⟩

/-- Witness of C21: the second run of `TestGlobal`, in which the mode of `/a` changed. -/
theorem Finalize_findings_witness :
    demoStateA600.config.OldTreeFilePath ≠ "" ∧
    (Finalize demoStateA600 demoHostWithBaseline).2 ≠ .error (.panic "saveTree failed") ∧
    (Finalize demoStateA600 demoHostWithBaseline).1.2.informational
      = [("/a", "CheckFileTree: file perms/owner/size/digest changed from: "
          ++ "100644 0:0 3 abcd SELinux label: - to: 100600 0:0 3 abcd SELinux label: -")] ∧
    (Finalize demoStateA600 demoHostWithBaseline).1.2.offenders
      = demoHostWithBaseline.offenders :=
  ⟨by decide, by decide, by decide,
    (Finalize_findings demoStateA600 demoHostWithBaseline (by decide) (by decide) (by decide)
      (by decide) (by decide) (by decide)).2.2.2.2.2⟩

/-- C22: recording by the FileTree plugin. When `OldTreeFilePath` is non-empty and the
tree was made by `Start`, `CheckFile(fi, p)` stores under the key `k = path.Join(p,
fi.Name)` an entry whose name is `k` and whose size, mode, uid, gid and SELinux label
are those of `fi`, and leaves the other keys as they were. The digest is the hex
encoding of `FileGetSha256(k)` when `fi` is a regular file and `SkipFileDigest` is
false; otherwise it is `0` and the result does not depend on `FileGetSha256`. When
`FileGetSha256` fails, `CheckFile` returns that error and no new state. When
`OldTreeFilePath` is empty, `CheckFile` leaves the state as it is and `Finalize` returns
the empty string and leaves the host as it is. -/
theorem CheckFile_recording (state : fileTreeType) (h : Host) (fi : FileInfo) (p : String) :
    (state.config.OldTreeFilePath ≠ "" → ∀ t, state.tree = some t →
      (fi.IsFile = true → state.config.SkipFileDigest = false →
        (∀ raw, h.FileGetSha256 (pathJoin p fi.Name) = .ok raw →
          CheckFile state h fi p = .ok ⟨state.config, some (t.insert (pathJoin p fi.Name)
            ⟨⟨fi.Size, fi.Mode, fi.Uid, fi.Gid, fi.SELinuxLabel, [], pathJoin p fi.Name, ""⟩,
              hexEncodeToString raw⟩), state.oldTree⟩) ∧
        (∀ e, h.FileGetSha256 (pathJoin p fi.Name) = .error e →
          CheckFile state h fi p = .error (.error e))) ∧
      ((fi.IsFile = false ∨ state.config.SkipFileDigest = true) →
        CheckFile state h fi p = .ok ⟨state.config, some (t.insert (pathJoin p fi.Name)
          ⟨⟨fi.Size, fi.Mode, fi.Uid, fi.Gid, fi.SELinuxLabel, [], pathJoin p fi.Name, ""⟩,
            "0"⟩), state.oldTree⟩ ∧
        ∀ h2 : Host, CheckFile state h2 fi p = CheckFile state h fi p) ∧
      (∀ st, CheckFile state h fi p = .ok st →
        (∃ e, (entries st.tree).get (pathJoin p fi.Name) = some e ∧
          e.Name = pathJoin p fi.Name ∧ e.Size = fi.Size ∧ e.Mode = fi.Mode ∧
          e.Uid = fi.Uid ∧ e.Gid = fi.Gid ∧ e.SELinuxLabel = fi.SELinuxLabel) ∧
        ∀ j, j ≠ pathJoin p fi.Name → (entries st.tree).get j = t.get j)) ∧
    (state.config.OldTreeFilePath = "" →
      CheckFile state h fi p = .ok state ∧ Finalize state h = ((state, h), .ok "")) := by
  constructor
  · intro hpath t ht
    have heq := CheckFile_eq state h fi p t hpath ht
    refine ⟨?_, ?_, ?_⟩
    · intro hf hs
      have hcond : (fi.IsFile && !state.config.SkipFileDigest) = true := by simp [hf, hs]
      rw [heq]
      simp only [hcond, if_true]
      constructor
      · intro raw hraw; rw [hraw]
      · intro e he; rw [he]
    · intro hor
      have hcond : ¬ (fi.IsFile && !state.config.SkipFileDigest) = true := by
        rcases hor with hx | hx <;> simp [hx]
      refine ⟨by rw [heq, if_neg hcond], ?_⟩
      intro h2
      rw [heq, CheckFile_eq state h2 fi p t hpath ht, if_neg hcond, if_neg hcond]
    · intro st hst
      obtain ⟨_, _, t1, digest, ht1, htree⟩ := CheckFile_ok state st h fi p hpath hst
      rw [ht] at ht1
      simp only [Option.some.injEq] at ht1
      subst ht1
      rw [htree]
      simp only [entries, Option.getD_some]
      refine ⟨⟨⟨⟨fi.Size, fi.Mode, fi.Uid, fi.Gid, fi.SELinuxLabel, [], pathJoin p fi.Name, ""⟩,
        digest⟩, by rw [GoMap.get_insert]; simp, rfl, rfl, rfl, rfl, rfl, rfl⟩, ?_⟩
      intro j hj
      rw [GoMap.get_insert]
      simp [hj]
  · intro hpath
    refine ⟨CheckFile_disabled state h fi p hpath, ?_⟩
    unfold Finalize
    simp only [hpath, if_true]

/-- Witness of C22: the regular file `a` of the root directory is recorded as `/a` with
the digest of its content. -/
theorem CheckFile_recording_witness :
    (Start demoState).config.OldTreeFilePath ≠ "" ∧ (Start demoState).tree = some [] ∧
    demoA.IsFile = true ∧ (Start demoState).config.SkipFileDigest = false ∧
    demoHost.FileGetSha256 (pathJoin "/" demoA.Name) = .ok [0xab, 0xcd] ∧
    CheckFile (Start demoState) demoHost demoA "/"
      = .ok ⟨(Start demoState).config, some (GoMap.insert [] (pathJoin "/" demoA.Name)
          ⟨⟨demoA.Size, demoA.Mode, demoA.Uid, demoA.Gid, demoA.SELinuxLabel, [],
            pathJoin "/" demoA.Name, ""⟩, hexEncodeToString [0xab, 0xcd]⟩),
          (Start demoState).oldTree⟩ :=
  ⟨by decide, rfl, by decide, by decide, by decide,
    (((CheckFile_recording (Start demoState) demoHost demoA "/").1 (by decide) [] rfl).1
      (by decide) (by decide)).1 [0xab, 0xcd] (by decide)⟩

/-- C29: the FileTree plugin is blind to capabilities and link targets. For every two
walks, started after `Start`, that visit entries with the same parent paths, names,
sizes, modes, owners, groups and SELinux labels on a filesystem with the same file
contents, whatever the capabilities and link targets of the entries, the `CheckFile`
calls leave the same state; the recorded entries carry no capabilities and no link
target; and `Finalize` then computes the same `added`, `removed` and `changed` and gives
the same result, findings and writes in both runs, whatever the baseline. -/
theorem FileTree_blind_to_caps_and_links (h : Host) (state : fileTreeType)
    (v1 v2 : List (FileInfo × String)) (hs : List.Forall₂ sameButCapsAndLink v1 v2) :
    checkFiles h v1 (Start state) = checkFiles h v2 (Start state) ∧
    (∀ st, checkFiles h v1 (Start state) = .ok st →
      ∀ e ∈ entries st.tree, e.2.Capabilities = [] ∧ e.2.LinkTarget = "") ∧
    (∀ (st1 st2 : fileTreeType) (h2 : Host), checkFiles h v1 (Start state) = .ok st1 →
      checkFiles h v2 (Start state) = .ok st2 →
      st1.tree = st2.tree ∧
      computeDiff (readOldTree st1 h2).1 = computeDiff (readOldTree st2 h2).1 ∧
      (Finalize st1 h2).2 = (Finalize st2 h2).2 ∧
      (Finalize st1 h2).1.2.informational = (Finalize st2 h2).1.2.informational ∧
      (Finalize st1 h2).1.2.writes = (Finalize st2 h2).1.2.writes) := by
  have heq := checkFiles_blind h v1 v2 (Start state) hs
  refine ⟨heq, ?_, ?_⟩
  · intro st hst
    exact (checkFiles_tree h v1 (Start state) st hst (by simp [Start, entries, GoMap.WF])
      (fun e he => by simp [Start, entries] at he)
      (fun e he => by simp [Start, entries] at he)).2.2.2.2
  · intro st1 st2 h2 h1 hst2
    rw [heq, hst2] at h1
    simp only [Except.ok.injEq] at h1
    subst h1
    exact ⟨rfl, rfl, rfl, rfl, rfl⟩

/-- Witness of C29: the file `a` visited once without and once with a capability and a
link target. -/
theorem FileTree_blind_to_caps_and_links_witness :
    List.Forall₂ sameButCapsAndLink [(demoA, "/")]
      [(⟨3, 0o100644, 0, 0, "-", ["cap_net_admin+p"], "a", "b"⟩, "/")] ∧
    checkFiles demoHost [(demoA, "/")] (Start demoState)
      = checkFiles demoHost [(⟨3, 0o100644, 0, 0, "-", ["cap_net_admin+p"], "a", "b"⟩, "/")]
          (Start demoState) ∧
    checkFiles demoHost [(demoA, "/")] (Start demoState) = .ok demoStateA644 :=
  ⟨List.Forall₂.cons (by decide) List.Forall₂.nil,
    (FileTree_blind_to_caps_and_links demoHost demoState [(demoA, "/")]
      [(⟨3, 0o100644, 0, 0, "-", ["cap_net_admin+p"], "a", "b"⟩, "/")]
      (List.Forall₂.cons (by decide) List.Forall₂.nil)).1,
    by decide⟩

/-- C30, as the specification states it, fails: an entry whose name is not well-formed
UTF-8 is not loaded back under its own name. For the file whose name is the bytes 61 ff
in the directory `/`, `CheckFile` records the entry under the key and name 2f 61 ff;
`saveTree` writes the list with `json.Marshal`, which replaces the byte ff by U+FFFD,
so `readOldTree` stores the entry under the key 2f 61 ef bf bd. The loaded map is not
the map of the walk, and the walk differs from its own snapshot: the loaded key is
not a key of the walk, and the key of the walk is not a loaded key. -/
theorem snapshot_name_not_preserved :
    reloadedKey [0x2f, 0x61, 0xff] = [0x2f, 0x61, 0xef, 0xbf, 0xbd] ∧
    reloadedKey [0x2f, 0x61, 0xff] ≠ [0x2f, 0x61, 0xff] ∧
    reloadedKey [0x2f, 0x61, 0xff] ∉ [[0x2f, 0x61, 0xff]] ∧
    [0x2f, 0x61, 0xff] ∉ [[0x2f, 0x61, 0xff]].map reloadedKey := by
  decide

/-- C30, amended: snapshot round trip and self-diff for names that are well-formed
UTF-8, as all strings of the embedding are. In every tree built by `CheckFile` calls
after `Start` each key is the name of its entry, and the name, the SELinux label and
the digest of every entry are read back by `json.Unmarshal` as `json.Marshal` wrote
them, so loading the file list that `saveTree` writes for the tree gives the same map.
Hence for every configuration, if `saveTree` can write its file, the baseline file of a
later run holds what `saveTree` wrote, and the walk of that run recorded the same
entries, then `Finalize` finds `added`, `removed` and `changed` empty, makes no
`AddInformational` call, writes nothing and returns the object with
`old_file_tree_path` only (the empty string when `OldTreeFilePath` is empty). -/
theorem snapshot_round_trip (h : Host) (state st : fileTreeType)
    (visits : List (FileInfo × String))
    (hrun : checkFiles h visits (Start state) = .ok st) :
    KeyedByName (entries st.tree) ∧
    (∀ e ∈ entries st.tree,
      reloadedKey (json.utf8Bytes e.2.Name) = json.utf8Bytes e.2.Name ∧
      json.stringRoundTrip (json.utf8Bytes e.2.SELinuxLabel) = json.utf8Bytes e.2.SELinuxLabel ∧
      json.stringRoundTrip (json.utf8Bytes e.2.Digest) = json.utf8Bytes e.2.Digest) ∧
    (treeToSave st h).Files.foldl (fun (m : GoMap fileInfoSaveType) fi => m.insert fi.Name fi) []
      = entries st.tree ∧
    (h.writable (st.config.OldTreeFilePath ++ newFileTreeExt) = true →
      (saveTree st h).2 = none ∧
      (saveTree st h).1.writes
        = h.writes ++ [(st.config.OldTreeFilePath ++ newFileTreeExt, treeToSave st h)] ∧
      ∀ (st2 : fileTreeType) (h2 : Host),
        h2.snapshots.get st2.config.OldTreeFilePath
          = (saveTree st h).1.snapshots.get (st.config.OldTreeFilePath ++ newFileTreeExt) →
        (∀ k, (entries st2.tree).get k = (entries st.tree).get k) →
        (readOldTree st2 h2).1.oldTree = some (entries st.tree) ∧
        computeDiff (readOldTree st2 h2).1 = ⟨[], [], []⟩ ∧
        (Finalize st2 h2).1.2.informational = h2.informational ∧
        (Finalize st2 h2).1.2.writes = h2.writes ∧
        (Finalize st2 h2).1.2.snapshots = h2.snapshots ∧
        (Finalize st2 h2).2
          = (if st2.config.OldTreeFilePath = "" then .ok ""
             else .ok (jsonObject [("old_file_tree_path", st2.config.OldTreeFilePath)]))) := by
  obtain ⟨_, _, hwf, hkey, _⟩ := checkFiles_tree h visits (Start state) st hrun
    (by simp [Start, entries, GoMap.WF])
    (fun e he => by simp [Start, entries] at he)
    (fun e he => by simp [Start, entries] at he)
  have hround : (treeToSave st h).Files.foldl
      (fun (m : GoMap fileInfoSaveType) fi => m.insert fi.Name fi) [] = entries st.tree := by
    have := foldl_insert_round_trip (entries st.tree) [] (by simpa using hwf) hkey
    simpa [treeToSave] using this
  refine ⟨hkey, fun e _ => ⟨json.stringRoundTrip_utf8 _, json.stringRoundTrip_utf8 _,
    json.stringRoundTrip_utf8 _⟩, hround, ?_⟩
  intro hwr
  have hsave : saveTree st h
      = (⟨h.ImageName, h.ImageDigest, h.FileGetSha256,
          h.snapshots.insert (st.config.OldTreeFilePath ++ newFileTreeExt) (treeToSave st h),
          h.writable,
          h.writes ++ [(st.config.OldTreeFilePath ++ newFileTreeExt, treeToSave st h)],
          h.informational, h.offenders⟩, none) := by
    simp only [saveTree, hwr, if_true]
  refine ⟨by rw [hsave], by rw [hsave], ?_⟩
  intro st2 h2 hbase hsame
  rw [hsave] at hbase
  simp only [GoMap.get_insert, if_true] at hbase
  have hold : (readOldTree st2 h2).1.oldTree = some (entries st.tree) := by
    unfold readOldTree
    rw [hbase]
    simp only
    rw [hround]
  obtain ⟨hc, ht⟩ := readOldTree_fields st2 h2
  have hdiff : computeDiff (readOldTree st2 h2).1 = ⟨[], [], []⟩ := by
    apply computeDiff_self
    · rw [hold]; exact hwf
    · intro k
      rw [ht, hold]
      exact hsame k
  refine ⟨hold, hdiff, ?_⟩
  by_cases hpath : st2.config.OldTreeFilePath = ""
  · unfold Finalize
    simp [hpath]
  · have hu : (computeDiff (readOldTree st2 h2).1).updates st2.config = false := by
      rw [hdiff]; simp [treeDiff.updates]
    rw [Finalize_no_update st2 h2 hpath hu, hdiff]
    simp [hpath, findings]

/-- Witness of the amended C30: the walk of `TestGlobal`, saved by `saveTree` and
diffed in a later run against the saved snapshot. -/
theorem snapshot_round_trip_witness :
    checkFiles demoHost [(demoA, "/")] (Start demoState) = .ok demoStateA644 ∧
    demoHost.writable (demoStateA644.config.OldTreeFilePath ++ newFileTreeExt) = true ∧
    demoHostWithBaseline.snapshots.get demoStateA644.config.OldTreeFilePath
      = (saveTree demoStateA644 demoHost).1.snapshots.get
          (demoStateA644.config.OldTreeFilePath ++ newFileTreeExt) ∧
    computeDiff (readOldTree demoStateA644 demoHostWithBaseline).1 = ⟨[], [], []⟩ ∧
    (Finalize demoStateA644 demoHostWithBaseline).1.2.writes = demoHostWithBaseline.writes :=
  ⟨by decide, by decide, by decide,
    (((snapshot_round_trip demoHost demoState demoStateA644 [(demoA, "/")] (by decide)).2.2.2
      (by decide)).2.2 demoStateA644 demoHostWithBaseline (by decide) (fun _ => rfl)).2.1,
    by decide⟩

end filetree

end Fwanalyzer

/-! ## Auxiliary facts: scope list built by `New` -/

namespace Fwanalyzer

theorem CleanPathDir_last (pathName : String) :
    (CleanPathDir pathName).data.getLast? = some '/' := by
  unfold CleanPathDir
  by_cases h : (pathClean pathName).data.getLast? = some '/'
  · simp only [h, ne_eq, not_true_eq_false, if_false]
  · simp only [ne_eq, h, not_false_eq_true, if_true, String.data_append]
    rw [List.getLast?_append]
    rfl

namespace filetree

open fsparser

theorem inPath_root (p : String) : inPath p ["/"] = true ↔ p.data.head? = some '/' := by
  simp only [inPath, stringsHasPrefix]
  cases hp : p.data with
  | nil => simp [List.isPrefixOf]
  | cons c cs =>
    simp [List.isPrefixOf]
    exact eq_comm

/-- With no prefix configured nothing is in scope. -/
theorem computeDiff_no_scope (state : fileTreeType) (hs : state.config.CheckPath = []) :
    computeDiff state = ⟨[], [], []⟩ := by
  simp only [computeDiff, findNew_eq, findModified_eq, hs, inPath, Bool.false_and,
    List.filter_false, List.map_nil, List.append_nil]

end filetree

end Fwanalyzer

/-! ## Theorems: scope list of the FileTree plugin -/

namespace Fwanalyzer

namespace filetree

open fsparser

/-- C26: `CheckPath` defaulting of the FileTree plugin. When the configuration does not
define `CheckPath`, the plugin built by `New` has the scope list `["/"]`, and a path is
in scope exactly when it starts with a slash. When the configuration defines
`CheckPath` as the empty list the scope list is empty, no path is in scope, and for
every state of that plugin and every host `Finalize` finds nothing, makes no
`AddInformational` call and writes no snapshot. Every configured prefix is stored as
`util.CleanPathDir` returns it, which ends with a slash: the prefix `/etc` is stored
and matched as `/etc/`. -/
theorem New_CheckPath (conf : fileTreeConfig) (outputDirectory : String) :
    (New conf false outputDirectory).config.CheckPath = ["/"] ∧
    (∀ p : String, inPath p (New conf false outputDirectory).config.CheckPath = true
      ↔ p.data.head? = some '/') ∧
    (conf.CheckPath = [] →
      (New conf true outputDirectory).config.CheckPath = [] ∧
      (∀ p : String, inPath p (New conf true outputDirectory).config.CheckPath = false) ∧
      ∀ (state : fileTreeType) (h : Host),
        state.config = (New conf true outputDirectory).config →
        computeDiff (readOldTree state h).1 = ⟨[], [], []⟩ ∧
        (Finalize state h).1.2.informational = h.informational ∧
        (Finalize state h).1.2.writes = h.writes ∧
        (Finalize state h).1.2.snapshots = h.snapshots) ∧
    (New conf true outputDirectory).config.CheckPath = conf.CheckPath.map CleanPathDir ∧
    (∀ (defined : Bool), ∀ q ∈ (New conf defined outputDirectory).config.CheckPath,
      q.data.getLast? = some '/') ∧
    CleanPathDir "/etc" = "/etc/" ∧
    inPath "/etc/passwd" [CleanPathDir "/etc"] = true ∧
    inPath "/etcetera" [CleanPathDir "/etc"] = false := by
  have hroot : (New conf false outputDirectory).config.CheckPath = ["/"] := by
    simp only [New, Bool.not_false, if_true, List.map_cons, List.map_nil]
    rw [show CleanPathDir "/" = "/" from by decide]
  refine ⟨hroot, ?_, ?_, by simp [New], ?_, by decide, by decide, by decide⟩
  · intro p
    rw [hroot]
    exact inPath_root p
  · intro hempty
    have hnil : (New conf true outputDirectory).config.CheckPath = [] := by
      simp [New, hempty]
    refine ⟨hnil, fun p => by rw [hnil]; rfl, ?_⟩
    intro state h hcfg
    have hs : (readOldTree state h).1.config.CheckPath = [] := by
      rw [(readOldTree_fields state h).1, hcfg]; exact hnil
    have hdiff := computeDiff_no_scope (readOldTree state h).1 hs
    refine ⟨hdiff, ?_⟩
    by_cases hpath : state.config.OldTreeFilePath = ""
    · unfold Finalize
      simp [hpath]
    · have hu : (computeDiff (readOldTree state h).1).updates state.config = false := by
        rw [hdiff]; simp [treeDiff.updates]
      rw [Finalize_no_update state h hpath hu, hdiff]
      simp [findings]
  · intro defined q hq
    simp only [New, List.mem_map] at hq
    obtain ⟨x, _, hx⟩ := hq
    rw [← hx]
    exact CleanPathDir_last x

/-- Witness of C26: the configuration of `TestGlobalCheckPath1`, which defines
`CheckPath` as the empty list, and a walk that recorded `/a`. -/
theorem New_CheckPath_witness :
    (⟨"/tmp/blatreetest1337.json", [], true, true, false, false⟩ : fileTreeConfig).CheckPath
      = [] ∧
    (New ⟨"/tmp/blatreetest1337.json", [], true, true, false, false⟩ true "").config.CheckPath
      = [] ∧
    (Finalize ⟨(New ⟨"/tmp/blatreetest1337.json", [], true, true, false, false⟩ true "").config,
        some [("/a", entryA644)], none⟩ demoHost).1.2.informational = [] :=
  ⟨rfl, ((New_CheckPath ⟨"/tmp/blatreetest1337.json", [], true, true, false, false⟩ "").2.2.1
    rfl).1, by decide⟩

end filetree

end Fwanalyzer

/-! ## Auxiliary facts: the secondary walk -/

namespace Fwanalyzer

namespace analyzer

open fsparser

theorem iterateAllDirsLoop_run {W D : Type} (cb : AllFilesCallback W D) (cbdata : D)
    (descend : SubWalk W D → String → SubWalk W D × WalkStatus)
    (spec : String → Option (List (FileInfo × String)))
    (hrec : ∀ (s : SubWalk W D) (p : String) (es : List (FileInfo × String)),
      spec p = some es →
      (descend s p).2 = .ok ∧
      (descend s p).1.callbacks = s.callbacks ++ es.map (fun e => (e.1, e.2, cbdata)))
    (curpath : String) :
    ∀ (dir : List FileInfo) (s : SubWalk W D) (es : List (FileInfo × String)),
      walkDir spec curpath dir = some es →
      (iterateAllDirsLoop descend cb cbdata curpath dir s).2 = .ok ∧
      (iterateAllDirsLoop descend cb cbdata curpath dir s).1.callbacks
        = s.callbacks ++ es.map (fun e => (e.1, e.2, cbdata)) := by
  intro dir
  induction dir with
  | nil =>
    intro s es hw
    simp only [walkDir, Option.some.injEq] at hw
    subst hw
    simp [iterateAllDirsLoop]
  | cons fi dir ih =>
    intro s es hw
    simp only [walkDir] at hw
    simp only [iterateAllDirsLoop]
    by_cases hd : fi.IsDir = true
    · simp only [hd, if_true] at hw ⊢
      cases hb : spec (pathJoin curpath fi.Name) with
      | none => simp [hb] at hw
      | some below =>
        simp only [hb] at hw
        cases hm : walkDir spec curpath dir with
        | none => simp [hm] at hw
        | some more =>
          simp only [hm, Option.some.injEq] at hw
          subst hw
          obtain ⟨h1, h2⟩ := hrec ⟨cb fi curpath cbdata s.world,
            s.callbacks ++ [(fi, curpath, cbdata)], s.listings⟩ (pathJoin curpath fi.Name)
            below hb
          rcases hdes : descend ⟨cb fi curpath cbdata s.world,
            s.callbacks ++ [(fi, curpath, cbdata)], s.listings⟩ (pathJoin curpath fi.Name)
            with ⟨s2, st⟩
          rw [hdes] at h1 h2
          simp only at h1 h2
          subst h1
          simp only
          obtain ⟨h3, h4⟩ := ih s2 more hm
          refine ⟨h3, ?_⟩
          rw [h4, h2]
          simp
    · simp only [hd, Bool.false_eq_true, if_false] at hw ⊢
      cases hm : walkDir spec curpath dir with
      | none => simp [hm] at hw
      | some more =>
        simp only [hm, Option.some.injEq] at hw
        subst hw
        obtain ⟨h3, h4⟩ := ih ⟨cb fi curpath cbdata s.world,
          s.callbacks ++ [(fi, curpath, cbdata)], s.listings⟩ more hm
        refine ⟨h3, ?_⟩
        rw [h4]
        simp

theorem iterateAllDirs_run {W D : Type} (fs : FsParser) (cb : AllFilesCallback W D)
    (cbdata : D) :
    ∀ (fuel : Nat) (s : SubWalk W D) (p : String) (es : List (FileInfo × String)),
      walkEntries fs fuel p = some es →
      (iterateAllDirs fs cb cbdata fuel s p).2 = .ok ∧
      (iterateAllDirs fs cb cbdata fuel s p).1.callbacks
        = s.callbacks ++ es.map (fun e => (e.1, e.2, cbdata)) := by
  intro fuel
  induction fuel with
  | zero => intro s p es hw; simp [walkEntries] at hw
  | succ fuel ih =>
    intro s p es hw
    simp only [walkEntries] at hw
    simp only [iterateAllDirs]
    cases hg : fs.GetDirInfo p with
    | error e => simp [hg] at hw
    | ok dir =>
      simp only [hg] at hw ⊢
      exact iterateAllDirsLoop_run cb cbdata (iterateAllDirs fs cb cbdata fuel)
        (walkEntries fs fuel) ih p dir ⟨s.world, s.callbacks, s.listings ++ [p]⟩ es hw

theorem checkPlugins_never_fail {W : Type} (fi : FileInfo) (cp : String) :
    ∀ (aps : List (Nat × AnalyzerPluginType W)) (a : Analyzer W),
      (∀ x ∈ aps, ∀ (fi : FileInfo) (p : String) (w : W), (x.2.CheckFile fi p w).2 = none) →
      (checkPlugins fi cp aps a).2 = none := by
  intro aps
  induction aps with
  | nil => intro a _; rfl
  | cons x aps ih =>
    intro a hnf
    obtain ⟨i, ap⟩ := x
    have h1 : (ap.CheckFile fi cp a.world).2 = none := hnf (i, ap) (List.mem_cons_self _ _) fi cp _
    simp only [checkPlugins, h1]
    exact ih _ (fun x hx => hnf x (List.mem_cons_of_mem _ hx))

theorem iterateDir_never_fail {W : Type} (fs : FsParser) (ps : List (AnalyzerPluginType W))
    (hnf : ∀ ap ∈ ps, ∀ (fi : FileInfo) (p : String) (w : W), (ap.CheckFile fi p w).2 = none)
    (descend : Analyzer W → String → Analyzer W × WalkStatus)
    (spec : String → Option (List (FileInfo × String)))
    (hrec : ∀ (a : Analyzer W) (p : String) (es : List (FileInfo × String)),
      a.fsparser = fs → a.analyzers = ps → spec p = some es →
      (descend a p).2 = .ok ∧ Frame a (descend a p).1)
    (curpath : String) :
    ∀ (dir : List FileInfo) (a : Analyzer W) (es : List (FileInfo × String)),
      a.fsparser = fs → a.analyzers = ps → walkDir spec curpath dir = some es →
      (iterateDir descend curpath dir a).2 = .ok := by
  intro dir
  induction dir with
  | nil => intro a es _ _ _; rfl
  | cons fi dir ih =>
    intro a es hfs hps hw
    have hf1 := (checkPlugins_enum_run fi curpath a).1
    have hnone : (checkPlugins fi curpath a.analyzers.enum a).2 = none :=
      checkPlugins_never_fail fi curpath a.analyzers.enum a
        (fun x hx => hnf x.2 (hps ▸ enum_snd_mem a.analyzers x hx))
    rcases hres : checkPlugins fi curpath a.analyzers.enum a with ⟨a1, r1⟩
    rw [hres] at hf1 hnone
    simp only at hf1 hnone
    subst hnone
    have hfs1 : a1.fsparser = fs := hf1.1.trans hfs
    have hps1 : a1.analyzers = ps := hf1.2.1.trans hps
    simp only [walkDir] at hw
    simp only [iterateDir, hres]
    by_cases hd : fi.IsDir = true
    · simp only [hd, if_true] at hw ⊢
      cases hb : spec (pathJoin curpath fi.Name) with
      | none => simp [hb] at hw
      | some below =>
        simp only [hb] at hw
        cases hm : walkDir spec curpath dir with
        | none => simp [hm] at hw
        | some more =>
          obtain ⟨h1, h2⟩ := hrec a1 (pathJoin curpath fi.Name) below hfs1 hps1 hb
          rcases hdes : descend a1 (pathJoin curpath fi.Name) with ⟨a2, st⟩
          rw [hdes] at h1 h2
          simp only at h1 h2
          subst h1
          simp only
          exact ih a2 more (h2.1.trans hfs1) (h2.2.1.trans hps1) hm
    · simp only [hd, Bool.false_eq_true, if_false] at hw ⊢
      cases hm : walkDir spec curpath dir with
      | none => simp [hm] at hw
      | some more => exact ih a1 more hfs1 hps1 hm

theorem iterateFiles_never_fail {W : Type} (fs : FsParser) (ps : List (AnalyzerPluginType W))
    (hnf : ∀ ap ∈ ps, ∀ (fi : FileInfo) (p : String) (w : W), (ap.CheckFile fi p w).2 = none) :
    ∀ (fuel : Nat) (a : Analyzer W) (p : String) (es : List (FileInfo × String)),
      a.fsparser = fs → a.analyzers = ps → walkEntries fs fuel p = some es →
      (iterateFiles fuel a p).2 = .ok ∧ Frame a (iterateFiles fuel a p).1 := by
  intro fuel
  induction fuel with
  | zero => intro a p es _ _ hw; simp [walkEntries] at hw
  | succ fuel ih =>
    intro a p es hfs hps hw
    refine ⟨?_, (iterateFiles_run fs ps.length (fuel + 1) a p es hfs (by rw [hps]) hw).1⟩
    simp only [walkEntries] at hw
    simp only [iterateFiles, hfs]
    cases hg : fs.GetDirInfo p with
    | error e => simp [hg] at hw
    | ok dir =>
      simp only [hg] at hw ⊢
      exact iterateDir_never_fail fs ps hnf (iterateFiles fuel) (walkEntries fs fuel) ih p dir a
        es hfs hps hw

end analyzer

end Fwanalyzer

/-! ## Theorems: the secondary walk -/

namespace Fwanalyzer

namespace analyzer

open fsparser

/-- C25: the secondary walk. For every filesystem whose directory structure below the
directory `d` is a finite forest, `CheckAllFilesWithPath(cb, data, d)` with a callback
returns, once the depth bound is large enough, after calling the callback exactly once
for every entry below `d` (not for `d` itself) with the entry, the path of the
directory that lists it and the value `data`, in the order and with the parent paths
with which `iterateFiles`, started at `d` with a single plugin that never fails, calls
`CheckFile`. With a `nil` callback it returns at once: no directory is listed and no
callback call is made. -/
theorem CheckAllFilesWithPath_walk {W D V : Type} (fs : FsParser) (f : Forest) (d : String)
    (hf : f.presentedBy fs d = true) (cb : AllFilesCallback W D) (cbdata : D)
    (s : SubWalk W D) (ap : AnalyzerPluginType V) (v : V)
    (hnf : ∀ (fi : FileInfo) (p : String) (w : V), (ap.CheckFile fi p w).2 = none) :
    (∃ fuel0, ∀ fuel, fuel0 ≤ fuel →
      (CheckAllFilesWithPath fs (some cb) cbdata fuel s d).2 = .returned ∧
      (CheckAllFilesWithPath fs (some cb) cbdata fuel s d).1.callbacks
        = s.callbacks ++ (f.visits d).map (fun e => (e.1, e.2, cbdata)) ∧
      (iterateFiles fuel (registered fs v [ap]) d).2 = .ok ∧
      (iterateFiles fuel (registered fs v [ap]) d).1.calls.filterMap (Call.checkOf 0)
        = f.visits d) ∧
    (∀ fuel, CheckAllFilesWithPath fs (none : Option (AllFilesCallback W D)) cbdata fuel s d
      = (s, .returned)) := by
  refine ⟨⟨f.depth + 1, ?_⟩, fun _ => rfl⟩
  intro fuel hfuel
  simp only [Forest.presentedBy, Bool.and_eq_true, decide_eq_true_eq] at hf
  have hwalk := walkEntries_forest fs fuel d f hf.1 hf.2 (by omega)
  obtain ⟨h1, h2, _, h4⟩ := registered_fields fs v [ap]
  obtain ⟨hs1, hs2⟩ := iterateAllDirs_run fs cb cbdata fuel s d (f.visits d) hwalk
  have hsub : CheckAllFilesWithPath fs (some cb) cbdata fuel s d
      = ((iterateAllDirs fs cb cbdata fuel s d).1, .returned) := by
    simp only [CheckAllFilesWithPath]
    rcases hres : iterateAllDirs fs cb cbdata fuel s d with ⟨s1, st⟩
    rw [hres] at hs1
    simp only at hs1
    subst hs1
    rfl
  obtain ⟨hm1, _⟩ := iterateFiles_never_fail fs [ap]
    (fun x hx fi p w => by simp only [List.mem_singleton] at hx; subst hx; exact hnf fi p w)
    fuel (registered fs v [ap]) d (f.visits d) h2 h1 hwalk
  obtain ⟨_, cs, hcs, hcase⟩ := iterateFiles_run fs 1 fuel (registered fs v [ap]) d (f.visits d)
    h2 (by rw [h1]; rfl) hwalk
  refine ⟨by rw [hsub], by rw [hsub]; exact hs2, hm1, ?_⟩
  rcases hcase with ⟨_, hcs2⟩ | ⟨e, he, _⟩
  · rw [hcs, h4, hcs2, List.nil_append]
    exact flatMap_checkCalls_checkOf 0 1 (by omega) (f.visits d)
  · rw [hm1] at he
    cases he

/-- Witness of C25: the secondary walk of `demoFs` from the root with a callback that
counts its calls visits the file `a`. -/
theorem CheckAllFilesWithPath_walk_witness :
    demoForest.presentedBy demoFs "/" = true ∧
    (CheckAllFilesWithPath demoFs (some (fun _ _ (n : Nat) (w : Nat) => w + n)) 1 2
      ⟨0, [], []⟩ "/").1.callbacks = [(demoFile, "/", 1)] ∧
    (CheckAllFilesWithPath demoFs (some (fun _ _ (n : Nat) (w : Nat) => w + n)) 1 2
      ⟨0, [], []⟩ "/").1.world = 1 ∧
    ∃ fuel0, ∀ fuel, fuel0 ≤ fuel →
      (CheckAllFilesWithPath demoFs (some (fun _ _ (n : Nat) (w : Nat) => w + n)) 1 fuel
        ⟨0, [], []⟩ "/").2 = .returned :=
  ⟨by decide, by decide, by decide,
    (CheckAllFilesWithPath_walk demoFs demoForest "/" (by decide)
      (fun _ _ (n : Nat) (w : Nat) => w + n) 1 ⟨0, [], []⟩ countingPlugin 0
      (fun _ _ _ => rfl)).1.imp (fun _ hfuel fuel hle => (hfuel fuel hle).1)⟩

end analyzer

end Fwanalyzer

/-! ## Auxiliary facts: GlobalFileChecks -/

namespace Fwanalyzer

namespace globalfilechecks

open fsparser analyzer

theorem suid_ne_prefixed (pre s : String)
    (h : ¬ pre.data.isPrefixOf ("File is SUID, not allowed" : String).data = true) :
    pre ++ s ≠ "File is SUID, not allowed" := by
  intro heq
  apply h
  have hd := congrArg String.data heq
  rw [String.data_append] at hd
  rw [← hd]
  simp

theorem allowed_get (conf : filePermsConfig) (k : String) :
    ((New conf).SuidAllowedList.get k).isNone
      = !decide (k ∈ (conf.SuidAllowedList ++ conf.SuidWhiteList).map pathClean) := by
  have hfold : ∀ (l : List String) (m : GoMap Bool),
      l.foldl (fun (m : GoMap Bool) x => m.insert (pathClean x) true) m
        = (l.map pathClean).foldl (fun (m : GoMap Bool) cap => m.insert cap true) m := by
    intro l m
    rw [List.foldl_map]
  simp only [New, hfold, capability.foldl_insert_get, List.map_append, List.mem_append]
  by_cases h1 : k ∈ conf.SuidWhiteList.map pathClean
  · simp [h1]
  · by_cases h2 : k ∈ conf.SuidAllowedList.map pathClean
    · simp [h1, h2]
    · simp [h1, h2, GoMap.get]

/-- The calls the loop over `BadFiles` adds have the reasons of that loop. -/
theorem checkBadFiles_calls (config : filePermsConfigType)
    (doublestarMatch : String → String → Except String Bool) (fi : FileInfo) (fpath : String) :
    ∀ (items : List String) (calls : List ReportCall),
      ∃ extra, (checkBadFiles config doublestarMatch fi fpath items calls).1 = calls ++ extra ∧
        ∀ c ∈ extra, ∃ q msg, (c = .AddOffender q msg ∨ c = .AddInformational q msg) ∧
          (msg = "File not allowed" ∨ ∃ item, msg = "File not allowed for pattern: " ++ item) := by
  intro items
  induction items with
  | nil => intro calls; exact ⟨[], by simp [checkBadFiles], by simp⟩
  | cons item items ih =>
    intro calls
    simp only [checkBadFiles]
    cases hh : item.data.head? with
    | none => exact ⟨[], by simp, by simp⟩
    | some c =>
      simp only
      cases hm : doublestarMatch item (if c = '/' then pathJoin fpath fi.Name else fi.Name) with
      | error err => exact ⟨[], by simp, by simp⟩
      | ok m =>
        simp only
        cases m with
        | false =>
          simp only [Bool.false_eq_true, if_false]
          exact ih calls
        | true =>
          simp only [if_true]
          have hform : ∀ msg : String,
              msg = (if item ≠ (if c = '/' then pathJoin fpath fi.Name else fi.Name) then
                "File not allowed for pattern: " ++ item else "File not allowed") →
              (msg = "File not allowed" ∨
                ∃ item, msg = "File not allowed for pattern: " ++ item) := by
            intro msg hmsg
            rw [hmsg]
            by_cases hne : item ≠ (if c = '/' then pathJoin fpath fi.Name else fi.Name)
            · rw [if_pos hne]; exact Or.inr ⟨item, rfl⟩
            · rw [if_neg hne]; exact Or.inl rfl
          generalize hmsg : (if item ≠ (if c = '/' then pathJoin fpath fi.Name else fi.Name) then
            "File not allowed for pattern: " ++ item else "File not allowed") = msg at hform
          have hf := hform msg rfl
          by_cases hinfo : config.BadFilesInformationalOnly = true
          · simp only [hinfo, if_true]
            obtain ⟨extra, h1, h2⟩ := ih (calls ++ [.AddInformational (pathJoin fpath fi.Name) msg])
            refine ⟨ReportCall.AddInformational (pathJoin fpath fi.Name) msg :: extra,
              by rw [h1]; simp, ?_⟩
            intro x hx
            rcases List.mem_cons.mp hx with hx | hx
            · exact ⟨_, _, Or.inr hx, hf⟩
            · exact h2 x hx
          · simp only [hinfo, Bool.false_eq_true, if_false]
            obtain ⟨extra, h1, h2⟩ := ih (calls ++ [.AddOffender (pathJoin fpath fi.Name) msg])
            refine ⟨ReportCall.AddOffender (pathJoin fpath fi.Name) msg :: extra,
              by rw [h1]; simp, ?_⟩
            intro x hx
            rcases List.mem_cons.mp hx with hx | hx
            · exact ⟨_, _, Or.inl hx, hf⟩
            · exact h2 x hx

/-- The calls of `CheckFile`: the SUID offender, when its condition holds, followed by
calls with other reasons. -/
theorem CheckFile_calls (config : filePermsConfigType)
    (doublestarMatch : String → String → Except String Bool) (fi : FileInfo) (fpath : String) :
    ∃ rest, (CheckFile config doublestarMatch fi fpath).1
        = (if (config.Suid && (fi.IsSUid || fi.IsSGid) &&
              (config.SuidAllowedList.get (pathJoin fpath fi.Name)).isNone) = true then
            [ReportCall.AddOffender (pathJoin fpath fi.Name) "File is SUID, not allowed"]
           else []) ++ rest ∧
      ∀ c ∈ rest, ∀ q, c ≠ ReportCall.AddOffender q "File is SUID, not allowed" := by
  unfold CheckFile
  simp only
  obtain ⟨extra, h1, h2⟩ := checkBadFiles_calls config doublestarMatch fi fpath
    (config.BadFiles.map Prod.fst)
    ((if (config.Suid && (fi.IsSUid || fi.IsSGid) &&
          (config.SuidAllowedList.get (pathJoin fpath fi.Name)).isNone) = true then
        [ReportCall.AddOffender (pathJoin fpath fi.Name) "File is SUID, not allowed"]
      else []) ++
      (if (config.WorldWrite && fi.IsWorldWrite && !fi.IsLink && !fi.IsDir) = true then
        [ReportCall.AddOffender (pathJoin fpath fi.Name) "File is WorldWriteable, not allowed"]
      else []) ++
      (if (config.SELinuxLabel && fi.SELinuxLabel == SELinuxNoLabel) = true then
        [ReportCall.AddOffender (pathJoin fpath fi.Name) "File does not have SELinux label"]
      else []) ++
      (if (decide (config.Uids.length > 0) && !decide (fi.Uid ∈ config.Uids)) = true then
        [ReportCall.AddOffender (pathJoin fpath fi.Name)
          ("File Uid not allowed, Uid = " ++ filetree.fmtInt fi.Uid)]
      else []) ++
      (if (decide (config.Gids.length > 0) && !decide (fi.Gid ∈ config.Gids)) = true then
        [ReportCall.AddOffender (pathJoin fpath fi.Name)
          ("File Gid not allowed, Gid = " ++ filetree.fmtInt fi.Gid)]
      else []) ++
      (if (config.FlagCapabilityInformationalOnly && decide (fi.Capabilities.length > 0)) = true
        then [ReportCall.AddInformational (pathJoin fpath fi.Name)
          ("Capabilities found: " ++ fmtStrings fi.Capabilities)]
      else []))
  rw [h1]
  refine ⟨_, by simp only [List.append_assoc]; rfl, ?_⟩
  intro c hc q heq
  subst heq
  simp only [List.mem_append] at hc
  rcases hc with hc | hc | hc | hc | hc | hc
  · split at hc
    · simp at hc
    · simp at hc
  · split at hc
    · simp at hc
    · simp at hc
  · split at hc
    · simp only [List.mem_singleton, ReportCall.AddOffender.injEq] at hc
      exact suid_ne_prefixed "File Uid not allowed, Uid = " _ (by decide) hc.2.symm
    · simp at hc
  · split at hc
    · simp only [List.mem_singleton, ReportCall.AddOffender.injEq] at hc
      exact suid_ne_prefixed "File Gid not allowed, Gid = " _ (by decide) hc.2.symm
    · simp at hc
  · split at hc
    · simp at hc
    · simp at hc
  · obtain ⟨q2, msg, hform, hmsg⟩ := h2 _ hc
    rcases hform with hform | hform
    · simp only [ReportCall.AddOffender.injEq] at hform
      rcases hmsg with hmsg | ⟨item, hmsg⟩
      · rw [hmsg] at hform
        exact absurd hform.2 (by decide)
      · rw [hmsg] at hform
        exact suid_ne_prefixed "File not allowed for pattern: " _ (by decide) hform.2.symm
    · cases hform

end globalfilechecks

end Fwanalyzer

/-! ## Theorems: GlobalFileChecks -/

namespace Fwanalyzer

namespace globalfilechecks

open fsparser analyzer

/-- C27: SUID check of GlobalFileChecks. For every decoded configuration, entry `fi` and
parent path `p`, `CheckFile(fi, p)` calls `AddOffender(path.Join(p, fi.Name), "File is
SUID, not allowed")` once if `Suid` is set, the mode of `fi` has the set-user-ID bit
04000 or the set-group-ID bit 02000, and the joined path is not the cleaned form of an
entry of `SuidAllowedList` or `SuidWhiteList`; otherwise, in particular when `Suid` is
not set, it does not make that call. It never adds that offender under another path. -/
theorem CheckFile_suid (conf : filePermsConfig)
    (doublestarMatch : String → String → Except String Bool) (fi : FileInfo) (p : String) :
    (CheckFile (New conf) doublestarMatch fi p).1.count
        (.AddOffender (pathJoin p fi.Name) "File is SUID, not allowed")
      = (if conf.Suid = true ∧ (fi.Mode &&& 0o4000 ≠ 0 ∨ fi.Mode &&& 0o2000 ≠ 0) ∧
            pathJoin p fi.Name ∉ (conf.SuidAllowedList ++ conf.SuidWhiteList).map pathClean
         then 1 else 0) ∧
    (∀ q, q ≠ pathJoin p fi.Name →
      ReportCall.AddOffender q "File is SUID, not allowed"
        ∉ (CheckFile (New conf) doublestarMatch fi p).1) ∧
    (conf.Suid = false → ∀ q, ReportCall.AddOffender q "File is SUID, not allowed"
        ∉ (CheckFile (New conf) doublestarMatch fi p).1) := by
  obtain ⟨rest, hcalls, hrest⟩ := CheckFile_calls (New conf) doublestarMatch fi p
  have hcond : ((New conf).Suid && (fi.IsSUid || fi.IsSGid) &&
      ((New conf).SuidAllowedList.get (pathJoin p fi.Name)).isNone) = true
      ↔ (conf.Suid = true ∧ (fi.Mode &&& 0o4000 ≠ 0 ∨ fi.Mode &&& 0o2000 ≠ 0) ∧
          pathJoin p fi.Name ∉ (conf.SuidAllowedList ++ conf.SuidWhiteList).map pathClean) := by
    rw [allowed_get]
    simp only [Bool.and_eq_true, Bool.or_eq_true, Bool.not_eq_true', decide_eq_false_iff_not,
      FileInfo.IsSUid, FileInfo.IsSGid, S_ISUID, S_ISGID, bne_iff_ne, ne_eq, and_assoc]
    rfl
  have hzero : ∀ q, rest.count (ReportCall.AddOffender q "File is SUID, not allowed") = 0 :=
    fun q => List.count_eq_zero.mpr (fun hmem => hrest _ hmem q rfl)
  refine ⟨?_, ?_, ?_⟩
  · rw [hcalls, List.count_append, hzero, Nat.add_zero]
    by_cases hc : ((New conf).Suid && (fi.IsSUid || fi.IsSGid) &&
        ((New conf).SuidAllowedList.get (pathJoin p fi.Name)).isNone) = true
    · rw [if_pos hc, if_pos (hcond.mp hc)]
      simp
    · rw [if_neg hc, if_neg (fun h => hc (hcond.mpr h))]
      simp
  · intro q hq hmem
    rw [hcalls, List.mem_append] at hmem
    rcases hmem with hmem | hmem
    · split at hmem
      · simp only [List.mem_singleton, ReportCall.AddOffender.injEq] at hmem
        exact hq hmem.1
      · simp at hmem
    · exact hrest _ hmem q rfl
  · intro hs q hmem
    rw [hcalls, List.mem_append] at hmem
    rcases hmem with hmem | hmem
    · have hf : (New conf).Suid = false := hs
      simp [hf] at hmem
    · exact hrest _ hmem q rfl

/-- Witness of C27: the entries `suid` and `shouldbesuid` of `TestGlobal`. -/
theorem CheckFile_suid_witness :
    (CheckFile (New demoPermsConfig) (fun _ _ => .ok false) demoSuid "/").1
      = [.AddOffender "/suid" "File is SUID, not allowed"] ∧
    (CheckFile (New demoPermsConfig) (fun _ _ => .ok false) demoAllowedSuid "/").1 = [] ∧
    (CheckFile (New demoPermsConfig) (fun _ _ => .ok false) demoSuid "/").1.count
        (.AddOffender (pathJoin "/" demoSuid.Name) "File is SUID, not allowed")
      = (if demoPermsConfig.Suid = true ∧
            (demoSuid.Mode &&& 0o4000 ≠ 0 ∨ demoSuid.Mode &&& 0o2000 ≠ 0) ∧
            pathJoin "/" demoSuid.Name ∉
              (demoPermsConfig.SuidAllowedList ++ demoPermsConfig.SuidWhiteList).map pathClean
         then 1 else 0) :=
  ⟨by decide, by decide, (CheckFile_suid demoPermsConfig (fun _ _ => .ok false) demoSuid "/").1⟩

end globalfilechecks

end Fwanalyzer

/-! ## Auxiliary facts: merge of the plugin reports -/

namespace Fwanalyzer

theorem GoMap.foldl_insert_lookup {V W : Type} (g : V → W) :
    ∀ (l : List (String × V)) (m : GoMap W) (k : String),
      (l.foldl (fun (data : GoMap W) kv => data.insert kv.1 (g kv.2)) m).get k
        = ((List.lookup k l.reverse).map g).or (m.get k) := by
  intro l
  induction l using List.reverseRecOn with
  | nil => intro m k; simp
  | append_singleton l x ih =>
    intro m k
    obtain ⟨k1, v1⟩ := x
    rw [List.foldl_append, List.foldl_cons, List.foldl_nil, GoMap.get_insert, List.reverse_append,
      List.reverse_singleton, List.singleton_append, List.lookup_cons]
    by_cases h : k = k1
    · subst h; simp
    · have hb : (k == k1) = false := by simpa using h
      simp only [h, if_false, hb]
      exact ih m k

theorem GoMap.lookup_reverse {V : Type} (m : GoMap V) (hwf : m.WF) (k : String) :
    List.lookup k m.reverse = m.get k := by
  have hwfr : GoMap.WF m.reverse := by
    unfold GoMap.WF at hwf ⊢
    rw [List.map_reverse]
    exact List.nodup_reverse.mpr hwf
  cases hg : m.get k with
  | none =>
    have h1 := (GoMap.get_eq_none_iff m k).mp hg
    exact (GoMap.get_eq_none_iff m.reverse k).mpr (fun v hv => h1 v (List.mem_reverse.mp hv))
  | some v =>
    have h1 := (GoMap.get_eq_some_iff m hwf k v).mp hg
    exact (GoMap.get_eq_some_iff m.reverse hwfr k v).mpr (List.mem_reverse.mpr h1)

theorem GoMap.WF_foldl_insert_pairs {V : Type} :
    ∀ (l : List (String × V)) (m : GoMap V), m.WF →
      (l.foldl (fun (m : GoMap V) kv => m.insert kv.1 kv.2) m).WF := by
  intro l
  induction l with
  | nil => intro m h; exact h
  | cons x l ih => intro m h; exact ih _ (GoMap.WF_insert m h _ _)

namespace json

set_option exponentiation.threshold 4096 in
theorem unmarshalMap_overflow : unmarshalMap "\x7b\"a\":1e999\x7d" = none := by
  decide

theorem unmarshalMap_object (text : String)
    (h : (isObject text && numbersConvert text) = true) :
    unmarshalMap text = some (members text.data) := by
  simp only [isObject, numbersConvert, Bool.and_eq_true, decide_eq_true_eq] at h
  simp only [unmarshalMap, decodes, h.1.1, h.2, Bool.and_self, if_true, h.1.2]

theorem unmarshalMap_not_object (text : String)
    (h : (isObject text && numbersConvert text) = false) :
    unmarshalMap text = none ∨ unmarshalMap text = some [] := by
  unfold unmarshalMap
  split
  · rename_i hd
    split
    · rename_i h1
      simp only [decodes, Bool.and_eq_true] at hd
      simp [isObject, numbersConvert, hd.1, hd.2, h1] at h
    · split
      · exact Or.inr rfl
      · exact Or.inl rfl
  · exact Or.inl rfl

end json

namespace analyzer

open fsparser

theorem addPluginReport_get {W : Type} (a : Analyzer W) (r k : String) :
    (addPluginReport json.unmarshalMap a r).PluginReports.get k
      = (json.field r k).or (a.PluginReports.get k) := by
  unfold addPluginReport json.field
  cases hu : json.unmarshalMap r with
  | none => simp
  | some ms =>
    simp only [Option.bind_some]
    have := GoMap.foldl_insert_lookup (fun v : String => v) ms a.PluginReports k
    simpa using this

theorem addPluginReport_fields {W : Type} (u : String → Option (List (String × String)))
    (a : Analyzer W) (r : String) :
    (addPluginReport u a r).world = a.world ∧
    (a.PluginReports.WF → (addPluginReport u a r).PluginReports.WF) := by
  unfold addPluginReport
  cases u r with
  | none => exact ⟨rfl, id⟩
  | some ms => exact ⟨rfl, GoMap.WF_foldl_insert_pairs ms a.PluginReports⟩

theorem merged_reports {W : Type} (rs : List String) (a : Analyzer W) (k : String) :
    (rs.foldl (addPluginReport json.unmarshalMap) a).PluginReports.get k
      = (lastReported rs k).or (a.PluginReports.get k) ∧
    (rs.foldl (addPluginReport json.unmarshalMap) a).world = a.world ∧
    (a.PluginReports.WF → (rs.foldl (addPluginReport json.unmarshalMap) a).PluginReports.WF) := by
  induction rs using List.reverseRecOn with
  | nil => simp [lastReported]
  | append_singleton rs r ih =>
    rw [List.foldl_append, List.foldl_cons, List.foldl_nil]
    obtain ⟨i1, i2, i3⟩ := ih
    obtain ⟨f1, f2⟩ := addPluginReport_fields json.unmarshalMap
      (rs.foldl (addPluginReport json.unmarshalMap) a) r
    refine ⟨?_, f1.trans i2, fun h => f2 (i3 h)⟩
    rw [addPluginReport_get, i1]
    simp only [lastReported, List.reverse_append, List.reverse_singleton, List.singleton_append,
      List.findSome?_cons]
    cases json.field r k <;> simp

/-- The merge of the reports does not depend on the other fields of the analyzer. -/
theorem merged_reports_congr {W : Type} (u : String → Option (List (String × String)))
    (rs : List String) :
    ∀ (a b : Analyzer W), a.PluginReports = b.PluginReports →
      (rs.foldl (addPluginReport u) a).PluginReports
        = (rs.foldl (addPluginReport u) b).PluginReports := by
  induction rs with
  | nil => intro a b h; exact h
  | cons r rs ih =>
    intro a b h
    simp only [List.foldl_cons]
    apply ih
    unfold addPluginReport
    cases u r with
    | none => exact h
    | some ms => simp only [h]

theorem finalizePlugins_reports {W : Type} (u : String → Option (List (String × String))) :
    ∀ (aps : List (Nat × AnalyzerPluginType W)) (a : Analyzer W),
      (finalizePlugins u aps a).PluginReports
        = ((finalizeResults (aps.map Prod.snd) a.world).foldl (addPluginReport u) a).PluginReports
      ∧ (finalizePlugins u aps a).world
        = (aps.map Prod.snd).foldl (fun w ap => (ap.Finalize w).1) a.world := by
  intro aps
  induction aps with
  | nil => intro a; exact ⟨rfl, rfl⟩
  | cons x aps ih =>
    intro a
    obtain ⟨i, ap⟩ := x
    simp only [finalizePlugins, List.map_cons, finalizeResults, List.foldl_cons]
    obtain ⟨h1, h2⟩ := ih (addPluginReport u
      ⟨a.fsparser, a.analyzers, a.PluginReports, (ap.Finalize a.world).1,
        a.calls ++ [Call.Finalize i]⟩ (ap.Finalize a.world).2)
    have hw := (addPluginReport_fields u
      ⟨a.fsparser, a.analyzers, a.PluginReports, (ap.Finalize a.world).1,
        a.calls ++ [Call.Finalize i]⟩ (ap.Finalize a.world).2).1
    rw [hw] at h1 h2
    refine ⟨?_, h2⟩
    rw [h1]
    apply merged_reports_congr
    unfold addPluginReport
    cases u (ap.Finalize a.world).2 <;> rfl

/-- The report object of an analyzer whose report can be written: a key of the merged
plugin reports has the value of the plugin. -/
theorem JsonReport_plugin_key (a : Analyzer AnalyzerReport) (hd : a.world.Decodable)
    (hwf : a.PluginReports.WF) (obj : GoMap Member) (hobj : JsonReport a = some obj) :
    ∀ k v, a.PluginReports.get k = some v → obj.get k = some (Member.plugin v) := by
  rw [JsonReport_eq a hd] at hobj
  split at hobj
  · simp only [Option.some.injEq] at hobj
    subst hobj
    intro k v hk
    rw [GoMap.foldl_insert_lookup Member.plugin, GoMap.lookup_reverse _ hwf, hk]
    rfl
  · cases hobj

end analyzer

end Fwanalyzer

/-! ## Theorems: merge of the plugin reports -/

namespace Fwanalyzer

namespace analyzer

open fsparser

/-- C24, as the specification states it, fails: a plugin whose `Finalize` returns a
JSON object with a number that does not convert to `float64` adds no key to the
report. -/
theorem plugin_report_object_not_merged :
    json.isObject "\x7b\"a\":1e999\x7d" = true ∧
    finalizeResults [overflowPlugin] (newReport demoFs demoGlobalConfig "")
      = ["\x7b\"a\":1e999\x7d"] ∧
    (finalizePlugins json.unmarshalMap [overflowPlugin].enum
      (registered demoFs (newReport demoFs demoGlobalConfig "") [overflowPlugin])).PluginReports
      = [] ∧
    JsonReport (finalizePlugins json.unmarshalMap [overflowPlugin].enum
      (registered demoFs (newReport demoFs demoGlobalConfig "") [overflowPlugin]))
      = some [("fs_type", Member.str "dirfs"), ("image_name", Member.str "demo.img")] := by
  have hrun : finalizePlugins json.unmarshalMap [overflowPlugin].enum
      (registered demoFs (newReport demoFs demoGlobalConfig "") [overflowPlugin])
      = ⟨demoFs, [overflowPlugin], [], newReport demoFs demoGlobalConfig "",
          [Call.Finalize 0]⟩ := by
    simp only [List.enum, List.enumFrom, finalizePlugins, overflowPlugin, addPluginReport,
      json.unmarshalMap_overflow]
    rfl
  rw [hrun]
  exact ⟨by decide, rfl, rfl, by decide⟩

/-- C24, amended: plugin report merge. For every sequence `rs` of strings returned by
the `Finalize` calls and merged in that order into an analyzer whose report was reached
from `New`, `JsonReport` returns the empty output exactly when a stored raw value of
the report nests so deep that the report document exceeds `maxNestingDepth`; whenever
it returns an object, every top-level key of every string that `json.Unmarshal`
accepts, that is of every JSON object that the scanner accepts (syntactically valid and
nested at most `maxNestingDepth` deep) and whose numbers all convert to `float64`, is a
top-level key of that object, with the value of the last string that has the key. A
string that is not such an object changes nothing. `finalizePlugins` merges the strings
returned by the plugins in registration order. -/
theorem plugin_reports_merge (fsp : FsParser) (cfg : globalConfigType) (digest : String)
    (cs : List ReportCall) (a : Analyzer AnalyzerReport) (rs : List String)
    (hw : a.world = applyCalls (newReport fsp cfg digest) cs) (hwf : a.PluginReports.WF) :
    (∀ k, (rs.foldl (addPluginReport json.unmarshalMap) a).PluginReports.get k
      = (lastReported rs k).or (a.PluginReports.get k)) ∧
    (JsonReport (rs.foldl (addPluginReport json.unmarshalMap) a) = none
      ↔ a.world.fits = false) ∧
    (∀ obj, JsonReport (rs.foldl (addPluginReport json.unmarshalMap) a) = some obj →
      (∀ k v, lastReported rs k = some v → obj.get k = some (Member.plugin v)) ∧
      (∀ r ∈ rs, ∀ k, (json.field r k).isSome → ∃ v, obj.get k = some (Member.plugin v))) ∧
    (∀ r, (json.isObject r && json.numbersConvert r) = true →
      json.nesting r.data ≤ json.maxNestingDepth ∧
      json.unmarshalMap r = some (json.members r.data) ∧
      ∀ k, json.field r k = List.lookup k (json.members r.data).reverse) ∧
    (∀ r, (json.isObject r && json.numbersConvert r) = false →
      addPluginReport json.unmarshalMap a r = a ∧ ∀ k, json.field r k = none) ∧
    (∀ aps : List (Nat × AnalyzerPluginType AnalyzerReport),
      (finalizePlugins json.unmarshalMap aps a).PluginReports
        = ((finalizeResults (aps.map Prod.snd) a.world).foldl
            (addPluginReport json.unmarshalMap) a).PluginReports) := by
  have hget := fun k => (merged_reports rs a k).1
  obtain ⟨_, hworld, hwf2⟩ := merged_reports rs a ""
  have hdec : (rs.foldl (addPluginReport json.unmarshalMap) a).world.Decodable := by
    rw [hworld, hw]
    exact applyCalls_decodable fsp cfg digest cs
  have hlast : ∀ obj, JsonReport (rs.foldl (addPluginReport json.unmarshalMap) a) = some obj →
      ∀ k v, lastReported rs k = some v → obj.get k = some (Member.plugin v) := by
    intro obj hobj k v hv
    apply JsonReport_plugin_key _ hdec (hwf2 hwf) obj hobj
    rw [hget, hv]
    rfl
  refine ⟨hget, ?_, fun obj hobj => ⟨hlast obj hobj, ?_⟩, ?_, ?_,
    fun aps => (finalizePlugins_reports _ aps a).1⟩
  · rw [JsonReport_eq _ hdec, hworld]
    cases hf : a.world.fits <;> simp
  · intro r hr k hk
    have hsome : (lastReported rs k).isSome = true := by
      unfold lastReported
      rw [List.findSome?_isSome_iff]
      exact ⟨r, List.mem_reverse.mpr hr, hk⟩
    obtain ⟨v, hv⟩ := Option.isSome_iff_exists.mp hsome
    exact ⟨v, hlast obj hobj k v hv⟩
  · intro r hr
    have hu := json.unmarshalMap_object r hr
    have hobj : json.isObject r = true := by
      simp only [Bool.and_eq_true] at hr
      exact hr.1
    refine ⟨isObject_nesting r (Or.inl hobj), hu, fun k => ?_⟩
    simp [json.field, hu]
  · intro r hr
    rcases json.unmarshalMap_not_object r hr with hu | hu
    · refine ⟨by simp only [addPluginReport, hu], fun k => ?_⟩
      simp [json.field, hu]
    · refine ⟨by simp only [addPluginReport, hu, List.foldl_nil], fun k => ?_⟩
      simp [json.field, hu]

/-- Witness of the amended C24: two plugins return the same key, the second one wins,
and an empty string in between changes nothing. -/
theorem plugin_reports_merge_witness :
    (New demoFs (newReport demoFs demoGlobalConfig "")).world
      = applyCalls (newReport demoFs demoGlobalConfig "") [] ∧
    (New demoFs (newReport demoFs demoGlobalConfig "")).PluginReports.WF ∧
    lastReported ["\x7b\"k\":1\x7d", "", "\x7b\"k\":2,\"j\":true\x7d"] "k" = some "2" ∧
    JsonReport (["\x7b\"k\":1\x7d", "", "\x7b\"k\":2,\"j\":true\x7d"].foldl
      (addPluginReport json.unmarshalMap) (New demoFs (newReport demoFs demoGlobalConfig "")))
      = some [("fs_type", Member.str "dirfs"), ("image_name", Member.str "demo.img"),
          ("k", Member.plugin "2"), ("j", Member.plugin "true")] ∧
    GoMap.get [("fs_type", Member.str "dirfs"), ("image_name", Member.str "demo.img"),
        ("k", Member.plugin "2"), ("j", Member.plugin "true")] "k"
      = some (Member.plugin "2") :=
  ⟨rfl, by decide, by decide, by decide,
    ((plugin_reports_merge demoFs demoGlobalConfig "" []
      (New demoFs (newReport demoFs demoGlobalConfig ""))
      ["\x7b\"k\":1\x7d", "", "\x7b\"k\":2,\"j\":true\x7d"] rfl (by decide)).2.2.1 _
        (by decide)).1 "k" "2" (by decide)⟩

end analyzer

end Fwanalyzer

/-! ## Auxiliary facts: replay of the plugin calls -/

namespace Fwanalyzer

namespace analyzer

open fsparser

theorem replay_snoc {W : Type} (ps : List (AnalyzerPluginType W)) (w : W) (cs : List Call)
    (c : Call) : replay ps w (cs ++ [c]) = c.effect ps (replay ps w cs) := by
  simp [replay, List.foldl_append]

theorem Replays_snoc {W : Type} (ps : List (AnalyzerPluginType W)) (c : Call) :
    ∀ (cs : List Call) (w : W),
      Replays ps w (cs ++ [c]) ↔ Replays ps w cs ∧ c.faithful ps (replay ps w cs) := by
  intro cs
  induction cs with
  | nil => intro w; simp [Replays, replay]
  | cons x cs ih =>
    intro w
    have hrep : replay ps w (x :: cs) = replay ps (x.effect ps w) cs := rfl
    rw [List.cons_append, hrep]
    show (x.faithful ps w ∧ Replays ps (x.effect ps w) (cs ++ [c])) ↔ _
    rw [ih]
    show _ ↔ ((x.faithful ps w ∧ Replays ps (x.effect ps w) cs) ∧ _)
    rw [and_assoc]

theorem finalizeStrings_snoc {W : Type} (ps : List (AnalyzerPluginType W)) (c : Call) :
    ∀ (cs : List Call) (w : W),
      finalizeStrings ps w (cs ++ [c])
        = finalizeStrings ps w cs ++ c.returned ps (replay ps w cs) := by
  intro cs
  induction cs with
  | nil => intro w; simp [finalizeStrings, replay]
  | cons x cs ih =>
    intro w
    have hrep : replay ps w (x :: cs) = replay ps (x.effect ps w) cs := rfl
    rw [List.cons_append, hrep]
    show x.returned ps w ++ finalizeStrings ps (x.effect ps w) (cs ++ [c]) = _
    rw [ih]
    show _ = (x.returned ps w ++ finalizeStrings ps (x.effect ps w) cs) ++ _
    rw [List.append_assoc]

/-- One more call that returns no string keeps the analyzer in step with its list. -/
theorem Logged.step {W : Type} (u : String → Option (List (String × String)))
    (ps : List (AnalyzerPluginType W)) (w : W) (a : Analyzer W) (c : Call)
    (ha : Logged u ps w a) (hc : c.faithful ps a.world) (hr : c.returned ps a.world = []) :
    Logged u ps w ⟨a.fsparser, a.analyzers, a.PluginReports, c.effect ps a.world,
      a.calls ++ [c]⟩ := by
  obtain ⟨h1, h2, h3, h4⟩ := ha
  refine ⟨h1, ?_, ?_, ?_⟩
  · simp only [replay_snoc, ← h2]
  · simp only [Replays_snoc, ← h2]
    exact ⟨h3, hc⟩
  · simp only [finalizeStrings_snoc, ← h2, hr, List.append_nil]
    exact h4

theorem enum_getElem {α : Type} (l : List α) (x : Nat × α) (h : x ∈ l.enum) :
    l[x.1]? = some x.2 := List.mem_enum_iff_getElem?.mp h

theorem getElem_lt {α : Type} (l : List α) (i : Nat) (x : α) (h : l[i]? = some x) :
    i < l.length := by
  by_contra hn
  rw [List.getElem?_eq_none (by omega)] at h
  cases h

theorem checkPlugins_logged {W : Type} (u : String → Option (List (String × String)))
    (ps : List (AnalyzerPluginType W)) (w : W) (fi : FileInfo) (cp : String) :
    ∀ (aps : List (Nat × AnalyzerPluginType W)) (a : Analyzer W),
      (∀ x ∈ aps, ps[x.1]? = some x.2) → Logged u ps w a →
      Logged u ps w (checkPlugins fi cp aps a).1 := by
  intro aps
  induction aps with
  | nil => intro a _ ha; exact ha
  | cons x aps ih =>
    intro a hx ha
    obtain ⟨i, ap⟩ := x
    have hi : ps[i]? = some ap := hx (i, ap) (List.mem_cons_self _ _)
    have hstep := Logged.step u ps w a (Call.CheckFile i fi cp (ap.CheckFile fi cp a.world).2)
      ha ⟨ap, hi, rfl⟩ rfl
    have heff : Call.effect ps a.world (Call.CheckFile i fi cp (ap.CheckFile fi cp a.world).2)
        = (ap.CheckFile fi cp a.world).1 := by
      simp only [Call.effect, hi]
    rw [heff] at hstep
    simp only [checkPlugins]
    cases hr : (ap.CheckFile fi cp a.world).2 with
    | some e =>
      rw [hr] at hstep
      exact hstep
    | none =>
      rw [hr] at hstep
      exact ih _ (fun y hy => hx y (List.mem_cons_of_mem _ hy)) hstep

theorem startPlugins_logged {W : Type} (u : String → Option (List (String × String)))
    (ps : List (AnalyzerPluginType W)) (w : W) :
    ∀ (aps : List (Nat × AnalyzerPluginType W)) (a : Analyzer W),
      (∀ x ∈ aps, ps[x.1]? = some x.2) → Logged u ps w a →
      Logged u ps w (startPlugins aps a) := by
  intro aps
  induction aps with
  | nil => intro a _ ha; exact ha
  | cons x aps ih =>
    intro a hx ha
    obtain ⟨i, ap⟩ := x
    have hi : ps[i]? = some ap := hx (i, ap) (List.mem_cons_self _ _)
    have hstep := Logged.step u ps w a (Call.Start i) ha (getElem_lt ps i ap hi) rfl
    have heff : Call.effect ps a.world (Call.Start i) = ap.Start a.world := by
      simp only [Call.effect, hi]
    rw [heff] at hstep
    simp only [startPlugins]
    exact ih _ (fun y hy => hx y (List.mem_cons_of_mem _ hy)) hstep

theorem finalizePlugins_logged {W : Type} (u : String → Option (List (String × String)))
    (ps : List (AnalyzerPluginType W)) (w : W) :
    ∀ (aps : List (Nat × AnalyzerPluginType W)) (a : Analyzer W),
      (∀ x ∈ aps, ps[x.1]? = some x.2) → Logged u ps w a →
      Logged u ps w (finalizePlugins u aps a) := by
  intro aps
  induction aps with
  | nil => intro a _ ha; exact ha
  | cons x aps ih =>
    intro a hx ha
    obtain ⟨i, ap⟩ := x
    have hi : ps[i]? = some ap := hx (i, ap) (List.mem_cons_self _ _)
    simp only [finalizePlugins]
    apply ih _ (fun y hy => hx y (List.mem_cons_of_mem _ hy))
    obtain ⟨h1, h2, h3, h4⟩ := ha
    obtain ⟨f1, f2, f3⟩ := addPluginReport_frame u
      ⟨a.fsparser, a.analyzers, a.PluginReports, (ap.Finalize a.world).1,
        a.calls ++ [Call.Finalize i]⟩ (ap.Finalize a.world).2
    have f4 := (addPluginReport_fields u
      ⟨a.fsparser, a.analyzers, a.PluginReports, (ap.Finalize a.world).1,
        a.calls ++ [Call.Finalize i]⟩ (ap.Finalize a.world).2).1
    have heff : Call.effect ps a.world (Call.Finalize i) = (ap.Finalize a.world).1 := by
      simp only [Call.effect, hi]
    have hret : Call.returned ps a.world (Call.Finalize i) = [(ap.Finalize a.world).2] := by
      simp only [Call.returned, hi]
    refine ⟨f2.trans h1, ?_, ?_, ?_⟩
    · rw [f4, f3]
      simp only [replay_snoc, ← h2, heff]
    · rw [f3]
      simp only [Replays_snoc, ← h2]
      exact ⟨h3, getElem_lt ps i ap hi⟩
    · rw [f3, f1]
      simp only [finalizeStrings_snoc, ← h2, hret, List.foldl_append, List.foldl_cons,
        List.foldl_nil]
      exact merged_reports_congr u [(ap.Finalize a.world).2] _ _ h4

theorem iterateDir_logged {W : Type} (u : String → Option (List (String × String)))
    (ps : List (AnalyzerPluginType W)) (w : W)
    (descend : Analyzer W → String → Analyzer W × WalkStatus)
    (hrec : ∀ (a : Analyzer W) (p : String), Logged u ps w a → Logged u ps w (descend a p).1)
    (curpath : String) :
    ∀ (dir : List FileInfo) (a : Analyzer W), Logged u ps w a →
      Logged u ps w (iterateDir descend curpath dir a).1 := by
  intro dir
  induction dir with
  | nil => intro a ha; exact ha
  | cons fi dir ih =>
    intro a ha
    have h1 := checkPlugins_logged u ps w fi curpath a.analyzers.enum a
      (fun x hx => by rw [← ha.1]; exact enum_getElem a.analyzers x hx) ha
    simp only [iterateDir]
    rcases hres : checkPlugins fi curpath a.analyzers.enum a with ⟨a1, r1⟩
    rw [hres] at h1
    simp only at h1
    cases r1 with
    | some e => exact h1
    | none =>
      simp only
      by_cases hd : fi.IsDir = true
      · simp only [hd, if_true]
        have h2 := hrec a1 (pathJoin curpath fi.Name) h1
        rcases hdes : descend a1 (pathJoin curpath fi.Name) with ⟨a2, st⟩
        rw [hdes] at h2
        simp only at h2
        cases st with
        | ok => exact ih a2 h2
        | error e => exact h2
        | fuelOut => exact h2
      · simp only [hd, Bool.false_eq_true, if_false]
        exact ih a1 h1

theorem iterateFiles_logged {W : Type} (u : String → Option (List (String × String)))
    (ps : List (AnalyzerPluginType W)) (w : W) :
    ∀ (fuel : Nat) (a : Analyzer W) (p : String), Logged u ps w a →
      Logged u ps w (iterateFiles fuel a p).1 := by
  intro fuel
  induction fuel with
  | zero => intro a p ha; exact ha
  | succ fuel ih =>
    intro a p ha
    simp only [iterateFiles]
    cases hg : a.fsparser.GetDirInfo p with
    | error e => exact ha
    | ok dir => exact iterateDir_logged u ps w (iterateFiles fuel) ih p dir a ha

theorem registered_world {W : Type} (fsp : FsParser) (w : W)
    (ps : List (AnalyzerPluginType W)) : (registered fsp w ps).world = w := by
  have h : ∀ (ps : List (AnalyzerPluginType W)) (a : Analyzer W),
      (ps.foldl AddAnalyzerPlugin a).world = a.world := by
    intro ps
    induction ps with
    | nil => intro a; rfl
    | cons q ps ih => intro a; rw [List.foldl_cons, ih]; rfl
  exact h ps (New fsp w)

/-- After `RunPlugins` the analyzer is in step with its list of calls: the state of
the plugins is the one the listed calls leave, each listed call was made as recorded,
and the merged plugin reports are those of the strings the `Finalize` calls returned. -/
theorem RunPlugins_logged {W : Type} (u : String → Option (List (String × String)))
    (fuel : Nat) (fs : FsParser) (w : W) (ps : List (AnalyzerPluginType W)) :
    Logged u ps w (RunPlugins u fuel (registered fs w ps)).1 := by
  obtain ⟨h1, h2, h3, h4⟩ := registered_fields fs w ps
  have h0 : Logged u ps w (registered fs w ps) := by
    refine ⟨h1, ?_, ?_, ?_⟩
    · rw [h4]; exact registered_world fs w ps
    · rw [h4]; trivial
    · rw [h4]; exact h3
  have hen : ∀ (a : Analyzer W), a.analyzers = ps → ∀ x ∈ a.analyzers.enum, ps[x.1]? = some x.2 :=
    fun a ha x hx => by rw [← ha]; exact enum_getElem a.analyzers x hx
  have hs := startPlugins_logged u ps w (registered fs w ps).analyzers.enum (registered fs w ps)
    (hen _ h1) h0
  generalize hA1 : startPlugins (registered fs w ps).analyzers.enum (registered fs w ps) = a1
    at hs
  have hroot : Logged u ps w (checkRoot a1).1 := by
    unfold checkRoot
    cases a1.fsparser.GetFileInfo "/" with
    | error e => exact hs
    | ok fi => exact checkPlugins_logged u ps w fi "/" a1.analyzers.enum a1 (hen a1 hs.1) hs
  simp only [RunPlugins, hA1]
  rcases hcr : checkRoot a1 with ⟨a2, r2⟩
  rw [hcr] at hroot
  simp only at hroot
  cases r2 with
  | some e => exact hroot
  | none =>
    simp only
    have hit := iterateFiles_logged u ps w fuel a2 "/" hroot
    rcases hres : iterateFiles fuel a2 "/" with ⟨a3, st⟩
    rw [hres] at hit
    simp only at hit
    cases st with
    | error e => exact hit
    | fuelOut => exact hit
    | ok => exact finalizePlugins_logged u ps w a3.analyzers.enum a3 (hen a3 hit.1) hit

end analyzer

end Fwanalyzer

/-! ## Theorems: dispatch order and walk shape of `RunPlugins` -/

namespace Fwanalyzer

namespace analyzer

open fsparser

/-- C4: dispatch ordering. For plugins `ps` registered in that order with
`AddAnalyzerPlugin`, on a filesystem with a root entry and a walk that lists the entries
`es`, and when no `CheckFile` call fails, `RunPlugins` returns and the plugin calls
it makes are: `Start` of every plugin in registration order; then, for the root and for
each walked entry in walk order, `CheckFile` of every plugin in registration order, all
plugins being called on an entry before any is called on the next; then `Finalize` of
every plugin in registration order. These calls are really made: each `CheckFile`
returns `nil` in the state the calls before it leave, the state of the plugins after
the run is the one these calls leave when made one after the other, and the merged
plugin reports are those of the strings the `Finalize` calls returned, merged in call
order by `addPluginReport`. -/
theorem RunPlugins_dispatch_order {W : Type}
    (unmarshal : String → Option (List (String × String))) (fs : FsParser) (w : W)
    (ps : List (AnalyzerPluginType W)) (fuel : Nat) (root : FileInfo)
    (es : List (FileInfo × String))
    (hroot : fs.GetFileInfo "/" = .ok root)
    (hwalk : walkEntries fs fuel "/" = some es)
    (hok : ∀ c ∈ (RunPlugins unmarshal fuel (registered fs w ps)).1.calls,
      c.isFailedCheck = false) :
    (registered fs w ps).analyzers = ps ∧
    (RunPlugins unmarshal fuel (registered fs w ps)).2 = .returned ∧
    (RunPlugins unmarshal fuel (registered fs w ps)).1.calls
      = startCalls ps.length ++ ((root, "/") :: es).flatMap (checkCalls ps.length)
        ++ finalizeCalls ps.length ∧
    Replays ps w
      (startCalls ps.length ++ ((root, "/") :: es).flatMap (checkCalls ps.length)
        ++ finalizeCalls ps.length) ∧
    (RunPlugins unmarshal fuel (registered fs w ps)).1.world
      = replay ps w
          (startCalls ps.length ++ ((root, "/") :: es).flatMap (checkCalls ps.length)
            ++ finalizeCalls ps.length) ∧
    (RunPlugins unmarshal fuel (registered fs w ps)).1.PluginReports
      = ((finalizeStrings ps w
            (startCalls ps.length ++ ((root, "/") :: es).flatMap (checkCalls ps.length)
              ++ finalizeCalls ps.length)).foldl
          (addPluginReport unmarshal) (New fs w)).PluginReports := by
  obtain ⟨h1, h2, _, h4⟩ := registered_fields fs w ps
  obtain ⟨cs, hcs, hcase⟩ := RunPlugins_run unmarshal fuel (registered fs w ps) root es
    (by rw [h2]; exact hroot) (by rw [h2]; exact hwalk)
  rw [h1, h4, List.nil_append] at hcs
  rw [h1] at hcase
  obtain ⟨_, l2, l3, l4⟩ := RunPlugins_logged unmarshal fuel fs w ps
  rcases hcase with ⟨hst, hcseq⟩ | ⟨e, _, c, hc, hfail⟩
  · have hcalls : (RunPlugins unmarshal fuel (registered fs w ps)).1.calls
        = startCalls ps.length ++ ((root, "/") :: es).flatMap (checkCalls ps.length)
          ++ finalizeCalls ps.length := by
      rw [hcs, hcseq, List.append_assoc]
    rw [hcalls] at l2 l3 l4
    refine ⟨h1, hst, hcalls, l3, l2, ?_⟩
    rw [l4]
    exact merged_reports_congr unmarshal _ _ _ rfl
  · have := hok c (by rw [hcs]; exact List.mem_append_right _ hc)
    rw [hfail] at this
    cases this

/-- Witness of C4: two plugins that write down their own calls, and the two entries `/`
and `/a`, give the call sequence `P1.Start, P2.Start, P1.CheckFile(E1), P2.CheckFile(E1),
P1.CheckFile(E2), P2.CheckFile(E2), P1.Finalize, P2.Finalize`, in the list of calls as
well as in what the plugins wrote, and the reports of both plugins are merged. -/
theorem RunPlugins_dispatch_order_witness :
    demoFs.GetFileInfo "/" = .ok demoRoot ∧
    walkEntries demoFs 1 "/" = some [(demoFile, "/")] ∧
    (∀ c ∈ (RunPlugins json.unmarshalMap 1
        (registered demoFs [] [recordingPlugin "p1" "1", recordingPlugin "p2" "2"])).1.calls,
      c.isFailedCheck = false) ∧
    (RunPlugins json.unmarshalMap 1
        (registered demoFs [] [recordingPlugin "p1" "1", recordingPlugin "p2" "2"])).2
      = .returned ∧
    (RunPlugins json.unmarshalMap 1
        (registered demoFs [] [recordingPlugin "p1" "1", recordingPlugin "p2" "2"])).1.calls
      = [Call.Start 0, Call.Start 1,
         Call.CheckFile 0 demoRoot "/" none, Call.CheckFile 1 demoRoot "/" none,
         Call.CheckFile 0 demoFile "/" none, Call.CheckFile 1 demoFile "/" none,
         Call.Finalize 0, Call.Finalize 1] ∧
    (RunPlugins json.unmarshalMap 1
        (registered demoFs [] [recordingPlugin "p1" "1", recordingPlugin "p2" "2"])).1.world
      = ["p1.Start", "p2.Start", "p1.CheckFile /", "p2.CheckFile /", "p1.CheckFile a",
         "p2.CheckFile a", "p1.Finalize", "p2.Finalize"] ∧
    (RunPlugins json.unmarshalMap 1
        (registered demoFs [] [recordingPlugin "p1" "1", recordingPlugin "p2" "2"])).1.PluginReports
      = [("p1", "1"), ("p2", "2")] :=
  have h := RunPlugins_dispatch_order json.unmarshalMap demoFs []
    [recordingPlugin "p1" "1", recordingPlugin "p2" "2"] 1
    demoRoot [(demoFile, "/")] (by decide) (by decide) (by decide)
  ⟨by decide, by decide, by decide, h.2.1, h.2.2.1.trans (by decide),
    h.2.2.2.2.1.trans (by decide), h.2.2.2.2.2.trans (by decide)⟩

/-- C6: walk shape. For a filesystem whose root entry is `root` and whose
directory structure below `/` is the finite forest `f`, `RunPlugins` terminates: with
every bound above the depth of the forest it returns or panics. If no `CheckFile` call
of the run fails, it returns, and the `CheckFile` calls of every plugin are exactly, in
order, the root entry with parent path `/` followed by the pre-order, depth-first
enumeration of the forest, each entry once, with the path of the directory that lists
it as parent path; all plugins are called on an entry before any plugin is called on
the next. These calls are really made: each `CheckFile` returns `nil` in the state the
calls before it leave, and the state of the plugins after the run is the one these
calls leave when made one after the other. -/
theorem RunPlugins_walk_shape {W : Type}
    (unmarshal : String → Option (List (String × String))) (fs : FsParser) (w : W)
    (ps : List (AnalyzerPluginType W)) (root : FileInfo) (f : Forest)
    (hroot : fs.GetFileInfo "/" = .ok root)
    (hf : f.presentedBy fs "/" = true) :
    ∃ fuel0, ∀ fuel, fuel0 ≤ fuel →
      (RunPlugins unmarshal fuel (registered fs w ps)).2 ≠ .fuelOut ∧
      ((∀ c ∈ (RunPlugins unmarshal fuel (registered fs w ps)).1.calls,
          c.isFailedCheck = false) →
        (RunPlugins unmarshal fuel (registered fs w ps)).2 = .returned ∧
        (RunPlugins unmarshal fuel (registered fs w ps)).1.calls
          = startCalls ps.length ++ ((root, "/") :: f.visits "/").flatMap (checkCalls ps.length)
            ++ finalizeCalls ps.length ∧
        (∀ i, i < ps.length →
          (RunPlugins unmarshal fuel (registered fs w ps)).1.calls.filterMap (Call.checkOf i)
            = (root, "/") :: f.visits "/") ∧
        Replays ps w
          (startCalls ps.length ++ ((root, "/") :: f.visits "/").flatMap (checkCalls ps.length)
            ++ finalizeCalls ps.length) ∧
        (RunPlugins unmarshal fuel (registered fs w ps)).1.world
          = replay ps w
              (startCalls ps.length
                ++ ((root, "/") :: f.visits "/").flatMap (checkCalls ps.length)
                ++ finalizeCalls ps.length)) := by
  refine ⟨f.depth + 1, ?_⟩
  intro fuel hfuel
  simp only [Forest.presentedBy, Bool.and_eq_true, decide_eq_true_eq] at hf
  have hwalk := walkEntries_forest fs fuel "/" f hf.1 hf.2 (by omega)
  obtain ⟨h1, h2, _, h4⟩ := registered_fields fs w ps
  obtain ⟨cs, hcs, hcase⟩ := RunPlugins_run unmarshal fuel (registered fs w ps) root
    (f.visits "/") (by rw [h2]; exact hroot) (by rw [h2]; exact hwalk)
  rw [h1, h4, List.nil_append] at hcs
  rw [h1] at hcase
  obtain ⟨_, l2, l3, _⟩ := RunPlugins_logged unmarshal fuel fs w ps
  rcases hcase with ⟨hst, hcseq⟩ | ⟨e, hst, c, hc, hfail⟩
  · have hcalls : (RunPlugins unmarshal fuel (registered fs w ps)).1.calls
        = startCalls ps.length ++ ((root, "/") :: f.visits "/").flatMap (checkCalls ps.length)
          ++ finalizeCalls ps.length := by
      rw [hcs, hcseq, List.append_assoc]
    rw [hcalls] at l2 l3
    refine ⟨by rw [hst]; simp, fun _ => ⟨hst, hcalls, ?_, l3, l2⟩⟩
    intro i hi
    rw [hcalls, List.filterMap_append, List.filterMap_append, startCalls_checkOf,
      finalizeCalls_checkOf, flatMap_checkCalls_checkOf i ps.length hi]
    simp
  · refine ⟨by rw [hst]; simp, ?_⟩
    intro hok
    have := hok c (by rw [hcs]; exact List.mem_append_right _ hc)
    rw [hfail] at this
    cases this

/-- Witness of C6: the filesystem with the single file `/a` below the root, walked by
a plugin that writes down its own calls. -/
theorem RunPlugins_walk_shape_witness :
    demoFs.GetFileInfo "/" = .ok demoRoot ∧
    demoForest.presentedBy demoFs "/" = true ∧
    (RunPlugins json.unmarshalMap 1
        (registered demoFs [] [recordingPlugin "p1" "1"])).1.calls
      = [Call.Start 0, Call.CheckFile 0 demoRoot "/" none, Call.CheckFile 0 demoFile "/" none,
         Call.Finalize 0] ∧
    (RunPlugins json.unmarshalMap 1
        (registered demoFs [] [recordingPlugin "p1" "1"])).1.world
      = ["p1.Start", "p1.CheckFile /", "p1.CheckFile a", "p1.Finalize"] ∧
    ∃ fuel0, ∀ fuel, fuel0 ≤ fuel →
      (RunPlugins json.unmarshalMap fuel
          (registered demoFs [] [recordingPlugin "p1" "1"])).2 ≠ .fuelOut ∧
      ((∀ c ∈ (RunPlugins json.unmarshalMap fuel
            (registered demoFs [] [recordingPlugin "p1" "1"])).1.calls,
          c.isFailedCheck = false) →
        (RunPlugins json.unmarshalMap fuel
            (registered demoFs [] [recordingPlugin "p1" "1"])).2 = .returned ∧
        (RunPlugins json.unmarshalMap fuel
            (registered demoFs [] [recordingPlugin "p1" "1"])).1.calls
          = startCalls [recordingPlugin "p1" "1"].length
            ++ ((demoRoot, "/") :: demoForest.visits "/").flatMap
                (checkCalls [recordingPlugin "p1" "1"].length)
            ++ finalizeCalls [recordingPlugin "p1" "1"].length ∧
        (∀ i, i < [recordingPlugin "p1" "1"].length →
          (RunPlugins json.unmarshalMap fuel
              (registered demoFs [] [recordingPlugin "p1" "1"])).1.calls.filterMap
                (Call.checkOf i)
            = (demoRoot, "/") :: demoForest.visits "/") ∧
        Replays [recordingPlugin "p1" "1"] []
          (startCalls [recordingPlugin "p1" "1"].length
            ++ ((demoRoot, "/") :: demoForest.visits "/").flatMap
                (checkCalls [recordingPlugin "p1" "1"].length)
            ++ finalizeCalls [recordingPlugin "p1" "1"].length) ∧
        (RunPlugins json.unmarshalMap fuel
            (registered demoFs [] [recordingPlugin "p1" "1"])).1.world
          = replay [recordingPlugin "p1" "1"] []
              (startCalls [recordingPlugin "p1" "1"].length
                ++ ((demoRoot, "/") :: demoForest.visits "/").flatMap
                    (checkCalls [recordingPlugin "p1" "1"].length)
                ++ finalizeCalls [recordingPlugin "p1" "1"].length)) :=
  ⟨by decide, by decide, by decide, by decide,
    RunPlugins_walk_shape json.unmarshalMap demoFs [] [recordingPlugin "p1" "1"] demoRoot
      demoForest (by decide) (by decide)⟩

end analyzer

end Fwanalyzer
